import Mathlib


/-! # simpledb: the skip list engine and the database layer

A shallow embedding of `skiplist/skiplist.go`, `skiplist/node.go`,
`skiplist/iterator.go`, `errors/error.go` and `db.go`.

Conventions of the embedding.

* The Go heap of `*node` cells is the list `skipList.mem`; a `*node` is an index
  into it, `nil` is `none`.  Allocation appends a cell; cells are never freed
  (an unlinked node stays in `mem`, as it does in Go while an iterator holds it).
* An `interface{}` key or value is an `Option`: `none` is the `nil` interface.
* Go `==` on two keys held in an `interface{}` is the class `GoEq` on the type
  of the keys: it can be false of a key and itself (a `float64` NaN, or a
  struct with one in a field), and it aborts on two keys of the same type that
  Go cannot compare (a slice, a map, a function).  A type with decidable
  equality stands for keys on which `==` is the identity of values.
* Go panics are results `Except.error f` with `f : Fault`; a Go `error` return
  value is a component `Option Error` of the result.
* The locks are not modelled: every operation runs alone, from start to end.
* The coin flips of `getNewLevel` are an argument `coins : Nat → Bool`;
  `coins n` is the outcome of the `n`-th test `rand.Float64() < probability`.
* Loops that follow pointers get a budget of `mem.length + 1` steps and end in
  `Fault.outOfFuel` when it is used up.
-/

namespace SimpleDB

/-! ## errors/error.go -/

/-- Ways in which the Go program aborts instead of returning (`nilMap` is an
assignment to an entry of a nil map, `notInit` is `panic(errors.ErrNotInit)`,
`uncomparable` is `==` on two interface values of one type that cannot be
compared, `outOfMemory` is an allocation the machine cannot serve), and
`outOfFuel` for a pointer-following loop of the model that used up its
budget. -/
inductive Fault where
  | indexOutOfRange
  | nilDereference
  | makeslice
  | typeAssertion
  | nilMap
  | notInit
  | uncomparable
  | outOfMemory
  | outOfFuel
  deriving DecidableEq, Repr

/-- The values of Go type `error` that the repository creates: the five
variables of package `errors` and the results of `WithMessage`. -/
inductive Error where
  | ErrUpdateSliceIdxOutRange
  | ErrNilKey
  | ErrNotFound
  | ErrNotInit
  | ErrInvalidKey
  | withMessage (cause : Error) (msg : String)
  deriving DecidableEq, Repr

/-- Go `errors.WithMessage`: `nil` stays `nil`. -/
def WithMessage (err : Option Error) (msg : String) : Option Error :=
  match err with
  | none => none
  | some e => some (Error.withMessage e msg)

/-! ## skiplist/node.go -/

/-- Go `type node struct`. -/
structure node (K V : Type) where
  forward : List (Option Nat)
  backward : Option Nat
  key : Option K
  value : Option V
  deriving DecidableEq, Repr

/-- Go `==` on two keys of type `K` held in an `interface{}`. -/
class GoEq (K : Type) where
  eq : K → K → Except Fault Bool

/-- On a type with decidable equality `==` is the identity of values. -/
instance (priority := low) instGoEqOfDecidableEq {K : Type} [DecidableEq K] : GoEq K where
  eq a b := pure (decide (a = b))

/-- Go `==` on two `interface{}` values that are nil or hold a key: nil equals
nil only. -/
def ifaceEq {K : Type} [GoEq K] : Option K → Option K → Except Fault Bool
  | some a, some b => GoEq.eq a b
  | none, none => pure true
  | _, _ => pure false

/-- Go `(*node).next`. -/
def node.next {K V : Type} (n : node K V) : Option Nat :=
  match n.forward with
  | [] => none
  | p :: _ => p

/-- Go `(*node).hasNext`. -/
def node.hasNext {K V : Type} (n : node K V) : Bool :=
  n.next.isSome

/-! ## skiplist/skiplist.go -/

/-- Go `type skipList struct`, with the heap of nodes it points into. -/
structure skipList (K V : Type) where
  mem : List (node K V)
  head : Nat
  len : Int
  maxLevel : Int
  less : Option K → Option K → Except Fault Bool

/-- Dereference of a `*node`. -/
def deref {K V : Type} (mem : List (node K V)) (p : Nat) : Except Fault (node K V) :=
  match mem[p]? with
  | some n => pure n
  | none => throw Fault.nilDereference

/-- Dereference of a possibly nil `*node`. -/
def derefOpt {K V : Type} (mem : List (node K V)) (p : Option Nat) :
    Except Fault (node K V) :=
  match p with
  | some q => deref mem q
  | none => throw Fault.nilDereference

/-- Go slice indexing `l[i]`. -/
def idx {α : Type} (l : List α) (i : Nat) : Except Fault α :=
  match l[i]? with
  | some a => pure a
  | none => throw Fault.indexOutOfRange

/-- Go `make([]*node, len, cap)`. -/
def make (len cap : Int) : Except Fault (List (Option Nat)) :=
  if len < 0 ∨ cap < len then throw Fault.makeslice
  else pure (List.replicate len.toNat none)

/-- The assignment `p.forward[i] = q`. -/
def writeForward {K V : Type} (mem : List (node K V)) (p i : Nat) (q : Option Nat) :
    Except Fault (List (node K V)) := do
  let n ← deref mem p
  if i < n.forward.length then
    pure (mem.set p { n with forward := n.forward.set i q })
  else throw Fault.indexOutOfRange

/-- The assignment `p.backward = q`. -/
def writeBackward {K V : Type} (mem : List (node K V)) (p : Nat) (q : Option Nat) :
    Except Fault (List (node K V)) := do
  let n ← deref mem p
  pure (mem.set p { n with backward := q })

/-- Go `NewSkipList`. -/
def NewSkipList {K V : Type} (less : Option K → Option K → Except Fault Bool) :
    skipList K V :=
  { mem := [{ forward := [none], backward := none, key := none, value := none }]
    head := 0
    len := 0
    maxLevel := 32
    less := less }

/-- Go `(*skipList).level`. -/
def skipList.level {K V : Type} (s : skipList K V) : Except Fault Int := do
  let h ← deref s.mem s.head
  pure ((h.forward.length : Int) - 1)

/-- Go `(*skipList).maxEffectiveLevel`. -/
def skipList.maxEffectiveLevel {K V : Type} (s : skipList K V) : Except Fault Int := do
  let l ← s.level
  if s.maxLevel > l then pure s.maxLevel else pure l

/-- The loop of `getNewLevel`; `fuel` bounds the number of iterations. -/
def getNewLevelLoop (mel : Int) (coins : Nat → Bool) : Nat → Nat → Nat
  | 0, level => level
  | fuel + 1, level =>
    if (level : Int) < mel && coins level then getNewLevelLoop mel coins fuel (level + 1)
    else level

/-- Go `(*skipList).getNewLevel`. -/
def skipList.getNewLevel {K V : Type} (s : skipList K V) (coins : Nat → Bool) :
    Except Fault Nat := do
  let mel ← s.maxEffectiveLevel
  pure (getNewLevelLoop mel coins mel.toNat 0)

/-- The inner loop of `addressing` at level `i`:
`for current.forward[i] != nil && s.less(current.forward[i].key, key)`. -/
def walkLevel {K V : Type} (s : skipList K V) (key : Option K) (i : Nat) :
    Nat → Nat → Except Fault Nat
  | 0, _ => throw Fault.outOfFuel
  | fuel + 1, current => do
    let cur ← deref s.mem current
    let nxt ← idx cur.forward i
    match nxt with
    | none => pure current
    | some p =>
      let n ← deref s.mem p
      let b ← s.less n.key key
      if b then walkLevel s key i fuel p else pure current

/-- The outer loop of `addressing`; the first argument is `i + 1` for the loop
index `i`, which runs from `height` down to `0`. -/
def addressingLoop {K V : Type} (s : skipList K V) (key : Option K) :
    Nat → Nat → Option (List (Option Nat)) →
      Except Fault (Nat × Option (List (Option Nat)))
  | 0, current, upd => pure (current, upd)
  | i + 1, current, upd => do
    let cur ← walkLevel s key i (s.mem.length + 1) current
    let upd1 ← match upd with
      | none => pure none
      | some u =>
        if i < u.length then pure (some (u.set i (some cur)))
        else throw Fault.indexOutOfRange
    addressingLoop s key i cur upd1

/-- Go `(*skipList).addressing`.  The slice `beUpdatedNodes` is written in
place in Go, so the model returns it next to the results. -/
def skipList.addressing {K V : Type} (s : skipList K V) (key : Option K) (source : Nat)
    (beUpdatedNodes : Option (List (Option Nat))) :
    Except Fault ((Option Nat × Option Error) × Option (List (Option Nat))) := do
  let src ← deref s.mem source
  let tooShort : Bool := match beUpdatedNodes with
    | none => false
    | some u => decide ((u.length : Int) < (src.forward.length : Int) - 1)
  if tooShort then
    pure ((none, some Error.ErrUpdateSliceIdxOutRange), beUpdatedNodes)
  else do
    let (current, upd) ← addressingLoop s key src.forward.length source beUpdatedNodes
    let cur ← deref s.mem current
    pure ((cur.next, none), upd)

/-- The first loop of `Set`: `cnt` iterations, each appending `s.head` to
`update` and `nil` to `s.head.forward`. -/
def growLoop {K V : Type} (head : Nat) :
    Nat → List (Option Nat) → List (node K V) →
      Except Fault (List (Option Nat) × List (node K V))
  | 0, update, mem => pure (update, mem)
  | cnt + 1, update, mem => do
    let h ← deref mem head
    growLoop head cnt (update ++ [some head])
      (mem.set head { h with forward := h.forward ++ [none] })

/-- The second loop of `Set`, from index `i` for `cnt` iterations:
`newNode.forward[i] = update[i].forward[i]; update[i].forward[i] = newNode`. -/
def spliceLoop {K V : Type} (update : List (Option Nat)) (newNode : Nat) :
    Nat → Nat → List (node K V) → Except Fault (List (node K V))
  | 0, _, mem => pure mem
  | cnt + 1, i, mem => do
    let u ← idx update i
    let un ← derefOpt mem u
    let f ← idx un.forward i
    let mem1 ← writeForward mem newNode i f
    let mem2 ← match u with
      | some up => writeForward mem1 up i (some newNode)
      | none => throw Fault.nilDereference
    spliceLoop update newNode cnt (i + 1) mem2

/-- The part of `Set` that runs when the key was not found: lines 104 to 134,
from `level := s.getNewLevel()` to the end. -/
def skipList.insertNode {K V : Type} (s : skipList K V) (key : Option K)
    (value : Option V) (coins : Nat → Bool) (update1 : List (Option Nat)) :
    Except Fault (Option Error × skipList K V) := do
  let level ← s.getNewLevel coins
  let lvl ← s.level
  let (update, mem1) ← growLoop s.head ((level : Int) - lvl).toNat update1 s.mem
  let s1 : skipList K V := { s with mem := mem1, len := s.len + 1 }
  let mel ← s1.maxEffectiveLevel
  let fwd ← make ((level : Int) + 1) (mel + 1)
  let newNode : Nat := mem1.length
  let u0 ← idx update 0
  let b ← derefOpt mem1 u0
  let nn : node K V :=
    { forward := fwd, backward := if b.key.isSome then u0 else none,
      key := key, value := value }
  let mem2 ← spliceLoop update newNode (level + 1) 0 (mem1 ++ [nn])
  let n2 ← deref mem2 newNode
  let f0 ← idx n2.forward 0
  let mem3 ← match f0 with
    | none => pure mem2
    | some nx => do
      let nxn ← deref mem2 nx
      if nxn.backward ≠ some newNode then writeBackward mem2 nx (some newNode)
      else pure mem2
  pure (none, { s1 with mem := mem3 })

/-- Go `(*skipList).Set`. -/
def skipList.Set {K V : Type} [GoEq K] (s : skipList K V) (key : Option K)
    (value : Option V) (coins : Nat → Bool) :
    Except Fault (Option Error × skipList K V) :=
  match key with
  | none => pure (some Error.ErrNilKey, s)
  | some _ => do
    let lvl ← s.level
    let mel ← s.maxEffectiveLevel
    let update0 ← make (lvl + 1) (mel + 1)
    let r ← s.addressing key s.head (some update0)
    match r with
    | ((_, some err), _) => pure (some err, s)
    | ((none, none), upd) => s.insertNode key value coins (upd.getD [])
    | ((some d, none), upd) => do
      let dn ← deref s.mem d
      let same ← ifaceEq dn.key key
      if same then
        pure (none, { s with mem := s.mem.set d { dn with value := value } })
      else s.insertNode key value coins (upd.getD [])

/-- Go `(*skipList).Get`. -/
def skipList.Get {K V : Type} [GoEq K] (s : skipList K V) (key : Option K) :
    Except Fault (Option V × Option Error) :=
  match key with
  | none => pure (none, some Error.ErrNilKey)
  | some _ => do
    let r ← s.addressing key s.head none
    match r with
    | ((_, some err), _) => pure (none, some err)
    | ((none, none), _) => pure (none, some Error.ErrNotFound)
    | ((some d, none), _) => do
      let dn ← deref s.mem d
      let same ← ifaceEq dn.key key
      if same then pure (dn.value, none)
      else pure (none, some Error.ErrNotFound)

/-- The unlink loop of `Del`, from index `i` with `fuel` bounding the
iterations: `for i <= s.level() && update[i].forward[i] == dest`. -/
def unlinkLoop {K V : Type} (head : Nat) (update : List (Option Nat)) (dest : Nat) :
    Nat → Nat → List (node K V) → Except Fault (List (node K V))
  | 0, _, _ => throw Fault.outOfFuel
  | fuel + 1, i, mem => do
    let h ← deref mem head
    if (i : Int) ≤ (h.forward.length : Int) - 1 then do
      let u ← idx update i
      match u with
      | none => throw Fault.nilDereference
      | some up => do
        let un ← deref mem up
        let f ← idx un.forward i
        if f = some dest then do
          let dn ← deref mem dest
          let df ← idx dn.forward i
          let mem1 ← writeForward mem up i df
          unlinkLoop head update dest fuel (i + 1) mem1
        else pure mem
    else pure mem

/-- The trimming loop of `Del`:
`for s.level() > 0 && s.head.forward[s.level()] == nil`. -/
def trimLoop {K V : Type} (head : Nat) :
    Nat → List (node K V) → Except Fault (List (node K V))
  | 0, _ => throw Fault.outOfFuel
  | fuel + 1, mem => do
    let h ← deref mem head
    if (h.forward.length : Int) - 1 > 0 then do
      let top ← idx h.forward (h.forward.length - 1)
      if top = none then
        trimLoop head fuel
          (mem.set head { h with forward := h.forward.take (h.forward.length - 1) })
      else pure mem
    else pure mem

/-- The part of `Del` that runs under the exclusive lock once the second walk
has found `dest` with the key: lines 186 to 205. -/
def skipList.unlinkNode {K V : Type} (s : skipList K V) (update : List (Option Nat))
    (d : Nat) : Except Fault (Option Error × skipList K V) := do
  let dn ← deref s.mem d
  let mem1 ← match dn.next with
    | none => pure s.mem
    | some nx => writeBackward s.mem nx dn.backward
  let mem2 ← unlinkLoop s.head update d (update.length + 1) 0 mem1
  let h ← deref mem2 s.head
  let mem3 ← trimLoop s.head (h.forward.length + 1) mem2
  pure (none, { s with mem := mem3, len := s.len - 1 })

/-- The second half of `Del`, lines 173 to 205: the walk repeated under the
exclusive lock, and the removal. -/
def skipList.delLocked {K V : Type} [GoEq K] (s : skipList K V)
    (key : Option K) : Except Fault (Option Error × skipList K V) := do
  let lvl ← s.level
  let mel ← s.maxEffectiveLevel
  let upd1 ← make (lvl + 1) mel
  let r ← s.addressing key s.head (some upd1)
  match r with
  | ((_, some _), _) => pure (none, s)
  | ((none, none), _) => pure (some Error.ErrNotFound, s)
  | ((some d, none), upd) => do
    let dn ← deref s.mem d
    let same ← ifaceEq dn.key key
    if same then s.unlinkNode (upd.getD []) d
    else pure (some Error.ErrNotFound, s)

/-- Go `(*skipList).Del`. -/
def skipList.Del {K V : Type} [GoEq K] (s : skipList K V) (key : Option K) :
    Except Fault (Option Error × skipList K V) :=
  match key with
  | none => pure (some Error.ErrNilKey, s)
  | some _ => do
    let lvl ← s.level
    let mel ← s.maxEffectiveLevel
    let upd0 ← make (lvl + 1) mel
    let r ← s.addressing key s.head (some upd0)
    match r with
    | ((_, some err), _) => pure (some err, s)
    | ((none, none), _) => pure (some Error.ErrNotFound, s)
    | ((some d, none), _) => do
      let dn ← deref s.mem d
      let same ← ifaceEq dn.key key
      if same then s.delLocked key
      else pure (some Error.ErrNotFound, s)

/-- Go `(*skipList).Len`. -/
def skipList.Len {K V : Type} (s : skipList K V) : Int :=
  s.len

/-! ## skiplist/iterator.go -/

/-- Go `type iterator struct`. -/
structure iterator (K V : Type) where
  key : Option K
  value : Option V
  currNode : Option Nat
  deriving DecidableEq, Repr

/-- Go `(*skipList).Iterator`. -/
def skipList.Iterator {K V : Type} (s : skipList K V) : iterator K V :=
  { key := none, value := none, currNode := some s.head }

/-- Go `(*iterator).HasNext`, reading the heap `mem`. -/
def iterator.HasNext {K V : Type} (mem : List (node K V)) (it : iterator K V) :
    Except Fault (Bool × iterator K V) := do
  let c ← derefOpt mem it.currNode
  if !c.hasNext then return (false, it)
  let n ← derefOpt mem c.next
  return (true, { key := n.key, value := n.value, currNode := c.next })

/-- Go `(*iterator).Key`. -/
def iterator.Key {K V : Type} (it : iterator K V) : Option K := it.key

/-- Go `(*iterator).Value`. -/
def iterator.Value {K V : Type} (it : iterator K V) : Option V := it.value

/-- Go `(*iterator).Close`. -/
def iterator.Close {K V : Type} (_it : iterator K V) : iterator K V :=
  { key := none, value := none, currNode := none }

/-- The loop `for iter.HasNext() { out = append(out, (iter.Key(), iter.Value())) }`. -/
def drain {K V : Type} (mem : List (node K V)) :
    Nat → iterator K V → Except Fault (List (Option K × Option V))
  | 0, _ => throw Fault.outOfFuel
  | fuel + 1, it => do
    let (b, it1) ← it.HasNext mem
    if b then do
      let rest ← drain mem fuel it1
      pure ((it1.Key, it1.Value) :: rest)
    else pure []

/-- Everything a fresh iterator of `s` yields. -/
def skipList.entries {K V : Type} (s : skipList K V) :
    Except Fault (List (Option K × Option V)) :=
  drain s.mem (s.mem.length + 1) s.Iterator

end SimpleDB


namespace SimpleDB

/-! ## Reading the heap -/

/-- Length of the forward slice of cell `p`; `0` for a pointer outside the heap. -/
def ht {K V : Type} (mem : List (node K V)) (p : Nat) : Nat :=
  match mem[p]? with
  | some n => n.forward.length
  | none => 0

/-- The slot `p.forward[i]`, when cell and slot exist. -/
def fwd {K V : Type} (mem : List (node K V)) (p i : Nat) : Option (Option Nat) :=
  match mem[p]? with
  | some n => n.forward[i]?
  | none => none

/-- The key of cell `p`. -/
def keyAt {K V : Type} (mem : List (node K V)) (p : Nat) : Option K :=
  match mem[p]? with
  | some n => n.key
  | none => none

/-- The value of cell `p`. -/
def valAt {K V : Type} (mem : List (node K V)) (p : Nat) : Option V :=
  match mem[p]? with
  | some n => n.value
  | none => none

/-- The backward link of cell `p`. -/
def backAt {K V : Type} (mem : List (node K V)) (p : Nat) : Option Nat :=
  match mem[p]? with
  | some n => n.backward
  | none => none

/-- First pointer of `l` whose cell has a slot at level `i`. -/
def firstAt {K V : Type} (mem : List (node K V)) (i : Nat) (l : List Nat) : Option Nat :=
  l.find? (fun q => decide (i < ht mem q))

/-- Last pointer of `l` whose cell has a slot at level `i`. -/
def lastAt {K V : Type} (mem : List (node K V)) (i : Nat) (l : List Nat) : Option Nat :=
  firstAt mem i l.reverse

/-- The forward links realise the sequence `l` of cells: every slot `i` of a
cell of `l` points to the next cell of `l` that has a slot `i`, and is nil when
there is none. -/
def Linked {K V : Type} (mem : List (node K V)) (l : List Nat) : Prop :=
  ∀ (A : List Nat) (p : Nat) (B : List Nat), l = A ++ p :: B →
    ∀ i, i < ht mem p → fwd mem p i = some (firstAt mem i B)

/-- Two heaps agree on everything but the values and the backward links. -/
def SameLinks {K V : Type} (mem mem1 : List (node K V)) : Prop :=
  mem1.length = mem.length ∧
    ∀ p, ht mem1 p = ht mem p ∧ keyAt mem1 p = keyAt mem p ∧
      ∀ i, fwd mem1 p i = fwd mem p i

/-- What the update path holds once the levels from `n` up have been walked and
the walk stands at the end of `head :: A`: entry `j` is the last cell of
`head :: A` with a slot `j`.  Nothing is asked of a nil slice. -/
def PathRec {K V : Type} (mem : List (node K V)) (head : Nat) (A : List Nat) (n : Nat) :
    Option (List (Option Nat)) → Prop
  | none => True
  | some u => ht mem head ≤ u.length ∧
      ∀ j, n ≤ j → j < ht mem head → u[j]? = some (lastAt mem j (head :: A))

/-- The cells the walk for a key goes through compare less than the key (`g`
holds of them).  With the levels above `n` walked and the walk standing at the
end of `head :: A`, these are the cells of `A` with a slot above `n` that no later
cell of `A` overtops. -/
def Records {K V : Type} (mem : List (node K V)) (g : Nat → Bool) (n : Nat)
    (A : List Nat) : Prop :=
  ∀ (A0 : List Nat) (x : Nat) (A1 : List Nat), A = A0 ++ x :: A1 → n < ht mem x →
    (∀ y ∈ A1, ht mem y ≤ ht mem x) → g x = true

/-- The cell after the walk does not compare less than the key, at any level:
the first cell of `S` with a slot `j` fails `g`, for every level `j` from `n` up
to the height `h` of the sentinel. -/
def Stops {K V : Type} (mem : List (node K V)) (g : Nat → Bool) (n h : Nat)
    (S : List Nat) : Prop :=
  ∀ j, n ≤ j → j < h → ∀ f, firstAt mem j S = some f → g f = false

/-- Structural invariant of a skip list: `ns` is the sequence of cells after the
sentinel, in the order of the level-0 chain. -/
structure Inv {K V : Type} (s : skipList K V) (ns : List Nat) : Prop where
  head_key : keyAt s.mem s.head = none
  head_ht : 1 ≤ ht s.mem s.head
  head_le : ht s.mem s.head ≤ 33
  nodup : (s.head :: ns).Nodup
  key_some : ∀ p ∈ ns, (keyAt s.mem p).isSome = true
  ht_pos : ∀ p ∈ ns, 1 ≤ ht s.mem p
  ht_le : ∀ p ∈ ns, ht s.mem p ≤ ht s.mem s.head
  linked : Linked s.mem (s.head :: ns)
  len_eq : s.len = (ns.length : Int)
  maxLevel_eq : s.maxLevel = 32

/-- The cells of `ns` seen as (key, value) pairs. -/
def view {K V : Type} (mem : List (node K V)) (ns : List Nat) :
    List (Option K × Option V) :=
  ns.map (fun p => (keyAt mem p, valAt mem p))

/-! ## Sequences of calls -/

/-- A call of `Set` (with the coin flips its `getNewLevel` sees) or of `Del`. -/
inductive Op (K V : Type) where
  | set (key : Option K) (value : Option V) (coins : Nat → Bool)
  | del (key : Option K)

/-- One call on the skip list. -/
def skipList.step {K V : Type} [GoEq K] (s : skipList K V) :
    Op K V → Except Fault (Option Error × skipList K V)
  | Op.set key value coins => s.Set key value coins
  | Op.del key => s.Del key

/-- A sequence of calls, each on the list the previous one left. -/
def skipList.run {K V : Type} [GoEq K] (s : skipList K V) :
    List (Op K V) → Except Fault (skipList K V)
  | [] => pure s
  | op :: ops => do
    let r ← s.step op
    r.2.run ops

/-- The comparator handed to `NewSkipList` that decides `lt` on non-nil keys;
on a nil key it fails like a Go type assertion. -/
def lessOf {K : Type} (lt : K → K → Bool) : Option K → Option K → Except Fault Bool
  | some a, some b => pure (lt a b)
  | _, _ => throw Fault.typeAssertion

/-! ## The sorted association list the skip list stands for -/

/-- Insert in an association list ordered by `lt`: before the first entry whose
key is not less than `k`, or in place of it when its key is `k` itself. -/
def setA {K V : Type} [DecidableEq K] (lt : K → K → Bool) (k : K) (v : V) :
    List (K × V) → List (K × V)
  | [] => [(k, v)]
  | e :: r =>
    if lt e.1 k then e :: setA lt k v r
    else if e.1 = k then (k, v) :: r
    else (k, v) :: e :: r

/-- Delete from an association list ordered by `lt`: the first entry whose key
is not less than `k` is removed when its key is `k` itself. -/
def delA {K V : Type} [DecidableEq K] (lt : K → K → Bool) (k : K) :
    List (K × V) → List (K × V)
  | [] => []
  | e :: r =>
    if lt e.1 k then e :: delA lt k r
    else if e.1 = k then r
    else e :: r

/-- Lookup in an association list ordered by `lt`: the value of the first entry
whose key is not less than `k`, when its key is `k` itself. -/
def getA {K V : Type} [DecidableEq K] (lt : K → K → Bool) (k : K) :
    List (K × V) → Option V
  | [] => none
  | e :: r =>
    if lt e.1 k then getA lt k r
    else if e.1 = k then some e.2
    else none

/-- The comparator of `s` decides `lt` on non-nil keys, without aborting. -/
def Decides {K V : Type} (s : skipList K V) (lt : K → K → Bool) : Prop :=
  ∀ a b, s.less (some a) (some b) = Except.ok (lt a b)

/-- Whether the key of cell `x` is less than `k`. -/
def gOf {K V : Type} (lt : K → K → Bool) (mem : List (node K V)) (k : K) (x : Nat) : Bool :=
  match keyAt mem x with
  | some a => lt a k
  | none => false

/-- An entry of the association list as the iterator shows it. -/
def emb {K V : Type} (e : K × Option V) : Option K × Option V := (some e.1, e.2)

/-- The skip list `s` holds the association list `l`: it is well formed and its
cells carry the entries of `l`, in order. -/
def Rep {K V : Type} (s : skipList K V) (l : List (K × Option V)) : Prop :=
  ∃ ns, Inv s ns ∧ view s.mem ns = l.map emb

/-- No entry is less than an earlier one. -/
def SortedA {K V : Type} (lt : K → K → Bool) (l : List (K × V)) : Prop :=
  l.Pairwise (fun a b => lt b.1 a.1 = false)

/-- The effect of one call on the association list. -/
def stepA {K V : Type} [DecidableEq K] (lt : K → K → Bool) (l : List (K × Option V)) :
    Op K V → List (K × Option V)
  | Op.set (some k) v _ => setA lt k v l
  | Op.set none _ _ => l
  | Op.del (some k) => delA lt k l
  | Op.del none => l

/-- What `Get` returns for the result of a lookup in the association list. -/
def getResult {V : Type} : Option (Option V) → Option V × Option Error
  | some v => (v, none)
  | none => (none, some Error.ErrNotFound)

/-- The association list after a sequence of calls; calls with a nil key change
nothing. -/
def runA {K V : Type} [DecidableEq K] (lt : K → K → Bool) :
    List (K × Option V) → List (Op K V) → List (K × Option V)
  | l, [] => l
  | l, op :: ops => runA lt (stepA lt l op) ops

/-- Every entry is less than the later ones. -/
def SortedS {K V : Type} (lt : K → K → Bool) (l : List (K × V)) : Prop :=
  l.Pairwise (fun a b => lt a.1 b.1 = true)

/-- What one call does to the value last set for `k`. -/
def lastStep {K V : Type} [DecidableEq K] (k : K) :
    Op K V → Option (Option V) → Option (Option V)
  | Op.set key v _, acc => if key = some k then some v else acc
  | Op.del key, acc => if key = some k then none else acc

/-- What one call does to the list of the keys that are set. -/
def liveStep {K V : Type} [DecidableEq K] : Op K V → List K → List K
  | Op.set (some k) _ _, acc => if k ∈ acc then acc else k :: acc
  | Op.set none _ _, acc => acc
  | Op.del (some k), acc => acc.erase k
  | Op.del none, acc => acc

/-- The value of the most recent `Set(k, v)` that no later `Del(k)` followed;
`none` when `k` was never set or was deleted since.  The argument `acc` is the
answer before the calls. -/
def lastSet {K V : Type} [DecidableEq K] (k : K) :
    List (Op K V) → Option (Option V) → Option (Option V)
  | [], acc => acc
  | op :: ops, acc => lastSet k ops (lastStep k op acc)

/-- The keys set and not deleted since, without repetition.  The argument `acc`
is the list before the calls. -/
def liveKeys {K V : Type} [DecidableEq K] : List (Op K V) → List K → List K
  | [], acc => acc
  | op :: ops, acc => liveKeys ops (liveStep op acc)

/-- The strict total orders. -/
structure StrictTotal {K : Type} (lt : K → K → Bool) : Prop where
  irrefl : ∀ a, lt a a = false
  trans : ∀ a b c, lt a b = true → lt b c = true → lt a c = true
  total : ∀ a b, a ≠ b → lt a b = true ∨ lt b a = true

/-- The strict weak orders: irreflexive, transitive, and incomparability is
transitive (stated as negative transitivity). -/
structure StrictWeak {K : Type} (lt : K → K → Bool) : Prop where
  irrefl : ∀ a, lt a a = false
  trans : ∀ a b c, lt a b = true → lt b c = true → lt a c = true
  negTrans : ∀ a b c, lt a b = false → lt b c = false → lt a c = false

/-- Go `==` on the keys never aborts, and the relation `r` it decides is
symmetric and transitive, as `==` on comparable Go values is.  It need not hold
of a key and itself: a NaN differs from itself. -/
structure Comparable (K : Type) [GoEq K] (r : K → K → Bool) : Prop where
  decides : ∀ a b, GoEq.eq a b = Except.ok (r a b)
  symm : ∀ a b, r a b = true → r b a = true
  trans : ∀ a b c, r a b = true → r b c = true → r a c = true

end SimpleDB


namespace SimpleDB

/-! ## Concrete lists used to instantiate the theorems -/

/-- The order of the natural numbers as a comparator relation. -/
def natLt (a b : Nat) : Bool := decide (a < b)

/-- The empty list of natural-number keys compared by their order. -/
def natList : skipList Nat Nat := NewSkipList (lessOf natLt)

/-- A sequence of calls: set 2, set 1 (one level up), delete 2, set 1 again. -/
def exOps : List (Op Nat Nat) :=
  [Op.set (some 2) (some 20) (fun _ => false),
   Op.set (some 1) (some 10) (fun n => decide (n < 1)),
   Op.del (some 2),
   Op.set (some 1) (some 11) (fun _ => false)]

/-- The result of a sequence of calls, or the start when a call aborts. -/
def runD {K V : Type} [GoEq K] (s : skipList K V) (ops : List (Op K V)) :
    skipList K V :=
  match s.run ops with
  | Except.ok s1 => s1
  | Except.error _ => s

/-- The list that the calls `exOps` leave. -/
def exState : skipList Nat Nat := runD natList exOps

/-- A single call `Set(1, 10)` in which all 32 coin flips of `getNewLevel`
succeed, so that the new node gets level 32. -/
def tallOps : List (Op Nat Nat) := [Op.set (some 1) (some 10) (fun _ => true)]

/-- The list that the call `tallOps` leaves: its sentinel has 33 slots. -/
def tallState : skipList Nat Nat := runD natList tallOps

/-- Pairs compared by their first component only: a strict weak order in which
`(1, 0)` and `(1, 1)` are equal without being identical. -/
def pairLt (a b : Nat × Nat) : Bool := decide (a.1 < b.1)

/-- The empty list of pairs compared by `pairLt`. -/
def pairList : skipList (Nat × Nat) Nat := NewSkipList (lessOf pairLt)

/-- The list after `Set((1, 0), 10)`. -/
def pairState1 : skipList (Nat × Nat) Nat :=
  runD pairList [Op.set (some (1, 0)) (some 10) (fun _ => false)]

/-- The list after `Set((1, 0), 10)` and `Set((1, 1), 11)`. -/
def pairState2 : skipList (Nat × Nat) Nat :=
  runD pairState1 [Op.set (some (1, 1)) (some 11) (fun _ => false)]

/-! ## Keys on which `==` is not the identity of values -/

/-- A key of Go type `float64`: a whole number, or the NaN. -/
inductive F64 where
  | num (n : Int)
  | nan
  deriving DecidableEq, Repr

/-- Go `==` on two `float64` values: a NaN equals nothing, not even itself. -/
def f64Eq : F64 → F64 → Bool
  | F64.num m, F64.num n => decide (m = n)
  | _, _ => false

instance instGoEqF64 : GoEq F64 where
  eq a b := pure (f64Eq a b)

/-- Go `<` on two `float64` values: false when one of them is the NaN. -/
def f64Lt : F64 → F64 → Bool
  | F64.num m, F64.num n => decide (m < n)
  | _, _ => false

/-- The empty list of `float64` keys compared by `<`. -/
def f64List : skipList F64 Nat := NewSkipList (lessOf f64Lt)

/-- The list after `Set(NaN, 1)`. -/
def nanState1 : skipList F64 Nat := runD f64List [Op.set (some F64.nan) (some 1) (fun _ => false)]

/-- The list after `Set(NaN, 1)` and `Set(NaN, 2)`. -/
def nanState2 : skipList F64 Nat := runD nanState1 [Op.set (some F64.nan) (some 2) (fun _ => false)]

/-- A key of Go type `[]int`. -/
structure IntSlice where
  elems : List Int
  deriving DecidableEq, Repr

/-- Go `==` on two interface values that hold a `[]int` aborts: the type cannot
be compared. -/
instance instGoEqIntSlice : GoEq IntSlice where
  eq _ _ := throw Fault.uncomparable

/-- Slices by their length. -/
def sliceLt (a b : IntSlice) : Bool := decide (a.elems.length < b.elems.length)

/-- The empty list of `[]int` keys compared by their length. -/
def sliceList : skipList IntSlice Nat := NewSkipList (lessOf sliceLt)

/-- The list after `Set([]int{7}, 1)`. -/
def sliceState1 : skipList IntSlice Nat :=
  runD sliceList [Op.set (some { elems := [7] }) (some 1) (fun _ => false)]

/-- Pairs of an `int` and a `float64`, compared by the first component only. -/
def mixLt (a b : Nat × F64) : Bool := decide (a.1 < b.1)

/-- Go `==` on two such pairs: both components are `==`. -/
def mixEq (a b : Nat × F64) : Bool := decide (a.1 = b.1) && f64Eq a.2 b.2

instance instGoEqMix : GoEq (Nat × F64) where
  eq a b := pure (mixEq a b)

/-- The empty list of such pairs compared by `mixLt`. -/
def mixList : skipList (Nat × F64) Nat := NewSkipList (lessOf mixLt)

end SimpleDB


namespace SimpleDB

/-! ## db.go

Conventions of the embedding of the database layer.

* A key argument, of Go type `interface{}`, and a value of Go type `CustomKey`
  are values of `KeyVal C`, whose constructor `nilKey` is the nil interface;
  `KeyVal.toIface` hands a key to the skip list, where nil is `none`.
* `C` stands for the key types of the caller that implement `CustomKey`; their
  method `Key()` is the class `CustomKey C`.
* `time.Now().Unix()` is an argument `now`; `int64` values are integers and the
  sum `now + ttl` is wrapped by `wrap64`.
* The map `keys` is a function from names to `CustomKey` values, `nilKey` where
  the map has no entry; the nil map is `none`.
* The goroutine `background` is not started by the constructors: one tick of it
  is the function `ByDB.background`, called with the time of the tick.
* Go `==` on two keys is the class `GoEq (KeyVal C)`; the tests against nil
  are the identity of values.
* `List` reserves a slice of `pageSize` slots before it scans; the number
  `avail` of slots that the machine can reserve is an argument, and a larger
  request ends in `Fault.outOfMemory`.  The other allocations (a node, an
  update path of 33 slots at most) are taken to succeed.
-/

/-- Go `ErrInvalidStringKey`. -/
def ErrInvalidStringKey : Option Error :=
  WithMessage (some Error.ErrInvalidKey) "it should be string type"

/-- Go `ErrInvalidCustomKey`. -/
def ErrInvalidCustomKey : Option Error :=
  WithMessage (some Error.ErrInvalidKey) "it should be implemented CustomKey interface"

/-- Go `ErrInvalidCustomKeyPointer`. -/
def ErrInvalidCustomKeyPointer : Option Error :=
  WithMessage (some Error.ErrInvalidKey) "it should be value type"

/-- Go `type keyType byte`. -/
abbrev keyType : Type := Nat

/-- Go constant `String`, `iota + 1`. -/
def keyType.String : keyType := 1

/-- Go constant `Custom`. -/
def keyType.Custom : keyType := 2

/-- Go `type CustomKey interface { Key() string }`, on the key types of the
caller. -/
class CustomKey (C : Type) where
  Key : C → String

/-- The values a key can be: nil, a string, a value `custom c` of a named type
of the caller that implements `CustomKey`, a pointer `customPtr c` to such a
value (a value of an unnamed type), a value `other n` of any other type, and a
value of Go `type expireCustomKey struct` with its four fields. -/
inductive KeyVal (C : Type) where
  | nilKey
  | str (s : String)
  | custom (c : C)
  | customPtr (c : C)
  | other (n : Nat)
  | expireCustomKey (typ : keyType) (expireTime : Int) (strKey : String) (key : KeyVal C)
  deriving DecidableEq

/-- A key as the `interface{}` that the skip list takes. -/
def KeyVal.toIface {C : Type} : KeyVal C → Option (KeyVal C)
  | KeyVal.nilKey => none
  | k => some k

/-- Go type assertion `key.(string)`. -/
def KeyVal.asString {C : Type} : KeyVal C → Option String
  | KeyVal.str s => some s
  | _ => none

/-- Whether the Go type assertion `key.(CustomKey)` succeeds. -/
def KeyVal.isCustomKey {C : Type} : KeyVal C → Bool
  | KeyVal.custom _ => true
  | KeyVal.customPtr _ => true
  | KeyVal.expireCustomKey _ _ _ _ => true
  | _ => false

/-- Whether `reflect.TypeOf(key).Name()` is the empty string: the type of the
value is unnamed. -/
def KeyVal.unnamed {C : Type} : KeyVal C → Bool
  | KeyVal.customPtr _ => true
  | _ => false

/-- The method `Key()` of a `CustomKey` value; for a wrapper it is Go
`(expireCustomKey).Key`.  A call on the nil interface aborts. -/
def KeyVal.Key {C : Type} [CustomKey C] : KeyVal C → Except Fault String
  | KeyVal.custom c => pure (CustomKey.Key c)
  | KeyVal.customPtr c => pure (CustomKey.Key c)
  | KeyVal.expireCustomKey typ _ strKey key =>
    if typ = keyType.String then pure strKey else key.Key
  | _ => throw Fault.nilDereference

/-- Go `math.MaxInt64`. -/
def maxInt64 : Int := 9223372036854775807

/-- The `int64` that a sum of two `int64` values is: the integer reduced modulo
`2 ^ 64` into the range from `-2 ^ 63` to `2 ^ 63 - 1`. -/
def wrap64 (x : Int) : Int :=
  (x + 9223372036854775808) % 18446744073709551616 - 9223372036854775808

/-- The `int32` that a sum or product of two `int32` values is. -/
def wrap32 (x : Int) : Int := (x + 2147483648) % 4294967296 - 2147483648

/-- Go `type Query func(v interface{}) bool`. -/
abbrev Query (V : Type) : Type := Option V → Bool

/-- Go `type Config struct`. -/
structure Config where
  withExpired : Bool
  deriving DecidableEq, Repr

/-- Go `type DBOption func(o Config) Config`. -/
abbrev DBOption : Type := Config → Config

/-- Go `DBOptionWithExpired`. -/
def DBOptionWithExpired : DBOption := fun o => { o with withExpired := true }

/-- Go `type SaveOptions struct`. -/
structure SaveOptions where
  isExpired : Bool
  ttl : Int
  deriving DecidableEq, Repr

/-- Go `type SaveOption func(o SaveOptions) SaveOptions`. -/
abbrev SaveOption : Type := SaveOptions → SaveOptions

/-- Go `SaveOptionTTL`. -/
def SaveOptionTTL (ttl : Int) : SaveOption := fun o =>
  if ttl ≤ 0 then o else { o with isExpired := true, ttl := ttl }

/-- Go `type ByDB struct`, without the lock. -/
structure ByDB (C V : Type) where
  typ : keyType
  hasInit : Bool
  keys : Option (String → KeyVal C)
  data : skipList (KeyVal C) V
  conf : Config

/-- Go map read `m[name]`: the zero value when the map is nil or has no entry. -/
def mapGet {C : Type} (m : Option (String → KeyVal C)) (name : String) : KeyVal C :=
  match m with
  | some f => f name
  | none => KeyVal.nilKey

/-- Go map write `m[name] = v`: aborts on the nil map. -/
def mapSet {C : Type} (m : Option (String → KeyVal C)) (name : String) (v : KeyVal C) :
    Except Fault (Option (String → KeyVal C)) :=
  match m with
  | some f => pure (some (Function.update f name v))
  | none => throw Fault.nilMap

/-- Go `delete(m, name)`: nothing happens on the nil map. -/
def mapDelete {C : Type} (m : Option (String → KeyVal C)) (name : String) :
    Option (String → KeyVal C) :=
  match m with
  | some f => some (Function.update f name KeyVal.nilKey)
  | none => none

/-- The comparator `NewCustomByDB` gives the skip list of a store with
expiration: both keys must be wrappers, and their fields `key` are compared. -/
def customExpireLess {C : Type} (less : Option (KeyVal C) → Option (KeyVal C) → Except Fault Bool) :
    Option (KeyVal C) → Option (KeyVal C) → Except Fault Bool
  | some (KeyVal.expireCustomKey _ _ _ lk), some (KeyVal.expireCustomKey _ _ _ rk) =>
    less lk.toIface rk.toIface
  | _, _ => throw Fault.typeAssertion

/-- The local function `less` of `NewByDB`.  Go compares strings byte by byte,
which on UTF-8 text is the lexicographic order of the lists of characters. -/
def stringLt (l r : String) : Bool := if l.data < r.data then true else false

/-- The comparator `NewByDB` gives the skip list of a store with expiration:
both keys must be wrappers, and their fields `strKey` are compared. -/
def stringExpireLess {C : Type} : Option (KeyVal C) → Option (KeyVal C) → Except Fault Bool
  | some (KeyVal.expireCustomKey _ _ ls _), some (KeyVal.expireCustomKey _ _ rs _) =>
    pure (stringLt ls rs)
  | _, _ => throw Fault.typeAssertion

/-- The comparator `NewByDB` gives the skip list of a store without expiration:
both keys must be strings. -/
def stringLess {C : Type} : Option (KeyVal C) → Option (KeyVal C) → Except Fault Bool
  | some (KeyVal.str l), some (KeyVal.str r) => pure (stringLt l r)
  | _, _ => throw Fault.typeAssertion

/-- Go `NewCustomByDB`. -/
def NewCustomByDB {C V : Type} (less : Option (KeyVal C) → Option (KeyVal C) → Except Fault Bool)
    (opts : List DBOption) : ByDB C V :=
  let conf : Config := opts.foldl (fun c opt => opt c) { withExpired := false }
  { typ := keyType.Custom
    hasInit := true
    keys := some (fun _ => KeyVal.nilKey)
    conf := conf
    data := if conf.withExpired then NewSkipList (customExpireLess less)
      else NewSkipList less }

/-- Go `NewByDB`. -/
def NewByDB {C V : Type} (opts : List DBOption) : ByDB C V :=
  let conf : Config := opts.foldl (fun c opt => opt c) { withExpired := false }
  { typ := keyType.String
    hasInit := true
    keys := if conf.withExpired then some (fun _ => KeyVal.nilKey) else none
    conf := conf
    data := if conf.withExpired then NewSkipList stringExpireLess
      else NewSkipList stringLess }

/-- Go `(*ByDB).withExpired`. -/
def ByDB.withExpired {C V : Type} (d : ByDB C V) : Bool := d.conf.withExpired

/-- Go `(*ByDB).checkBeforeOp`. -/
def ByDB.checkBeforeOp {C V : Type} (d : ByDB C V) : Except Fault Unit :=
  if !d.hasInit then throw Fault.notInit else pure ()

/-- Go `(*ByDB).isValidKey`.  The test `cus == nil` of the source is left out:
it comes after `key == nil` has failed, and cannot succeed. -/
def ByDB.isValidKey {C V : Type} (d : ByDB C V) (key : KeyVal C) : KeyVal C × Option Error :=
  match key with
  | KeyVal.nilKey => (KeyVal.nilKey, some Error.ErrNilKey)
  | _ =>
    if d.typ = keyType.String then
      match key.asString with
      | some _ => (KeyVal.nilKey, none)
      | none => (KeyVal.nilKey, ErrInvalidStringKey)
    else if d.typ = keyType.Custom then
      if key.isCustomKey then
        if key.unnamed then (KeyVal.nilKey, ErrInvalidCustomKeyPointer)
        else (key, none)
      else (KeyVal.nilKey, ErrInvalidCustomKey)
    else (KeyVal.nilKey, some Error.ErrInvalidKey)

/-- Go `(*ByDB).packWithExpire`, at the time `now`. -/
def ByDB.packWithExpire {C V : Type} (d : ByDB C V) (inKey inCustomKey : KeyVal C)
    (ttl now : Int) : Except Fault (KeyVal C × KeyVal C) :=
  if d.typ = keyType.String then
    match inKey.asString with
    | some s =>
      let out := KeyVal.expireCustomKey keyType.String (wrap64 (now + ttl)) s KeyVal.nilKey
      pure (out, out)
    | none => throw Fault.typeAssertion
  else if d.typ = keyType.Custom then
    let out := KeyVal.expireCustomKey keyType.Custom (wrap64 (now + ttl)) "" inCustomKey
    pure (out, out)
  else pure (KeyVal.nilKey, KeyVal.nilKey)

/-- The test `old != nil && old != custom` of `Save`: the second comparison is
made only when the first holds. -/
def keyDiffers {C : Type} [DecidableEq C] [GoEq (KeyVal C)] (old custom : KeyVal C) :
    Except Fault Bool :=
  if old = KeyVal.nilKey then pure false
  else do
    let same ← ifaceEq old.toIface custom.toIface
    pure (!same)

/-- Lines 209 to 223 of `Save`: the call of `Set` with the key to store and the
update of the index with the `CustomKey` value of that key. -/
def ByDB.saveEntry {C V : Type} [DecidableEq C] [GoEq (KeyVal C)] [CustomKey C] (d : ByDB C V)
    (key1 custom : KeyVal C) (value : Option V) (coins : Nat → Bool) :
    Except Fault (Option Error × ByDB C V) := do
  let r ← d.data.Set key1.toIface value coins
  match r with
  | (some err, data1) => pure (some err, { d with data := data1 })
  | (none, data1) =>
    if custom = KeyVal.nilKey then pure (none, { d with data := data1 })
    else do
      let name ← custom.Key
      let old := mapGet d.keys name
      let differs ← keyDiffers old custom
      let data2 ←
        if differs then do
          let r2 ← data1.Del old.toIface
          pure r2.2
        else pure data1
      let keys1 ← mapSet d.keys name custom
      pure (none, { d with data := data2, keys := keys1 })

/-- Go `(*ByDB).Save`, at the time `now` and with the coin flips `coins` for
the level of a new node. -/
def ByDB.Save {C V : Type} [DecidableEq C] [GoEq (KeyVal C)] [CustomKey C] (d : ByDB C V) (key : KeyVal C)
    (value : Option V) (opts : List SaveOption) (now : Int) (coins : Nat → Bool) :
    Except Fault (Option Error × ByDB C V) := do
  d.checkBeforeOp
  match d.isValidKey key with
  | (_, some err) => pure (some err, d)
  | (custom0, none) => do
    let o : SaveOptions := opts.foldl (fun o opt => opt o) { isExpired := false, ttl := 0 }
    let (key1, custom) ←
      if d.withExpired then
        d.packWithExpire key custom0 (if o.isExpired then o.ttl else maxInt64) now
      else pure (key, custom0)
    d.saveEntry key1 custom value coins

/-- Go `(*ByDB).customKeyRLock`; the flag `locked` only chooses whether the read
lock is taken. -/
def ByDB.customKeyRLock {C V : Type} [DecidableEq C] (d : ByDB C V) (key : String)
    (_locked : Bool) : KeyVal C × Option Error :=
  let custom := mapGet d.keys key
  if custom = KeyVal.nilKey then (custom, some Error.ErrNotFound) else (custom, none)

/-- Go `(*ByDB).getCustomKey`. -/
def ByDB.getCustomKey {C V : Type} [DecidableEq C] [CustomKey C] (d : ByDB C V)
    (key : KeyVal C) (locked : Bool) : Except Fault (KeyVal C × Option Error) :=
  match key.asString with
  | some k => pure (d.customKeyRLock k locked)
  | none =>
    if !key.isCustomKey then pure (KeyVal.nilKey, some Error.ErrNotFound)
    else if d.withExpired then do
      let name ← key.Key
      pure (d.customKeyRLock name locked)
    else pure (key, none)

/-- Go `(*ByDB).Get`. -/
def ByDB.Get {C V : Type} [DecidableEq C] [GoEq (KeyVal C)] [CustomKey C] (d : ByDB C V) (key : KeyVal C) :
    Except Fault (Option V × Option Error) := do
  d.checkBeforeOp
  if !d.withExpired && d.typ = keyType.String then d.data.Get key.toIface
  else do
    let r ← d.getCustomKey key true
    match r with
    | (_, some err) => pure (none, some err)
    | (custom, none) => d.data.Get custom.toIface

/-- Go `(*ByDB).Delete`. -/
def ByDB.Delete {C V : Type} [DecidableEq C] [GoEq (KeyVal C)] [CustomKey C] (d : ByDB C V) (key : KeyVal C) :
    Except Fault (Option Error × ByDB C V) := do
  d.checkBeforeOp
  if !d.withExpired && d.typ = keyType.String then do
    let r ← d.data.Del key.toIface
    pure (r.1, { d with data := r.2 })
  else do
    let r ← d.getCustomKey key true
    match r with
    | (_, some err) => pure (some err, d)
    | (custom, none) => do
      let r1 ← d.data.Del custom.toIface
      let d1 : ByDB C V := { d with data := r1.2 }
      match r1.1 with
      | some err => pure (some err, d1)
      | none => do
        let r2 ← d1.getCustomKey key false
        match r2 with
        | (_, some err) => pure (some err, d1)
        | (custom1, none) => do
          let name ← custom1.Key
          pure (none, { d1 with keys := mapDelete d1.keys name })

/-- Go `query`. -/
def query {V : Type} (v : Option V) (queries : List (Query V)) : Bool :=
  queries.all (fun q => q v)

/-- The loop of `(*ByDB).Count`, with `fuel` bounding the iterations. -/
def countLoop {C V : Type} (mem : List (node (KeyVal C) V)) (queries : List (Query V)) :
    Nat → iterator (KeyVal C) V → Int → Except Fault Int
  | 0, _, _ => throw Fault.outOfFuel
  | fuel + 1, it, count => do
    let (b, it1) ← it.HasNext mem
    if b then
      match it1.Value with
      | none => countLoop mem queries fuel it1 count
      | some v =>
        if !query (some v) queries then countLoop mem queries fuel it1 count
        else countLoop mem queries fuel it1 (count + 1)
    else pure count

/-- Go `(*ByDB).Count`. -/
def ByDB.Count {C V : Type} (d : ByDB C V) (queries : List (Query V)) :
    Except Fault (Int × Option Error) := do
  d.checkBeforeOp
  if queries.length = 0 then pure (d.data.Len, none)
  else do
    let count ← countLoop d.data.mem queries (d.data.mem.length + 1) d.data.Iterator 0
    pure (count, none)

/-- Go `make([]interface{}, 0, cap)` on a machine that can reserve `avail`
slots: the slice is empty, and the program dies when the capacity is above
`avail`. -/
def reserve (cap avail : Int) : Except Fault Unit := do
  let _ ← make 0 cap
  if avail < cap then throw Fault.outOfMemory else pure ()

/-- The loop of `(*ByDB).List`, with `fuel` bounding the iterations; `count` is
an `int32`. -/
def listLoop {C V : Type} (mem : List (node (KeyVal C) V)) (queries : List (Query V))
    (offset stop : Int) :
    Nat → iterator (KeyVal C) V → Int → List (Option V) → Bool →
      Except Fault (List (Option V) × Bool)
  | 0, _, _, _, _ => throw Fault.outOfFuel
  | fuel + 1, it, count, ret, hasNextPage => do
    let (b, it1) ← it.HasNext mem
    if b then
      if hasNextPage then pure (ret, hasNextPage)
      else
        match it1.Value with
        | none => listLoop mem queries offset stop fuel it1 count ret hasNextPage
        | some v =>
          if !query (some v) queries then
            listLoop mem queries offset stop fuel it1 count ret hasNextPage
          else if count ≥ stop then
            listLoop mem queries offset stop fuel it1 count ret true
          else
            listLoop mem queries offset stop fuel it1 (wrap32 (count + 1))
              (if offset ≤ count then ret ++ [some v] else ret) hasNextPage
    else pure (ret, hasNextPage)

/-- Go `(*ByDB).List` (named `list`, as `ByDB.List` would hide the type of lists
in the declarations on `ByDB`); `page` and `pageSize` are `int32` values. -/
def ByDB.list {C V : Type} (d : ByDB C V) (page pageSize : Int) (queries : List (Query V))
    (avail : Int) : Except Fault (List (Option V) × Bool × Option Error) := do
  d.checkBeforeOp
  let offset := wrap32 ((page - 1) * pageSize)
  let stop := wrap32 (offset + pageSize)
  reserve pageSize avail
  let r ← listLoop d.data.mem queries offset stop (d.data.mem.length + 1) d.data.Iterator 0 []
    false
  pure (r.1, r.2, none)

/-- Go `(*ByDB).Iterator`. -/
def ByDB.Iterator {C V : Type} (d : ByDB C V) : Except Fault (iterator (KeyVal C) V) := do
  d.checkBeforeOp
  pure d.data.Iterator

/-- The loop of one tick of `(*ByDB).background`, with `fuel` bounding the
iterations. -/
def backgroundLoop {C V : Type} [DecidableEq C] [GoEq (KeyVal C)] [CustomKey C] (now : Int) :
    Nat → ByDB C V → iterator (KeyVal C) V → Except Fault (ByDB C V)
  | 0, _, _ => throw Fault.outOfFuel
  | fuel + 1, d, it => do
    let (b, it1) ← it.HasNext d.data.mem
    if b then
      match it1.Key with
      | some (KeyVal.expireCustomKey typ expireTime strKey key) =>
        if expireTime ≤ now then do
          let r ← d.data.Del it1.Key
          let d1 : ByDB C V := { d with data := r.2 }
          match r.1 with
          | some _ => backgroundLoop now fuel d1 it1
          | none => do
            let name ← (KeyVal.expireCustomKey typ expireTime strKey key).Key
            backgroundLoop now fuel { d1 with keys := mapDelete d1.keys name } it1
        else backgroundLoop now fuel d it1
      | _ => backgroundLoop now fuel d it1
    else pure d

/-- One tick of Go `(*ByDB).background`, at the time `now`. -/
def ByDB.background {C V : Type} [DecidableEq C] [GoEq (KeyVal C)] [CustomKey C] (d : ByDB C V) (now : Int) :
    Except Fault (ByDB C V) := do
  let iter ← d.Iterator
  backgroundLoop now (d.data.mem.length + 1) d iter

end SimpleDB


namespace SimpleDB

/-! ## The database layer: orders, invariants and histories -/

/-- The relation a comparator decides when it compares keys through a partial
view of them: the keys with a view are ordered by `ltX` on their views, and come
before the keys without one. -/
def liftLt {K X : Type} (view : K → Option X) (ltX : X → X → Bool) (a b : K) : Bool :=
  match view a, view b with
  | some x, some y => ltX x y
  | some _, none => true
  | none, _ => false

/-- Strings by `stringLt`, values of the caller's key type by `lt0`, strings
first. -/
def sumLt {C : Type} (lt0 : C → C → Bool) : String ⊕ C → String ⊕ C → Bool
  | Sum.inl a, Sum.inl b => stringLt a b
  | Sum.inr a, Sum.inr b => lt0 a b
  | Sum.inl _, Sum.inr _ => true
  | Sum.inr _, Sum.inl _ => false

/-- What the comparator of a store looks at in a key of its skip list: the
string itself or the value of the caller's key type, on a store without
expiration; the field `strKey` or the value in the field `key` of a wrapper, on
a store with expiration.  Keys of any other shape have no view. -/
def storeView {C : Type} (typ : keyType) (exp : Bool) : KeyVal C → Option (String ⊕ C)
  | KeyVal.str s => if typ = keyType.String ∧ exp = false then some (Sum.inl s) else none
  | KeyVal.custom c => if typ ≠ keyType.String ∧ exp = false then some (Sum.inr c) else none
  | KeyVal.expireCustomKey _ _ s k =>
    if exp = true then
      if typ = keyType.String then some (Sum.inl s)
      else
        match k with
        | KeyVal.custom c => some (Sum.inr c)
        | _ => none
    else none
  | _ => none

/-- Every key held by a cell of the heap satisfies `Q`. -/
def HeapKeys {K V : Type} (Q : K → Prop) (mem : List (node K V)) : Prop :=
  ∀ x a, keyAt mem x = some a → Q a

/-- The entry `(k, v)` is in `l`, after entries that are all less than `k`. -/
def Front {K V : Type} (lt : K → K → Bool) (k : K) (v : V) (l : List (K × V)) : Prop :=
  ∃ lA r, l = lA ++ (k, v) :: r ∧ ∀ e ∈ lA, lt e.1 k = true

/-- The skip list `s` holds the association list `l`, ordered by the relation
its comparator decides on the keys that have a view; every key in its heap has
one. -/
structure SInv {K V X : Type} (view : K → Option X) (ltX : X → X → Bool)
    (s : skipList K V) (l : List (K × Option V)) : Prop where
  rep : Rep s l
  sorted : SortedA (liftLt view ltX) l
  heap : HeapKeys (fun a => (view a).isSome = true) s.mem
  cmp : ∀ a b, (view a).isSome = true → (view b).isSome = true →
    s.less (some a) (some b) = Except.ok (liftLt view ltX a b)

/-- Invariant of a store whose custom keys are compared by `lt0`. -/
structure DBInv {C V : Type} (lt0 : C → C → Bool) (d : ByDB C V) : Prop where
  init : d.hasInit = true
  typ : d.typ = keyType.String ∨ d.typ = keyType.Custom
  keys : d.keys = none → d.typ = keyType.String ∧ d.withExpired = false
  store : ∃ l, SInv (storeView d.typ d.withExpired) (sumLt lt0) d.data l
  index : ∀ n, mapGet d.keys n = KeyVal.nilKey ∨
    (storeView d.typ d.withExpired (mapGet d.keys n)).isSome = true

/-- A call that changes a store: `Save` (at a time, with coin flips), `Delete`,
or one tick of `background` (at a time). -/
inductive DBOp (C V : Type) where
  | save (key : KeyVal C) (value : Option V) (opts : List SaveOption) (now : Int)
      (coins : Nat → Bool)
  | delete (key : KeyVal C)
  | tick (now : Int)

/-- The call is not a `Save` whose key is itself a value of the wrapper type
`expireCustomKey`. -/
def DBOp.plain {C V : Type} : DBOp C V → Prop
  | DBOp.save (KeyVal.expireCustomKey _ _ _ _) _ _ _ _ => False
  | _ => True

/-- One call on a store; `background` runs on the stores with expiration only. -/
def ByDB.step {C V : Type} [DecidableEq C] [GoEq (KeyVal C)] [CustomKey C] (d : ByDB C V) :
    DBOp C V → Except Fault (ByDB C V)
  | DBOp.save key value opts now coins => do
    let r ← d.Save key value opts now coins
    pure r.2
  | DBOp.delete key => do
    let r ← d.Delete key
    pure r.2
  | DBOp.tick now => if d.withExpired then d.background now else pure d

/-- A sequence of calls, each on the store the previous one left. -/
def ByDB.run {C V : Type} [DecidableEq C] [GoEq (KeyVal C)] [CustomKey C] (d : ByDB C V) :
    List (DBOp C V) → Except Fault (ByDB C V)
  | [] => pure d
  | op :: ops => do
    let d1 ← d.step op
    d1.run ops

/-- The logical name of a key a caller saves: the string itself, or the result
of `Key()`. -/
def logicalName {C : Type} [CustomKey C] : KeyVal C → Option String
  | KeyVal.str s => some s
  | KeyVal.custom c => some (CustomKey.Key c)
  | _ => none

/-! ## Concrete stores used to instantiate the theorems -/

/-- Go `type customKey struct { key string; seq int32 }` of `db_test.go`. -/
structure customKey where
  key : String
  seq : Int
  deriving DecidableEq, Repr

instance : CustomKey customKey := ⟨fun k => k.key⟩

/-- The relation the comparator of `db_test.go` decides: by the field `seq`. -/
def customLt (a b : customKey) : Bool := decide (a.seq < b.seq)

/-- The comparator handed to `NewCustomByDB` in `db_test.go`. -/
def customLess : Option (KeyVal customKey) → Option (KeyVal customKey) → Except Fault Bool
  | some (KeyVal.custom l), some (KeyVal.custom r) => pure (if l.seq < r.seq then true else false)
  | _, _ => throw Fault.typeAssertion

/-- Coin flips that all fail: every new node gets level 0. -/
def noCoins : Nat → Bool := fun _ => false

/-- A store of string keys with expiration. -/
def expStore : ByDB customKey Nat := NewByDB [DBOptionWithExpired]

/-- The store a history of calls leaves, or the start when a call aborts. -/
def dbRunD {C V : Type} [DecidableEq C] [GoEq (KeyVal C)] [CustomKey C] (d : ByDB C V)
    (ops : List (DBOp C V)) : ByDB C V :=
  match d.run ops with
  | Except.ok d1 => d1
  | Except.error _ => d

/-- The store a call of `Save` leaves, or the start when the call aborts. -/
def saveD {C V : Type} [DecidableEq C] [GoEq (KeyVal C)] [CustomKey C] (d : ByDB C V) (key : KeyVal C)
    (value : Option V) (opts : List SaveOption) (now : Int) (coins : Nat → Bool) :
    ByDB C V :=
  match d.Save key value opts now coins with
  | Except.ok r => r.2
  | Except.error _ => d

/-- The call `Save("a", 1, SaveOptionTTL(5))` at the time 100. -/
def saveA5 : DBOp customKey Nat :=
  DBOp.save (KeyVal.str "a") (some 1) [SaveOptionTTL 5] 100 noCoins

/-- The store after `Save("a", 1, SaveOptionTTL(5))` at the time 100. -/
def expState1 : ByDB customKey Nat := dbRunD expStore [saveA5]

/-- The store after a second call, `Save("a", 2, SaveOptionTTL(50))`, at the
same time. -/
def expState2 : ByDB customKey Nat :=
  saveD expState1 (KeyVal.str "a") (some 2) [SaveOptionTTL 50] 100 noCoins

/-- The call `Save("a", 2, SaveOptionTTL(50))` at the time 100. -/
def saveA50 : DBOp customKey Nat :=
  DBOp.save (KeyVal.str "a") (some 2) [SaveOptionTTL 50] 100 noCoins

/-- The store after the two calls and one tick of `background` at the time 110. -/
def expState3 : ByDB customKey Nat := dbRunD expState2 [DBOp.tick 110]

/-- The wrapper of the string key `"a"` with the expiry timestamp `t`. -/
def wrapA (t : Int) : KeyVal customKey :=
  KeyVal.expireCustomKey keyType.String t "a" KeyVal.nilKey

/-- The store after `Save("a", 1)`, without a TTL option, at the time
1700000000. -/
def noTtlState : ByDB customKey Nat :=
  saveD expStore (KeyVal.str "a") (some 1) [] 1700000000 noCoins

/-- The store after `Save("a", 1)` and one tick of `background`, both at the
time 1700000000. -/
def noTtlSwept : ByDB customKey Nat := dbRunD noTtlState [DBOp.tick 1700000000]

end SimpleDB


namespace SimpleDB

/-! ## More concrete stores -/

/-- Go `newCustomKey` of `db_test.go`. -/
def newCustomKey (key : String) (seq : Int) : KeyVal customKey :=
  KeyVal.custom { key := key, seq := seq }

/-- A store of custom keys without expiration, with the comparator of
`db_test.go`. -/
def customStore : ByDB customKey Nat := NewCustomByDB customLess []

/-- A store of string keys without expiration. -/
def plainStore : ByDB customKey Nat := NewByDB []

/-- Coin flips that all succeed: a new node gets level 32. -/
def allCoins : Nat → Bool := fun _ => true

/-- A call of `Save` on a store of custom keys without options, at the time 0,
the new node getting level 0. -/
def saveC (key : String) (seq : Int) (value : Nat) : DBOp customKey Nat :=
  DBOp.save (newCustomKey key seq) (some value) [] 0 noCoins

/-- The custom store after `Save({a, 1}, 1)`, `Save({b, 1}, 2)` and
`Save({a, 2}, 3)`. -/
def staleState : ByDB customKey Nat :=
  dbRunD customStore [saveC "a" 1 1, saveC "b" 1 2, saveC "a" 2 3]

/-- The store `staleState` after `Save({a, 3}, 4)`. -/
def staleState1 : ByDB customKey Nat :=
  saveD staleState (newCustomKey "a" 3) (some 4) [] 0 noCoins

/-- The store `staleState1` after `Save({a, 4}, 5)`. -/
def staleState2 : ByDB customKey Nat :=
  saveD staleState1 (newCustomKey "a" 4) (some 5) [] 0 noCoins

/-- The plain store after `Save("a", 1)` in which the new node gets level 32. -/
def tallPlain : ByDB customKey Nat :=
  saveD plainStore (KeyVal.str "a") (some 1) [] 0 allCoins

/-- The custom store after `Save({a, 1}, 1)` in which the new node gets level
32. -/
def tallCustom : ByDB customKey Nat :=
  saveD customStore (newCustomKey "a" 1) (some 1) [] 0 allCoins

/-- The plain store after `Save("a", 1)`. -/
def plainState1 : ByDB customKey Nat :=
  saveD plainStore (KeyVal.str "a") (some 1) [] 0 noCoins

/-- The plain store after `Save("a", nil)`. -/
def nilValueState : ByDB customKey Nat :=
  saveD plainStore (KeyVal.str "a") none [] 0 noCoins

end SimpleDB


namespace SimpleDB

/-! ## What the scans of `Count` and `List` compute on the sequence of values -/

/-- The loop of `Count` on the sequence of the values the iterator yields. -/
def countSpec {V : Type} (queries : List (Query V)) : List (Option V) → Int → Int
  | [], count => count
  | none :: r, count => countSpec queries r count
  | some v :: r, count =>
    if !query (some v) queries then countSpec queries r count
    else countSpec queries r (count + 1)

/-- The loop of `List` on the sequence of the values the iterator yields. -/
def listSpec {V : Type} (queries : List (Query V)) (offset stop : Int) :
    List (Option V) → Int → List (Option V) → Bool → List (Option V) × Bool
  | [], _, ret, hasNextPage => (ret, hasNextPage)
  | v :: r, count, ret, hasNextPage =>
    if hasNextPage then (ret, hasNextPage)
    else
      match v with
      | none => listSpec queries offset stop r count ret hasNextPage
      | some x =>
        if !query (some x) queries then listSpec queries offset stop r count ret hasNextPage
        else if count ≥ stop then listSpec queries offset stop r count ret true
        else
          listSpec queries offset stop r (wrap32 (count + 1))
            (if offset ≤ count then ret ++ [some x] else ret) hasNextPage

/-- The values that are not nil and satisfy every predicate. -/
def matching {V : Type} (queries : List (Query V)) (vals : List (Option V)) :
    List (Option V) :=
  vals.filter (fun v => v.isSome && query v queries)

/-- The store has been made by a constructor and its skip list is well formed,
with the cells `ns` after the sentinel. -/
def ByDB.WellFormed {C V : Type} (d : ByDB C V) : Prop :=
  d.hasInit = true ∧ ∃ ns, Inv d.data ns

/-- Calls of `Save` with the keys `"b"`, `"a"`, `"d"`, `"c"` and the values 2,
1, 4, 3. -/
def fourOps : List (DBOp customKey Nat) :=
  [DBOp.save (KeyVal.str "b") (some 2) [] 0 noCoins,
   DBOp.save (KeyVal.str "a") (some 1) [] 0 noCoins,
   DBOp.save (KeyVal.str "d") (some 4) [] 0 noCoins,
   DBOp.save (KeyVal.str "c") (some 3) [] 0 noCoins]

/-- The plain store after the calls `fourOps`. -/
def fourState : ByDB customKey Nat := dbRunD plainStore fourOps

/-- The predicate `v <= 2` on values. -/
def atMostTwo : Query Nat
  | some v => decide (v ≤ 2)
  | none => false

/-- The entries of `fourState`, as its iterator yields them. -/
def fourEntries : List (Option (KeyVal customKey) × Option Nat) :=
  [(some (KeyVal.str "a"), some 1), (some (KeyVal.str "b"), some 2),
   (some (KeyVal.str "c"), some 3), (some (KeyVal.str "d"), some 4)]

/-! ## The top level of a skip list, and runs with replies -/

/-- The top level is not empty: the sentinel has one slot only, or a cell of
`ns` is as high as the sentinel. -/
def TopFull {K V : Type} (s : skipList K V) (ns : List Nat) : Prop :=
  ht s.mem s.head = 1 ∨ ∃ x ∈ ns, ht s.mem x = ht s.mem s.head

/-- A call on the skip list: `Set` (with the coin flips its `getNewLevel`
sees), `Get` or `Del`. -/
inductive Call (K V : Type) where
  | set (key : Option K) (value : Option V) (coins : Nat → Bool)
  | get (key : Option K)
  | del (key : Option K)

/-- One call, with what it returns: the value (nil for `Set` and `Del`) and the
error. -/
def skipList.call {K V : Type} [GoEq K] (s : skipList K V) :
    Call K V → Except Fault ((Option V × Option Error) × skipList K V)
  | Call.set key value coins => do
    let r ← s.Set key value coins
    pure ((none, r.1), r.2)
  | Call.get key => do
    let r ← s.Get key
    pure (r, s)
  | Call.del key => do
    let r ← s.Del key
    pure ((none, r.1), r.2)

/-- A sequence of calls, with what each returns. -/
def skipList.calls {K V : Type} [GoEq K] (s : skipList K V) :
    List (Call K V) → Except Fault (List (Option V × Option Error) × skipList K V)
  | [] => pure ([], s)
  | c :: cs => do
    let r ← s.call c
    let rs ← r.2.calls cs
    pure (r.1 :: rs.1, rs.2)

/-- One call on the association list, with what it returns. -/
def callA {K V : Type} [DecidableEq K] (lt : K → K → Bool) (l : List (K × Option V)) :
    Call K V → (Option V × Option Error) × List (K × Option V)
  | Call.set (some k) v _ => ((none, none), setA lt k v l)
  | Call.set none _ _ => ((none, some Error.ErrNilKey), l)
  | Call.get (some k) => (getResult (getA lt k l), l)
  | Call.get none => ((none, some Error.ErrNilKey), l)
  | Call.del (some k) =>
    ((none, if (getA lt k l).isSome then none else some Error.ErrNotFound), delA lt k l)
  | Call.del none => ((none, some Error.ErrNilKey), l)

/-- A sequence of calls on the association list, with what each returns. -/
def callsA {K V : Type} [DecidableEq K] (lt : K → K → Bool) :
    List (K × Option V) → List (Call K V) →
      List (Option V × Option Error) × List (K × Option V)
  | l, [] => ([], l)
  | l, c :: cs =>
    ((callA lt l c).1 :: (callsA lt (callA lt l c).2 cs).1,
      (callsA lt (callA lt l c).2 cs).2)

/-- The same call, up to the coin flips of a `Set`. -/
def Call.same {K V : Type} : Call K V → Call K V → Prop
  | Call.set k v _, Call.set k1 v1 _ => k = k1 ∧ v = v1
  | Call.get k, Call.get k1 => k = k1
  | Call.del k, Call.del k1 => k = k1
  | _, _ => False

/-- A relation on the natural numbers that is not transitive: 1 before 2 and 2
before 0, but not 1 before 0. -/
def cycleLt (a b : Nat) : Bool := (a == 1 && b == 2) || (a == 2 && b == 0)

/-- The result of a sequence of calls, or nothing when a call aborts. -/
def callsD {K V : Type} [GoEq K] (s : skipList K V) (cs : List (Call K V)) :
    List (Option V × Option Error) × skipList K V :=
  match s.calls cs with
  | Except.ok r => r
  | Except.error _ => ([], s)

/-- The calls `Set(1, 10)`, `Set(2, 20)`, `Set(0, 0)`, `Get(1)`, the second
with the coin flips `coins`. -/
def cycleCalls (coins : Nat → Bool) : List (Call Nat Nat) :=
  [Call.set (some 1) (some 10) (fun _ => false), Call.set (some 2) (some 20) coins,
   Call.set (some 0) (some 0) (fun _ => false), Call.get (some 1)]

/-- The empty list of natural-number keys compared by `cycleLt`. -/
def cycleList : skipList Nat Nat := NewSkipList (lessOf cycleLt)

/-- Coin flips of which only the first succeeds: the new node gets level 1. -/
def oneCoin : Nat → Bool := fun n => decide (n < 1)

/-- The calls `Set(2, 20)`, `Get(2)`, `Set(1, 10)`, `Del(2)`, `Get(2)`, the
first with the coin flips `coins`. -/
def tourCalls (coins : Nat → Bool) : List (Call Nat Nat) :=
  [Call.set (some 2) (some 20) coins, Call.get (some 2),
   Call.set (some 1) (some 10) (fun _ => false), Call.del (some 2), Call.get (some 2)]

end SimpleDB


namespace SimpleDB

/-! ## The chains of the skip list and its backward links -/

/-- The cells reached from `current` by following `forward[L]`, in the order in
which they are reached; `fuel` bounds the number of steps. -/
def chainLoop {K V : Type} (mem : List (node K V)) (L : Nat) :
    Nat → Nat → Except Fault (List Nat)
  | 0, _ => throw Fault.outOfFuel
  | fuel + 1, current => do
    let c ← deref mem current
    let nxt ← idx c.forward L
    match nxt with
    | none => pure []
    | some p => do
      let rest ← chainLoop mem L fuel p
      pure (p :: rest)

/-- The level-`L` chain of the list: the cells reached by following
`forward[L]` from the sentinel `s.head`, the sentinel itself left out. -/
def skipList.chain {K V : Type} (s : skipList K V) (L : Nat) : Except Fault (List Nat) :=
  chainLoop s.mem L (s.mem.length + 1) s.head

/-- The backward links mirror the sequence `ns`: the backward link of a cell of
`ns` is the cell right before it in `ns`, and nil for the first one. -/
def Mirror {K V : Type} (mem : List (node K V)) (ns : List Nat) : Prop :=
  ∀ (A : List Nat) (x : Nat) (B : List Nat), ns = A ++ x :: B → backAt mem x = A.getLast?

/-- The keys of the cells `l` ascend strictly under the comparator of `s`: of
two cells of `l`, the comparator puts the key of the earlier one before the key
of the later one. -/
def Ascending {K V : Type} (s : skipList K V) (l : List Nat) : Prop :=
  l.Pairwise (fun a b => s.less (keyAt s.mem a) (keyAt s.mem b) = Except.ok true)

/-- After `Set(1, 10)` with `getNewLevel` at 32: one more `Set`, of key 2 at
level 0. -/
def tallTwo : skipList Nat Nat := runD tallState [Op.set (some 2) (some 20) (fun _ => false)]

/-- A sequence of calls that leaves three nodes of the levels 1, 0 and 2: set 2,
set 1 (one level up), set 4 (two levels up), set 3, delete 3, set 2 again. -/
def chainOps : List (Op Nat Nat) :=
  [Op.set (some 2) (some 20) (fun _ => false),
   Op.set (some 1) (some 10) (fun n => decide (n < 1)),
   Op.set (some 4) (some 40) (fun n => decide (n < 2)),
   Op.set (some 3) (some 30) (fun _ => false),
   Op.del (some 3),
   Op.set (some 2) (some 21) (fun _ => false)]

/-- The list that the calls `chainOps` leave. -/
def chainState : skipList Nat Nat := runD natList chainOps

/-! ## Stores on which a `Save` that returns nil is not followed by a hit -/

/-- A store of custom keys with expiration, with the comparator of
`db_test.go`. -/
def customExpStore : ByDB customKey Nat := NewCustomByDB customLess [DBOptionWithExpired]

/-- The custom store with expiration after `Save({a, 1}, 1, SaveOptionTTL(5))`
at the time 100. -/
def customExpState1 : ByDB customKey Nat :=
  saveD customExpStore (newCustomKey "a" 1) (some 1) [SaveOptionTTL 5] 100 noCoins

/-- The key that the iterator of `customExpState1` yields: a value of the
wrapper type `expireCustomKey`. -/
def wrapCustomA : KeyVal customKey :=
  KeyVal.expireCustomKey keyType.Custom 105 "" (newCustomKey "a" 1)

/-- A new custom store with expiration after `Save(wrapCustomA, 2,
SaveOptionTTL(5))` at the time 100. -/
def wrapSaved : ByDB customKey Nat :=
  saveD customExpStore wrapCustomA (some 2) [SaveOptionTTL 5] 100 noCoins

/-- A new custom store without expiration after `Save(wrapCustomA, 2)`. -/
def wrapSavedPlain : ByDB customKey Nat :=
  saveD customStore wrapCustomA (some 2) [] 0 noCoins

/-- A comparator of the caller that puts every key before every key. -/
def alwaysLess : Option (KeyVal customKey) → Option (KeyVal customKey) → Except Fault Bool :=
  fun _ _ => pure true

/-- A store of custom keys with the comparator `alwaysLess`. -/
def looseStore : ByDB customKey Nat := NewCustomByDB alwaysLess []

/-- The store `looseStore` after `Save({a, 1}, 1)`. -/
def looseState1 : ByDB customKey Nat :=
  saveD looseStore (newCustomKey "a" 1) (some 1) [] 0 noCoins

/-- A key type of the caller with a `float64` field:
`type scoreKey struct { name string; score float64 }`, with `Key()` returning
`name`. -/
structure scoreKey where
  name : String
  score : F64
  deriving DecidableEq, Repr

instance instCustomKeyScoreKey : CustomKey scoreKey := ⟨fun k => k.name⟩

/-- Go `==` on two keys over `scoreKey`: field by field, so that a key with a NaN
score differs from itself. -/
def scoreKeyEq : KeyVal scoreKey → KeyVal scoreKey → Bool
  | KeyVal.nilKey, KeyVal.nilKey => true
  | KeyVal.str a, KeyVal.str b => decide (a = b)
  | KeyVal.custom a, KeyVal.custom b => decide (a.name = b.name) && f64Eq a.score b.score
  | KeyVal.customPtr a, KeyVal.customPtr b => decide (a = b)
  | KeyVal.other a, KeyVal.other b => decide (a = b)
  | KeyVal.expireCustomKey t e s k, KeyVal.expireCustomKey t1 e1 s1 k1 =>
    decide (t = t1) && decide (e = e1) && decide (s = s1) && scoreKeyEq k k1
  | _, _ => false

instance instGoEqScoreKey : GoEq (KeyVal scoreKey) where
  eq a b := pure (scoreKeyEq a b)

/-- The relation the comparator `scoreLess` decides: by the field `name`. -/
def scoreLt (a b : scoreKey) : Bool := stringLt a.name b.name

/-- A comparator of the caller for `scoreKey` values, by the field `name`. -/
def scoreLess : Option (KeyVal scoreKey) → Option (KeyVal scoreKey) → Except Fault Bool
  | some (KeyVal.custom l), some (KeyVal.custom r) => pure (stringLt l.name r.name)
  | _, _ => throw Fault.typeAssertion

/-- A store of `scoreKey` keys without expiration. -/
def scoreStore : ByDB scoreKey Nat := NewCustomByDB scoreLess []

/-- The key `scoreKey{"a", NaN}`. -/
def nanKey : KeyVal scoreKey := KeyVal.custom { name := "a", score := F64.nan }

/-- The store `scoreStore` after `Save(scoreKey{"a", NaN}, 1)`. -/
def scoreState1 : ByDB scoreKey Nat := saveD scoreStore nanKey (some 1) [] 0 noCoins

end SimpleDB


namespace SimpleDB

/-! ## Reading and writing the heap -/

section Heap

variable {K V : Type}

theorem ok_bind {ε α β : Type} (a : α) (f : α → Except ε β) :
    (Except.ok a >>= f) = f a := rfl

theorem error_bind {ε α β : Type} (e : ε) (f : α → Except ε β) :
    ((Except.error e : Except ε α) >>= f) = Except.error e := rfl

theorem pure_eq_ok {ε α : Type} (a : α) : (pure a : Except ε α) = Except.ok a := rfl

theorem ht_pos_lt {mem : List (node K V)} {p : Nat} (h : 0 < ht mem p) :
    p < mem.length := by
  by_contra hc
  have : mem[p]? = none := List.getElem?_eq_none (by omega)
  simp [ht, this] at h

theorem deref_of_lt {mem : List (node K V)} {p : Nat} (h : p < mem.length) :
    deref mem p = Except.ok mem[p] := by
  simp [deref, List.getElem?_eq_getElem h, pure, Except.pure]

theorem deref_eq_ok {mem : List (node K V)} {p : Nat} {n : node K V}
    (h : mem[p]? = some n) : deref mem p = Except.ok n := by
  simp [deref, h, pure, Except.pure]

theorem ht_of_get {mem : List (node K V)} {p : Nat} {n : node K V}
    (h : mem[p]? = some n) : ht mem p = n.forward.length := by
  simp [ht, h]

theorem fwd_of_get {mem : List (node K V)} {p : Nat} {n : node K V}
    (h : mem[p]? = some n) (i : Nat) : fwd mem p i = n.forward[i]? := by
  simp [fwd, h]

theorem keyAt_of_get {mem : List (node K V)} {p : Nat} {n : node K V}
    (h : mem[p]? = some n) : keyAt mem p = n.key := by
  simp [keyAt, h]

theorem valAt_of_get {mem : List (node K V)} {p : Nat} {n : node K V}
    (h : mem[p]? = some n) : valAt mem p = n.value := by
  simp [valAt, h]

theorem backAt_of_get {mem : List (node K V)} {p : Nat} {n : node K V}
    (h : mem[p]? = some n) : backAt mem p = n.backward := by
  simp [backAt, h]

theorem get_of_lt {mem : List (node K V)} {p : Nat} (h : p < mem.length) :
    mem[p]? = some mem[p] := List.getElem?_eq_getElem h

theorem fwd_lt_ht {mem : List (node K V)} {p i : Nat} {q : Option Nat}
    (h : fwd mem p i = some q) : i < ht mem p := by
  unfold fwd at h
  unfold ht
  cases hm : mem[p]? with
  | none => simp [hm] at h
  | some n =>
    simp only [hm] at h ⊢
    by_contra hc
    rw [List.getElem?_eq_none (by omega)] at h
    exact Option.noConfusion h

theorem idx_of_fwd {mem : List (node K V)} {p i : Nat} {n : node K V} {q : Option Nat}
    (hn : mem[p]? = some n) (h : fwd mem p i = some q) : idx n.forward i = Except.ok q := by
  rw [fwd_of_get hn] at h
  simp [idx, h, pure, Except.pure]

theorem SameLinks.refl (mem : List (node K V)) : SameLinks mem mem :=
  ⟨rfl, fun _ => ⟨rfl, rfl, fun _ => rfl⟩⟩

theorem SameLinks.trans {a b c : List (node K V)} (h1 : SameLinks a b)
    (h2 : SameLinks b c) : SameLinks a c :=
  ⟨h2.1.trans h1.1, fun p =>
    ⟨(h2.2 p).1.trans (h1.2 p).1, (h2.2 p).2.1.trans (h1.2 p).2.1,
      fun i => ((h2.2 p).2.2 i).trans ((h1.2 p).2.2 i)⟩⟩

theorem get_set_ne {mem : List (node K V)} {p q : Nat} (n : node K V) (h : q ≠ p) :
    (mem.set p n)[q]? = mem[q]? := by
  rw [List.getElem?_set]
  simp [Ne.symm h]

theorem get_set_self {mem : List (node K V)} {p : Nat} (n : node K V)
    (h : p < mem.length) : (mem.set p n)[p]? = some n := by
  rw [List.getElem?_set]
  simp [h]

theorem sameLinks_set {mem : List (node K V)} {p : Nat} {n m : node K V}
    (hn : mem[p]? = some n) (hf : m.forward = n.forward) (hk : m.key = n.key) :
    SameLinks mem (mem.set p m) := by
  have hp : p < mem.length := by
    by_contra hc
    rw [List.getElem?_eq_none (by omega)] at hn
    exact Option.noConfusion hn
  refine ⟨by simp, fun q => ?_⟩
  by_cases hq : q = p
  · subst hq
    have h1 := @get_set_self _ _ mem _ m hp
    refine ⟨?_, ?_, fun i => ?_⟩
    · rw [ht_of_get h1, ht_of_get hn, hf]
    · rw [keyAt_of_get h1, keyAt_of_get hn, hk]
    · rw [fwd_of_get h1, fwd_of_get hn, hf]
  · have h1 := @get_set_ne _ _ mem _ _ m hq
    refine ⟨?_, ?_, fun i => ?_⟩
    · simp [ht, h1]
    · simp [keyAt, h1]
    · simp [fwd, h1]

theorem writeBackward_spec {mem : List (node K V)} {p : Nat} (q : Option Nat)
    (hp : p < mem.length) :
    ∃ mem1, writeBackward mem p q = Except.ok mem1 ∧ SameLinks mem mem1 ∧
      (∀ x, valAt mem1 x = valAt mem x) ∧ backAt mem1 p = q ∧
      ∀ x, x ≠ p → backAt mem1 x = backAt mem x := by
  refine ⟨mem.set p { mem[p] with backward := q }, ?_, ?_, ?_, ?_, ?_⟩
  · simp [writeBackward, deref_of_lt hp, bind, Except.bind, pure, Except.pure]
  · exact sameLinks_set (get_of_lt hp) rfl rfl
  · intro x
    by_cases hx : x = p
    · subst hx
      rw [valAt_of_get (get_set_self _ hp), valAt_of_get (get_of_lt hp)]
    · simp [valAt, get_set_ne _ hx]
  · rw [backAt_of_get (get_set_self _ hp)]
  · intro x hx
    simp [backAt, get_set_ne _ hx]

/-- Effect of one assignment `p.forward[i] = q` on the heap. -/
theorem writeForward_spec {mem : List (node K V)} {p i : Nat} (q : Option Nat)
    (hi : i < ht mem p) :
    ∃ mem1, writeForward mem p i q = Except.ok mem1 ∧ mem1.length = mem.length ∧
      (∀ x, ht mem1 x = ht mem x) ∧ (∀ x, keyAt mem1 x = keyAt mem x) ∧
      (∀ x, valAt mem1 x = valAt mem x) ∧ (∀ x, backAt mem1 x = backAt mem x) ∧
      (∀ x j, fwd mem1 x j = if x = p ∧ j = i then some q else fwd mem x j) := by
  have hp : p < mem.length := ht_pos_lt (by omega)
  have hg := get_of_lt hp
  have hi1 : i < mem[p].forward.length := by rw [ht_of_get hg] at hi; exact hi
  refine ⟨mem.set p { mem[p] with forward := mem[p].forward.set i q }, ?_, by simp,
    ?_, ?_, ?_, ?_, ?_⟩
  · simp [writeForward, deref_of_lt hp, bind, Except.bind, pure, Except.pure, hi1]
  · intro x
    by_cases hx : x = p
    · subst hx
      rw [ht_of_get (get_set_self _ hp), ht_of_get hg]; simp
    · simp [ht, get_set_ne _ hx]
  · intro x
    by_cases hx : x = p
    · subst hx
      rw [keyAt_of_get (get_set_self _ hp), keyAt_of_get hg]
    · simp [keyAt, get_set_ne _ hx]
  · intro x
    by_cases hx : x = p
    · subst hx
      rw [valAt_of_get (get_set_self _ hp), valAt_of_get hg]
    · simp [valAt, get_set_ne _ hx]
  · intro x
    by_cases hx : x = p
    · subst hx
      simp [backAt, get_set_self _ hp, hg]
    · simp [backAt, get_set_ne _ hx]
  · intro x j
    by_cases hx : x = p
    · subst hx
      rw [fwd_of_get (get_set_self _ hp)]
      by_cases hj : j = i
      · subst hj
        simp [List.getElem?_set, hi1]
      · simp only [hj, and_false, if_false]
        rw [fwd_of_get hg, List.getElem?_set]
        simp [Ne.symm hj]
    · simp [fwd, get_set_ne _ hx, hx]

end Heap

end SimpleDB


namespace SimpleDB

section Chains

variable {K V : Type}

theorem firstAt_nil (mem : List (node K V)) (i : Nat) : firstAt mem i [] = none := rfl

theorem firstAt_cons (mem : List (node K V)) (i p : Nat) (l : List Nat) :
    firstAt mem i (p :: l) = if i < ht mem p then some p else firstAt mem i l := by
  unfold firstAt
  by_cases h : i < ht mem p <;> simp [List.find?_cons, h]

theorem firstAt_append (mem : List (node K V)) (i : Nat) (a b : List Nat) :
    firstAt mem i (a ++ b) = (firstAt mem i a).or (firstAt mem i b) := by
  unfold firstAt
  exact List.find?_append

theorem firstAt_eq_none {mem : List (node K V)} {i : Nat} {l : List Nat} :
    firstAt mem i l = none ↔ ∀ x ∈ l, ht mem x ≤ i := by
  unfold firstAt
  rw [List.find?_eq_none]
  constructor
  · intro h x hx
    have := h x hx
    simpa using this
  · intro h x hx
    have := h x hx
    simp; omega

theorem firstAt_append_low {mem : List (node K V)} {i : Nat} {a : List Nat}
    (b : List Nat) (h : ∀ x ∈ a, ht mem x ≤ i) :
    firstAt mem i (a ++ b) = firstAt mem i b := by
  rw [firstAt_append, firstAt_eq_none.mpr h]
  rfl

theorem firstAt_some_split {mem : List (node K V)} {i : Nat} {l : List Nat} {q : Nat}
    (h : firstAt mem i l = some q) :
    i < ht mem q ∧ ∃ a b, l = a ++ q :: b ∧ ∀ x ∈ a, ht mem x ≤ i := by
  unfold firstAt at h
  rw [List.find?_eq_some] at h
  obtain ⟨hq, a, b, hl, ha⟩ := h
  refine ⟨by simpa using hq, a, b, hl, fun x hx => ?_⟩
  have := ha x hx
  simp at this
  exact this

theorem firstAt_mem {mem : List (node K V)} {i : Nat} {l : List Nat} {q : Nat}
    (h : firstAt mem i l = some q) : q ∈ l := by
  obtain ⟨_, a, b, hl, _⟩ := firstAt_some_split h
  rw [hl]; simp

theorem firstAt_congr {mem mem1 : List (node K V)} (i : Nat) {l : List Nat}
    (h : ∀ x ∈ l, ht mem1 x = ht mem x) : firstAt mem1 i l = firstAt mem i l := by
  induction l with
  | nil => rfl
  | cons p l ih =>
    rw [firstAt_cons, firstAt_cons, h p (by simp), ih (fun x hx => h x (by simp [hx]))]

theorem lastAt_append_low {mem : List (node K V)} {i : Nat} (a : List Nat) {b : List Nat}
    (h : ∀ x ∈ b, ht mem x ≤ i) : lastAt mem i (a ++ b) = lastAt mem i a := by
  unfold lastAt
  rw [List.reverse_append]
  exact firstAt_append_low _ (fun x hx => h x (by simpa using hx))

theorem lastAt_append_single {mem : List (node K V)} {i : Nat} (a : List Nat) {c : Nat}
    (h : i < ht mem c) : lastAt mem i (a ++ [c]) = some c := by
  unfold lastAt
  rw [List.reverse_append]
  simp [firstAt_cons, h]

theorem lastAt_congr {mem mem1 : List (node K V)} (i : Nat) {l : List Nat}
    (h : ∀ x ∈ l, ht mem1 x = ht mem x) : lastAt mem1 i l = lastAt mem i l := by
  unfold lastAt
  exact firstAt_congr i (fun x hx => h x (by simpa using hx))

/-- A pointer found by `lastAt` splits the list: nothing after it reaches level `i`. -/
theorem lastAt_some_split {mem : List (node K V)} {i : Nat} {l : List Nat} {q : Nat}
    (h : lastAt mem i l = some q) :
    i < ht mem q ∧ ∃ a b, l = a ++ q :: b ∧ ∀ x ∈ b, ht mem x ≤ i := by
  unfold lastAt at h
  obtain ⟨hq, a, b, hl, ha⟩ := firstAt_some_split h
  refine ⟨hq, b.reverse, a.reverse, ?_, fun x hx => ha x (by simpa using hx)⟩
  have := congrArg List.reverse hl
  simpa using this

theorem lastAt_mem {mem : List (node K V)} {i : Nat} {l : List Nat} {q : Nat}
    (h : lastAt mem i l = some q) : q ∈ l := by
  obtain ⟨_, a, b, hl, _⟩ := lastAt_some_split h
  rw [hl]; simp

theorem lastAt_of_split {mem : List (node K V)} {i : Nat} (a : List Nat) {q : Nat}
    {b : List Nat} (hq : i < ht mem q) (hb : ∀ x ∈ b, ht mem x ≤ i) :
    lastAt mem i (a ++ q :: b) = some q := by
  have : a ++ q :: b = (a ++ [q]) ++ b := by simp
  rw [this, lastAt_append_low _ hb, lastAt_append_single _ hq]

theorem Linked.suffix {mem : List (node K V)} {a b : List Nat}
    (h : Linked mem (a ++ b)) : Linked mem b := by
  intro A p B hb i hi
  exact h (a ++ A) p B (by rw [hb]; simp) i hi

theorem Linked.suffix_one {K V : Type} {mem : List (node K V)} {p : Nat} {b : List Nat}
    (h : Linked mem (p :: b)) : Linked mem b :=
  Linked.suffix (a := [p]) h

theorem Linked.sameHeap {mem mem1 : List (node K V)} {l : List Nat}
    (h : Linked mem l) (hh : ∀ x ∈ l, ht mem1 x = ht mem x)
    (hf : ∀ x ∈ l, ∀ i, fwd mem1 x i = fwd mem x i) : Linked mem1 l := by
  intro A p B hl i hi
  have hp : p ∈ l := by rw [hl]; simp
  rw [hf p hp, firstAt_congr i (fun x hx => hh x (by rw [hl]; simp [hx]))]
  exact h A p B hl i (by rw [← hh p hp]; exact hi)

theorem getLastD_append_cons (a : List Nat) (q : Nat) (b : List Nat) (p : Nat) :
    (a ++ q :: b).getLastD p = b.getLastD q := by
  induction a generalizing p with
  | nil => simp only [List.nil_append, List.getLastD_cons]
  | cons x a ih => simp only [List.cons_append, List.getLastD_cons]; exact ih x

/-- The list `p :: a` ends with `a.getLastD p`. -/
theorem cons_eq_append_getLastD (p : Nat) (a : List Nat) :
    ∃ c, p :: a = c ++ [a.getLastD p] := by
  induction a generalizing p with
  | nil => exact ⟨[], rfl⟩
  | cons x a ih =>
    obtain ⟨c, hc⟩ := ih x
    refine ⟨p :: c, ?_⟩
    simp only [List.getLastD_cons, List.cons_append]
    rw [← hc]

theorem getLastD_mem (p : Nat) (a : List Nat) (h : a ≠ []) : a.getLastD p ∈ a := by
  cases a with
  | nil => exact absurd rfl h
  | cons x a =>
    obtain ⟨c, hc⟩ := cons_eq_append_getLastD x a
    simp only [List.getLastD_cons]
    rw [hc]; simp

/-- Where a cell `p` of `P ++ n :: S` can sit. -/
theorem split_cases {P S A1 B1 : List Nat} {n p : Nat}
    (h : P ++ n :: S = A1 ++ p :: B1) :
    (p = n ∧ A1 = P ∧ B1 = S) ∨ (∃ a, S = a ++ p :: B1 ∧ A1 = P ++ n :: a) ∨
      (∃ c, P = A1 ++ p :: c ∧ B1 = c ++ n :: S) := by
  rcases List.append_eq_append_iff.mp h with ⟨a, h1, h2⟩ | ⟨c, h1, h2⟩
  · cases a with
    | nil =>
      simp only [List.nil_append, List.cons.injEq] at h2
      exact Or.inl ⟨h2.1.symm, by simpa using h1, h2.2.symm⟩
    | cons y a =>
      simp only [List.cons_append, List.cons.injEq] at h2
      exact Or.inr (Or.inl ⟨a, h2.2, by rw [h1, h2.1]⟩)
  · cases c with
    | nil =>
      simp only [List.nil_append, List.cons.injEq] at h2
      exact Or.inl ⟨h2.1, by simpa using h1.symm, h2.2⟩
    | cons y c =>
      simp only [List.cons_append, List.cons.injEq] at h2
      exact Or.inr (Or.inr ⟨c, by rw [h1, h2.1], h2.2⟩)

/-- Where a cell `p` of `P ++ S` can sit. -/
theorem split_cases2 {P S A1 B1 : List Nat} {p : Nat}
    (h : P ++ S = A1 ++ p :: B1) :
    (∃ a, S = a ++ p :: B1 ∧ A1 = P ++ a) ∨ (∃ c, P = A1 ++ p :: c ∧ B1 = c ++ S) := by
  rcases List.append_eq_append_iff.mp h with ⟨a, h1, h2⟩ | ⟨c, h1, h2⟩
  · exact Or.inl ⟨a, h2, h1⟩
  · cases c with
    | nil =>
      simp only [List.nil_append] at h2
      exact Or.inl ⟨[], by simpa using h2.symm, by simpa using h1.symm⟩
    | cons y c =>
      simp only [List.cons_append, List.cons.injEq] at h2
      exact Or.inr ⟨c, by rw [h1, h2.1], h2.2⟩

end Chains

end SimpleDB


namespace SimpleDB

section Walk

variable {K V : Type}

/-- The inner loop of `addressing` at level `i`, started at a cell `p` of the
sequence: it stops at the end of a stretch `M` of the cells after `p`; the cells
of `M` with a slot `i` all compare less than the key, and the next cell with a
slot `i`, if any, does not. -/
theorem walkLevel_spec (s : skipList K V) (key : Option K) (g : Nat → Bool) (i : Nat) :
    ∀ (fuel : Nat) (p : Nat) (B : List Nat),
      Linked s.mem (p :: B) → i < ht s.mem p →
      (∀ x ∈ B, s.less (keyAt s.mem x) key = Except.ok (g x)) →
      B.length < fuel →
      ∃ M B1, B = M ++ B1 ∧ walkLevel s key i fuel p = Except.ok (M.getLastD p) ∧
        i < ht s.mem (M.getLastD p) ∧ (∀ x ∈ M, i < ht s.mem x → g x = true) ∧
        (∀ f, firstAt s.mem i B1 = some f → g f = false) := by
  intro fuel
  induction fuel with
  | zero => intro p B _ _ _ h; exact absurd h (Nat.not_lt_zero _)
  | succ fuel ih =>
    intro p B hL hi hg hlen
    have hp : p < s.mem.length := ht_pos_lt (by omega)
    have hget := get_of_lt hp
    have hf := hL [] p B rfl i hi
    cases hfa : firstAt s.mem i B with
    | none =>
      rw [hfa] at hf
      refine ⟨[], B, rfl, ?_, hi, by simp, ?_⟩
      · simp only [walkLevel, deref_of_lt hp, idx_of_fwd hget hf, ok_bind]
        rfl
      · intro f hf1; rw [hfa] at hf1; exact Option.noConfusion hf1
    | some q =>
      rw [hfa] at hf
      obtain ⟨hq, B1, B2, hB, hlow⟩ := firstAt_some_split hfa
      have hqlt : q < s.mem.length := ht_pos_lt (by omega)
      have hqget := get_of_lt hqlt
      have hqmem : q ∈ B := firstAt_mem hfa
      have hless := hg q hqmem
      rw [keyAt_of_get hqget] at hless
      cases hgq : g q with
      | false =>
        refine ⟨[], B, rfl, ?_, hi, by simp, ?_⟩
        · simp only [walkLevel, deref_of_lt hp, idx_of_fwd hget hf, ok_bind,
            deref_of_lt hqlt, hless, hgq]
          rfl
        · intro f hf1
          rw [hfa] at hf1
          cases hf1; exact hgq
      | true =>
        have hL2 : Linked s.mem (q :: B2) := by
          have : p :: B = (p :: B1) ++ (q :: B2) := by rw [hB]; simp
          rw [this] at hL
          exact hL.suffix
        have hlen2 : B2.length < fuel := by
          rw [hB] at hlen; simp at hlen; omega
        obtain ⟨M, B3, hM, hw, hht, hall, hnext⟩ :=
          ih q B2 hL2 hq (fun x hx => hg x (by rw [hB]; simp [hx])) hlen2
        refine ⟨B1 ++ q :: M, B3, by rw [hB, hM]; simp, ?_, ?_, ?_, hnext⟩
        · simp only [walkLevel, deref_of_lt hp, idx_of_fwd hget hf, ok_bind,
            deref_of_lt hqlt, hless, hgq]
          rw [getLastD_append_cons]
          exact hw
        · rw [getLastD_append_cons]; exact hht
        · intro x hx hxi
          rcases List.mem_append.mp hx with h1 | h1
          · have := hlow x h1; omega
          · rcases List.mem_cons.mp h1 with h2 | h2
            · rw [h2]; exact hgq
            · exact hall x h2 hxi

end Walk

end SimpleDB


namespace SimpleDB

section Walk2

variable {K V : Type}

theorem getLastD_append (a b : List Nat) (d : Nat) :
    (a ++ b).getLastD d = b.getLastD (a.getLastD d) := by
  induction a generalizing d with
  | nil => rfl
  | cons x a ih => simp only [List.cons_append, List.getLastD_cons]; exact ih x

theorem nodup_length_le {l : List Nat} {n : Nat} (hd : l.Nodup) (h : ∀ x ∈ l, x < n) :
    l.length ≤ n := by
  have hs : l ⊆ List.range n := fun x hx => List.mem_range.mpr (h x hx)
  have := (List.subperm_of_subset hd hs).length_le
  simpa using this

theorem Inv.lt_length {s : skipList K V} {ns : List Nat} (h : Inv s ns) :
    ∀ x ∈ ns, x < s.mem.length :=
  fun x hx => ht_pos_lt (h.ht_pos x hx)

theorem Inv.head_lt {s : skipList K V} {ns : List Nat} (h : Inv s ns) :
    s.head < s.mem.length := ht_pos_lt h.head_ht

theorem Inv.length_le {s : skipList K V} {ns : List Nat} (h : Inv s ns) :
    ns.length < s.mem.length := by
  have h1 : (s.head :: ns).length ≤ s.mem.length :=
    nodup_length_le h.nodup (fun x hx => by
      rcases List.mem_cons.mp hx with h2 | h2
      · rw [h2]; exact h.head_lt
      · exact h.lt_length x h2)
  simpa using h1

/-- The sequence from the cell the walk stands at is linked. -/
theorem Inv.linked_from {s : skipList K V} {ns A S : List Nat} (h : Inv s ns)
    (hns : ns = A ++ S) : Linked s.mem (A.getLastD s.head :: S) := by
  obtain ⟨c, hc⟩ := cons_eq_append_getLastD s.head A
  have h1 : s.head :: ns = c ++ (A.getLastD s.head :: S) := by
    rw [hns, ← List.cons_append, hc]; simp
  have h2 := h.linked
  rw [h1] at h2
  exact h2.suffix

theorem getLastD_ht {s : skipList K V} {ns A S : List Nat} (h : Inv s ns)
    (hns : ns = A ++ S) : 1 ≤ ht s.mem (A.getLastD s.head) := by
  cases A with
  | nil => exact h.head_ht
  | cons x A =>
    exact h.ht_pos _ (by rw [hns]; exact List.mem_append_left _ (getLastD_mem _ _ (by simp)))

theorem getLastD_split (A0 : List Nat) (x : Nat) (c : List Nat) (d : Nat) :
    (A0 ++ x :: c).getLastD d ∈ x :: c := by
  rw [getLastD_append_cons]
  cases c with
  | nil => simp
  | cons y c => exact List.mem_cons_of_mem _ (getLastD_mem _ _ (by simp))

/-- The outer loop of `addressing`, with `n` levels left and the walk standing
at the end of `head :: A`. -/
theorem addressingLoop_spec {s : skipList K V} {ns : List Nat} (hinv : Inv s ns)
    (key : Option K) (g : Nat → Bool)
    (hg : ∀ x ∈ ns, s.less (keyAt s.mem x) key = Except.ok (g x)) :
    ∀ (n : Nat) (A S : List Nat) (upd : Option (List (Option Nat))),
      ns = A ++ S → n ≤ ht s.mem s.head →
      (A = [] ∨ n < ht s.mem (A.getLastD s.head)) →
      PathRec s.mem s.head A n upd →
      Stops s.mem g n (ht s.mem s.head) S →
      Records s.mem g n A →
      ∃ A1 S1 upd1, ns = A1 ++ S1 ∧
        addressingLoop s key n (A.getLastD s.head) upd
          = Except.ok (A1.getLastD s.head, upd1) ∧
        PathRec s.mem s.head A1 0 upd1 ∧
        upd1.map List.length = upd.map List.length ∧
        Stops s.mem g 0 (ht s.mem s.head) S1 ∧
        Records s.mem g 0 A1 := by
  intro n
  induction n with
  | zero =>
    intro A S upd hns _ _ hU hB hA
    exact ⟨A, S, upd, hns, rfl, hU, rfl, hB, hA⟩
  | succ i ih =>
    intro A S upd hns hn hcur hU hB hA
    have hcur1 : i < ht s.mem (A.getLastD s.head) := by
      rcases hcur with h | h
      · rw [h]; simp only [List.getLastD_nil]; omega
      · omega
    have hL := hinv.linked_from hns
    have hlen : S.length < s.mem.length + 1 := by
      have := hinv.length_le
      rw [hns] at this; simp at this; omega
    obtain ⟨M, B1, hS, hw, hht, hall, hnext⟩ :=
      walkLevel_spec s key g i (s.mem.length + 1) (A.getLastD s.head) S hL hcur1
        (fun x hx => hg x (by rw [hns]; simp [hx])) hlen
    -- the cells walked over have no slot above level `i`
    have hMlow : ∀ x ∈ M, ht s.mem x ≤ i + 1 := by
      intro x hx
      by_contra hc
      have hxns : x ∈ ns := by rw [hns, hS]; simp [hx]
      have hlt : i + 1 < ht s.mem s.head := by
        have := hinv.ht_le x hxns; omega
      cases hfa : firstAt s.mem (i + 1) M with
      | none =>
        have := firstAt_eq_none.mp hfa x hx
        omega
      | some f =>
        have hfS : firstAt s.mem (i + 1) S = some f := by
          rw [hS, firstAt_append, hfa]; rfl
        have h1 := hB (i + 1) (le_refl _) hlt f hfS
        have h2 := hall f (firstAt_mem hfa) (by have := (firstAt_some_split hfa).1; omega)
        rw [h1] at h2; exact Bool.noConfusion h2
    have hns1 : ns = (A ++ M) ++ B1 := by rw [hns, hS]; simp
    have hlast : (A ++ M).getLastD s.head = M.getLastD (A.getLastD s.head) :=
      getLastD_append A M s.head
    -- the update path after the write at index `i`
    have hupd : ∃ upd1, ((upd = none ∧ upd1 = none) ∨ (∃ u, upd = some u ∧ i < u.length ∧
          upd1 = some (u.set i (some (M.getLastD (A.getLastD s.head)))))) ∧
        PathRec s.mem s.head (A ++ M) i upd1 ∧
        upd1.map List.length = upd.map List.length := by
      cases upd with
      | none => exact ⟨none, Or.inl ⟨rfl, rfl⟩, trivial, rfl⟩
      | some u =>
        obtain ⟨hul, hu⟩ := hU
        have hiu : i < u.length := by omega
        refine ⟨some (u.set i (some (M.getLastD (A.getLastD s.head)))),
          Or.inr ⟨u, rfl, hiu, rfl⟩, ⟨by simpa using hul, ?_⟩, by simp⟩
        intro j hij hj
        rcases Nat.eq_or_lt_of_le hij with h1 | h1
        · subst h1
          rw [List.getElem?_set]
          simp only [hiu, if_true]
          obtain ⟨c, hc⟩ := cons_eq_append_getLastD s.head (A ++ M)
          rw [hc, hlast, lastAt_append_single _ hht]
        · rw [List.getElem?_set]
          simp only [Nat.ne_of_lt h1, if_false]
          rw [hu j (by omega) hj, ← List.cons_append,
            lastAt_append_low _ (fun x hx => by have := hMlow x hx; omega)]
    obtain ⟨upd1, hupd1, hU1, hlen1⟩ := hupd
    have hB1 : Stops s.mem g i (ht s.mem s.head) B1 := by
      intro j hij hj f hf
      rcases Nat.eq_or_lt_of_le hij with h1 | h1
      · subst h1; exact hnext f hf
      · apply hB j (by omega) hj f
        rw [hS, firstAt_append_low _ (fun x hx => by have := hMlow x hx; omega)]
        exact hf
    have hA1 : Records s.mem g i (A ++ M) := by
      intro A0 x A1 hsp hx hrec
      rcases split_cases2 hsp.symm.symm with ⟨a, h1, _⟩ | ⟨c, h1, h2⟩
      · exact hall x (by rw [h1]; simp) hx
      · have hrecA : ∀ y ∈ c, ht s.mem y ≤ ht s.mem x :=
          fun y hy => hrec y (by rw [h2]; simp [hy])
        by_cases hxi : i + 1 < ht s.mem x
        · exact hA A0 x c h1 hxi hrecA
        · exfalso
          have hAne : A ≠ [] := by rw [h1]; simp
          have hc1 : i + 1 < ht s.mem (A.getLastD s.head) := by
            rcases hcur with h | h
            · exact absurd h hAne
            · exact h
          have hmem := getLastD_split A0 x c s.head
          rw [← h1] at hmem
          rcases List.mem_cons.mp hmem with h3 | h3
          · rw [h3] at hc1; omega
          · have := hrecA _ h3; omega
    have hcur2 : (A ++ M) = [] ∨ i < ht s.mem ((A ++ M).getLastD s.head) := by
      right; rw [hlast]; exact hht
    obtain ⟨A2, S2, upd2, hns2, hrun, hU2, hlen2, hB2, hA2⟩ :=
      ih (A ++ M) B1 upd1 hns1 (by omega) hcur2 hU1 hB1 hA1
    refine ⟨A2, S2, upd2, hns2, ?_, hU2, hlen2.trans hlen1, hB2, hA2⟩
    rw [addressingLoop, hw, ok_bind]
    rw [hlast] at hrun
    rcases hupd1 with ⟨h1, h2⟩ | ⟨u, h1, h2, h3⟩
    · subst h1; subst h2
      exact hrun
    · subst h1; subst h3
      simp only [h2, if_true]
      exact hrun

end Walk2

end SimpleDB


namespace SimpleDB

section Addressing

variable {K V : Type}

theorem firstAt_zero_eq_head {mem : List (node K V)} {S : List Nat}
    (h : ∀ x ∈ S, 1 ≤ ht mem x) : firstAt mem 0 S = S.head? := by
  cases S with
  | nil => rfl
  | cons x S =>
    have := h x (by simp)
    rw [firstAt_cons]
    simp only [List.head?_cons]
    rw [if_pos (by omega)]

theorem next_of_fwd {mem : List (node K V)} {p : Nat} {n : node K V} {q : Option Nat}
    (hn : mem[p]? = some n) (h : fwd mem p 0 = some q) : n.next = q := by
  rw [fwd_of_get hn] at h
  unfold node.next
  cases hf : n.forward with
  | nil => rw [hf] at h; simp at h
  | cons x l => rw [hf] at h; simpa using h

/-- `addressing` from the sentinel on a well-formed list: the walk ends at the
end of `head :: A` for a split `ns = A ++ S`, returns the first cell of `S`, and
fills the update path with the last cells of `head :: A` at every level. -/
theorem addressing_spec {s : skipList K V} {ns : List Nat} (hinv : Inv s ns)
    (key : Option K) (g : Nat → Bool)
    (hg : ∀ x ∈ ns, s.less (keyAt s.mem x) key = Except.ok (g x))
    (upd : Option (List (Option Nat)))
    (hupd : ∀ u, upd = some u → ht s.mem s.head ≤ u.length) :
    ∃ A S upd1, ns = A ++ S ∧
      s.addressing key s.head upd = Except.ok ((S.head?, none), upd1) ∧
      PathRec s.mem s.head A 0 upd1 ∧
      upd1.map List.length = upd.map List.length ∧
      Stops s.mem g 0 (ht s.mem s.head) S ∧
      Records s.mem g 0 A := by
  have hU : PathRec s.mem s.head [] (ht s.mem s.head) upd := by
    cases upd with
    | none => trivial
    | some u => exact ⟨hupd u rfl, fun j h1 h2 => by omega⟩
  obtain ⟨A, S, upd1, hns, hrun, hU1, hlen, hB, hA⟩ :=
    addressingLoop_spec hinv key g hg (ht s.mem s.head) [] ns upd rfl (le_refl _)
      (Or.inl rfl) hU (fun j h1 h2 => by omega) (fun A0 x A1 h => by simp at h)
  refine ⟨A, S, upd1, hns, ?_, hU1, hlen, hB, hA⟩
  have hh := hinv.head_lt
  have hget := get_of_lt hh
  have hcur : 1 ≤ ht s.mem (A.getLastD s.head) := getLastD_ht hinv hns
  have hclt : A.getLastD s.head < s.mem.length := ht_pos_lt (by omega)
  have hL := hinv.linked_from hns
  have hf := hL [] _ S rfl 0 (by omega)
  rw [firstAt_zero_eq_head (fun x hx => hinv.ht_pos x (by rw [hns]; simp [hx]))] at hf
  have hnext := next_of_fwd (get_of_lt hclt) hf
  simp only [List.getLastD_nil, ← ht_of_get hget] at hrun
  unfold skipList.addressing
  simp only [deref_of_lt hh, ok_bind, ← ht_of_get hget, hrun, deref_of_lt hclt, hnext]
  cases upd with
  | none => rfl
  | some u =>
    have h1 := hupd u rfl
    have h2 : ¬ ((u.length : Int) < (ht s.mem s.head : Int) - 1) := by omega
    simp only [h2, decide_False]
    rfl

end Addressing

end SimpleDB


namespace SimpleDB

section Levels

variable {K V : Type}

theorem level_of_ht (s : skipList K V) (h : s.head < s.mem.length) :
    s.level = Except.ok ((ht s.mem s.head : Int) - 1) := by
  simp only [skipList.level, deref_of_lt h, ok_bind, ht_of_get (get_of_lt h)]
  rfl

theorem maxEffectiveLevel_of_ht (s : skipList K V) (h : s.head < s.mem.length) :
    s.maxEffectiveLevel
      = Except.ok (if s.maxLevel > (ht s.mem s.head : Int) - 1 then s.maxLevel
          else (ht s.mem s.head : Int) - 1) := by
  simp only [skipList.maxEffectiveLevel, level_of_ht s h, ok_bind]
  split <;> rfl

theorem Inv.level_eq {s : skipList K V} {ns : List Nat} (h : Inv s ns) :
    s.level = Except.ok ((ht s.mem s.head : Int) - 1) :=
  level_of_ht s h.head_lt

theorem Inv.maxEffectiveLevel_eq {s : skipList K V} {ns : List Nat} (h : Inv s ns) :
    s.maxEffectiveLevel = Except.ok 32 := by
  rw [maxEffectiveLevel_of_ht s h.head_lt, h.maxLevel_eq]
  have h1 := h.head_le
  have h2 := h.head_ht
  split
  · rfl
  · congr 1; omega

theorem make_ok {len cap : Int} (h1 : 0 ≤ len) (h2 : len ≤ cap) :
    make len cap = Except.ok (List.replicate len.toNat none) := by
  unfold make
  rw [if_neg (by omega)]
  rfl

theorem make_fault {len cap : Int} (h : cap < len) :
    make len cap = Except.error Fault.makeslice := by
  unfold make
  rw [if_pos (Or.inr h)]
  rfl

theorem getNewLevelLoop_le (mel : Int) (coins : Nat → Bool) :
    ∀ (fuel level : Nat), (level : Int) ≤ mel →
      (getNewLevelLoop mel coins fuel level : Int) ≤ mel := by
  intro fuel
  induction fuel with
  | zero => intro level h; exact h
  | succ fuel ih =>
    intro level h
    unfold getNewLevelLoop
    split
    · rename_i hc
      simp only [Bool.and_eq_true, decide_eq_true_eq] at hc
      exact ih (level + 1) (by push_cast; omega)
    · exact h

theorem Inv.getNewLevel_eq {s : skipList K V} {ns : List Nat} (h : Inv s ns)
    (coins : Nat → Bool) :
    ∃ level, s.getNewLevel coins = Except.ok level ∧ level ≤ 32 := by
  refine ⟨getNewLevelLoop 32 coins 32 0, ?_, ?_⟩
  · simp only [skipList.getNewLevel, h.maxEffectiveLevel_eq, ok_bind]
    rfl
  · have := getNewLevelLoop_le 32 coins 32 0 (by norm_num)
    omega

/-- The first loop of `Set` appends `cnt` times: the sentinel to the update
path, a nil slot to the sentinel. -/
theorem growLoop_eq (head : Nat) :
    ∀ (cnt : Nat) (update : List (Option Nat)) (mem : List (node K V))
      (h : head < mem.length),
      growLoop head cnt update mem = Except.ok
        (update ++ List.replicate cnt (some head),
          mem.set head
            { mem[head] with forward := mem[head].forward ++ List.replicate cnt none }) := by
  intro cnt
  induction cnt with
  | zero =>
    intro update mem h
    have : mem.set head { mem[head] with forward := mem[head].forward } = mem := by
      apply List.ext_getElem?
      intro j
      rw [List.getElem?_set]
      by_cases hj : head = j
      · subst hj; simp [h]
      · simp [hj]
    simp only [growLoop, pure, Except.pure, List.replicate_zero, List.append_nil]
    rw [this]
  | succ cnt ih =>
    intro update mem h
    have h1 : head < (mem.set head
        { mem[head] with forward := mem[head].forward ++ [none] }).length := by simpa using h
    rw [growLoop, deref_of_lt h, ok_bind, ih _ _ h1]
    simp [List.replicate_succ]

/-- The heap after the first loop of `Set`. -/
theorem growLoop_spec (head cnt : Nat) (update : List (Option Nat)) (mem : List (node K V))
    (h : head < mem.length) :
    ∃ mem1, growLoop head cnt update mem
        = Except.ok (update ++ List.replicate cnt (some head), mem1) ∧
      mem1.length = mem.length ∧
      ht mem1 head = ht mem head + cnt ∧
      (∀ x, x ≠ head → ht mem1 x = ht mem x) ∧
      (∀ x, keyAt mem1 x = keyAt mem x) ∧ (∀ x, valAt mem1 x = valAt mem x) ∧
      (∀ x, backAt mem1 x = backAt mem x) ∧
      (∀ x j, x ≠ head → fwd mem1 x j = fwd mem x j) ∧
      (∀ j, j < ht mem head → fwd mem1 head j = fwd mem head j) ∧
      (∀ j, ht mem head ≤ j → j < ht mem head + cnt → fwd mem1 head j = some none) := by
  have hg := get_of_lt h
  have hs := @get_set_self _ _ mem _
    { mem[head] with forward := mem[head].forward ++ List.replicate cnt none } h
  refine ⟨_, growLoop_eq head cnt update mem h, by simp, ?_, ?_, ?_, ?_, ?_, ?_, ?_, ?_⟩
  · rw [ht_of_get hs, ht_of_get hg]; simp
  · intro x hx; simp [ht, get_set_ne _ hx]
  · intro x
    by_cases hx : x = head
    · subst hx; rw [keyAt_of_get hs, keyAt_of_get hg]
    · simp [keyAt, get_set_ne _ hx]
  · intro x
    by_cases hx : x = head
    · subst hx; rw [valAt_of_get hs, valAt_of_get hg]
    · simp [valAt, get_set_ne _ hx]
  · intro x
    by_cases hx : x = head
    · subst hx; simp [backAt, hs, hg]
    · simp [backAt, get_set_ne _ hx]
  · intro x j hx; simp [fwd, get_set_ne _ hx]
  · intro j hj
    rw [ht_of_get hg] at hj
    rw [fwd_of_get hs, fwd_of_get hg]
    simp [List.getElem?_append_left hj]
  · intro j h1 h2
    rw [ht_of_get hg] at h1 h2
    rw [fwd_of_get hs]
    simp only
    rw [List.getElem?_append_right h1]
    rw [List.getElem?_replicate]
    simp; omega

end Levels

end SimpleDB


namespace SimpleDB

section Splice

variable {K V : Type}

theorem fwd_of_lt_ht {mem : List (node K V)} {p i : Nat} (h : i < ht mem p) :
    ∃ q, fwd mem p i = some q := by
  have hp : p < mem.length := ht_pos_lt (by omega)
  have hg := get_of_lt hp
  rw [ht_of_get hg] at h
  exact ⟨mem[p].forward[i], by rw [fwd_of_get hg, List.getElem?_eq_getElem h]⟩

theorem idx_eq_ok {α : Type} {l : List α} {i : Nat} {a : α} (h : l[i]? = some a) :
    idx l i = Except.ok a := by
  simp [idx, h, pure, Except.pure]

/-- The second loop of `Set` over the levels `i0 ≤ j < i0 + cnt`: at each of them
the new cell takes over the link of `update[j]`, which then points to the new
cell; nothing else changes. -/
theorem spliceLoop_spec (update : List (Option Nat)) (n : Nat) (pj : Nat → Nat) :
    ∀ (cnt i0 : Nat) (mem : List (node K V)),
      (∀ j, i0 ≤ j → j < i0 + cnt →
        update[j]? = some (some (pj j)) ∧ pj j ≠ n ∧ j < ht mem (pj j) ∧ j < ht mem n) →
      ∃ mem1, spliceLoop update n cnt i0 mem = Except.ok mem1 ∧
        mem1.length = mem.length ∧
        (∀ x, ht mem1 x = ht mem x) ∧ (∀ x, keyAt mem1 x = keyAt mem x) ∧
        (∀ x, valAt mem1 x = valAt mem x) ∧ (∀ x, backAt mem1 x = backAt mem x) ∧
        (∀ x j, fwd mem1 x j =
          if i0 ≤ j ∧ j < i0 + cnt then
            (if x = n then fwd mem (pj j) j
             else if x = pj j then some (some n) else fwd mem x j)
          else fwd mem x j) := by
  intro cnt
  induction cnt with
  | zero =>
    intro i0 mem _
    refine ⟨mem, rfl, rfl, fun _ => rfl, fun _ => rfl, fun _ => rfl, fun _ => rfl, ?_⟩
    intro x j
    rw [if_neg (by omega)]
  | succ cnt ih =>
    intro i0 mem h
    obtain ⟨hu, hne, hhp, hhn⟩ := h i0 (le_refl _) (by omega)
    have hp : pj i0 < mem.length := ht_pos_lt (by omega)
    obtain ⟨f, hf⟩ := fwd_of_lt_ht hhp
    obtain ⟨mem1, hw1, hl1, hh1, hk1, hv1, hb1, hf1⟩ := @writeForward_spec _ _ mem _ _ f hhn
    obtain ⟨mem2, hw2, hl2, hh2, hk2, hv2, hb2, hf2⟩ :=
      @writeForward_spec _ _ mem1 (pj i0) i0 (some n) (by rw [hh1]; exact hhp)
    obtain ⟨mem3, hrun, hl3, hh3, hk3, hv3, hb3, hf3⟩ := ih (i0 + 1) mem2 (by
      intro j h1 h2
      obtain ⟨a, b, c, d⟩ := h j (by omega) (by omega)
      exact ⟨a, b, by rw [hh2, hh1]; exact c, by rw [hh2, hh1]; exact d⟩)
    refine ⟨mem3, ?_, by rw [hl3, hl2, hl1], fun x => by rw [hh3, hh2, hh1],
      fun x => by rw [hk3, hk2, hk1], fun x => by rw [hv3, hv2, hv1],
      fun x => by rw [hb3, hb2, hb1], ?_⟩
    · rw [spliceLoop, idx_eq_ok hu, ok_bind]
      simp only [derefOpt, deref_of_lt hp, ok_bind, idx_of_fwd (get_of_lt hp) hf, hw1, hw2]
      exact hrun
    · intro x j
      simp only [hf3, hf2, hf1]
      by_cases hj : j = i0
      · subst hj
        have hne1 : ¬ (n = pj j) := fun hc => hne hc.symm
        by_cases hxn : x = n
        · subst hxn
          simp [hne1, hf]
        · by_cases hxp : x = pj j
          · subst hxp
            simp [hne]
          · simp [hxn, hxp]
      · have h1 : (i0 + 1 ≤ j ∧ j < i0 + 1 + cnt) ↔ (i0 ≤ j ∧ j < i0 + (cnt + 1)) := by
          omega
        simp only [hj, and_false, if_false, h1]

end Splice

end SimpleDB


namespace SimpleDB

section Relink

variable {K V : Type}

theorem nodup_split_unique {a b a1 b1 : List Nat} {x : Nat}
    (hd : (a ++ x :: b).Nodup) (h : a ++ x :: b = a1 ++ x :: b1) : a = a1 ∧ b = b1 := by
  induction a generalizing a1 with
  | nil =>
    cases a1 with
    | nil => simpa using h
    | cons y a1 =>
      simp only [List.nil_append, List.cons_append, List.cons.injEq] at h
      obtain ⟨h1, h2⟩ := h
      subst h1
      rw [h2] at hd
      simp at hd
  | cons y a ih =>
    cases a1 with
    | nil =>
      simp only [List.nil_append, List.cons_append, List.cons.injEq] at h
      obtain ⟨h1, h2⟩ := h
      subst h1
      simp at hd
    | cons z a1 =>
      simp only [List.cons_append, List.cons.injEq] at h
      obtain ⟨h1, h2⟩ := h
      subst h1
      have hd1 : (a ++ x :: b).Nodup := by
        simp only [List.cons_append, List.nodup_cons] at hd
        exact hd.2
      obtain ⟨h3, h4⟩ := ih hd1 h2
      exact ⟨by rw [h3], h4⟩

/-- In a sequence without repetition, the cell `p` is the last with a slot `i`
exactly when no cell after it has one. -/
theorem lastAt_split_low {mem : List (node K V)} {i p : Nat} {a c : List Nat}
    (hd : (a ++ p :: c).Nodup) (h : lastAt mem i (a ++ p :: c) = some p) :
    ∀ y ∈ c, ht mem y ≤ i := by
  obtain ⟨_, a1, b1, hs, hlow⟩ := lastAt_some_split h
  obtain ⟨_, h2⟩ := nodup_split_unique hd hs
  rw [h2]; exact hlow

theorem firstAt_of_lastAt_ne {mem : List (node K V)} {i p : Nat} {a c : List Nat}
    (hp : i < ht mem p) (h : lastAt mem i (a ++ p :: c) ≠ some p) :
    ∃ z, firstAt mem i c = some z := by
  cases hf : firstAt mem i c with
  | some z => exact ⟨z, rfl⟩
  | none =>
    exact absurd (lastAt_of_split a hp (firstAt_eq_none.mp hf)) h

/-- Linking a new cell `n` in after the recorded predecessors keeps the
sequence linked. -/
theorem Linked.insert {mem mem1 : List (node K V)} {P S : List Nat} {n : Nat}
    (pj : Nat → Nat)
    (hL : Linked mem (P ++ S)) (hd : (P ++ S).Nodup) (hn : n ∉ P ++ S)
    (hh : ∀ x, ht mem1 x = ht mem x)
    (hpj : ∀ j, j < ht mem n → lastAt mem j P = some (pj j))
    (hf : ∀ x j, fwd mem1 x j =
      if j < ht mem n then
        (if x = n then fwd mem (pj j) j
         else if x = pj j then some (some n) else fwd mem x j)
      else fwd mem x j) :
    Linked mem1 (P ++ n :: S) := by
  intro A1 p B1 hsplit i hi
  rw [hh] at hi
  rw [firstAt_congr i (fun x _ => hh x), hf]
  have hnP : n ∉ P := fun h => hn (List.mem_append_left _ h)
  have hnS : n ∉ S := fun h => hn (List.mem_append_right _ h)
  rcases split_cases hsplit with ⟨h1, _, h3⟩ | ⟨a, h1, _⟩ | ⟨c, h1, h2⟩
  · -- the new cell
    subst h1; subst h3
    rw [if_pos hi, if_pos rfl]
    obtain ⟨hq, a, b, hs, hlow⟩ := lastAt_some_split (hpj i hi)
    have := hL a (pj i) (b ++ B1) (by rw [hs]; simp) i hq
    rw [this, firstAt_append_low _ hlow]
  · -- a cell after the new one
    have hpS : p ∈ S := by rw [h1]; simp
    have hpn : p ≠ n := fun h => hnS (h ▸ hpS)
    have hpP : p ∉ P := fun h => (List.nodup_append.mp hd).2.2 h hpS
    have hold := hL (P ++ a) p B1 (by rw [h1]; simp) i hi
    by_cases hj : i < ht mem n
    · have hne : p ≠ pj i := fun h => hpP (h ▸ lastAt_mem (hpj i hj))
      rw [if_pos hj, if_neg hpn, if_neg hne, hold]
    · rw [if_neg hj, hold]
  · -- a cell before the new one
    have hpP : p ∈ P := by rw [h1]; simp
    have hpn : p ≠ n := fun h => hnP (h ▸ hpP)
    have hold := hL A1 p (c ++ S) (by rw [h1]; simp) i hi
    have hdP : (A1 ++ p :: c).Nodup := by
      rw [← h1]; exact (List.nodup_append.mp hd).1
    rw [h2]
    by_cases hj : i < ht mem n
    · rw [if_pos hj, if_neg hpn]
      by_cases hpp : p = pj i
      · rw [if_pos hpp]
        have hl := hpj i hj
        rw [h1, ← hpp] at hl
        rw [firstAt_append_low _ (lastAt_split_low hdP hl), firstAt_cons, if_pos hj]
      · rw [if_neg hpp, hold]
        have hl : lastAt mem i (A1 ++ p :: c) ≠ some p := by
          rw [← h1, hpj i hj]
          intro hc
          exact hpp (Option.some.inj hc).symm
        obtain ⟨z, hz⟩ := firstAt_of_lastAt_ne hi hl
        rw [firstAt_append, firstAt_append, hz]
        rfl
    · rw [if_neg hj, hold, firstAt_append, firstAt_append, firstAt_cons, if_neg hj]

/-- Linking a cell `d` out at the levels it has keeps the rest linked. -/
theorem Linked.remove {mem mem1 : List (node K V)} {P S : List Nat} {d : Nat}
    (pj : Nat → Nat)
    (hL : Linked mem (P ++ d :: S)) (hd : (P ++ d :: S).Nodup)
    (hh : ∀ x, ht mem1 x = ht mem x)
    (hpj : ∀ j, j < ht mem d → lastAt mem j P = some (pj j))
    (hf : ∀ x j, fwd mem1 x j =
      if j < ht mem d ∧ x = pj j then fwd mem d j else fwd mem x j) :
    Linked mem1 (P ++ S) := by
  intro A1 p B1 hsplit i hi
  rw [hh] at hi
  rw [firstAt_congr i (fun x _ => hh x), hf]
  have hdP : P.Nodup := (List.nodup_append.mp hd).1
  have hdisj := (List.nodup_append.mp hd).2.2
  rcases split_cases2 hsplit with ⟨a, h1, _⟩ | ⟨c, h1, h2⟩
  · have hpS : p ∈ d :: S := by rw [h1]; simp
    have hpP : p ∉ P := fun h => hdisj h hpS
    have hold := hL (P ++ d :: a) p B1 (by rw [h1]; simp) i hi
    rw [if_neg (by
      rintro ⟨hj, hc⟩
      exact hpP (hc ▸ lastAt_mem (hpj i hj))), hold]
  · have hold := hL A1 p (c ++ d :: S) (by rw [h1]; simp) i hi
    have hdA : (A1 ++ p :: c).Nodup := by rw [← h1]; exact hdP
    rw [h2]
    by_cases hj : i < ht mem d
    · by_cases hpp : p = pj i
      · rw [if_pos ⟨hj, hpp⟩]
        have hl := hpj i hj
        rw [h1, ← hpp] at hl
        rw [firstAt_append_low _ (lastAt_split_low hdA hl)]
        exact hL P d S rfl i hj
      · rw [if_neg (fun hc => hpp hc.2), hold]
        have hl : lastAt mem i (A1 ++ p :: c) ≠ some p := by
          rw [← h1, hpj i hj]
          intro hc
          exact hpp (Option.some.inj hc).symm
        obtain ⟨z, hz⟩ := firstAt_of_lastAt_ne hi hl
        rw [firstAt_append, firstAt_append, hz]
        rfl
    · rw [if_neg (fun hc => hj hc.1), hold, firstAt_append, firstAt_append, firstAt_cons,
        if_neg hj]

end Relink

end SimpleDB


namespace SimpleDB

section Insert

variable {K V : Type}

theorem firstAt_congr_iff {mem mem1 : List (node K V)} (i : Nat) {l : List Nat}
    (h : ∀ x ∈ l, (i < ht mem1 x ↔ i < ht mem x)) : firstAt mem1 i l = firstAt mem i l := by
  induction l with
  | nil => rfl
  | cons p l ih =>
    rw [firstAt_cons, firstAt_cons, ih (fun x hx => h x (by simp [hx]))]
    have := h p (by simp)
    by_cases hp : i < ht mem p
    · rw [if_pos hp, if_pos (this.mpr hp)]
    · rw [if_neg hp, if_neg (fun hc => hp (this.mp hc))]

theorem lastAt_congr_iff {mem mem1 : List (node K V)} (i : Nat) {l : List Nat}
    (h : ∀ x ∈ l, (i < ht mem1 x ↔ i < ht mem x)) : lastAt mem1 i l = lastAt mem i l := by
  unfold lastAt
  exact firstAt_congr_iff i (fun x hx => h x (by simpa using hx))

theorem lastAt_cons_isSome {mem : List (node K V)} {i head : Nat} (A : List Nat)
    (h : i < ht mem head) : ∃ q, lastAt mem i (head :: A) = some q := by
  cases hl : lastAt mem i (head :: A) with
  | some q => exact ⟨q, rfl⟩
  | none =>
    unfold lastAt at hl
    have := firstAt_eq_none.mp hl head (by simp)
    omega

theorem lastAt_cons_low {mem : List (node K V)} {i head : Nat} {A : List Nat}
    (h : i < ht mem head) (hlow : ∀ x ∈ A, ht mem x ≤ i) :
    lastAt mem i (head :: A) = some head := by
  have := @lastAt_of_split _ _ mem _ [] _ _ h hlow
  simpa using this

/-- Growing the sentinel by nil slots keeps the sequence linked. -/
theorem Linked.grow {mem mem1 : List (node K V)} {head : Nat} {ns : List Nat}
    (hL : Linked mem (head :: ns))
    (hle : ∀ x ∈ ns, ht mem x ≤ ht mem head)
    (hh : ∀ x ∈ ns, ht mem1 x = ht mem x)
    (hf : ∀ x ∈ ns, ∀ j, fwd mem1 x j = fwd mem x j)
    (hf0 : ∀ j, j < ht mem head → fwd mem1 head j = fwd mem head j)
    (hf1 : ∀ j, ht mem head ≤ j → j < ht mem1 head → fwd mem1 head j = some none) :
    Linked mem1 (head :: ns) := by
  intro A1 p B1 hsplit i hi
  cases A1 with
  | nil =>
    simp only [List.nil_append, List.cons.injEq] at hsplit
    obtain ⟨h1, h2⟩ := hsplit
    subst h1; subst h2
    rw [firstAt_congr i hh]
    by_cases hlt : i < ht mem head
    · rw [hf0 i hlt]
      exact hL [] head ns rfl i hlt
    · rw [hf1 i (by omega) hi]
      congr 1
      exact (firstAt_eq_none.mpr (fun x hx => by have := hle x hx; omega)).symm
  | cons y a =>
    simp only [List.cons_append, List.cons.injEq] at hsplit
    obtain ⟨h1, h2⟩ := hsplit
    have hp : p ∈ ns := by rw [h2]; simp
    rw [hf p hp, firstAt_congr i (fun x hx => hh x (by rw [h2]; simp [hx]))]
    rw [hh p hp] at hi
    exact hL (head :: a) p B1 (by rw [h2]; simp) i hi

/-- Cells of the old heap are untouched by an allocation. -/
theorem get_append_old {mem : List (node K V)} (nn : node K V) {x : Nat}
    (h : x < mem.length) : (mem ++ [nn])[x]? = mem[x]? :=
  List.getElem?_append_left h

theorem get_append_new (mem : List (node K V)) (nn : node K V) :
    (mem ++ [nn])[mem.length]? = some nn := by
  simp

end Insert

end SimpleDB


namespace SimpleDB

section Insert2

variable {K V : Type}

theorem ht_append_old {mem : List (node K V)} (nn : node K V) {x : Nat}
    (h : x < mem.length) : ht (mem ++ [nn]) x = ht mem x := by
  simp [ht, get_append_old nn h]

theorem fwd_append_old {mem : List (node K V)} (nn : node K V) {x : Nat}
    (h : x < mem.length) (j : Nat) : fwd (mem ++ [nn]) x j = fwd mem x j := by
  simp [fwd, get_append_old nn h]

theorem keyAt_append_old {mem : List (node K V)} (nn : node K V) {x : Nat}
    (h : x < mem.length) : keyAt (mem ++ [nn]) x = keyAt mem x := by
  simp [keyAt, get_append_old nn h]

theorem valAt_append_old {mem : List (node K V)} (nn : node K V) {x : Nat}
    (h : x < mem.length) : valAt (mem ++ [nn]) x = valAt mem x := by
  simp [valAt, get_append_old nn h]

theorem backAt_append_old {mem : List (node K V)} (nn : node K V) {x : Nat}
    (h : x < mem.length) : backAt (mem ++ [nn]) x = backAt mem x := by
  simp [backAt, get_append_old nn h]

theorem getLast_of_getLastD (A : List Nat) (d : Nat) (h : A ≠ []) :
    A.getLast? = some (A.getLastD d) := by
  rcases List.eq_nil_or_concat A with h1 | ⟨A0, a, h1⟩
  · exact absurd h1 h
  · subst h1; simp

theorem sameLinks_valAt {mem mem1 : List (node K V)} (h : SameLinks mem mem1) :
    (∀ x, ht mem1 x = ht mem x) ∧ (∀ x, keyAt mem1 x = keyAt mem x) ∧
      (∀ x j, fwd mem1 x j = fwd mem x j) :=
  ⟨fun x => (h.2 x).1, fun x => (h.2 x).2.1, fun x j => (h.2 x).2.2 j⟩

/-- The part of `Set` that links a new cell in, run with the update path of the
walk that ended at the end of `head :: A`: it returns nil and leaves a
well-formed list with the new cell between `A` and `S`. -/
theorem insertNode_spec {s : skipList K V} {ns A S : List Nat} (hinv : Inv s ns)
    (hns : ns = A ++ S) (k : K) (value : Option V) (coins : Nat → Bool)
    (update1 : List (Option Nat))
    (hU : PathRec s.mem s.head A 0 (some update1))
    (hlen : update1.length = ht s.mem s.head) :
    ∃ s1, s.insertNode (some k) value coins update1 = Except.ok (none, s1) ∧
      Inv s1 (A ++ s.mem.length :: S) ∧
      s1.head = s.head ∧ s1.less = s.less ∧ s1.len = s.len + 1 ∧
      s1.mem.length = s.mem.length + 1 ∧
      (∀ x, x < s.mem.length →
        keyAt s1.mem x = keyAt s.mem x ∧ valAt s1.mem x = valAt s.mem x) ∧
      keyAt s1.mem s.mem.length = some k ∧ valAt s1.mem s.mem.length = value ∧
      (∀ x ∈ ns, ht s1.mem x = ht s.mem x) ∧
      ht s1.mem s.mem.length = getNewLevelLoop 32 coins 32 0 + 1 ∧
      ht s1.mem s.head = max (ht s.mem s.head) (getNewLevelLoop 32 coins 32 0 + 1) ∧
      backAt s1.mem s.mem.length = A.getLast? ∧
      (∀ nx, S.head? = some nx → backAt s1.mem nx = some s.mem.length) ∧
      (∀ x, x < s.mem.length → S.head? ≠ some x → backAt s1.mem x = backAt s.mem x) := by
  have hlvl : s.getNewLevel coins = Except.ok (getNewLevelLoop 32 coins 32 0) := by
    simp only [skipList.getNewLevel, hinv.maxEffectiveLevel_eq, ok_bind]; rfl
  have hle : getNewLevelLoop 32 coins 32 0 ≤ 32 := by
    have := getNewLevelLoop_le 32 coins 32 0 (by norm_num)
    omega
  generalize getNewLevelLoop 32 coins 32 0 = level at hlvl hle ⊢
  have hhd := hinv.head_lt
  have hH1 := hinv.head_ht
  have hH33 := hinv.head_le
  have hcnt : ((level : Int) - ((ht s.mem s.head : Int) - 1)).toNat
      = level + 1 - ht s.mem s.head := by omega
  obtain ⟨mem1, hgrow, hl1, hh1, hhx1, hk1, hv1, hb1, hfx1, hf01, hf11⟩ :=
    growLoop_spec s.head (level + 1 - ht s.mem s.head) update1 s.mem hhd
  have hH1' : ht mem1 s.head = max (ht s.mem s.head) (level + 1) := by rw [hh1]; omega
  have hhd1 : s.head < mem1.length := by rw [hl1]; exact hhd
  have hmel : ({ s with mem := mem1, len := s.len + 1 } : skipList K V).maxEffectiveLevel
      = Except.ok 32 := by
    rw [maxEffectiveLevel_of_ht ({ s with mem := mem1, len := s.len + 1 }) hhd1]
    simp only [hinv.maxLevel_eq]
    split
    · rfl
    · congr 1; omega
  have hmake : make ((level : Int) + 1) (32 + 1)
      = Except.ok (List.replicate (level + 1) none) := by
    rw [make_ok (by omega) (by omega)]
    congr 2
  have hne : ∀ x ∈ ns, x ≠ s.head :=
    fun x hx hc => (List.nodup_cons.mp hinv.nodup).1 (hc ▸ hx)
  have hlt : ∀ x ∈ ns, x < s.mem.length := hinv.lt_length
  obtain ⟨hUl, hUp⟩ := hU
  have hp0 : lastAt s.mem 0 (s.head :: A) = some (A.getLastD s.head) := by
    obtain ⟨c, hc⟩ := cons_eq_append_getLastD s.head A
    rw [hc, lastAt_append_single _ (getLastD_ht hinv hns)]
  have hp0lt : A.getLastD s.head < mem1.length := by
    rw [hl1]; exact ht_pos_lt (getLastD_ht hinv hns)
  have hu0 : (update1 ++ List.replicate (level + 1 - ht s.mem s.head) (some s.head))[0]?
      = some (some (A.getLastD s.head)) := by
    rw [List.getElem?_append_left (by omega), hUp 0 (le_refl _) (by omega), hp0]
  unfold skipList.insertNode
  simp only [hlvl, ok_bind, hinv.level_eq, hcnt, hgrow, hmel, hmake, idx_eq_ok hu0, derefOpt,
    deref_of_lt hp0lt]
  generalize hbkdef : (if mem1[A.getLastD s.head].key.isSome = true
    then some (A.getLastD s.head) else none) = bk
  have hbk : bk = A.getLast? := by
    rw [← hbkdef]
    have hkl : mem1[A.getLastD s.head].key = keyAt s.mem (A.getLastD s.head) := by
      rw [← hk1, keyAt_of_get (get_of_lt hp0lt)]
    rw [hkl]
    by_cases hA : A = []
    · subst hA
      simp only [List.getLastD_nil, hinv.head_key]
      rfl
    · have hmem : A.getLastD s.head ∈ ns := by
        rw [hns]
        exact List.mem_append.mpr (Or.inl (getLastD_mem s.head A hA))
      rw [hinv.key_some _ hmem, if_pos rfl, getLast_of_getLastD A s.head hA]
  have hnew := get_append_new mem1
    ({ forward := List.replicate (level + 1) none, backward := bk, key := some k,
       value := value } : node K V)
  obtain ⟨mem1a, hma⟩ : ∃ m, m = mem1 ++
    [({ forward := List.replicate (level + 1) none, backward := bk, key := some k,
        value := value } : node K V)] := ⟨_, rfl⟩
  rw [← hma] at hnew ⊢
  have hla : mem1a.length = mem1.length + 1 := by rw [hma]; simp
  have hn_ht : ht mem1a mem1.length = level + 1 := by rw [ht_of_get hnew]; simp
  have hn_key : keyAt mem1a mem1.length = some k := by rw [keyAt_of_get hnew]
  have hn_val : valAt mem1a mem1.length = value := by rw [valAt_of_get hnew]
  have ha_ht : ∀ x, x < mem1.length → ht mem1a x = ht mem1 x :=
    fun x hx => by rw [hma]; exact ht_append_old _ hx
  have ha_fwd : ∀ x, x < mem1.length → ∀ j, fwd mem1a x j = fwd mem1 x j :=
    fun x hx j => by rw [hma]; exact fwd_append_old _ hx j
  have ha_key : ∀ x, x < mem1.length → keyAt mem1a x = keyAt mem1 x :=
    fun x hx => by rw [hma]; exact keyAt_append_old _ hx
  have ha_val : ∀ x, x < mem1.length → valAt mem1a x = valAt mem1 x :=
    fun x hx => by rw [hma]; exact valAt_append_old _ hx
  have ha_back : ∀ x, x < mem1.length → backAt mem1a x = backAt mem1 x :=
    fun x hx => by rw [hma]; exact backAt_append_old _ hx
  have hn_back : backAt mem1a mem1.length = bk := by rw [backAt_of_get hnew]
  -- the old cells in the grown heap with the new cell
  have hns_ht : ∀ x ∈ ns, ht mem1a x = ht s.mem x := fun x hx => by
    rw [ha_ht x (by rw [hl1]; exact hlt x hx), hhx1 x (hne x hx)]
  have hns_fwd : ∀ x ∈ ns, ∀ j, fwd mem1a x j = fwd s.mem x j := fun x hx j => by
    rw [ha_fwd x (by rw [hl1]; exact hlt x hx), hfx1 x j (hne x hx)]
  have hhead_ht : ht mem1a s.head = max (ht s.mem s.head) (level + 1) := by
    rw [ha_ht _ hhd1, hH1']
  have hLa : Linked mem1a (s.head :: ns) := by
    refine Linked.grow hinv.linked hinv.ht_le hns_ht hns_fwd ?_ ?_
    · intro j hj
      rw [ha_fwd _ hhd1, hf01 j hj]
    · intro j h1 h2
      rw [ha_fwd _ hhd1, hf11 j h1 (by rw [hhead_ht] at h2; omega)]
  have hA_ns : ∀ x ∈ A, x ∈ ns := fun x hx => by rw [hns]; simp [hx]
  -- the recorded predecessors
  have hpj : ∀ j, j < level + 1 →
      ∃ q, lastAt mem1a j (s.head :: A) = some q ∧
        (update1 ++ List.replicate (level + 1 - ht s.mem s.head) (some s.head))[j]?
          = some (some q) := by
    intro j hj
    by_cases hjH : j < ht s.mem s.head
    · have heq : lastAt mem1a j (s.head :: A) = lastAt s.mem j (s.head :: A) := by
        apply lastAt_congr_iff
        intro x hx
        rcases List.mem_cons.mp hx with h | h
        · rw [h, hhead_ht]; constructor <;> intro <;> omega
        · rw [hns_ht x (hA_ns x h)]
      obtain ⟨q, hq⟩ := @lastAt_cons_isSome _ _ s.mem _ _ A hjH
      refine ⟨q, by rw [heq, hq], ?_⟩
      rw [List.getElem?_append_left (by omega), hUp j (Nat.zero_le _) hjH, hq]
    · refine ⟨s.head, lastAt_cons_low (by rw [hhead_ht]; omega) (fun x hx => ?_), ?_⟩
      · rw [hns_ht x (hA_ns x hx)]
        have := hinv.ht_le x (hA_ns x hx)
        omega
      · rw [List.getElem?_append_right (by omega), List.getElem?_replicate]
        rw [if_pos (by omega)]
  obtain ⟨pj, hpj1⟩ : ∃ pj : Nat → Nat, ∀ j, j < level + 1 →
      lastAt mem1a j (s.head :: A) = some (pj j) ∧
        (update1 ++ List.replicate (level + 1 - ht s.mem s.head) (some s.head))[j]?
          = some (some (pj j)) := by
    refine ⟨fun j => (lastAt mem1a j (s.head :: A)).getD 0, fun j hj => ?_⟩
    obtain ⟨q, h1, h2⟩ := hpj j hj
    simp only [h1, Option.getD_some]
    exact ⟨trivial, h2⟩
  have hPlt : ∀ x ∈ s.head :: A, x < mem1.length := by
    intro x hx
    rcases List.mem_cons.mp hx with h | h
    · rw [h]; exact hhd1
    · rw [hl1]; exact hlt x (hA_ns x h)
  obtain ⟨mem2, hsp, hl2, hh2, hk2, hv2, hb2, hf2⟩ :=
    spliceLoop_spec (update1 ++ List.replicate (level + 1 - ht s.mem s.head) (some s.head))
      mem1.length pj (level + 1) 0 mem1a (by
        intro j _ hj
        obtain ⟨h1, h2⟩ := hpj1 j (by omega)
        refine ⟨h2, ?_, (lastAt_some_split h1).1, by rw [hn_ht]; omega⟩
        have := hPlt _ (lastAt_mem h1)
        omega)
  have hd0 : ((s.head :: A) ++ S).Nodup := by
    rw [List.cons_append, ← hns]; exact hinv.nodup
  have hnmem : mem1.length ∉ (s.head :: A) ++ S := by
    rw [List.cons_append, ← hns]
    intro hc
    rcases List.mem_cons.mp hc with h | h
    · rw [hl1] at h; omega
    · have := hlt _ h; rw [hl1] at this; omega
  have hL2 : Linked mem2 ((s.head :: A) ++ mem1.length :: S) := by
    refine Linked.insert pj ?_ hd0 hnmem hh2 ?_ ?_
    · rw [List.cons_append, ← hns]; exact hLa
    · intro j hj; rw [hn_ht] at hj; exact (hpj1 j hj).1
    · intro x j
      rw [hf2, hn_ht]
      by_cases hj : j < level + 1
      · rw [if_pos ⟨Nat.zero_le _, by omega⟩, if_pos hj]
      · rw [if_neg (by omega), if_neg hj]
  have hn2lt : mem1.length < mem2.length := by rw [hl2, hla]; omega
  have hfn0 := hL2 (s.head :: A) mem1.length S rfl 0 (by rw [hh2, hn_ht]; omega)
  -- whatever the repair of the backward link does, the result is well formed
  have hSlt : ∀ x, S.head? = some x → x < s.mem.length := fun x hx =>
    hlt x (by rw [hns]; exact List.mem_append.mpr (Or.inr (List.mem_of_mem_head? hx)))
  have hfinal : ∀ mem3 : List (node K V), SameLinks mem2 mem3 →
      (∀ x, valAt mem3 x = valAt mem2 x) →
      (∀ x, S.head? ≠ some x → backAt mem3 x = backAt mem2 x) →
      (∀ nx, S.head? = some nx → backAt mem3 nx = some mem1.length) →
      Inv ({ mem := mem3, head := s.head, len := s.len + 1, maxLevel := s.maxLevel,
             less := s.less } : skipList K V) (A ++ s.mem.length :: S) ∧
      mem3.length = s.mem.length + 1 ∧
      (∀ x, x < s.mem.length →
        keyAt mem3 x = keyAt s.mem x ∧ valAt mem3 x = valAt s.mem x) ∧
      keyAt mem3 s.mem.length = some k ∧ valAt mem3 s.mem.length = value ∧
      (∀ x ∈ ns, ht mem3 x = ht s.mem x) ∧
      ht mem3 s.mem.length = level + 1 ∧
      ht mem3 s.head = max (ht s.mem s.head) (level + 1) ∧
      backAt mem3 s.mem.length = A.getLast? ∧
      (∀ nx, S.head? = some nx → backAt mem3 nx = some s.mem.length) ∧
      (∀ x, x < s.mem.length → S.head? ≠ some x → backAt mem3 x = backAt s.mem x) := by
    intro mem3 hsl hval hb3n hb3x
    obtain ⟨h3h, h3k, h3f⟩ := sameLinks_valAt hsl
    have hkeyold : ∀ x, x < s.mem.length → keyAt mem3 x = keyAt s.mem x := fun x hx => by
      rw [h3k, hk2, ha_key x (by rw [hl1]; exact hx), hk1]
    have hvalold : ∀ x, x < s.mem.length → valAt mem3 x = valAt s.mem x := fun x hx => by
      rw [hval, hv2, ha_val x (by rw [hl1]; exact hx), hv1]
    have hhtns : ∀ x ∈ ns, ht mem3 x = ht s.mem x := fun x hx => by
      rw [h3h, hh2, hns_ht x hx]
    have hhtn : ht mem3 s.mem.length = level + 1 := by rw [h3h, hh2, ← hl1, hn_ht]
    have hhth : ht mem3 s.head = max (ht s.mem s.head) (level + 1) := by
      rw [h3h, hh2, hhead_ht]
    have hcases : ∀ x ∈ A ++ s.mem.length :: S, x = s.mem.length ∨ x ∈ ns := by
      intro x hx
      rcases List.mem_append.mp hx with h | h
      · exact Or.inr (hA_ns x h)
      · rcases List.mem_cons.mp h with h1 | h1
        · exact Or.inl h1
        · exact Or.inr (by rw [hns]; simp [h1])
    refine ⟨⟨?_, ?_, ?_, ?_, ?_, ?_, ?_, ?_, ?_, hinv.maxLevel_eq⟩, by rw [hsl.1, hl2, hla, hl1],
      fun x hx => ⟨hkeyold x hx, hvalold x hx⟩, by rw [h3k, hk2, ← hl1, hn_key],
      by rw [hval, hv2, ← hl1, hn_val], hhtns, hhtn, hhth,
      by rw [hb3n _ (fun hc => absurd (hSlt _ hc) (lt_irrefl _)), hb2, ← hl1, hn_back, hbk],
      fun nx hnx => by rw [hb3x nx hnx, hl1],
      fun x hx hne => by rw [hb3n x hne, hb2, ha_back x (by rw [hl1]; exact hx), hb1]⟩
    · show keyAt mem3 s.head = none
      rw [hkeyold _ hhd]; exact hinv.head_key
    · show 1 ≤ ht mem3 s.head
      rw [hhth]; omega
    · show ht mem3 s.head ≤ 33
      rw [hhth]; omega
    · show (s.head :: (A ++ s.mem.length :: S)).Nodup
      rw [← List.cons_append, List.nodup_middle, List.nodup_cons, ← hl1]
      exact ⟨hnmem, hd0⟩
    · intro x hx
      show (keyAt mem3 x).isSome = true
      rcases hcases x hx with h | h
      · rw [h, h3k, hk2, ← hl1, hn_key]; rfl
      · rw [hkeyold x (hlt x h)]; exact hinv.key_some x h
    · intro x hx
      show 1 ≤ ht mem3 x
      rcases hcases x hx with h | h
      · rw [h, hhtn]; omega
      · rw [hhtns x h]; exact hinv.ht_pos x h
    · intro x hx
      show ht mem3 x ≤ ht mem3 s.head
      rw [hhth]
      rcases hcases x hx with h | h
      · rw [h, hhtn]; omega
      · rw [hhtns x h]; have := hinv.ht_le x h; omega
    · show Linked mem3 (s.head :: (A ++ s.mem.length :: S))
      rw [← List.cons_append, ← hl1]
      exact hL2.sameHeap (fun x _ => h3h x) (fun x _ i => h3f x i)
    · show s.len + 1 = ((A ++ s.mem.length :: S).length : Int)
      rw [hinv.len_eq, hns]
      simp only [List.length_append, List.length_cons]
      push_cast
      omega
  rw [hsp, ok_bind, deref_of_lt hn2lt, ok_bind, idx_of_fwd (get_of_lt hn2lt) hfn0, ok_bind]
  have hS0 : firstAt mem2 0 S = S.head? :=
    firstAt_zero_eq_head (fun x hx => by
      have hxn : x ∈ ns := by rw [hns]; exact List.mem_append.mpr (Or.inr hx)
      rw [hh2, hns_ht x hxn]; exact hinv.ht_pos x hxn)
  cases hfa : firstAt mem2 0 S with
  | none =>
    rw [hS0] at hfa
    have hf := hfinal mem2 (SameLinks.refl _) (fun _ => rfl) (fun _ _ => rfl)
      (fun nx hnx => by rw [hfa] at hnx; exact Option.noConfusion hnx)
    exact ⟨_, rfl, hf.1, rfl, rfl, rfl, hf.2⟩
  | some nx =>
    have hfa0 : S.head? = some nx := by rw [← hS0]; exact hfa
    have hnxS : nx ∈ S := firstAt_mem hfa
    have hnxlt : nx < mem2.length := by
      rw [hl2, hla, hl1]
      have := hlt nx (by rw [hns]; simp [hnxS])
      omega
    simp only [deref_of_lt hnxlt, ok_bind]
    by_cases hbk : mem2[nx].backward ≠ some mem1.length
    · obtain ⟨mem3, hw, hsl, hval, hbs, hbo⟩ := writeBackward_spec (some mem1.length) hnxlt
      rw [if_pos hbk, hw, ok_bind]
      have hf := hfinal mem3 hsl hval
        (fun x hx => hbo x (fun hc => hx (by rw [hc]; exact hfa0)))
        (fun y hy => by
          rw [hfa0] at hy
          rw [← Option.some.inj hy]; exact hbs)
      exact ⟨_, rfl, hf.1, rfl, rfl, rfl, hf.2⟩
    · rw [if_neg hbk]
      have hf := hfinal mem2 (SameLinks.refl _) (fun _ => rfl) (fun _ _ => rfl)
        (fun y hy => by
          rw [hfa0] at hy
          rw [← Option.some.inj hy, backAt_of_get (get_of_lt hnxlt)]
          exact not_not.mp hbk)
      exact ⟨_, rfl, hf.1, rfl, rfl, rfl, hf.2⟩

end Insert2

end SimpleDB


namespace SimpleDB

section SetGet

variable {K V : Type}

theorem Inv.make_set {s : skipList K V} {ns : List Nat} (hinv : Inv s ns) :
    make (((ht s.mem s.head : Int) - 1) + 1) (32 + 1)
      = Except.ok (List.replicate (ht s.mem s.head) none) := by
  have := hinv.head_le
  rw [make_ok (by omega) (by omega)]
  congr 2
  omega

/-- Overwriting the value of one cell changes neither links nor keys. -/
theorem setValue_spec {mem : List (node K V)} {d : Nat} (hd : d < mem.length)
    (value : Option V) :
    SameLinks mem (mem.set d { mem[d] with value := value }) ∧
      valAt (mem.set d { mem[d] with value := value }) d = value ∧
      ∀ x, x ≠ d → valAt (mem.set d { mem[d] with value := value }) x = valAt mem x := by
  refine ⟨sameLinks_set (get_of_lt hd) rfl rfl, ?_, fun x hx => ?_⟩
  · rw [valAt_of_get (get_set_self _ hd)]
  · simp [valAt, get_set_ne _ hx]

theorem setValue_backAt {mem : List (node K V)} {d : Nat} (hd : d < mem.length)
    (value : Option V) (x : Nat) :
    backAt (mem.set d { mem[d] with value := value }) x = backAt mem x := by
  by_cases hx : x = d
  · subst hx
    rw [backAt_of_get (get_set_self _ hd), backAt_of_get (get_of_lt hd)]
  · simp [backAt, get_set_ne _ hx]

theorem Inv.of_sameLinks {s s1 : skipList K V} {ns : List Nat} (hinv : Inv s ns)
    (hl : SameLinks s.mem s1.mem) (hh : s1.head = s.head) (hlen : s1.len = s.len)
    (hm : s1.maxLevel = s.maxLevel) : Inv s1 ns := by
  obtain ⟨h3h, h3k, h3f⟩ := sameLinks_valAt hl
  refine ⟨?_, ?_, ?_, ?_, ?_, ?_, ?_, ?_, ?_, ?_⟩
  · rw [hh, h3k]; exact hinv.head_key
  · rw [hh, h3h]; exact hinv.head_ht
  · rw [hh, h3h]; exact hinv.head_le
  · rw [hh]; exact hinv.nodup
  · intro x hx; rw [h3k]; exact hinv.key_some x hx
  · intro x hx; rw [h3h]; exact hinv.ht_pos x hx
  · intro x hx; rw [hh, h3h, h3h]; exact hinv.ht_le x hx
  · rw [hh]; exact hinv.linked.sameHeap (fun x _ => h3h x) (fun x _ i => h3f x i)
  · rw [hlen]; exact hinv.len_eq
  · rw [hm]; exact hinv.maxLevel_eq

/-- On a type with decidable equality `==` is the identity of values. -/
theorem ifaceEq_lawful [DecidableEq K] (a b : Option K) :
    ifaceEq a b = Except.ok (decide (a = b)) := by
  cases a <;> cases b <;> simp [ifaceEq, GoEq.eq, pure, Except.pure]

theorem ifaceEq_true_iff [DecidableEq K] {a b : Option K} :
    ifaceEq a b = Except.ok true ↔ a = b := by
  rw [ifaceEq_lawful]
  constructor
  · intro h; exact of_decide_eq_true (Except.ok.inj h)
  · intro h; rw [decide_eq_true h]

theorem ifaceEq_false_iff [DecidableEq K] {a b : Option K} :
    ifaceEq a b = Except.ok false ↔ a ≠ b := by
  rw [ifaceEq_lawful]
  constructor
  · intro h; exact of_decide_eq_false (Except.ok.inj h)
  · intro h; rw [decide_eq_false h]

/-- `Set` with a non-nil key on a well-formed list, for any `==` on the keys.
With the split `ns = A ++ S` its walk finds, it compares the key of the first
cell of `S` with the key by `==`: it aborts when the comparison does, overwrites
the value of that cell when the comparison holds, and links a new cell in
between `A` and `S` when it fails or `S` is empty. -/
theorem Set_gen [GoEq K] {s : skipList K V} {ns : List Nat} (hinv : Inv s ns)
    (k : K) (value : Option V) (coins : Nat → Bool) (g : Nat → Bool)
    (hg : ∀ x ∈ ns, s.less (keyAt s.mem x) (some k) = Except.ok (g x)) :
    ∃ A S, ns = A ++ S ∧ Stops s.mem g 0 (ht s.mem s.head) S ∧ Records s.mem g 0 A ∧
      ((∃ d f, S.head? = some d ∧ ifaceEq (keyAt s.mem d) (some k) = Except.error f ∧
          s.Set (some k) value coins = Except.error f) ∨
        ∃ s1, s.Set (some k) value coins = Except.ok (none, s1) ∧
          s1.head = s.head ∧ s1.less = s.less ∧
          ((∃ d S2, S = d :: S2 ∧ ifaceEq (keyAt s.mem d) (some k) = Except.ok true ∧
              Inv s1 ns ∧ s1.len = s.len ∧
              SameLinks s.mem s1.mem ∧ valAt s1.mem d = value ∧
              (∀ x, x ≠ d → valAt s1.mem x = valAt s.mem x) ∧
              ∀ x, backAt s1.mem x = backAt s.mem x) ∨
            ((∀ d, S.head? = some d →
                ifaceEq (keyAt s.mem d) (some k) = Except.ok false) ∧
              Inv s1 (A ++ s.mem.length :: S) ∧ s1.len = s.len + 1 ∧
              s1.mem.length = s.mem.length + 1 ∧
              (∀ x, x < s.mem.length →
                keyAt s1.mem x = keyAt s.mem x ∧ valAt s1.mem x = valAt s.mem x) ∧
              keyAt s1.mem s.mem.length = some k ∧ valAt s1.mem s.mem.length = value ∧
              (∀ x ∈ ns, ht s1.mem x = ht s.mem x) ∧
              ht s1.mem s.mem.length = getNewLevelLoop 32 coins 32 0 + 1 ∧
              ht s1.mem s.head
                = max (ht s.mem s.head) (getNewLevelLoop 32 coins 32 0 + 1) ∧
              backAt s1.mem s.mem.length = A.getLast? ∧
              (∀ nx, S.head? = some nx → backAt s1.mem nx = some s.mem.length) ∧
              (∀ x, x < s.mem.length → S.head? ≠ some x →
                backAt s1.mem x = backAt s.mem x)))) := by
  obtain ⟨A, S, upd1, hns, haddr, hU, hlen, hB, hR⟩ :=
    addressing_spec hinv (some k) g hg (some (List.replicate (ht s.mem s.head) none))
      (fun u hu => by cases hu; simp)
  refine ⟨A, S, hns, hB, hR, ?_⟩
  cases upd1 with
  | none => simp at hlen
  | some u =>
    have hul : u.length = ht s.mem s.head := by simpa using hlen
    have hins := insertNode_spec hinv hns k value coins u hU hul
    unfold skipList.Set
    simp only [hinv.level_eq, hinv.maxEffectiveLevel_eq, ok_bind, hinv.make_set, haddr,
      Option.getD_some]
    cases S with
    | nil =>
      obtain ⟨s1, h1, h2, h3, h4, h5, h6⟩ := hins
      simp only [List.head?_nil]
      exact Or.inr ⟨s1, h1, h3, h4, Or.inr ⟨fun d hd => by simp at hd, h2, h5, h6⟩⟩
    | cons d S2 =>
      have hdlt : d < s.mem.length := hinv.lt_length d (by rw [hns]; simp)
      simp only [List.head?_cons, deref_of_lt hdlt, ok_bind]
      have hkd : keyAt s.mem d = s.mem[d].key := keyAt_of_get (get_of_lt hdlt)
      cases hc : ifaceEq s.mem[d].key (some k) with
      | error f =>
        left
        exact ⟨d, f, rfl, by rw [hkd]; exact hc, rfl⟩
      | ok same =>
        right
        rw [ok_bind]
        cases same with
        | true =>
          rw [if_pos rfl]
          obtain ⟨hsl, hv1, hv2⟩ := setValue_spec hdlt value
          refine ⟨_, rfl, rfl, rfl, Or.inl ⟨d, S2, rfl, by rw [hkd]; exact hc, ?_, rfl,
            hsl, hv1, hv2, setValue_backAt hdlt value⟩⟩
          exact hinv.of_sameLinks hsl rfl rfl rfl
        | false =>
          rw [if_neg (by simp)]
          obtain ⟨s1, h1, h2, h3, h4, h5, h6⟩ := hins
          refine ⟨s1, h1, h3, h4, Or.inr ⟨?_, h2, h5, h6⟩⟩
          intro d1 hd1
          simp only [List.head?_cons, Option.some.injEq] at hd1
          subst hd1
          rw [hkd]; exact hc

/-- `Set` with a non-nil key on a well-formed list returns nil.  With the split
`ns = A ++ S` its walk finds, it either overwrites the value of the first cell of
`S`, when that cell has the key itself, or links a new cell in between `A` and
`S`. -/
theorem Set_spec [DecidableEq K] {s : skipList K V} {ns : List Nat} (hinv : Inv s ns)
    (k : K) (value : Option V) (coins : Nat → Bool) (g : Nat → Bool)
    (hg : ∀ x ∈ ns, s.less (keyAt s.mem x) (some k) = Except.ok (g x)) :
    ∃ A S s1, ns = A ++ S ∧ Stops s.mem g 0 (ht s.mem s.head) S ∧ Records s.mem g 0 A ∧
      s.Set (some k) value coins = Except.ok (none, s1) ∧
      s1.head = s.head ∧ s1.less = s.less ∧
      ((∃ d S2, S = d :: S2 ∧ keyAt s.mem d = some k ∧ Inv s1 ns ∧ s1.len = s.len ∧
          SameLinks s.mem s1.mem ∧ valAt s1.mem d = value ∧
          (∀ x, x ≠ d → valAt s1.mem x = valAt s.mem x) ∧
          ∀ x, backAt s1.mem x = backAt s.mem x) ∨
        ((∀ d, S.head? = some d → keyAt s.mem d ≠ some k) ∧
          Inv s1 (A ++ s.mem.length :: S) ∧ s1.len = s.len + 1 ∧
          s1.mem.length = s.mem.length + 1 ∧
          (∀ x, x < s.mem.length →
            keyAt s1.mem x = keyAt s.mem x ∧ valAt s1.mem x = valAt s.mem x) ∧
          keyAt s1.mem s.mem.length = some k ∧ valAt s1.mem s.mem.length = value ∧
          (∀ x ∈ ns, ht s1.mem x = ht s.mem x) ∧
          ht s1.mem s.mem.length = getNewLevelLoop 32 coins 32 0 + 1 ∧
          ht s1.mem s.head = max (ht s.mem s.head) (getNewLevelLoop 32 coins 32 0 + 1) ∧
          backAt s1.mem s.mem.length = A.getLast? ∧
          (∀ nx, S.head? = some nx → backAt s1.mem nx = some s.mem.length) ∧
          (∀ x, x < s.mem.length → S.head? ≠ some x →
            backAt s1.mem x = backAt s.mem x))) := by
  obtain ⟨A, S, hns, hB, hR, hc⟩ := Set_gen hinv k value coins g hg
  rcases hc with ⟨d, f, _, hf, _⟩ | ⟨s1, hset, hhead, hless, hcase⟩
  · rw [ifaceEq_lawful] at hf
    exact Except.noConfusion hf
  · refine ⟨A, S, s1, hns, hB, hR, hset, hhead, hless, ?_⟩
    rcases hcase with ⟨d, S2, hS, hk, rest⟩ | ⟨hnk, rest⟩
    · exact Or.inl ⟨d, S2, hS, ifaceEq_true_iff.mp hk, rest⟩
    · exact Or.inr ⟨fun d hd => ifaceEq_false_iff.mp (hnk d hd), rest⟩

/-- `Get` with a non-nil key on a well-formed list, for any `==` on the keys:
it compares the key of the first cell of the `S` of the split its walk finds
with the key by `==`. -/
theorem Get_gen [GoEq K] {s : skipList K V} {ns : List Nat} (hinv : Inv s ns)
    (k : K) (g : Nat → Bool)
    (hg : ∀ x ∈ ns, s.less (keyAt s.mem x) (some k) = Except.ok (g x)) :
    ∃ A S, ns = A ++ S ∧ Stops s.mem g 0 (ht s.mem s.head) S ∧ Records s.mem g 0 A ∧
      s.Get (some k) =
        (match S.head? with
         | none => Except.ok (none, some Error.ErrNotFound)
         | some d =>
           (ifaceEq (keyAt s.mem d) (some k)).map (fun same =>
             if same then (valAt s.mem d, none) else (none, some Error.ErrNotFound))) := by
  obtain ⟨A, S, upd1, hns, haddr, _, _, hB, hR⟩ :=
    addressing_spec hinv (some k) g hg none (fun u hu => by cases hu)
  refine ⟨A, S, hns, hB, hR, ?_⟩
  unfold skipList.Get
  simp only [haddr, ok_bind]
  cases S with
  | nil => rfl
  | cons d S2 =>
    have hdlt : d < s.mem.length := hinv.lt_length d (by rw [hns]; simp)
    simp only [List.head?_cons, deref_of_lt hdlt, ok_bind,
      keyAt_of_get (get_of_lt hdlt), valAt_of_get (get_of_lt hdlt)]
    cases hc : ifaceEq s.mem[d].key (some k) with
    | error f => rfl
    | ok same =>
      rw [ok_bind]
      cases same <;> rfl

/-- `Get` with a non-nil key on a well-formed list looks at the first cell of the
`S` of the split its walk finds. -/
theorem Get_spec [DecidableEq K] {s : skipList K V} {ns : List Nat} (hinv : Inv s ns)
    (k : K) (g : Nat → Bool)
    (hg : ∀ x ∈ ns, s.less (keyAt s.mem x) (some k) = Except.ok (g x)) :
    ∃ A S, ns = A ++ S ∧ Stops s.mem g 0 (ht s.mem s.head) S ∧ Records s.mem g 0 A ∧
      s.Get (some k) = Except.ok
        (match S.head? with
         | none => (none, some Error.ErrNotFound)
         | some d =>
           if keyAt s.mem d = some k then (valAt s.mem d, none)
           else (none, some Error.ErrNotFound)) := by
  obtain ⟨A, S, hns, hB, hR, hget⟩ := Get_gen hinv k g hg
  refine ⟨A, S, hns, hB, hR, ?_⟩
  rw [hget]
  cases S with
  | nil => rfl
  | cons d S2 =>
    simp only [List.head?_cons, ifaceEq_lawful, Except.map]
    by_cases hk : keyAt s.mem d = some k
    · rw [if_pos hk, decide_eq_true hk, if_pos rfl]
    · rw [if_neg hk, decide_eq_false hk, if_neg (by simp)]

end SetGet

end SimpleDB


namespace SimpleDB

section Unlink

variable {K V : Type}

theorem level_cond {mem : List (node K V)} {head : Nat} (h : head < mem.length) (i : Nat) :
    ((i : Int) ≤ (mem[head].forward.length : Int) - 1) ↔ i < ht mem head := by
  rw [ht_of_get (get_of_lt h)]
  omega

/-- The unlink loop of `Del` from level `i`: at the levels below the height of
`d` the recorded predecessor takes over the link of `d`; the loop stops at the
height of `d`. -/
theorem unlinkLoop_spec (head : Nat) (update : List (Option Nat)) (d : Nat)
    (pj : Nat → Nat) :
    ∀ (fuel i : Nat) (mem : List (node K V)),
      head < mem.length → ht mem d ≤ ht mem head → i ≤ ht mem d → ht mem d - i < fuel →
      (∀ j, i ≤ j → j < ht mem head →
        update[j]? = some (some (pj j)) ∧ j < ht mem (pj j)) →
      (∀ j, i ≤ j → j < ht mem d → fwd mem (pj j) j = some (some d) ∧ pj j ≠ d) →
      (ht mem d < ht mem head → fwd mem (pj (ht mem d)) (ht mem d) ≠ some (some d)) →
      ∃ mem1, unlinkLoop head update d fuel i mem = Except.ok mem1 ∧
        mem1.length = mem.length ∧
        (∀ x, ht mem1 x = ht mem x) ∧ (∀ x, keyAt mem1 x = keyAt mem x) ∧
        (∀ x, valAt mem1 x = valAt mem x) ∧ (∀ x, backAt mem1 x = backAt mem x) ∧
        (∀ x j, fwd mem1 x j =
          if (i ≤ j ∧ j < ht mem d) ∧ x = pj j then fwd mem d j else fwd mem x j) := by
  intro fuel
  induction fuel with
  | zero => intro i mem _ _ _ h; exact absurd h (Nat.not_lt_zero _)
  | succ fuel ih =>
    intro i mem hhd hdh hi hfuel hupd hlink hstop
    by_cases hid : i < ht mem d
    · -- one more level to unlink
      obtain ⟨hu, hpht⟩ := hupd i (le_refl _) (by omega)
      obtain ⟨hfd, hne⟩ := hlink i (le_refl _) hid
      have hplt : pj i < mem.length := ht_pos_lt (by omega)
      have hdlt : d < mem.length := ht_pos_lt (by omega)
      obtain ⟨df, hdf⟩ := fwd_of_lt_ht hid
      obtain ⟨mem1, hw, hl1, hh1, hk1, hv1, hb1, hf1⟩ :=
        @writeForward_spec _ _ mem (pj i) i df hpht
      obtain ⟨mem2, hrun, hl2, hh2, hk2, hv2, hb2, hf2⟩ := ih (i + 1) mem1
        (by rw [hl1]; exact hhd) (by rw [hh1, hh1]; exact hdh) (by rw [hh1]; omega)
        (by rw [hh1]; omega)
        (by
          intro j h1 h2
          rw [hh1] at h2
          obtain ⟨a, b⟩ := hupd j (by omega) h2
          exact ⟨a, by rw [hh1]; exact b⟩)
        (by
          intro j h1 h2
          rw [hh1] at h2
          obtain ⟨a, b⟩ := hlink j (by omega) h2
          refine ⟨?_, b⟩
          rw [hf1, if_neg (by intro hc; omega)]
          exact a)
        (by
          intro h1
          rw [hh1, hh1] at h1
          rw [hh1, hf1, if_neg (by intro hc; omega)]
          exact hstop h1)
      refine ⟨mem2, ?_, by rw [hl2, hl1], fun x => by rw [hh2, hh1],
        fun x => by rw [hk2, hk1], fun x => by rw [hv2, hv1], fun x => by rw [hb2, hb1], ?_⟩
      · rw [unlinkLoop, deref_of_lt hhd, ok_bind]
        rw [if_pos ((level_cond hhd i).mpr (by omega))]
        simp only [idx_eq_ok hu, ok_bind, deref_of_lt hplt, idx_of_fwd (get_of_lt hplt) hfd,
          if_true, deref_of_lt hdlt, idx_of_fwd (get_of_lt hdlt) hdf, hw]
        exact hrun
      · intro x j
        simp only [hf2, hf1, hh1]
        by_cases hj : j = i
        · subst hj
          by_cases hx : x = pj j
          · subst hx
            simp [hid, hdf]
          · simp [hx]
        · have h1 : (i + 1 ≤ j ∧ j < ht mem d) ↔ (i ≤ j ∧ j < ht mem d) := by omega
          simp only [hj, and_false, if_false, h1]
    · -- the loop ends
      have hie : i = ht mem d := by omega
      refine ⟨mem, ?_, rfl, fun _ => rfl, fun _ => rfl, fun _ => rfl, fun _ => rfl, ?_⟩
      · rw [unlinkLoop, deref_of_lt hhd, ok_bind]
        by_cases hlt : i < ht mem head
        · rw [if_pos ((level_cond hhd i).mpr hlt)]
          obtain ⟨hu, hpht⟩ := hupd i (le_refl _) hlt
          have hplt : pj i < mem.length := ht_pos_lt (by omega)
          obtain ⟨f, hf⟩ := fwd_of_lt_ht hpht
          have hfne : f ≠ some d := by
            intro hc
            rw [hc, hie] at hf
            exact hstop (by omega) hf
          simp only [idx_eq_ok hu, ok_bind, deref_of_lt hplt, idx_of_fwd (get_of_lt hplt) hf,
            hfne, if_false]
          rfl
        · rw [if_neg (fun hc => hlt ((level_cond hhd i).mp hc))]
          rfl
      · intro x j
        rw [if_neg (by intro hc; omega)]

end Unlink

end SimpleDB


namespace SimpleDB

section Trim

variable {K V : Type}

/-- Dropping top slots of the sentinel keeps the sequence linked. -/
theorem Linked.shrink {mem mem1 : List (node K V)} {head : Nat} {ns : List Nat}
    (hL : Linked mem (head :: ns))
    (hh : ∀ x ∈ ns, ht mem1 x = ht mem x)
    (hf : ∀ x ∈ ns, ∀ j, fwd mem1 x j = fwd mem x j)
    (hle : ht mem1 head ≤ ht mem head)
    (hf0 : ∀ j, j < ht mem1 head → fwd mem1 head j = fwd mem head j) :
    Linked mem1 (head :: ns) := by
  intro A1 p B1 hsplit i hi
  cases A1 with
  | nil =>
    simp only [List.nil_append, List.cons.injEq] at hsplit
    obtain ⟨h1, h2⟩ := hsplit
    subst h1; subst h2
    rw [firstAt_congr i hh, hf0 i hi]
    exact hL [] head ns rfl i (by omega)
  | cons y a =>
    simp only [List.cons_append, List.cons.injEq] at hsplit
    obtain ⟨h1, h2⟩ := hsplit
    have hp : p ∈ ns := by rw [h2]; simp
    rw [hf p hp, firstAt_congr i (fun x hx => hh x (by rw [h2]; simp [hx]))]
    rw [hh p hp] at hi
    exact hL (head :: a) p B1 (by rw [h2]; simp) i hi

/-- The trimming loop of `Del`: it drops the top slots of the sentinel that are
nil, down to one slot. -/
theorem trimLoop_spec (head : Nat) (ns : List Nat) :
    ∀ (fuel : Nat) (mem : List (node K V)),
      head < mem.length → 1 ≤ ht mem head → ht mem head < fuel →
      Linked mem (head :: ns) → head ∉ ns → (∀ x ∈ ns, ht mem x ≤ ht mem head) →
      ∃ mem1, trimLoop head fuel mem = Except.ok mem1 ∧
        mem1.length = mem.length ∧ 1 ≤ ht mem1 head ∧ ht mem1 head ≤ ht mem head ∧
        (∀ x, x ≠ head → ht mem1 x = ht mem x) ∧
        (∀ x, keyAt mem1 x = keyAt mem x) ∧ (∀ x, valAt mem1 x = valAt mem x) ∧
        (∀ x, backAt mem1 x = backAt mem x) ∧
        (∀ x j, x ≠ head → fwd mem1 x j = fwd mem x j) ∧
        (∀ j, j < ht mem1 head → fwd mem1 head j = fwd mem head j) ∧
        Linked mem1 (head :: ns) ∧ (∀ x ∈ ns, ht mem1 x ≤ ht mem1 head) ∧
        (ht mem1 head = 1 ∨ fwd mem1 head (ht mem1 head - 1) ≠ some none) := by
  intro fuel
  induction fuel with
  | zero => intro mem _ _ h; exact absurd h (Nat.not_lt_zero _)
  | succ fuel ih =>
    intro mem hhd h1 hfuel hL hnd hle
    have hg := get_of_lt hhd
    have hht := ht_of_get hg
    obtain ⟨top, htop⟩ := @fwd_of_lt_ht _ _ mem head (ht mem head - 1)
      (by omega)
    have hstay : (ht mem head = 1 ∨ top ≠ none) →
        ∃ mem1, trimLoop head (fuel + 1) mem = Except.ok mem1 ∧
        mem1.length = mem.length ∧ 1 ≤ ht mem1 head ∧ ht mem1 head ≤ ht mem head ∧
        (∀ x, x ≠ head → ht mem1 x = ht mem x) ∧
        (∀ x, keyAt mem1 x = keyAt mem x) ∧ (∀ x, valAt mem1 x = valAt mem x) ∧
        (∀ x, backAt mem1 x = backAt mem x) ∧
        (∀ x j, x ≠ head → fwd mem1 x j = fwd mem x j) ∧
        (∀ j, j < ht mem1 head → fwd mem1 head j = fwd mem head j) ∧
        Linked mem1 (head :: ns) ∧ (∀ x ∈ ns, ht mem1 x ≤ ht mem1 head) ∧
        (ht mem1 head = 1 ∨ fwd mem1 head (ht mem1 head - 1) ≠ some none) := by
      intro hc
      refine ⟨mem, ?_, rfl, h1, le_refl _, fun _ _ => rfl, fun _ => rfl, fun _ => rfl,
        fun _ => rfl, fun _ _ _ => rfl, fun _ _ => rfl, hL, hle, ?_⟩
      · rw [trimLoop, deref_of_lt hhd, ok_bind]
        rcases hc with hc | hc
        · rw [if_neg (by rw [← hht]; omega)]; rfl
        · by_cases h2 : (mem[head].forward.length : Int) - 1 > 0
          · rw [if_pos h2, ← hht, idx_of_fwd hg htop, ok_bind, if_neg hc]; rfl
          · rw [if_neg h2]; rfl
      · rcases hc with hc | hc
        · exact Or.inl hc
        · right; rw [htop]; intro h; exact hc (Option.some.inj h)
    by_cases hone : ht mem head = 1
    · exact hstay (Or.inl hone)
    · by_cases htn : top = none
      · -- the top slot is nil: drop it and go on
        subst htn
        have hlow : ∀ x ∈ ns, ht mem x ≤ ht mem head - 1 := by
          have h2 := hL [] head ns rfl (ht mem head - 1) (by omega)
          rw [htop] at h2
          exact firstAt_eq_none.mp (Option.some.inj h2).symm
        have hs := @get_set_self _ _ mem _
          { mem[head] with forward := mem[head].forward.take (mem[head].forward.length - 1) }
          hhd
        obtain ⟨m1, hm1⟩ : ∃ m, m = mem.set head
          { mem[head] with forward := mem[head].forward.take (mem[head].forward.length - 1) } :=
          ⟨_, rfl⟩
        rw [← hm1] at hs
        have hl1 : m1.length = mem.length := by rw [hm1]; simp
        have hh1 : ht m1 head = ht mem head - 1 := by
          rw [ht_of_get hs, hht]; simp
        have hx1 : ∀ x, x ≠ head → m1[x]? = mem[x]? :=
          fun x hx => by rw [hm1]; exact get_set_ne _ hx
        have hhx : ∀ x, x ≠ head → ht m1 x = ht mem x := fun x hx => by simp [ht, hx1 x hx]
        have hfx : ∀ x j, x ≠ head → fwd m1 x j = fwd mem x j :=
          fun x j hx => by simp [fwd, hx1 x hx]
        have hk : ∀ x, keyAt m1 x = keyAt mem x := by
          intro x
          by_cases hx : x = head
          · subst hx; rw [keyAt_of_get hs, keyAt_of_get hg]
          · simp [keyAt, hx1 x hx]
        have hv : ∀ x, valAt m1 x = valAt mem x := by
          intro x
          by_cases hx : x = head
          · subst hx; rw [valAt_of_get hs, valAt_of_get hg]
          · simp [valAt, hx1 x hx]
        have hb : ∀ x, backAt m1 x = backAt mem x := by
          intro x
          by_cases hx : x = head
          · subst hx; simp [backAt, hs, hg]
          · simp [backAt, hx1 x hx]
        have hf0 : ∀ j, j < ht m1 head → fwd m1 head j = fwd mem head j := by
          intro j hj
          rw [hh1, hht] at hj
          rw [fwd_of_get hs, fwd_of_get hg]
          simp only
          rw [List.getElem?_take]
          rw [if_pos hj]
        have hne : ∀ x ∈ ns, x ≠ head := fun x hx hc => hnd (hc ▸ hx)
        have hL1 : Linked m1 (head :: ns) :=
          hL.shrink (fun x hx => hhx x (hne x hx)) (fun x hx j => hfx x j (hne x hx))
            (by rw [hh1]; omega) hf0
        obtain ⟨mem2, hrun, hl2, h21, h2le, hh2, hk2, hv2, hb2, hf2, hf02, hL2, hle2, htop2⟩ :=
          ih m1 (by rw [hl1]; exact hhd) (by rw [hh1]; omega) (by rw [hh1]; omega) hL1 hnd
            (fun x hx => by rw [hhx x (hne x hx), hh1]; exact hlow x hx)
        refine ⟨mem2, ?_, by rw [hl2, hl1], h21, by omega, fun x hx => by rw [hh2 x hx, hhx x hx],
          fun x => by rw [hk2, hk], fun x => by rw [hv2, hv], fun x => by rw [hb2, hb],
          fun x j hx => by rw [hf2 x j hx, hfx x j hx],
          fun j hj => by rw [hf02 j hj, hf0 j (by omega)], hL2, hle2, htop2⟩
        rw [trimLoop, deref_of_lt hhd, ok_bind, if_pos (by rw [← hht]; omega), ← hht,
          idx_of_fwd hg htop, ok_bind, if_pos rfl, hht, ← hm1]
        exact hrun
      · exact hstay (Or.inr htn)

end Trim

end SimpleDB


namespace SimpleDB

section Del

variable {K V : Type}

/-- The removal of the cell `d` that the walk found after `head :: A`: `Del`
returns nil and leaves a well-formed list without `d`. -/
theorem unlinkNode_spec {s : skipList K V} {ns A S2 : List Nat} {d : Nat}
    (hinv : Inv s ns) (hns : ns = A ++ d :: S2) (update : List (Option Nat))
    (hU : PathRec s.mem s.head A 0 (some update))
    (hlen : update.length = ht s.mem s.head) :
    ∃ s1, s.unlinkNode update d = Except.ok (none, s1) ∧
      Inv s1 (A ++ S2) ∧
      s1.head = s.head ∧ s1.less = s.less ∧ s1.len = s.len - 1 ∧
      s1.mem.length = s.mem.length ∧
      (∀ x, keyAt s1.mem x = keyAt s.mem x) ∧ (∀ x, valAt s1.mem x = valAt s.mem x) ∧
      (∀ x ∈ ns, ht s1.mem x = ht s.mem x) ∧
      ht s1.mem s.head ≤ ht s.mem s.head ∧
      (ht s1.mem s.head = 1 ∨ fwd s1.mem s.head (ht s1.mem s.head - 1) ≠ some none) ∧
      (∀ nx, S2.head? = some nx → backAt s1.mem nx = backAt s.mem d) ∧
      (∀ x, S2.head? ≠ some x → backAt s1.mem x = backAt s.mem x) := by
  have hhd := hinv.head_lt
  have hne : ∀ x ∈ ns, x ≠ s.head :=
    fun x hx hc => (List.nodup_cons.mp hinv.nodup).1 (hc ▸ hx)
  have hlt : ∀ x ∈ ns, x < s.mem.length := hinv.lt_length
  have hdns : d ∈ ns := by rw [hns]; simp
  have hdlt := hlt d hdns
  have hnd : ((s.head :: A) ++ d :: S2).Nodup := by
    rw [List.cons_append, ← hns]; exact hinv.nodup
  have hL0 : Linked s.mem ((s.head :: A) ++ d :: S2) := by
    rw [List.cons_append, ← hns]; exact hinv.linked
  have hdP : d ∉ s.head :: A := fun h => (List.nodup_append.mp hnd).2.2 h (by simp)
  have hdS : d ∉ S2 := by
    have := (List.nodup_append.mp hnd).2.1
    exact (List.nodup_cons.mp this).1
  have hS2_ht : ∀ x ∈ S2, 1 ≤ ht s.mem x := fun x hx => hinv.ht_pos x (by rw [hns]; simp [hx])
  -- the first step: the backward link of the successor
  have hnext : s.mem[d].next = S2.head? := by
    have := hL0 (s.head :: A) d S2 rfl 0 (hinv.ht_pos d hdns)
    rw [firstAt_zero_eq_head hS2_ht] at this
    exact next_of_fwd (get_of_lt hdlt) this
  have hstep1 : ∃ mem1, ((s.mem[d].next = none ∧ mem1 = s.mem) ∨
        (∃ nx, s.mem[d].next = some nx ∧
          writeBackward s.mem nx s.mem[d].backward = Except.ok mem1)) ∧
      SameLinks s.mem mem1 ∧ (∀ x, valAt mem1 x = valAt s.mem x) ∧
      (∀ nx, S2.head? = some nx → backAt mem1 nx = backAt s.mem d) ∧
      (∀ x, S2.head? ≠ some x → backAt mem1 x = backAt s.mem x) := by
    rw [hnext]
    cases hS : S2.head? with
    | none =>
      exact ⟨s.mem, Or.inl ⟨rfl, rfl⟩, SameLinks.refl _, fun _ => rfl,
        fun _ h => Option.noConfusion h, fun _ _ => rfl⟩
    | some nx =>
      have hnx : nx ∈ S2 := by
        cases S2 with
        | nil => simp at hS
        | cons y S3 => simp at hS; subst hS; simp
      obtain ⟨m, h1, h2, h3, h4, h5⟩ := @writeBackward_spec _ _ s.mem _ s.mem[d].backward
        (hlt nx (by rw [hns]; simp [hnx]))
      refine ⟨m, Or.inr ⟨nx, rfl, h1⟩, h2, h3, fun y hy => ?_, fun x hx => ?_⟩
      · rw [← Option.some.inj hy, h4, backAt_of_get (get_of_lt hdlt)]
      · exact h5 x (fun hc => hx (by rw [hc]))
  obtain ⟨mem1, hm1, hsl1, hv1, hbx1, hbn1⟩ := hstep1
  obtain ⟨h1h, h1k, h1f⟩ := sameLinks_valAt hsl1
  have hL1 : Linked mem1 ((s.head :: A) ++ d :: S2) :=
    hL0.sameHeap (fun x _ => h1h x) (fun x _ i => h1f x i)
  -- the recorded predecessors
  obtain ⟨hUl, hUp⟩ := hU
  obtain ⟨pj, hpj⟩ : ∃ pj : Nat → Nat, ∀ j, j < ht s.mem s.head →
      lastAt s.mem j (s.head :: A) = some (pj j) := by
    refine ⟨fun j => (lastAt s.mem j (s.head :: A)).getD 0, fun j hj => ?_⟩
    obtain ⟨q, hq⟩ := @lastAt_cons_isSome _ _ s.mem _ _ A hj
    simp [hq]
  have hpj1 : ∀ j, j < ht mem1 s.head → lastAt mem1 j (s.head :: A) = some (pj j) :=
    fun j hj => by rw [lastAt_congr j (fun x _ => h1h x)]; exact hpj j (by rw [← h1h]; exact hj)
  have hdle : ht mem1 d ≤ ht mem1 s.head := by rw [h1h, h1h]; exact hinv.ht_le d hdns
  have hfp : ∀ j, j < ht mem1 s.head →
      fwd mem1 (pj j) j = some (firstAt mem1 j (d :: S2)) := by
    intro j hj
    obtain ⟨hq, a, b, hs, hlow⟩ := lastAt_some_split (hpj1 j hj)
    have := hL1 a (pj j) (b ++ d :: S2) (by rw [hs]; simp) j hq
    rw [this, firstAt_append_low _ hlow]
  obtain ⟨mem2, hrun, hl2, hh2, hk2, hv2, hb2, hf2⟩ :=
    unlinkLoop_spec s.head update d pj (update.length + 1) 0 mem1
      (by rw [hsl1.1]; exact hhd) hdle (Nat.zero_le _)
      (by rw [hlen, ← h1h]; omega)
      (by
        intro j _ hj
        refine ⟨?_, (lastAt_some_split (hpj1 j hj)).1⟩
        rw [hUp j (Nat.zero_le _) (by rw [← h1h]; exact hj), hpj j (by rw [← h1h]; exact hj)])
      (by
        intro j _ hj
        refine ⟨?_, fun hc => hdP (hc ▸ lastAt_mem (hpj1 j (by omega)))⟩
        rw [hfp j (by omega), firstAt_cons, if_pos hj])
      (by
        intro hlt1
        rw [hfp _ hlt1, firstAt_cons, if_neg (lt_irrefl _)]
        intro hc
        exact hdS (firstAt_mem (Option.some.inj hc)))
  have hL2 : Linked mem2 ((s.head :: A) ++ S2) := by
    refine Linked.remove pj hL1 hnd hh2 (fun j hj => hpj1 j (by omega)) ?_
    intro x j
    rw [hf2]
    by_cases hc : j < ht mem1 d ∧ x = pj j
    · rw [if_pos ⟨⟨Nat.zero_le _, hc.1⟩, hc.2⟩, if_pos hc]
    · rw [if_neg (fun h => hc ⟨h.1.2, h.2⟩), if_neg hc]
  -- trimming
  have hhd2 : s.head < mem2.length := by rw [hl2, hsl1.1]; exact hhd
  have hht2 : ht mem2 s.head = ht s.mem s.head := by rw [hh2, h1h]
  have hA2 : ∀ x ∈ A ++ S2, x ∈ ns := by
    intro x hx
    rw [hns]
    rcases List.mem_append.mp hx with h | h
    · simp [h]
    · simp [h]
  obtain ⟨mem3, htrim, hl3, h31, h3le, hh3, hk3, hv3, hb3, hf3, hf03, hL3, hle3, htop3⟩ :=
    trimLoop_spec s.head (A ++ S2) (ht mem2 s.head + 1) mem2 hhd2
      (by rw [hht2]; exact hinv.head_ht) (by omega)
      (by rw [← List.cons_append]; exact hL2)
      (fun h => (List.nodup_cons.mp hinv.nodup).1 (hA2 _ h))
      (fun x hx => by rw [hh2, h1h, hht2]; exact hinv.ht_le x (hA2 x hx))
  have hhtns : ∀ x ∈ ns, ht mem3 x = ht s.mem x := fun x hx => by
    rw [hh3 x (hne x hx), hh2, h1h]
  refine ⟨{ s with mem := mem3, len := s.len - 1 }, ?_, ⟨?_, ?_, ?_, ?_, ?_, ?_, ?_, ?_, ?_,
    hinv.maxLevel_eq⟩, rfl, rfl, rfl, by rw [hl3, hl2, hsl1.1],
    fun x => by rw [hk3, hk2, h1k], fun x => by rw [hv3, hv2, hv1], hhtns,
    by rw [← hht2]; exact h3le, htop3,
    fun nx hnx => by rw [hb3, hb2]; exact hbx1 nx hnx,
    fun x hx => by rw [hb3, hb2]; exact hbn1 x hx⟩
  · unfold skipList.unlinkNode
    rcases hm1 with ⟨h1, h2⟩ | ⟨nx, h1, h2⟩
    · subst h2
      simp only [deref_of_lt hdlt, ok_bind, h1, pure_eq_ok, hrun, deref_of_lt hhd2,
        ← ht_of_get (get_of_lt hhd2), htrim]
    · simp only [deref_of_lt hdlt, ok_bind, h1, h2, pure_eq_ok, hrun, deref_of_lt hhd2,
        ← ht_of_get (get_of_lt hhd2), htrim]
  · show keyAt mem3 s.head = none
    rw [hk3, hk2, h1k]; exact hinv.head_key
  · exact h31
  · show ht mem3 s.head ≤ 33
    have := hinv.head_le; omega
  · show (s.head :: (A ++ S2)).Nodup
    have hsub : List.Sublist (s.head :: (A ++ S2)) (s.head :: ns) := by
      rw [hns]
      exact List.Sublist.cons₂ _ (List.Sublist.append_left (List.sublist_cons_self d S2) A)
    exact hinv.nodup.sublist hsub
  · intro x hx
    show (keyAt mem3 x).isSome = true
    rw [hk3, hk2, h1k]; exact hinv.key_some x (hA2 x hx)
  · intro x hx
    show 1 ≤ ht mem3 x
    rw [hhtns x (hA2 x hx)]; exact hinv.ht_pos x (hA2 x hx)
  · exact hle3
  · exact hL3
  · show s.len - 1 = ((A ++ S2).length : Int)
    rw [hinv.len_eq, hns]
    simp only [List.length_append, List.length_cons]
    push_cast
    omega

end Del

end SimpleDB


namespace SimpleDB

section Del2

variable {K V : Type}

theorem Inv.make_del {s : skipList K V} {ns : List Nat} (_hinv : Inv s ns)
    (hH : ht s.mem s.head ≤ 32) :
    make (((ht s.mem s.head : Int) - 1) + 1) 32
      = Except.ok (List.replicate (ht s.mem s.head) none) := by
  rw [make_ok (by omega) (by omega)]
  congr 2
  omega

/-- `Del` with a non-nil key on a well-formed list whose sentinel has at most 32
slots, for any `==` on the keys.  With the split `ns = A ++ S` its walk finds, it
compares the key of the first cell of `S` with the key by `==`: it aborts when the
comparison does, removes that cell when the comparison holds, and returns
`ErrNotFound` without a change when it fails or `S` is empty. -/
theorem Del_gen [GoEq K] {s : skipList K V} {ns : List Nat} (hinv : Inv s ns)
    (hH : ht s.mem s.head ≤ 32) (k : K) (g : Nat → Bool)
    (hg : ∀ x ∈ ns, s.less (keyAt s.mem x) (some k) = Except.ok (g x)) :
    ∃ A S, ns = A ++ S ∧ Stops s.mem g 0 (ht s.mem s.head) S ∧ Records s.mem g 0 A ∧
      ((∃ d f, S.head? = some d ∧ ifaceEq (keyAt s.mem d) (some k) = Except.error f ∧
          s.Del (some k) = Except.error f) ∨
        (∃ d S2 s1, S = d :: S2 ∧ ifaceEq (keyAt s.mem d) (some k) = Except.ok true ∧
          s.Del (some k) = Except.ok (none, s1) ∧ Inv s1 (A ++ S2) ∧
          s1.head = s.head ∧ s1.less = s.less ∧ s1.len = s.len - 1 ∧
          s1.mem.length = s.mem.length ∧
          (∀ x, keyAt s1.mem x = keyAt s.mem x) ∧ (∀ x, valAt s1.mem x = valAt s.mem x) ∧
          (∀ x ∈ ns, ht s1.mem x = ht s.mem x) ∧
          ht s1.mem s.head ≤ ht s.mem s.head ∧
          (ht s1.mem s.head = 1 ∨ fwd s1.mem s.head (ht s1.mem s.head - 1) ≠ some none) ∧
          (∀ nx, S2.head? = some nx → backAt s1.mem nx = backAt s.mem d) ∧
          (∀ x, S2.head? ≠ some x → backAt s1.mem x = backAt s.mem x)) ∨
        ((∀ d, S.head? = some d → ifaceEq (keyAt s.mem d) (some k) = Except.ok false) ∧
          s.Del (some k) = Except.ok (some Error.ErrNotFound, s))) := by
  obtain ⟨A, S, upd1, hns, haddr, hU, hlen, hB, hR⟩ :=
    addressing_spec hinv (some k) g hg (some (List.replicate (ht s.mem s.head) none))
      (fun u hu => by cases hu; simp)
  refine ⟨A, S, hns, hB, hR, ?_⟩
  cases upd1 with
  | none => simp at hlen
  | some u =>
    have hul : u.length = ht s.mem s.head := by simpa using hlen
    unfold skipList.Del
    simp only [hinv.level_eq, hinv.maxEffectiveLevel_eq, ok_bind, hinv.make_del hH, haddr]
    cases S with
    | nil =>
      right; right
      exact ⟨fun d hd => by simp at hd, rfl⟩
    | cons d S2 =>
      have hdlt : d < s.mem.length := hinv.lt_length d (by rw [hns]; simp)
      simp only [List.head?_cons, deref_of_lt hdlt, ok_bind]
      have hkd : keyAt s.mem d = s.mem[d].key := keyAt_of_get (get_of_lt hdlt)
      cases hc : ifaceEq s.mem[d].key (some k) with
      | error f =>
        left
        exact ⟨d, f, rfl, by rw [hkd]; exact hc, rfl⟩
      | ok same =>
        right
        rw [ok_bind]
        cases same with
        | true =>
          left
          rw [if_pos rfl]
          obtain ⟨s1, h1, h2⟩ := unlinkNode_spec hinv hns u hU hul
          refine ⟨d, S2, s1, rfl, by rw [hkd]; exact hc, ?_, h2⟩
          unfold skipList.delLocked
          simp only [hinv.level_eq, hinv.maxEffectiveLevel_eq, ok_bind, hinv.make_del hH,
            haddr, List.head?_cons, deref_of_lt hdlt, hc, if_pos, Option.getD_some]
          exact h1
        | false =>
          right
          rw [if_neg (by simp)]
          refine ⟨?_, rfl⟩
          intro d1 hd1
          simp only [List.head?_cons, Option.some.injEq] at hd1
          subst hd1
          rw [hkd]; exact hc

/-- `Del` with a non-nil key on a well-formed list whose sentinel has at most 32
slots: with the split `ns = A ++ S` its walk finds, it removes the first cell of
`S` when that cell has the key itself, and returns `ErrNotFound` without a change
otherwise. -/
theorem Del_spec [DecidableEq K] {s : skipList K V} {ns : List Nat} (hinv : Inv s ns)
    (hH : ht s.mem s.head ≤ 32) (k : K) (g : Nat → Bool)
    (hg : ∀ x ∈ ns, s.less (keyAt s.mem x) (some k) = Except.ok (g x)) :
    ∃ A S, ns = A ++ S ∧ Stops s.mem g 0 (ht s.mem s.head) S ∧ Records s.mem g 0 A ∧
      ((∃ d S2 s1, S = d :: S2 ∧ keyAt s.mem d = some k ∧
          s.Del (some k) = Except.ok (none, s1) ∧ Inv s1 (A ++ S2) ∧
          s1.head = s.head ∧ s1.less = s.less ∧ s1.len = s.len - 1 ∧
          s1.mem.length = s.mem.length ∧
          (∀ x, keyAt s1.mem x = keyAt s.mem x) ∧ (∀ x, valAt s1.mem x = valAt s.mem x) ∧
          (∀ x ∈ ns, ht s1.mem x = ht s.mem x) ∧
          ht s1.mem s.head ≤ ht s.mem s.head ∧
          (ht s1.mem s.head = 1 ∨ fwd s1.mem s.head (ht s1.mem s.head - 1) ≠ some none) ∧
          (∀ nx, S2.head? = some nx → backAt s1.mem nx = backAt s.mem d) ∧
          (∀ x, S2.head? ≠ some x → backAt s1.mem x = backAt s.mem x)) ∨
        ((∀ d, S.head? = some d → keyAt s.mem d ≠ some k) ∧
          s.Del (some k) = Except.ok (some Error.ErrNotFound, s))) := by
  obtain ⟨A, S, hns, hB, hR, hc⟩ := Del_gen hinv hH k g hg
  refine ⟨A, S, hns, hB, hR, ?_⟩
  rcases hc with ⟨d, f, _, hf, _⟩ | ⟨d, S2, s1, hS, hk, rest⟩ | ⟨hnk, rest⟩
  · rw [ifaceEq_lawful] at hf
    exact Except.noConfusion hf
  · exact Or.inl ⟨d, S2, s1, hS, ifaceEq_true_iff.mp hk, rest⟩
  · exact Or.inr ⟨fun d hd => ifaceEq_false_iff.mp (hnk d hd), rest⟩

/-- On a list whose sentinel has 33 slots, `Del` with a non-nil key aborts in
`make([]*node, s.level()+1, s.maxEffectiveLevel())`: length 33, capacity 32. -/
theorem Del_fault [GoEq K] {s : skipList K V} {ns : List Nat} (hinv : Inv s ns)
    (hH : ht s.mem s.head = 33) (k : K) :
    s.Del (some k) = Except.error Fault.makeslice := by
  unfold skipList.Del
  simp only [hinv.level_eq, hinv.maxEffectiveLevel_eq, ok_bind]
  rw [make_fault (by omega)]
  rfl

/-- `Set`, `Get` and `Del` with a nil key. -/
theorem nil_key [GoEq K] (s : skipList K V) (value : Option V) (coins : Nat → Bool) :
    s.Set none value coins = Except.ok (some Error.ErrNilKey, s) ∧
      s.Get none = Except.ok (none, some Error.ErrNilKey) ∧
      s.Del none = Except.ok (some Error.ErrNilKey, s) :=
  ⟨rfl, rfl, rfl⟩

end Del2

section Iter

variable {K V : Type}

/-- Draining an iterator that stands on a cell of the sequence yields the cells
after it. -/
theorem drain_spec (mem : List (node K V)) :
    ∀ (fuel : Nat) (p : Nat) (B : List Nat) (key : Option K) (value : Option V),
      Linked mem (p :: B) → (∀ x ∈ p :: B, 1 ≤ ht mem x) → B.length < fuel →
      drain mem fuel { key := key, value := value, currNode := some p }
        = Except.ok (view mem B) := by
  intro fuel
  induction fuel with
  | zero => intro p B _ _ _ _ h; exact absurd h (Nat.not_lt_zero _)
  | succ fuel ih =>
    intro p B key value hL hht hlen
    have hp : p < mem.length := ht_pos_lt (hht p (by simp))
    have hf := hL [] p B rfl 0 (hht p (by simp))
    rw [firstAt_zero_eq_head (fun x hx => hht x (by simp [hx]))] at hf
    have hnext := next_of_fwd (get_of_lt hp) hf
    cases B with
    | nil =>
      simp only [List.head?_nil] at hnext
      simp [drain, iterator.HasNext, derefOpt, deref_of_lt hp, ok_bind, node.hasNext, hnext,
        view, pure_eq_ok]
    | cons q B =>
      simp only [List.head?_cons] at hnext
      have hq : q < mem.length := ht_pos_lt (hht q (by simp))
      have hrec := ih q B mem[q].key mem[q].value hL.suffix_one
        (fun x hx => hht x (by simp [hx])) (by simp at hlen; omega)
      simp only [drain, iterator.HasNext, derefOpt, deref_of_lt hp, ok_bind, node.hasNext,
        hnext, Option.isSome_some, Bool.not_true, deref_of_lt hq, pure_eq_ok]
      simp only [Bool.false_eq_true, if_false, ok_bind, if_true, hrec, iterator.Key,
        iterator.Value, view, List.map_cons, keyAt_of_get (get_of_lt hq),
        valAt_of_get (get_of_lt hq)]

/-- A fresh iterator of a well-formed list yields the cells in sequence. -/
theorem entries_spec {s : skipList K V} {ns : List Nat} (hinv : Inv s ns) :
    s.entries = Except.ok (view s.mem ns) := by
  unfold skipList.entries skipList.Iterator
  exact drain_spec s.mem _ s.head ns none none hinv.linked
    (fun x hx => by
      rcases List.mem_cons.mp hx with h | h
      · rw [h]; exact hinv.head_ht
      · exact hinv.ht_pos x h)
    (by have := hinv.length_le; omega)

end Iter

end SimpleDB


namespace SimpleDB

section Abstract

variable {K V : Type}

theorem setA_split [DecidableEq K] (lt : K → K → Bool) (k : K) (v : V)
    (lA lS : List (K × V)) (h : ∀ e ∈ lA, lt e.1 k = true) :
    setA lt k v (lA ++ lS) = lA ++ setA lt k v lS := by
  induction lA with
  | nil => rfl
  | cons e lA ih =>
    rw [List.cons_append, setA, if_pos (h e (by simp)), ih (fun x hx => h x (by simp [hx]))]
    rfl

theorem delA_split [DecidableEq K] (lt : K → K → Bool) (k : K)
    (lA lS : List (K × V)) (h : ∀ e ∈ lA, lt e.1 k = true) :
    delA lt k (lA ++ lS) = lA ++ delA lt k lS := by
  induction lA with
  | nil => rfl
  | cons e lA ih =>
    rw [List.cons_append, delA, if_pos (h e (by simp)), ih (fun x hx => h x (by simp [hx]))]
    rfl

theorem getA_split [DecidableEq K] (lt : K → K → Bool) (k : K)
    (lA lS : List (K × V)) (h : ∀ e ∈ lA, lt e.1 k = true) :
    getA lt k (lA ++ lS) = getA lt k lS := by
  induction lA with
  | nil => rfl
  | cons e lA ih =>
    rw [List.cons_append, getA, if_pos (h e (by simp))]
    exact ih (fun x hx => h x (by simp [hx]))

theorem getA_stop [DecidableEq K] (lt : K → K → Bool) (k : K) (e : K × V)
    (r : List (K × V)) (h : lt e.1 k = false) :
    getA lt k (e :: r) = if e.1 = k then some e.2 else none := by
  rw [getA, if_neg (by rw [h]; exact Bool.false_ne_true)]

theorem setA_stop [DecidableEq K] (lt : K → K → Bool) (k : K) (v : V) (e : K × V)
    (r : List (K × V)) (h : lt e.1 k = false) :
    setA lt k v (e :: r) = if e.1 = k then (k, v) :: r else (k, v) :: e :: r := by
  rw [setA, if_neg (by rw [h]; exact Bool.false_ne_true)]

theorem delA_stop [DecidableEq K] (lt : K → K → Bool) (k : K) (e : K × V)
    (r : List (K × V)) (h : lt e.1 k = false) :
    delA lt k (e :: r) = if e.1 = k then r else e :: r := by
  rw [delA, if_neg (by rw [h]; exact Bool.false_ne_true)]

theorem view_append (mem : List (node K V)) (a b : List Nat) :
    view mem (a ++ b) = view mem a ++ view mem b := by
  simp [view]

theorem view_cons (mem : List (node K V)) (p : Nat) (b : List Nat) :
    view mem (p :: b) = (keyAt mem p, valAt mem p) :: view mem b := rfl

theorem view_congr {mem mem1 : List (node K V)} {l : List Nat}
    (h : ∀ x ∈ l, keyAt mem1 x = keyAt mem x ∧ valAt mem1 x = valAt mem x) :
    view mem1 l = view mem l := by
  unfold view
  apply List.map_congr_left
  intro x hx
  rw [(h x hx).1, (h x hx).2]

/-- A split of the cells is a split of the entries. -/
theorem view_split {mem : List (node K V)} {A S : List Nat} {l : List (K × Option V)}
    (h : view mem (A ++ S) = l.map emb) :
    ∃ lA lS, l = lA ++ lS ∧ view mem A = lA.map emb ∧ view mem S = lS.map emb := by
  rw [view_append] at h
  obtain ⟨lA, lS, h1, h2, h3⟩ := List.map_eq_append_iff.mp h.symm
  exact ⟨lA, lS, h1, h2.symm, h3.symm⟩

theorem view_cons_inv {mem : List (node K V)} {d : Nat} {S : List Nat}
    {l : List (K × Option V)} (h : view mem (d :: S) = l.map emb) :
    ∃ e r, l = e :: r ∧ keyAt mem d = some e.1 ∧ valAt mem d = e.2 ∧
      view mem S = r.map emb := by
  cases l with
  | nil => simp [view] at h
  | cons e r =>
    rw [view_cons] at h
    simp only [List.map_cons, List.cons.injEq, emb, Prod.mk.injEq] at h
    exact ⟨e, r, rfl, h.1.1, h.1.2, h.2⟩

theorem view_nil_inv {mem : List (node K V)} {l : List (K × Option V)}
    (h : view mem [] = l.map emb) : l = [] := by
  cases l with
  | nil => rfl
  | cons e r => simp [view] at h

theorem gOf_of_key {mem : List (node K V)} (lt : K → K → Bool) (k : K) {x : Nat} {a : K}
    (h : keyAt mem x = some a) : gOf lt mem k x = lt a k := by
  simp [gOf, h]

theorem Inv.decides {s : skipList K V} {ns : List Nat} (hinv : Inv s ns)
    {lt : K → K → Bool} (hd : Decides s lt) (k : K) :
    ∀ x ∈ ns, s.less (keyAt s.mem x) (some k) = Except.ok (gOf lt s.mem k x) := by
  intro x hx
  have := hinv.key_some x hx
  cases hk : keyAt s.mem x with
  | none => rw [hk] at this; exact Bool.noConfusion this
  | some a => rw [gOf_of_key lt k hk]; exact hd a k

/-- In a sorted list, the split a walk finds has the entries less than the key
before it and no such entry after it. -/
theorem split_sorted {mem : List (node K V)} {lt : K → K → Bool} (hsw : StrictWeak lt)
    {A S : List Nat} {lA lS : List (K × Option V)} {k : K} {h : Nat}
    (hsort : SortedA lt (lA ++ lS))
    (hA : view mem A = lA.map emb) (hS : view mem S = lS.map emb)
    (hpos : ∀ x ∈ A ++ S, 1 ≤ ht mem x) (hh : 1 ≤ h)
    (hB : Stops mem (gOf lt mem k) 0 h S) (hR : Records mem (gOf lt mem k) 0 A) :
    (∀ e ∈ lA, lt e.1 k = true) ∧ (∀ e ∈ lS, lt e.1 k = false) := by
  constructor
  · -- the last cell of `A` is on the walk; the entries before it are not above it
    rcases List.eq_nil_or_concat A with hnil | ⟨A0, x, hx⟩
    · subst hnil
      rw [view_nil_inv hA]; simp
    · have hx1 : A = A0 ++ [x] := by rw [hx]; simp
      subst hx1
      obtain ⟨l0, l1, hl, h0, h1⟩ := view_split hA
      obtain ⟨e, r, hl1, hk, _, hr⟩ := view_cons_inv h1
      have hr0 := view_nil_inv hr
      subst hr0; subst hl1; subst hl
      have hgx := hR A0 x [] rfl (hpos x (by simp)) (fun y hy => by simp at hy)
      rw [gOf_of_key lt k hk] at hgx
      intro e1 he1
      rcases List.mem_append.mp he1 with h2 | h2
      · have hs : lt e.1 e1.1 = false := by
          have := List.pairwise_append.mp (List.pairwise_append.mp hsort).1
          exact this.2.2 e1 h2 e (by simp)
        by_contra hc
        have hc1 : lt e1.1 k = false := by simpa using hc
        have := hsw.negTrans _ _ _ hs hc1
        rw [this] at hgx; exact Bool.noConfusion hgx
      · simp at h2; subst h2; exact hgx
  · cases S with
    | nil => rw [view_nil_inv hS]; simp
    | cons d S2 =>
      obtain ⟨e, r, hl1, hk, _, hr⟩ := view_cons_inv hS
      subst hl1
      have hgd := hB 0 (le_refl _) (by omega) d (by
        rw [firstAt_cons, if_pos (by have := hpos d (by simp); omega)])
      rw [gOf_of_key lt k hk] at hgd
      intro e1 he1
      rcases List.mem_cons.mp he1 with h2 | h2
      · rw [h2]; exact hgd
      · have hs : lt e1.1 e.1 = false := by
          have := (List.pairwise_append.mp hsort).2.1
          exact (List.pairwise_cons.mp this).1 e1 h2
        exact hsw.negTrans _ _ _ hs hgd

end Abstract

end SimpleDB


namespace SimpleDB

section Unique

variable {K V : Type}

/-- A non-empty sequence has a first cell of greatest height. -/
theorem exists_peak (mem : List (node K V)) :
    ∀ X : List Nat, X ≠ [] → ∃ X0 f X1, X = X0 ++ f :: X1 ∧
      (∀ y ∈ X0, ht mem y < ht mem f) ∧ (∀ y ∈ X1, ht mem y ≤ ht mem f) := by
  intro X
  induction X with
  | nil => intro h; exact absurd rfl h
  | cons x X ih =>
    intro _
    cases X with
    | nil => exact ⟨[], x, [], rfl, by simp, by simp⟩
    | cons y Y =>
      obtain ⟨X0, f, X1, hX, h0, h1⟩ := ih (by simp)
      by_cases hx : ht mem x < ht mem f
      · refine ⟨x :: X0, f, X1, by rw [hX]; simp, ?_, h1⟩
        intro z hz
        rcases List.mem_cons.mp hz with h | h
        · rw [h]; exact hx
        · exact h0 z h
      · refine ⟨[], x, y :: Y, rfl, by simp, ?_⟩
        intro z hz
        rw [hX] at hz
        rcases List.mem_append.mp hz with h | h
        · have := h0 z h; omega
        · rcases List.mem_cons.mp h with h2 | h2
          · rw [h2]; omega
          · have := h1 z h2; omega

theorem split_unique_aux {mem : List (node K V)} {g : Nat → Bool} {h : Nat}
    {A X S1 : List Nat}
    (hht : ∀ x ∈ X, 1 ≤ ht mem x ∧ ht mem x ≤ h)
    (hB : Stops mem g 0 h (X ++ S1)) (hR : Records mem g 0 (A ++ X)) : X = [] := by
  by_contra hne
  obtain ⟨X0, f, X1, hX, h0, h1⟩ := exists_peak mem X hne
  have hf : f ∈ X := by rw [hX]; simp
  obtain ⟨hf1, hfh⟩ := hht f hf
  have h2 : g f = true :=
    hR (A ++ X0) f X1 (by rw [hX]; simp) (by omega) h1
  have h3 : g f = false := by
    apply hB (ht mem f - 1) (Nat.zero_le _) (by omega) f
    rw [hX, List.append_assoc, firstAt_append_low _ (fun y hy => by have := h0 y hy; omega),
      List.cons_append, firstAt_cons, if_pos (by omega)]
  rw [h2] at h3
  exact Bool.noConfusion h3

/-- The walk for a key ends at one place: two splits of the sequence that both
have the properties of the split the walk finds are the same split. -/
theorem split_unique {mem : List (node K V)} {g : Nat → Bool} {h : Nat}
    {ns A S A1 S1 : List Nat}
    (hht : ∀ x ∈ ns, 1 ≤ ht mem x ∧ ht mem x ≤ h)
    (h1 : ns = A ++ S) (h2 : ns = A1 ++ S1)
    (hB : Stops mem g 0 h S) (hR : Records mem g 0 A)
    (hB1 : Stops mem g 0 h S1) (hR1 : Records mem g 0 A1) : A = A1 ∧ S = S1 := by
  have heq : A ++ S = A1 ++ S1 := by rw [← h1, ← h2]
  rcases List.append_eq_append_iff.mp heq with ⟨X, ha, hs⟩ | ⟨X, ha, hs⟩
  · -- `A1 = A ++ X`, `S = X ++ S1`
    have hX : X = [] := @split_unique_aux _ _ _ _ _ A _ S1
      (fun x hx => hht x (by rw [h1, hs]; simp [hx])) (hs ▸ hB) (ha ▸ hR1)
    subst hX
    simp at ha hs
    exact ⟨ha.symm, hs⟩
  · have hX : X = [] := @split_unique_aux _ _ _ _ _ A1 _ S
      (fun x hx => hht x (by rw [h2, hs]; simp [hx])) (hs ▸ hB1) (ha ▸ hR)
    subst hX
    simp at ha hs
    exact ⟨ha, hs.symm⟩

theorem Inv.ht_bounds {s : skipList K V} {ns : List Nat} (hinv : Inv s ns) :
    ∀ x ∈ ns, 1 ≤ ht s.mem x ∧ ht s.mem x ≤ ht s.mem s.head :=
  fun x hx => ⟨hinv.ht_pos x hx, hinv.ht_le x hx⟩

/-- `Get` on a well-formed list, for a split known to have the properties of the
split the walk finds. -/
theorem Get_at [DecidableEq K] {s : skipList K V} {ns A S : List Nat} (hinv : Inv s ns)
    {lt : K → K → Bool} (hd : Decides s lt) (k : K) (hns : ns = A ++ S)
    (hB : Stops s.mem (gOf lt s.mem k) 0 (ht s.mem s.head) S)
    (hR : Records s.mem (gOf lt s.mem k) 0 A) :
    s.Get (some k) = Except.ok
      (match S.head? with
       | none => (none, some Error.ErrNotFound)
       | some d =>
         if keyAt s.mem d = some k then (valAt s.mem d, none)
         else (none, some Error.ErrNotFound)) := by
  obtain ⟨A1, S1, hns1, hB1, hR1, hget⟩ := Get_spec hinv k (gOf lt s.mem k) (hinv.decides hd k)
  obtain ⟨_, h2⟩ := split_unique hinv.ht_bounds hns hns1 hB hR hB1 hR1
  rw [h2]; exact hget

/-- `Get` on a well-formed list, for a split known to have the properties of the
split the walk finds, and any `==` on the keys. -/
theorem Get_at_gen [GoEq K] {s : skipList K V} {ns A S : List Nat} (hinv : Inv s ns)
    {lt : K → K → Bool} (hd : Decides s lt) (k : K) (hns : ns = A ++ S)
    (hB : Stops s.mem (gOf lt s.mem k) 0 (ht s.mem s.head) S)
    (hR : Records s.mem (gOf lt s.mem k) 0 A) :
    s.Get (some k) =
      (match S.head? with
       | none => Except.ok (none, some Error.ErrNotFound)
       | some d =>
         (ifaceEq (keyAt s.mem d) (some k)).map (fun same =>
           if same then (valAt s.mem d, none) else (none, some Error.ErrNotFound))) := by
  obtain ⟨A1, S1, hns1, hB1, hR1, hget⟩ := Get_gen hinv k (gOf lt s.mem k) (hinv.decides hd k)
  obtain ⟨_, h2⟩ := split_unique hinv.ht_bounds hns hns1 hB hR hB1 hR1
  rw [h2]; exact hget

end Unique

end SimpleDB


namespace SimpleDB

section Refine

variable {K V : Type}

theorem Rep.len_eq {s : skipList K V} {l : List (K × Option V)} (h : Rep s l) :
    s.len = (l.length : Int) := by
  obtain ⟨ns, hinv, hv⟩ := h
  have := congrArg List.length hv
  simp only [view, List.length_map] at this
  rw [hinv.len_eq, this]

theorem Rep.entries_eq {s : skipList K V} {l : List (K × Option V)} (h : Rep s l) :
    s.entries = Except.ok (l.map emb) := by
  obtain ⟨ns, hinv, hv⟩ := h
  rw [entries_spec hinv, hv]

theorem Rep.head_le {s : skipList K V} {l : List (K × Option V)} (h : Rep s l) :
    ht s.mem s.head ≤ 33 := by
  obtain ⟨ns, hinv, _⟩ := h
  exact hinv.head_le

/-- An empty skip list holds the empty association list. -/
theorem NewSkipList_inv (less : Option K → Option K → Except Fault Bool) :
    Inv (NewSkipList less : skipList K V) [] := by
  refine ⟨rfl, ?_, ?_, by simp, by simp, by simp, by simp, ?_, rfl, rfl⟩
  · show 1 ≤ 1; exact le_refl _
  · show 1 ≤ 33; norm_num
  · intro A p B hsplit i hi
    cases A with
    | nil =>
      simp only [List.nil_append, List.cons.injEq] at hsplit
      obtain ⟨h1, h2⟩ := hsplit
      subst h1; subst h2
      have hi1 : i < 1 := hi
      have : i = 0 := by omega
      subst this
      rfl
    | cons y a => simp at hsplit

theorem NewSkipList_rep (less : Option K → Option K → Except Fault Bool) :
    Rep (NewSkipList less : skipList K V) [] :=
  ⟨[], NewSkipList_inv less, rfl⟩

theorem NewSkipList_decides (lt : K → K → Bool) :
    Decides (NewSkipList (lessOf lt) : skipList K V) lt :=
  fun _ _ => rfl

/-- The comparator decides `lt` between the stored keys and `k`, seen on the
cells of the list. -/
theorem cmp_of_view {mem : List (node K V)} {ns : List Nat} {l : List (K × Option V)}
    {less : Option K → Option K → Except Fault Bool} {lt : K → K → Bool} {k : K}
    (hv : view mem ns = l.map emb)
    (hd : ∀ e ∈ l, less (some e.1) (some k) = Except.ok (lt e.1 k)) :
    ∀ x ∈ ns, less (keyAt mem x) (some k) = Except.ok (gOf lt mem k x) := by
  intro x hx
  have hm : (keyAt mem x, valAt mem x) ∈ view mem ns :=
    List.mem_map.mpr ⟨x, hx, rfl⟩
  rw [hv] at hm
  obtain ⟨e, he, hee⟩ := List.mem_map.mp hm
  have hk : keyAt mem x = some e.1 := (congrArg Prod.fst hee).symm
  rw [gOf_of_key lt k hk, hk]
  exact hd e he

/-- `Set` with a non-nil key does on the skip list what `setA` does on the
association list, and returns nil; the comparator need only decide `lt` between
the stored keys and `k`. -/
theorem Set_refines_on [DecidableEq K] {s : skipList K V} {l : List (K × Option V)}
    {lt : K → K → Bool} (hsw : StrictWeak lt) (hrep : Rep s l)
    (hsort : SortedA lt l) (k : K)
    (hd : ∀ e ∈ l, s.less (some e.1) (some k) = Except.ok (lt e.1 k))
    (v : Option V) (coins : Nat → Bool) :
    ∃ s1, s.Set (some k) v coins = Except.ok (none, s1) ∧ Rep s1 (setA lt k v l) ∧
      s1.less = s.less ∧ s1.head = s.head := by
  obtain ⟨ns, hinv, hv⟩ := hrep
  obtain ⟨A, S, s1, hns, hB, hR, hset, hhead, hless, hcase⟩ :=
    Set_spec hinv k v coins (gOf lt s.mem k) (cmp_of_view hv hd)
  have hd1 : s1.less = s.less := hless
  rw [hns] at hv
  obtain ⟨lA, lS, hl, hvA, hvS⟩ := view_split hv
  subst hl
  obtain ⟨hlA, hlS⟩ := split_sorted hsw hsort hvA hvS
    (fun x hx => hinv.ht_pos x (by rw [hns]; exact hx)) hinv.head_ht hB hR
  refine ⟨s1, hset, ?_, hd1, hhead⟩
  rw [setA_split lt k v lA lS hlA]
  rcases hcase with ⟨d, S2, hS, hkd, hinv1, _, hsl, hvd, hvo, _⟩ | ⟨hnk, hinv1, _, _, hold, hkn, hvn, _⟩
  · -- the value of the cell with the key is replaced
    subst hS
    obtain ⟨e, r, hlS1, hke, hve, hvr⟩ := view_cons_inv hvS
    subst hlS1
    have hek : e.1 = k := by rw [hke] at hkd; exact Option.some.inj hkd
    have hnd := hinv.nodup
    rw [hns] at hnd
    have hdA : d ∉ A := by
      intro hc
      have := (List.nodup_cons.mp hnd).2
      exact (List.nodup_append.mp this).2.2 hc (by simp)
    have hdS2 : d ∉ S2 := by
      have := (List.nodup_append.mp (List.nodup_cons.mp hnd).2).2.1
      exact (List.nodup_cons.mp this).1
    obtain ⟨_, h3k, _⟩ := sameLinks_valAt hsl
    refine ⟨ns, hinv1, ?_⟩
    rw [hns, view_append, view_cons, setA_stop lt k v e r (hlS e (by simp)),
      if_pos hek, List.map_append, List.map_cons]
    rw [@view_congr _ _ s.mem s1.mem A
      (fun x hx => ⟨h3k x, hvo x (fun hc => hdA (hc ▸ hx))⟩), hvA]
    rw [@view_congr _ _ s.mem s1.mem S2
      (fun x hx => ⟨h3k x, hvo x (fun hc => hdS2 (hc ▸ hx))⟩), hvr]
    rw [h3k, hkd, hvd]
    rfl
  · -- a new cell is linked in
    refine ⟨A ++ s.mem.length :: S, hinv1, ?_⟩
    have hlt : ∀ x ∈ ns, x < s.mem.length := hinv.lt_length
    rw [view_append, view_cons, hkn, hvn]
    rw [@view_congr _ _ s.mem s1.mem A
      (fun x hx => hold x (hlt x (by rw [hns]; simp [hx]))), hvA]
    rw [@view_congr _ _ s.mem s1.mem S
      (fun x hx => hold x (hlt x (by rw [hns]; simp [hx]))), hvS]
    have hsetS : setA lt k v lS = (k, v) :: lS := by
      cases S with
      | nil => rw [view_nil_inv hvS]; rfl
      | cons d S2 =>
        obtain ⟨e, r, hlS1, hke, _, _⟩ := view_cons_inv hvS
        subst hlS1
        have hne : e.1 ≠ k := by
          intro hc
          exact hnk d rfl (by rw [hke, hc])
        rw [setA_stop lt k v e r (hlS e (by simp)), if_neg hne]
    rw [hsetS, List.map_append, List.map_cons]
    rfl

/-- `Get` with a non-nil key returns what `getA` finds in the association list. -/
theorem Get_refines_on [DecidableEq K] {s : skipList K V} {l : List (K × Option V)}
    {lt : K → K → Bool} (hsw : StrictWeak lt) (hrep : Rep s l)
    (hsort : SortedA lt l) (k : K)
    (hd : ∀ e ∈ l, s.less (some e.1) (some k) = Except.ok (lt e.1 k)) :
    s.Get (some k) = Except.ok (getResult (getA lt k l)) := by
  obtain ⟨ns, hinv, hv⟩ := hrep
  obtain ⟨A, S, hns, hB, hR, hget⟩ := Get_spec hinv k (gOf lt s.mem k) (cmp_of_view hv hd)
  rw [hns] at hv
  obtain ⟨lA, lS, hl, hvA, hvS⟩ := view_split hv
  subst hl
  obtain ⟨hlA, hlS⟩ := split_sorted hsw hsort hvA hvS
    (fun x hx => hinv.ht_pos x (by rw [hns]; exact hx)) hinv.head_ht hB hR
  rw [hget, getA_split lt k lA lS hlA]
  cases S with
  | nil => rw [view_nil_inv hvS]; rfl
  | cons d S2 =>
    obtain ⟨e, r, hlS1, hke, hve, _⟩ := view_cons_inv hvS
    subst hlS1
    simp only [List.head?_cons]
    rw [getA_stop lt k e r (hlS e (by simp)), hke, hve]
    by_cases hek : e.1 = k
    · rw [if_pos (by rw [hek]), if_pos hek]; rfl
    · rw [if_neg (fun hc => hek (Option.some.inj hc)), if_neg hek]; rfl

/-- `Del` with a non-nil key, on a list whose sentinel has at most 32 slots,
does what `delA` does on the association list; it returns nil when the key was
there and `ErrNotFound`, without any change, when it was not. -/
theorem Del_refines_on [DecidableEq K] {s : skipList K V} {l : List (K × Option V)}
    {lt : K → K → Bool} (hsw : StrictWeak lt) (hrep : Rep s l)
    (hsort : SortedA lt l) (hH : ht s.mem s.head ≤ 32) (k : K)
    (hd : ∀ e ∈ l, s.less (some e.1) (some k) = Except.ok (lt e.1 k)) :
    ∃ s1, s.Del (some k)
        = Except.ok (if (getA lt k l).isSome then none else some Error.ErrNotFound, s1) ∧
      Rep s1 (delA lt k l) ∧ s1.less = s.less ∧ s1.head = s.head ∧
      ht s1.mem s1.head ≤ ht s.mem s.head ∧
      ((getA lt k l).isSome = false → s1 = s) := by
  obtain ⟨ns, hinv, hv⟩ := hrep
  obtain ⟨A, S, hns, hB, hR, hcase⟩ :=
    Del_spec hinv hH k (gOf lt s.mem k) (cmp_of_view hv hd)
  rw [hns] at hv
  obtain ⟨lA, lS, hl, hvA, hvS⟩ := view_split hv
  subst hl
  obtain ⟨hlA, hlS⟩ := split_sorted hsw hsort hvA hvS
    (fun x hx => hinv.ht_pos x (by rw [hns]; exact hx)) hinv.head_ht hB hR
  rw [getA_split lt k lA lS hlA, delA_split lt k lA lS hlA]
  rcases hcase with ⟨d, S2, s1, hS, hkd, hdel, hinv1, hhead, hless, _, _, hk1, hv1, _, hle, _⟩ |
    ⟨hnk, hdel⟩
  · subst hS
    obtain ⟨e, r, hlS1, hke, _, hvr⟩ := view_cons_inv hvS
    subst hlS1
    have hek : e.1 = k := by rw [hke] at hkd; exact Option.some.inj hkd
    refine ⟨s1, ?_, ⟨A ++ S2, hinv1, ?_⟩, hless, hhead,
      by rw [hhead]; exact hle, ?_⟩
    · rw [hdel, getA_stop lt k e r (hlS e (by simp)), if_pos hek]; rfl
    · rw [view_append, delA_stop lt k e r (hlS e (by simp)), if_pos hek,
        List.map_append]
      rw [@view_congr _ _ s.mem s1.mem A (fun x _ => ⟨hk1 x, hv1 x⟩), hvA]
      rw [@view_congr _ _ s.mem s1.mem S2 (fun x _ => ⟨hk1 x, hv1 x⟩), hvr]
    · rw [getA_stop lt k e r (hlS e (by simp)), if_pos hek]
      intro hc; exact absurd hc (by simp)
  · have hnone : getA lt k lS = none ∧ delA lt k lS = lS := by
      cases S with
      | nil => rw [view_nil_inv hvS]; exact ⟨rfl, rfl⟩
      | cons d S2 =>
        obtain ⟨e, r, hlS1, hke, _, _⟩ := view_cons_inv hvS
        subst hlS1
        have hne : e.1 ≠ k := by
          intro hc
          exact hnk d rfl (by rw [hke, hc])
        rw [getA_stop lt k e r (hlS e (by simp)), delA_stop lt k e r (hlS e (by simp)),
          if_neg hne, if_neg hne]
        exact ⟨rfl, rfl⟩
    rw [hnone.1, hnone.2]
    refine ⟨s, hdel, ⟨ns, hinv, ?_⟩, rfl, rfl, le_refl _, fun _ => rfl⟩
    rw [hns, view_append, hvA, hvS, List.map_append]

/-- `Set` with a non-nil key does on the skip list what `setA` does on the
association list, and returns nil. -/
theorem Set_refines [DecidableEq K] {s : skipList K V} {l : List (K × Option V)}
    {lt : K → K → Bool} (hsw : StrictWeak lt) (hd : Decides s lt) (hrep : Rep s l)
    (hsort : SortedA lt l) (k : K) (v : Option V) (coins : Nat → Bool) :
    ∃ s1, s.Set (some k) v coins = Except.ok (none, s1) ∧ Rep s1 (setA lt k v l) ∧
      Decides s1 lt ∧ s1.head = s.head := by
  obtain ⟨s1, h1, h2, h3, h4⟩ :=
    Set_refines_on hsw hrep hsort k (fun e _ => hd e.1 k) v coins
  exact ⟨s1, h1, h2, fun a b => by rw [h3]; exact hd a b, h4⟩

/-- `Get` with a non-nil key returns what `getA` finds in the association list. -/
theorem Get_refines [DecidableEq K] {s : skipList K V} {l : List (K × Option V)}
    {lt : K → K → Bool} (hsw : StrictWeak lt) (hd : Decides s lt) (hrep : Rep s l)
    (hsort : SortedA lt l) (k : K) :
    s.Get (some k) = Except.ok (getResult (getA lt k l)) :=
  Get_refines_on hsw hrep hsort k (fun e _ => hd e.1 k)

/-- `Del` with a non-nil key, on a list whose sentinel has at most 32 slots,
does what `delA` does on the association list; it returns nil when the key was
there and `ErrNotFound`, without any change, when it was not. -/
theorem Del_refines [DecidableEq K] {s : skipList K V} {l : List (K × Option V)}
    {lt : K → K → Bool} (hsw : StrictWeak lt) (hd : Decides s lt) (hrep : Rep s l)
    (hsort : SortedA lt l) (hH : ht s.mem s.head ≤ 32) (k : K) :
    ∃ s1, s.Del (some k)
        = Except.ok (if (getA lt k l).isSome then none else some Error.ErrNotFound, s1) ∧
      Rep s1 (delA lt k l) ∧ Decides s1 lt ∧ s1.head = s.head ∧
      ht s1.mem s1.head ≤ ht s.mem s.head ∧
      ((getA lt k l).isSome = false → s1 = s) := by
  obtain ⟨s1, h1, h2, h3, h4⟩ :=
    Del_refines_on hsw hrep hsort hH k (fun e _ => hd e.1 k)
  exact ⟨s1, h1, h2, fun a b => by rw [h3]; exact hd a b, h4⟩

end Refine

end SimpleDB


namespace SimpleDB

section Order

variable {K V : Type}

theorem StrictTotal.asymm {lt : K → K → Bool} (h : StrictTotal lt) {a b : K}
    (hab : lt a b = true) : lt b a = false := by
  by_contra hc
  have hba : lt b a = true := by simpa using hc
  have := h.trans a b a hab hba
  rw [h.irrefl] at this
  exact Bool.noConfusion this

theorem StrictTotal.ne {lt : K → K → Bool} (h : StrictTotal lt) {a b : K}
    (hab : lt a b = true) : a ≠ b := by
  intro hc
  rw [hc, h.irrefl] at hab
  exact Bool.noConfusion hab

theorem StrictTotal.strictWeak {lt : K → K → Bool} (h : StrictTotal lt) : StrictWeak lt := by
  refine ⟨h.irrefl, h.trans, ?_⟩
  intro a b c hab hbc
  by_cases h1 : a = b
  · rw [h1]; exact hbc
  by_cases h2 : b = c
  · rw [← h2]; exact hab
  have hba : lt b a = true := by
    rcases h.total a b h1 with h3 | h3
    · rw [hab] at h3; exact Bool.noConfusion h3
    · exact h3
  have hcb : lt c b = true := by
    rcases h.total b c h2 with h3 | h3
    · rw [hbc] at h3; exact Bool.noConfusion h3
    · exact h3
  exact h.asymm (h.trans c b a hcb hba)

theorem SortedS.sortedA {lt : K → K → Bool} (h : StrictTotal lt) {l : List (K × V)}
    (hs : SortedS lt l) : SortedA lt l :=
  List.Pairwise.imp (fun hab => h.asymm hab) hs

theorem SortedS.nodup_keys {lt : K → K → Bool} (h : StrictTotal lt) {l : List (K × V)}
    (hs : SortedS lt l) : (l.map Prod.fst).Nodup := by
  rw [List.Nodup, List.pairwise_map]
  exact List.Pairwise.imp (fun hab => h.ne hab) hs

theorem mem_setA [DecidableEq K] (lt : K → K → Bool) (k : K) (v : V) (x : K × V) :
    ∀ l : List (K × V), x ∈ setA lt k v l → x = (k, v) ∨ x ∈ l := by
  intro l
  induction l with
  | nil => intro h; simp [setA] at h; exact Or.inl h
  | cons e r ih =>
    intro h
    rw [setA] at h
    split at h
    · rcases List.mem_cons.mp h with h1 | h1
      · right; rw [h1]; simp
      · rcases ih h1 with h2 | h2
        · exact Or.inl h2
        · right; simp [h2]
    · split at h
      · rcases List.mem_cons.mp h with h1 | h1
        · exact Or.inl h1
        · right; simp [h1]
      · rcases List.mem_cons.mp h with h1 | h1
        · exact Or.inl h1
        · exact Or.inr h1

theorem delA_sublist [DecidableEq K] (lt : K → K → Bool) (k : K) :
    ∀ l : List (K × V), List.Sublist (delA lt k l) l := by
  intro l
  induction l with
  | nil => exact List.Sublist.refl _
  | cons e r ih =>
    rw [delA]
    split
    · exact List.Sublist.cons₂ _ ih
    · split
      · exact List.sublist_cons_self _ _
      · exact List.Sublist.refl _

/-- `setA` keeps a list sorted, for a strict weak order. -/
theorem setA_sortedA [DecidableEq K] {lt : K → K → Bool} (hsw : StrictWeak lt) (k : K) (v : V) :
    ∀ l : List (K × V), SortedA lt l → SortedA lt (setA lt k v l) := by
  intro l
  induction l with
  | nil => intro _; simp [setA, SortedA]
  | cons e r ih =>
    intro hs
    obtain ⟨h1, h2⟩ := List.pairwise_cons.mp hs
    rw [setA]
    by_cases he : lt e.1 k = true
    · rw [if_pos he]
      refine List.pairwise_cons.mpr ⟨?_, ih h2⟩
      intro x hx
      rcases mem_setA lt k v x r hx with h3 | h3
      · rw [h3]
        show lt k e.1 = false
        by_contra hc
        have hke : lt k e.1 = true := by simpa using hc
        have := hsw.trans _ _ _ he hke
        rw [hsw.irrefl] at this
        exact Bool.noConfusion this
      · exact h1 x h3
    · have he1 : lt e.1 k = false := by simpa using he
      rw [if_neg he]
      by_cases hk : e.1 = k
      · rw [if_pos hk]
        refine List.pairwise_cons.mpr ⟨?_, h2⟩
        intro x hx
        show lt x.1 k = false
        rw [← hk]; exact h1 x hx
      · rw [if_neg hk]
        refine List.pairwise_cons.mpr ⟨?_, hs⟩
        intro x hx
        show lt x.1 k = false
        rcases List.mem_cons.mp hx with h3 | h3
        · rw [h3]; exact he1
        · exact hsw.negTrans _ _ _ (h1 x h3) he1

theorem delA_sortedA [DecidableEq K] {lt : K → K → Bool} (k : K) {l : List (K × V)}
    (hs : SortedA lt l) : SortedA lt (delA lt k l) :=
  List.Pairwise.sublist (delA_sublist lt k l) hs

theorem stepA_sortedA [DecidableEq K] {lt : K → K → Bool} (hsw : StrictWeak lt)
    {l : List (K × Option V)} (hs : SortedA lt l) (op : Op K V) :
    SortedA lt (stepA lt l op) := by
  cases op with
  | set key v coins =>
    cases key with
    | none => exact hs
    | some k => exact setA_sortedA hsw k v l hs
  | del key =>
    cases key with
    | none => exact hs
    | some k => exact delA_sortedA k hs

/-- `setA` keeps a list strictly sorted, for a strict total order, and its
entries are the new one and the old ones with another key. -/
theorem setA_sortedS [DecidableEq K] {lt : K → K → Bool} (ht : StrictTotal lt) (k : K) (v : V) :
    ∀ l : List (K × V), SortedS lt l →
      SortedS lt (setA lt k v l) ∧
        ∀ x, x ∈ setA lt k v l ↔ (x = (k, v) ∨ (x ∈ l ∧ x.1 ≠ k)) := by
  intro l
  induction l with
  | nil =>
    intro _
    refine ⟨by simp [setA, SortedS], fun x => ?_⟩
    simp [setA]
  | cons e r ih =>
    intro hs
    obtain ⟨h1, h2⟩ := List.pairwise_cons.mp hs
    obtain ⟨ih1, ih2⟩ := ih h2
    rw [setA]
    by_cases he : lt e.1 k = true
    · rw [if_pos he]
      have hek : e.1 ≠ k := ht.ne he
      refine ⟨List.pairwise_cons.mpr ⟨?_, ih1⟩, fun x => ?_⟩
      · intro x hx
        rcases (ih2 x).mp hx with h3 | h3
        · rw [h3]; exact he
        · exact h1 x h3.1
      · rw [List.mem_cons, ih2 x, List.mem_cons]
        constructor
        · rintro (h3 | h3 | h3)
          · right; exact ⟨Or.inl h3, by rw [h3]; exact hek⟩
          · exact Or.inl h3
          · exact Or.inr ⟨Or.inr h3.1, h3.2⟩
        · rintro (h3 | ⟨h3 | h3, h4⟩)
          · exact Or.inr (Or.inl h3)
          · exact Or.inl h3
          · exact Or.inr (Or.inr ⟨h3, h4⟩)
    · have he1 : lt e.1 k = false := by simpa using he
      rw [if_neg he]
      by_cases hk : e.1 = k
      · rw [if_pos hk]
        have hr : ∀ x ∈ r, lt k x.1 = true := fun x hx => by rw [← hk]; exact h1 x hx
        refine ⟨List.pairwise_cons.mpr ⟨hr, h2⟩, fun x => ?_⟩
        rw [List.mem_cons, List.mem_cons]
        constructor
        · rintro (h3 | h3)
          · exact Or.inl h3
          · exact Or.inr ⟨Or.inr h3, fun hc => ht.ne (hr x h3) hc.symm⟩
        · rintro (h3 | ⟨h3 | h3, h4⟩)
          · exact Or.inl h3
          · exact absurd (by rw [h3]; exact hk) h4
          · exact Or.inr h3
      · rw [if_neg hk]
        have hke : lt k e.1 = true := by
          rcases ht.total e.1 k hk with h3 | h3
          · rw [he1] at h3; exact Bool.noConfusion h3
          · exact h3
        have hr : ∀ x ∈ e :: r, lt k x.1 = true := by
          intro x hx
          rcases List.mem_cons.mp hx with h3 | h3
          · rw [h3]; exact hke
          · exact ht.trans _ _ _ hke (h1 x h3)
        refine ⟨List.pairwise_cons.mpr ⟨hr, hs⟩, fun x => ?_⟩
        rw [List.mem_cons]
        constructor
        · rintro (h3 | h3)
          · exact Or.inl h3
          · exact Or.inr ⟨h3, fun hc => ht.ne (hr x h3) hc.symm⟩
        · rintro (h3 | ⟨h3, _⟩)
          · exact Or.inl h3
          · exact Or.inr h3

/-- `delA` keeps a list strictly sorted, for a strict total order, and its
entries are the old ones with another key. -/
theorem delA_sortedS [DecidableEq K] {lt : K → K → Bool} (ht : StrictTotal lt) (k : K) :
    ∀ l : List (K × V), SortedS lt l →
      SortedS lt (delA lt k l) ∧ ∀ x, x ∈ delA lt k l ↔ (x ∈ l ∧ x.1 ≠ k) := by
  intro l
  induction l with
  | nil =>
    intro _
    refine ⟨by simp [delA, SortedS], fun x => ?_⟩
    simp [delA]
  | cons e r ih =>
    intro hs
    refine ⟨List.Pairwise.sublist (delA_sublist lt k _) hs, fun x => ?_⟩
    obtain ⟨h1, h2⟩ := List.pairwise_cons.mp hs
    obtain ⟨_, ih2⟩ := ih h2
    rw [delA]
    by_cases he : lt e.1 k = true
    · rw [if_pos he]
      have hek : e.1 ≠ k := ht.ne he
      rw [List.mem_cons, ih2 x, List.mem_cons]
      constructor
      · rintro (h3 | h3)
        · exact ⟨Or.inl h3, by rw [h3]; exact hek⟩
        · exact ⟨Or.inr h3.1, h3.2⟩
      · rintro ⟨h3 | h3, h4⟩
        · exact Or.inl h3
        · exact Or.inr ⟨h3, h4⟩
    · have he1 : lt e.1 k = false := by simpa using he
      rw [if_neg he]
      by_cases hk : e.1 = k
      · rw [if_pos hk, List.mem_cons]
        have hr : ∀ y ∈ r, lt k y.1 = true := fun y hy => by rw [← hk]; exact h1 y hy
        constructor
        · intro h3
          exact ⟨Or.inr h3, fun hc => ht.ne (hr x h3) hc.symm⟩
        · rintro ⟨h3 | h3, h4⟩
          · exact absurd (by rw [h3]; exact hk) h4
          · exact h3
      · rw [if_neg hk]
        have hke : lt k e.1 = true := by
          rcases ht.total e.1 k hk with h3 | h3
          · rw [he1] at h3; exact Bool.noConfusion h3
          · exact h3
        constructor
        · intro h3
          refine ⟨h3, fun hc => ?_⟩
          rcases List.mem_cons.mp h3 with h4 | h4
          · exact hk (by rw [← h4]; exact hc)
          · exact ht.ne (ht.trans _ _ _ hke (h1 x h4)) hc.symm
        · rintro ⟨h3, _⟩
          exact h3

/-- In a strictly sorted list, `getA` finds the value of a key exactly when the
entry is in the list. -/
theorem getA_iff [DecidableEq K] {lt : K → K → Bool} (ht : StrictTotal lt) (k : K) (v : V) :
    ∀ l : List (K × V), SortedS lt l → (getA lt k l = some v ↔ (k, v) ∈ l) := by
  intro l
  induction l with
  | nil => intro _; simp [getA]
  | cons e r ih =>
    intro hs
    obtain ⟨h1, h2⟩ := List.pairwise_cons.mp hs
    rw [getA, List.mem_cons]
    by_cases he : lt e.1 k = true
    · rw [if_pos he, ih h2]
      constructor
      · exact Or.inr
      · rintro (h3 | h3)
        · exact absurd (by rw [← h3]) (ht.ne he)
        · exact h3
    · have he1 : lt e.1 k = false := by simpa using he
      rw [if_neg he]
      by_cases hk : e.1 = k
      · rw [if_pos hk]
        constructor
        · intro h3
          left
          have : e.2 = v := Option.some.inj h3
          rw [← this, ← hk]
        · rintro (h3 | h3)
          · rw [← h3]
          · have := h1 _ h3
            rw [hk, ht.irrefl] at this
            exact Bool.noConfusion this
      · rw [if_neg hk]
        constructor
        · intro h3; exact Option.noConfusion h3
        · rintro (h3 | h3)
          · exact absurd (by rw [← h3]) hk
          · have := h1 _ h3
            rw [he1] at this
            exact Bool.noConfusion this

end Order

end SimpleDB


namespace SimpleDB

section Run

variable {K V : Type}

/-- One completed call does on the skip list what `stepA` does on the
association list. -/
theorem step_refines [DecidableEq K] {s s1 : skipList K V} {l : List (K × Option V)}
    {lt : K → K → Bool} (hsw : StrictWeak lt) (hd : Decides s lt) (hrep : Rep s l)
    (hsort : SortedA lt l) (op : Op K V) (e : Option Error)
    (hstep : s.step op = Except.ok (e, s1)) :
    Rep s1 (stepA lt l op) ∧ Decides s1 lt := by
  cases op with
  | set key v coins =>
    cases key with
    | none =>
      have : s1 = s := by
        have h := (nil_key s v coins).1
        simp only [skipList.step] at hstep
        rw [h] at hstep
        exact (Prod.mk.inj (Except.ok.inj hstep)).2.symm
      rw [this]; exact ⟨hrep, hd⟩
    | some k =>
      obtain ⟨s2, h1, h2, h3, _⟩ := Set_refines hsw hd hrep hsort k v coins
      simp only [skipList.step] at hstep
      rw [h1] at hstep
      have : s1 = s2 := (Prod.mk.inj (Except.ok.inj hstep)).2.symm
      rw [this]; exact ⟨h2, h3⟩
  | del key =>
    cases key with
    | none =>
      have : s1 = s := by
        have h := (nil_key s none (fun _ => false)).2.2
        simp only [skipList.step] at hstep
        rw [h] at hstep
        exact (Prod.mk.inj (Except.ok.inj hstep)).2.symm
      rw [this]; exact ⟨hrep, hd⟩
    | some k =>
      simp only [skipList.step] at hstep
      by_cases hH : ht s.mem s.head ≤ 32
      · obtain ⟨s2, h1, h2, h3, _⟩ := Del_refines hsw hd hrep hsort hH k
        rw [h1] at hstep
        have : s1 = s2 := (Prod.mk.inj (Except.ok.inj hstep)).2.symm
        rw [this]; exact ⟨h2, h3⟩
      · exfalso
        obtain ⟨ns, hinv, _⟩ := hrep
        have h33 : ht s.mem s.head = 33 := by have := hinv.head_le; omega
        rw [Del_fault hinv h33 k] at hstep
        exact Except.noConfusion hstep

theorem run_cons [GoEq K] (s : skipList K V) (op : Op K V) (ops : List (Op K V)) :
    s.run (op :: ops) = (s.step op >>= fun r => r.2.run ops) := rfl

/-- A completed sequence of calls does on the skip list what `runA` does on the
association list. -/
theorem run_refines [DecidableEq K] {lt : K → K → Bool} (hsw : StrictWeak lt)
    (ops : List (Op K V)) :
    ∀ (s s1 : skipList K V) (l : List (K × Option V)), Decides s lt → Rep s l →
      SortedA lt l → s.run ops = Except.ok s1 →
      Rep s1 (runA lt l ops) ∧ Decides s1 lt ∧ SortedA lt (runA lt l ops) := by
  induction ops with
  | nil =>
    intro s s1 l hd hrep hsort hrun
    have : s1 = s := (Except.ok.inj hrun).symm
    rw [this]; exact ⟨hrep, hd, hsort⟩
  | cons op ops ih =>
    intro s s1 l hd hrep hsort hrun
    rw [run_cons] at hrun
    cases hstep : s.step op with
    | error f => rw [hstep] at hrun; exact Except.noConfusion hrun
    | ok r =>
      rw [hstep, ok_bind] at hrun
      obtain ⟨h1, h2⟩ := step_refines hsw hd hrep hsort op r.1
        (show s.step op = Except.ok (r.1, r.2) by rw [hstep])
      exact ih r.2 s1 (stepA lt l op) h2 h1 (stepA_sortedA hsw hsort op) hrun

theorem stepA_sortedS [DecidableEq K] {lt : K → K → Bool} (ht : StrictTotal lt)
    {l : List (K × Option V)} (hs : SortedS lt l) (op : Op K V) :
    SortedS lt (stepA lt l op) := by
  cases op with
  | set key v coins =>
    cases key with
    | none => exact hs
    | some k => exact (setA_sortedS ht k v l hs).1
  | del key =>
    cases key with
    | none => exact hs
    | some k => exact (delA_sortedS ht k l hs).1

theorem runA_sortedS [DecidableEq K] {lt : K → K → Bool} (ht : StrictTotal lt)
    (ops : List (Op K V)) :
    ∀ l : List (K × Option V), SortedS lt l → SortedS lt (runA lt l ops) := by
  induction ops with
  | nil => intro l h; exact h
  | cons op ops ih => intro l h; exact ih _ (stepA_sortedS ht h op)

/-- What one call does to the lookup of `k`. -/
theorem getA_stepA [DecidableEq K] {lt : K → K → Bool} (ht : StrictTotal lt)
    {l : List (K × Option V)} (hs : SortedS lt l) (op : Op K V) (k : K) :
    getA lt k (stepA lt l op) = lastStep k op (getA lt k l) := by
  cases op with
  | set key v coins =>
    cases key with
    | none => simp [stepA, lastStep]
    | some k1 =>
      obtain ⟨hs1, hm⟩ := setA_sortedS ht k1 v l hs
      simp only [stepA, lastStep, Option.some.injEq]
      apply Option.ext
      intro w
      simp only [Option.mem_def]
      rw [getA_iff ht k w _ hs1, hm]
      by_cases hk : k1 = k
      · subst hk
        simp only [if_true, Prod.mk.injEq, true_and, ne_eq, not_true_eq_false, and_false,
          or_false, Option.some.injEq]
        exact eq_comm
      · rw [if_neg hk, getA_iff ht k w _ hs]
        simp only [Prod.mk.injEq, ne_eq]
        constructor
        · rintro (h | h)
          · exact absurd h.1.symm hk
          · exact h.1
        · intro h
          exact Or.inr ⟨h, fun hc => hk hc.symm⟩
  | del key =>
    cases key with
    | none => simp [stepA, lastStep]
    | some k1 =>
      obtain ⟨hs1, hm⟩ := delA_sortedS ht k1 l hs
      simp only [stepA, lastStep, Option.some.injEq]
      apply Option.ext
      intro w
      simp only [Option.mem_def]
      rw [getA_iff ht k w _ hs1, hm]
      by_cases hk : k1 = k
      · subst hk
        simp
      · rw [if_neg hk, getA_iff ht k w _ hs]
        simp only [ne_eq, and_iff_left_iff_imp]
        intro _ hc
        exact hk hc.symm

/-- The lookup of `k` after a sequence of calls is the value last set for `k`. -/
theorem getA_runA [DecidableEq K] {lt : K → K → Bool} (ht : StrictTotal lt)
    (ops : List (Op K V)) (k : K) :
    ∀ l : List (K × Option V), SortedS lt l →
      getA lt k (runA lt l ops) = lastSet k ops (getA lt k l) := by
  induction ops with
  | nil => intro l _; rfl
  | cons op ops ih =>
    intro l hs
    rw [runA, lastSet, ih _ (stepA_sortedS ht hs op), getA_stepA ht hs op k]

theorem keys_stepA [DecidableEq K] {lt : K → K → Bool} (ht : StrictTotal lt)
    {l : List (K × Option V)} (hs : SortedS lt l) (op : Op K V) (acc : List K)
    (hn : acc.Nodup) (hm : ∀ x, x ∈ acc ↔ x ∈ l.map Prod.fst) :
    (liveStep op acc).Nodup ∧
      ∀ x, x ∈ liveStep op acc ↔ x ∈ (stepA lt l op).map Prod.fst := by
  cases op with
  | set key v coins =>
    cases key with
    | none => exact ⟨hn, hm⟩
    | some k =>
      obtain ⟨_, hmem⟩ := setA_sortedS ht k v l hs
      have hkeys : ∀ x, x ∈ (setA lt k v l).map Prod.fst ↔ (x = k ∨ x ∈ l.map Prod.fst) := by
        intro x
        simp only [List.mem_map, hmem]
        constructor
        · rintro ⟨e, h1 | h1, h2⟩
          · left; rw [← h2, h1]
          · right; exact ⟨e, h1.1, h2⟩
        · rintro (h1 | ⟨e, h1, h2⟩)
          · exact ⟨(k, v), Or.inl rfl, h1.symm⟩
          · by_cases hk : x = k
            · exact ⟨(k, v), Or.inl rfl, hk.symm⟩
            · exact ⟨e, Or.inr ⟨h1, by rw [h2]; exact hk⟩, h2⟩
      simp only [liveStep, stepA]
      by_cases hk : k ∈ acc
      · rw [if_pos hk]
        refine ⟨hn, fun x => ?_⟩
        rw [hkeys, ← hm]
        constructor
        · exact Or.inr
        · rintro (h1 | h1)
          · rw [h1]; exact hk
          · exact h1
      · rw [if_neg hk]
        refine ⟨List.nodup_cons.mpr ⟨hk, hn⟩, fun x => ?_⟩
        rw [hkeys, ← hm, List.mem_cons]
  | del key =>
    cases key with
    | none => exact ⟨hn, hm⟩
    | some k =>
      obtain ⟨_, hmem⟩ := delA_sortedS ht k l hs
      simp only [liveStep, stepA]
      refine ⟨hn.erase k, fun x => ?_⟩
      rw [hn.mem_erase_iff, hm]
      simp only [List.mem_map, hmem]
      constructor
      · rintro ⟨h1, e, h2, h3⟩
        exact ⟨e, ⟨h2, by rw [h3]; exact h1⟩, h3⟩
      · rintro ⟨e, ⟨h1, h2⟩, h3⟩
        exact ⟨by rw [← h3]; exact h2, e, h1, h3⟩

/-- The keys of the association list after a sequence of calls are the keys set
and not deleted since. -/
theorem keys_runA [DecidableEq K] {lt : K → K → Bool} (ht : StrictTotal lt)
    (ops : List (Op K V)) :
    ∀ (l : List (K × Option V)) (acc : List K), SortedS lt l → acc.Nodup →
      (∀ x, x ∈ acc ↔ x ∈ l.map Prod.fst) →
      (liveKeys ops acc).Nodup ∧
        ∀ x, x ∈ liveKeys ops acc ↔ x ∈ (runA lt l ops).map Prod.fst := by
  induction ops with
  | nil => intro l acc _ hn hm; exact ⟨hn, hm⟩
  | cons op ops ih =>
    intro l acc hs hn hm
    obtain ⟨h1, h2⟩ := keys_stepA ht hs op acc hn hm
    exact ih _ _ (stepA_sortedS ht hs op) h1 h2

theorem length_runA [DecidableEq K] {lt : K → K → Bool} (ht : StrictTotal lt)
    (ops : List (Op K V)) :
    (runA lt ([] : List (K × Option V)) ops).length = (liveKeys ops []).length := by
  obtain ⟨h1, h2⟩ := keys_runA ht ops ([] : List (K × Option V)) []
    (by simp [SortedS]) List.nodup_nil (by simp)
  have hs := runA_sortedS ht ops ([] : List (K × Option V)) (by simp [SortedS])
  have hp : List.Perm (liveKeys ops []) ((runA lt ([] : List (K × Option V)) ops).map Prod.fst) :=
    (List.perm_ext_iff_of_nodup h1 (hs.nodup_keys ht)).mpr h2
  have := hp.length_eq
  simpa using this.symm

end Run

end SimpleDB


namespace SimpleDB

section AnyOrder

variable {K V : Type}

/-- One completed call keeps the list well formed, whatever relation the
comparator decides and whatever `==` is on the keys. -/
theorem step_inv [GoEq K] {s s1 : skipList K V} {ns : List Nat}
    {lt : K → K → Bool} (hd : Decides s lt) (hinv : Inv s ns) (op : Op K V)
    (e : Option Error) (hstep : s.step op = Except.ok (e, s1)) :
    ∃ ns1, Inv s1 ns1 ∧ Decides s1 lt := by
  cases op with
  | set key v coins =>
    cases key with
    | none =>
      have : s1 = s := by
        have h := (nil_key s v coins).1
        simp only [skipList.step] at hstep
        rw [h] at hstep
        exact (Prod.mk.inj (Except.ok.inj hstep)).2.symm
      rw [this]; exact ⟨ns, hinv, hd⟩
    | some k =>
      obtain ⟨A, S, _, _, _, hc⟩ :=
        Set_gen hinv k v coins (gOf lt s.mem k) (hinv.decides hd k)
      simp only [skipList.step] at hstep
      rcases hc with ⟨_, f, _, _, hset⟩ | ⟨s2, hset, _, hless, hcase⟩
      · rw [hset] at hstep
        exact Except.noConfusion hstep
      · rw [hset] at hstep
        have : s1 = s2 := (Prod.mk.inj (Except.ok.inj hstep)).2.symm
        rw [this]
        have hd2 : Decides s2 lt := by intro a b; rw [hless]; exact hd a b
        rcases hcase with ⟨_, _, _, _, h, _⟩ | ⟨_, h, _⟩
        · exact ⟨ns, h, hd2⟩
        · exact ⟨_, h, hd2⟩
  | del key =>
    cases key with
    | none =>
      have : s1 = s := by
        have h := (nil_key s none (fun _ => false)).2.2
        simp only [skipList.step] at hstep
        rw [h] at hstep
        exact (Prod.mk.inj (Except.ok.inj hstep)).2.symm
      rw [this]; exact ⟨ns, hinv, hd⟩
    | some k =>
      simp only [skipList.step] at hstep
      by_cases hH : ht s.mem s.head ≤ 32
      · obtain ⟨A, S, _, _, _, hcase⟩ :=
          Del_gen hinv hH k (gOf lt s.mem k) (hinv.decides hd k)
        rcases hcase with ⟨_, f, _, _, hdel⟩ |
          ⟨d, S2, s2, _, _, hdel, h, _, hless, _⟩ | ⟨_, hdel⟩
        · rw [hdel] at hstep
          exact Except.noConfusion hstep
        · rw [hdel] at hstep
          have : s1 = s2 := (Prod.mk.inj (Except.ok.inj hstep)).2.symm
          rw [this]
          exact ⟨_, h, fun a b => by rw [hless]; exact hd a b⟩
        · rw [hdel] at hstep
          have : s1 = s := (Prod.mk.inj (Except.ok.inj hstep)).2.symm
          rw [this]; exact ⟨ns, hinv, hd⟩
      · exfalso
        have h33 : ht s.mem s.head = 33 := by have := hinv.head_le; omega
        rw [Del_fault hinv h33 k] at hstep
        exact Except.noConfusion hstep

/-- A completed sequence of calls keeps the list well formed, whatever relation
the comparator decides and whatever `==` is on the keys. -/
theorem run_inv [GoEq K] {lt : K → K → Bool} (ops : List (Op K V)) :
    ∀ (s s1 : skipList K V) (ns : List Nat), Decides s lt → Inv s ns →
      s.run ops = Except.ok s1 → ∃ ns1, Inv s1 ns1 ∧ Decides s1 lt := by
  induction ops with
  | nil =>
    intro s s1 ns hd hinv hrun
    have : s1 = s := (Except.ok.inj hrun).symm
    rw [this]; exact ⟨ns, hinv, hd⟩
  | cons op ops ih =>
    intro s s1 ns hd hinv hrun
    rw [run_cons] at hrun
    cases hstep : s.step op with
    | error f => rw [hstep] at hrun; exact Except.noConfusion hrun
    | ok r =>
      rw [hstep, ok_bind] at hrun
      obtain ⟨ns1, h1, h2⟩ := step_inv hd hinv op r.1
        (show s.step op = Except.ok (r.1, r.2) by rw [hstep])
      exact ih r.2 s1 ns1 h2 h1 hrun

theorem Records.transfer {mem mem1 : List (node K V)} {g g1 : Nat → Bool} {A : List Nat}
    (h : Records mem g 0 A) (hh : ∀ x ∈ A, ht mem1 x = ht mem x)
    (hg : ∀ x ∈ A, g1 x = g x) : Records mem1 g1 0 A := by
  intro A0 x A1 hA hx hrec
  have hxA : x ∈ A := by rw [hA]; simp
  rw [hg x hxA]
  apply h A0 x A1 hA (by rw [← hh x hxA]; exact hx)
  intro y hy
  have hyA : y ∈ A := by rw [hA]; simp [hy]
  rw [← hh x hxA, ← hh y hyA]
  exact hrec y hy

theorem Stops.carry {mem mem1 : List (node K V)} {g g1 : Nat → Bool} {S : List Nat}
    {h h1 : Nat} (hs : Stops mem g 0 h S) (hh : ∀ x ∈ S, ht mem1 x = ht mem x)
    (hg : ∀ x ∈ S, g1 x = g x) (hle : ∀ x ∈ S, ht mem x ≤ h) : Stops mem1 g1 0 h1 S := by
  intro j _ _ f hf
  rw [firstAt_congr j hh] at hf
  have hfS := firstAt_mem hf
  rw [hg f hfS]
  apply hs j (Nat.zero_le _) _ f hf
  have := (firstAt_some_split hf).1
  have := hle f hfS
  omega

theorem gOf_congr {mem mem1 : List (node K V)} (lt : K → K → Bool) (k : K) {x : Nat}
    (h : keyAt mem1 x = keyAt mem x) : gOf lt mem1 k x = gOf lt mem k x := by
  simp [gOf, h]

theorem ifaceEq_of_key [GoEq K] {mem : List (node K V)} {x : Nat} {a : K} (k : K)
    (h : keyAt mem x = some a) : ifaceEq (keyAt mem x) (some k) = GoEq.eq a k := by
  rw [h]; rfl

/-- `Set` after the walk has found a cell whose key is `==` to the key: the
value is replaced. -/
theorem Set_at_found [GoEq K] {s : skipList K V} {ns A S2 : List Nat} {d : Nat}
    (hinv : Inv s ns) {lt : K → K → Bool} (hd : Decides s lt) (k : K)
    (hns : ns = A ++ d :: S2)
    (hB : Stops s.mem (gOf lt s.mem k) 0 (ht s.mem s.head) (d :: S2))
    (hR : Records s.mem (gOf lt s.mem k) 0 A)
    (hk : ifaceEq (keyAt s.mem d) (some k) = Except.ok true)
    (v : Option V) (coins : Nat → Bool) :
    ∃ s1, s.Set (some k) v coins = Except.ok (none, s1) ∧ Inv s1 ns ∧ s1.len = s.len ∧
      SameLinks s.mem s1.mem ∧ valAt s1.mem d = v ∧ s1.head = s.head ∧ s1.less = s.less := by
  obtain ⟨A1, S1, hns1, hB1, hR1, hc⟩ :=
    Set_gen hinv k v coins (gOf lt s.mem k) (hinv.decides hd k)
  obtain ⟨_, h2⟩ := split_unique hinv.ht_bounds hns hns1 hB hR hB1 hR1
  subst h2
  rcases hc with ⟨d1, f, hd1, hf, _⟩ | ⟨s1, hset, hhead, hless, hcase⟩
  · simp only [List.head?_cons, Option.some.injEq] at hd1
    subst hd1
    rw [hk] at hf
    exact Except.noConfusion hf
  · rcases hcase with ⟨d1, S3, hS, _, hinv1, hlen, hsl, hvd, _⟩ | ⟨hnk, _⟩
    · have hdd : d = d1 := (List.cons.inj hS).1
      subst hdd
      exact ⟨s1, hset, hinv1, hlen, hsl, hvd, hhead, hless⟩
    · have := hnk d rfl
      rw [hk] at this
      exact absurd (Except.ok.inj this) (by decide)

/-- `Set(k, v)` for a key whose comparison by `==` never aborts, on a
well-formed list with a comparator that decides an irreflexive relation: it
returns nil, and the walk for `k` on the list it leaves ends in front of the cell
that holds `v`.  That cell is the first cell `d` of the `S` of the split the walk
found, when the key of `d` is `==` to `k`, and a new cell with the key `k` in
front of `S` otherwise. -/
theorem Set_walk [GoEq K] {s : skipList K V} {ns : List Nat}
    (hinv : Inv s ns) {lt : K → K → Bool} (hirr : ∀ a, lt a a = false)
    (hd : Decides s lt) (k : K) (hcmp : ∀ a, ∃ b, GoEq.eq a k = Except.ok b)
    (v : Option V) (coins : Nat → Bool) :
    ∃ A S s1, ns = A ++ S ∧ Stops s.mem (gOf lt s.mem k) 0 (ht s.mem s.head) S ∧
      Records s.mem (gOf lt s.mem k) 0 A ∧
      s.Set (some k) v coins = Except.ok (none, s1) ∧ Decides s1 lt ∧
      Records s1.mem (gOf lt s1.mem k) 0 A ∧
      ((∃ d S2, S = d :: S2 ∧ ifaceEq (keyAt s.mem d) (some k) = Except.ok true ∧
          Inv s1 ns ∧ s1.len = s.len ∧ (∀ x, keyAt s1.mem x = keyAt s.mem x) ∧
          valAt s1.mem d = v ∧
          Stops s1.mem (gOf lt s1.mem k) 0 (ht s1.mem s1.head) (d :: S2)) ∨
        ((∀ d, S.head? = some d → ifaceEq (keyAt s.mem d) (some k) = Except.ok false) ∧
          Inv s1 (A ++ s.mem.length :: S) ∧ s1.len = s.len + 1 ∧
          keyAt s1.mem s.mem.length = some k ∧ valAt s1.mem s.mem.length = v ∧
          (∀ x, x < s.mem.length → keyAt s1.mem x = keyAt s.mem x) ∧
          Stops s1.mem (gOf lt s1.mem k) 0 (ht s1.mem s1.head) (s.mem.length :: S))) := by
  obtain ⟨A, S, hns, hB, hR, hc⟩ :=
    Set_gen hinv k v coins (gOf lt s.mem k) (hinv.decides hd k)
  rcases hc with ⟨d, f, hd1, hf, _⟩ | ⟨s1, hset, hhead, hless, hcase⟩
  · exfalso
    have hdS : d ∈ ns := by rw [hns]; exact List.mem_append.mpr (Or.inr (List.mem_of_mem_head? hd1))
    have hsome := hinv.key_some d hdS
    cases hka : keyAt s.mem d with
    | none => rw [hka] at hsome; exact Bool.noConfusion hsome
    | some a =>
      obtain ⟨b, hb⟩ := hcmp a
      rw [ifaceEq_of_key k hka, hb] at hf
      exact Except.noConfusion hf
  · have hd1 : Decides s1 lt := by intro a b; rw [hless]; exact hd a b
    refine ⟨A, S, s1, hns, hB, hR, hset, hd1, ?_, ?_⟩
    · rcases hcase with ⟨d, S2, hS, hkd, hinv1, _, hsl, hvd, _⟩ |
        ⟨_, hinv1, _, _, hold, hkn, hvn, hhts, hhtn, hhth, _⟩
      · obtain ⟨h3h, h3k, _⟩ := sameLinks_valAt hsl
        exact hR.transfer (fun x _ => h3h x) (fun x _ => gOf_congr lt k (h3k x))
      · have hlt : ∀ x ∈ ns, x < s.mem.length := hinv.lt_length
        exact hR.transfer (fun x hx => hhts x (by rw [hns]; simp [hx]))
          (fun x hx => gOf_congr lt k (hold x (hlt x (by rw [hns]; simp [hx]))).1)
    · rcases hcase with ⟨d, S2, hS, hkd, hinv1, hlen, hsl, hvd, _⟩ |
        ⟨hnk, hinv1, hlen, _, hold, hkn, hvn, hhts, hhtn, hhth, _⟩
      · subst hS
        obtain ⟨h3h, h3k, _⟩ := sameLinks_valAt hsl
        refine Or.inl ⟨d, S2, rfl, hkd, hinv1, hlen, h3k, hvd, ?_⟩
        rw [hhead, h3h]
        exact hB.carry (fun x _ => h3h x) (fun x _ => gOf_congr lt k (h3k x))
          (fun x hx => hinv.ht_le x (by rw [hns]; simp [hx]))
      · have hlt : ∀ x ∈ ns, x < s.mem.length := hinv.lt_length
        have hkeep : ∀ x ∈ ns, gOf lt s1.mem k x = gOf lt s.mem k x :=
          fun x hx => gOf_congr lt k (hold x (hlt x hx)).1
        refine Or.inr ⟨hnk, hinv1, hlen, hkn, hvn, fun x hx => (hold x hx).1, ?_⟩
        intro j _ hj f hf
        rw [firstAt_cons] at hf
        by_cases hjn : j < ht s1.mem s.mem.length
        · rw [if_pos hjn] at hf
          have : f = s.mem.length := (Option.some.inj hf).symm
          rw [this, gOf_of_key lt k hkn]
          exact hirr k
        · rw [if_neg hjn] at hf
          have hSns : ∀ x ∈ S, x ∈ ns := fun x hx => by rw [hns]; simp [hx]
          rw [firstAt_congr j (fun x hx => hhts x (hSns x hx))] at hf
          have hfS := firstAt_mem hf
          rw [hkeep f (hSns f hfS)]
          apply hB j (Nat.zero_le _) _ f hf
          have := (firstAt_some_split hf).1
          have := hinv.ht_le f (hSns f hfS)
          omega

end AnyOrder

end SimpleDB


namespace SimpleDB

section Claims

variable {K V : Type}

theorem natLt_strictTotal : StrictTotal natLt := by
  refine ⟨fun a => by simp [natLt], fun a b c h1 h2 => ?_, fun a b h => ?_⟩
  · simp only [natLt, decide_eq_true_eq] at h1 h2 ⊢; omega
  · simp only [natLt, decide_eq_true_eq]; omega

theorem natList_decides : ∀ a b : Nat, lessOf natLt (some a) (some b) = Except.ok (natLt a b) :=
  fun _ _ => rfl

theorem exState_run : natList.run exOps = Except.ok exState := rfl

/-- A list built by completed calls holds the association list of the calls. -/
theorem reachable_rep [DecidableEq K] {lt : K → K → Bool} (ht : StrictTotal lt)
    (less : Option K → Option K → Except Fault Bool)
    (hless : ∀ a b, less (some a) (some b) = Except.ok (lt a b))
    (ops : List (Op K V)) (s : skipList K V)
    (hrun : (NewSkipList less).run ops = Except.ok s) :
    Rep s (runA lt [] ops) ∧ Decides s lt ∧ SortedS lt (runA lt [] ops) := by
  obtain ⟨h1, h2, _⟩ := run_refines ht.strictWeak ops (NewSkipList less) s [] hless
    (NewSkipList_rep less) (by simp [SortedA]) hrun
  exact ⟨h1, h2, runA_sortedS ht ops [] (by simp [SortedS])⟩

/-- C1. On a skip list built from `NewSkipList` with a comparator that decides a
strict total order, by any sequence of completed `Set` and `Del` calls with any
coin flips, `Get(k)` for a non-nil `k` returns `(v, nil)` for the value `v` of the
most recent `Set(k, v)` not followed by a `Del(k)`, and `(nil, ErrNotFound)` when
there is none.  `Get` is a function of the list alone and returns no new list. -/
theorem C1_get_returns_last_set [DecidableEq K] (lt : K → K → Bool) (ht : StrictTotal lt)
    (less : Option K → Option K → Except Fault Bool)
    (hless : ∀ a b, less (some a) (some b) = Except.ok (lt a b))
    (ops : List (Op K V)) (s : skipList K V)
    (hrun : (NewSkipList less).run ops = Except.ok s) (k : K) :
    s.Get (some k) = Except.ok (getResult (lastSet k ops none)) := by
  obtain ⟨hrep, hd, hs⟩ := reachable_rep ht less hless ops s hrun
  rw [Get_refines ht.strictWeak hd hrep (hs.sortedA ht) k,
    getA_runA ht ops k [] (by simp [SortedS])]
  rfl

theorem C1_witness :
    natList.run exOps = Except.ok exState ∧
      exState.Get (some 1) = Except.ok (getResult (lastSet 1 exOps none)) ∧
      exState.Get (some 2) = Except.ok (getResult (lastSet 2 exOps none)) :=
  ⟨exState_run,
    C1_get_returns_last_set natLt natLt_strictTotal (lessOf natLt) natList_decides exOps
      exState exState_run 1,
    C1_get_returns_last_set natLt natLt_strictTotal (lessOf natLt) natList_decides exOps
      exState exState_run 2⟩

/-- C3. After any sequence of completed `Set` and `Del` calls on a skip list
whose comparator decides a strict total order, `Len()` is the number of distinct
keys set and not deleted since, and the iterator, advanced until `HasNext` is
false, yields exactly `Len()` entries. -/
theorem C3_len_counts_live_keys [DecidableEq K] (lt : K → K → Bool) (ht : StrictTotal lt)
    (less : Option K → Option K → Except Fault Bool)
    (hless : ∀ a b, less (some a) (some b) = Except.ok (lt a b))
    (ops : List (Op K V)) (s : skipList K V)
    (hrun : (NewSkipList less).run ops = Except.ok s) :
    s.Len = ((liveKeys ops []).length : Int) ∧
      ∃ es, s.entries = Except.ok es ∧ (es.length : Int) = s.Len := by
  obtain ⟨hrep, _, _⟩ := reachable_rep ht less hless ops s hrun
  have hlen := hrep.len_eq
  rw [length_runA ht ops] at hlen
  refine ⟨hlen, _, hrep.entries_eq, ?_⟩
  rw [List.length_map, length_runA ht ops]
  exact hlen.symm

theorem C3_witness :
    natList.run exOps = Except.ok exState ∧
      exState.Len = ((liveKeys exOps []).length : Int) ∧
      ∃ es, exState.entries = Except.ok es ∧ (es.length : Int) = exState.Len :=
  ⟨exState_run,
    C3_len_counts_live_keys natLt natLt_strictTotal (lessOf natLt) natList_decides exOps
      exState exState_run⟩

/-- C4. After any sequence of completed `Set` and `Del` calls on a skip list
whose comparator decides a strict total order, the iterator yields the entries in
strictly ascending key order (`less` holds between the keys of adjacent entries),
no key twice, and the pair `(k, v)` exactly when `v` is the value last set for
`k` and not deleted since. -/
theorem C4_iterator_ascending [DecidableEq K] (lt : K → K → Bool) (ht : StrictTotal lt)
    (less : Option K → Option K → Except Fault Bool)
    (hless : ∀ a b, less (some a) (some b) = Except.ok (lt a b))
    (ops : List (Op K V)) (s : skipList K V)
    (hrun : (NewSkipList less).run ops = Except.ok s) :
    ∃ es, s.entries = Except.ok es ∧
      es.Chain' (fun a b => less a.1 b.1 = Except.ok true) ∧
      (es.map Prod.fst).Nodup ∧
      (∀ e ∈ es, e.1 ≠ none) ∧
      ∀ k v, ((some k, v) ∈ es ↔ lastSet k ops none = some v) := by
  obtain ⟨hrep, _, hs⟩ := reachable_rep ht less hless ops s hrun
  refine ⟨_, hrep.entries_eq, ?_, ?_, ?_, ?_⟩
  · apply List.Pairwise.chain'
    rw [List.pairwise_map]
    exact List.Pairwise.imp (fun {a b} hab => by
      show less (some a.1) (some b.1) = Except.ok true
      rw [hless, hab]) hs
  · have h1 := hs.nodup_keys ht
    have h2 : (List.map emb (runA lt [] ops)).map Prod.fst
        = ((runA lt [] ops).map Prod.fst).map some := by
      simp [List.map_map, emb, Function.comp_def]
    rw [h2]
    exact h1.map (Option.some_injective K)
  · intro e he
    obtain ⟨x, _, hx⟩ := List.mem_map.mp he
    rw [← hx]
    exact Option.some_ne_none _
  · intro k v
    have h1 := getA_runA ht ops k ([] : List (K × Option V)) (by simp [SortedS])
    rw [show getA lt k ([] : List (K × Option V)) = none from rfl] at h1
    rw [← h1, getA_iff ht k v _ hs]
    simp only [List.mem_map, emb, Prod.mk.injEq, Option.some.injEq]
    constructor
    · rintro ⟨x, h1, h2, h3⟩
      have : x = (k, v) := Prod.ext h2 h3
      rw [← this]; exact h1
    · intro h
      exact ⟨(k, v), h, rfl, rfl⟩

theorem C4_witness :
    natList.run exOps = Except.ok exState ∧
      ∃ es, exState.entries = Except.ok es ∧
        es.Chain' (fun a b => lessOf natLt a.1 b.1 = Except.ok true) ∧
        (es.map Prod.fst).Nodup ∧
        (∀ e ∈ es, e.1 ≠ none) ∧
        ∀ k v, ((some k, v) ∈ es ↔ lastSet k exOps none = some v) :=
  ⟨exState_run,
    C4_iterator_ascending natLt natLt_strictTotal (lessOf natLt) natList_decides exOps
      exState exState_run⟩

end Claims

end SimpleDB


namespace SimpleDB

section Claims2

variable {K V : Type}

/-- Two `Set` calls with the same key in a row on a well-formed list, for a
comparator that decides an irreflexive relation and a key that is `==` to itself
and whose comparison by `==` never aborts. -/
theorem set_twice [GoEq K] {s : skipList K V} {ns : List Nat} (hinv : Inv s ns)
    {lt : K → K → Bool} (hirr : ∀ a, lt a a = false) (hd : Decides s lt) (k : K)
    (hkk : GoEq.eq k k = Except.ok true) (hcmp : ∀ a, ∃ b, GoEq.eq a k = Except.ok b)
    (v1 v2 : Option V) (c1 c2 : Nat → Bool) :
    ∃ s1 s2, s.Set (some k) v1 c1 = Except.ok (none, s1) ∧
      s1.Set (some k) v2 c2 = Except.ok (none, s2) ∧
      s2.Get (some k) = Except.ok (v2, none) ∧ s2.Len = s1.Len := by
  obtain ⟨A, S, s1, hns, _, _, hset1, hd1, hR1, hcase⟩ :=
    Set_walk hinv hirr hd k hcmp v1 c1
  have key : ∃ ns1 d S2, Inv s1 ns1 ∧ ns1 = A ++ d :: S2 ∧
      Stops s1.mem (gOf lt s1.mem k) 0 (ht s1.mem s1.head) (d :: S2) ∧
      ifaceEq (keyAt s1.mem d) (some k) = Except.ok true := by
    rcases hcase with ⟨d, S2, hS, hkd, hinv1, _, hkeys, _, hB1⟩ |
      ⟨_, hinv1, _, hkn, _, _, hB1⟩
    · exact ⟨ns, d, S2, hinv1, by rw [hns, hS], hB1, by rw [hkeys]; exact hkd⟩
    · exact ⟨_, _, S, hinv1, rfl, hB1, by rw [ifaceEq_of_key k hkn]; exact hkk⟩
  obtain ⟨ns1, d, S2, hinv1, hns1, hB1, hk1⟩ := key
  obtain ⟨s2, hset2, hinv2, hlen2, hsl2, hvd2, hhead2, hless2⟩ :=
    Set_at_found hinv1 hd1 k hns1 hB1 hR1 hk1 v2 c2
  obtain ⟨h3h, h3k, _⟩ := sameLinks_valAt hsl2
  have hd2 : Decides s2 lt := by intro a b; rw [hless2]; exact hd1 a b
  have hB2 : Stops s2.mem (gOf lt s2.mem k) 0 (ht s2.mem s2.head) (d :: S2) :=
    hB1.carry (fun x _ => h3h x) (fun x _ => gOf_congr lt k (h3k x))
      (fun x hx => hinv1.ht_le x (by rw [hns1]; simp [hx]))
  have hR2 : Records s2.mem (gOf lt s2.mem k) 0 A :=
    hR1.transfer (fun x _ => h3h x) (fun x _ => gOf_congr lt k (h3k x))
  have hget := Get_at_gen hinv2 hd2 k hns1 hB2 hR2
  refine ⟨s1, s2, hset1, hset2, ?_, hlen2⟩
  rw [hget]
  simp only [List.head?_cons]
  rw [h3k, hk1, hvd2]
  rfl

/-- C2 fails for a key that is not `==` to itself and for a key of a type that
cannot be compared.  With `float64` keys compared by `<`, which is irreflexive,
`Set(NaN, 1)` and `Set(NaN, 2)` both return nil, but the second adds an entry
(`Len()` goes from 1 to 2) and `Get(NaN)` returns `ErrNotFound`.  With `[]int`
keys compared by their length, `Set(k, 1)` returns nil and `Set(k, 2)` aborts in
`dest.key == key`. -/
theorem C2_counterexample :
    (∀ a, f64Lt a a = false) ∧
      f64List.Set (some F64.nan) (some 1) (fun _ => false) = Except.ok (none, nanState1) ∧
      nanState1.Set (some F64.nan) (some 2) (fun _ => false) = Except.ok (none, nanState2) ∧
      nanState1.Len = 1 ∧ nanState2.Len = 2 ∧
      nanState2.Get (some F64.nan) = Except.ok (none, some Error.ErrNotFound) ∧
      nanState2.entries = Except.ok [(some F64.nan, some 2), (some F64.nan, some 1)] ∧
      (∀ a, sliceLt a a = false) ∧
      sliceList.Set (some { elems := [7] }) (some 1) (fun _ => false)
        = Except.ok (none, sliceState1) ∧
      sliceState1.Set (some { elems := [7] }) (some 2) (fun _ => false)
        = Except.error Fault.uncomparable :=
  ⟨fun a => by cases a <;> simp [f64Lt], rfl, rfl, rfl, rfl, rfl, rfl,
    fun a => by simp [sliceLt], rfl, rfl⟩

/-- C2, amended.  On a skip list reached from `NewSkipList` by completed `Set`
and `Del` calls, with a comparator that decides an irreflexive relation and any
`==` on the keys, and for a key `k` that is `==` to itself and whose comparison
with a key by `==` never aborts: `Set(k, v1)` followed by `Set(k, v2)` both return
nil, `Get(k)` then returns `v2`, and `Len()` after the second `Set` equals `Len()`
after the first. -/
theorem C2_set_twice_replaces [GoEq K] (lt : K → K → Bool)
    (hirr : ∀ a, lt a a = false)
    (less : Option K → Option K → Except Fault Bool)
    (hless : ∀ a b, less (some a) (some b) = Except.ok (lt a b))
    (ops : List (Op K V)) (s : skipList K V)
    (hrun : (NewSkipList less).run ops = Except.ok s)
    (k : K) (hkk : GoEq.eq k k = Except.ok true)
    (hcmp : ∀ a, ∃ b, GoEq.eq a k = Except.ok b)
    (v1 v2 : Option V) (c1 c2 : Nat → Bool) :
    ∃ s1 s2, s.Set (some k) v1 c1 = Except.ok (none, s1) ∧
      s1.Set (some k) v2 c2 = Except.ok (none, s2) ∧
      s2.Get (some k) = Except.ok (v2, none) ∧ s2.Len = s1.Len := by
  obtain ⟨ns, hinv, hd⟩ := run_inv ops (NewSkipList less) s [] hless (NewSkipList_inv less) hrun
  exact set_twice hinv hirr hd k hkk hcmp v1 v2 c1 c2

theorem C2_witness :
    (∀ a, f64Lt a a = false) ∧
      f64List.run [Op.set (some F64.nan) (some 1) (fun _ => false)] = Except.ok nanState1 ∧
      GoEq.eq (F64.num 3) (F64.num 3) = Except.ok true ∧
      ∃ s1 s2, nanState1.Set (some (F64.num 3)) (some 30) (fun _ => true)
          = Except.ok (none, s1) ∧
        s1.Set (some (F64.num 3)) (some 31) (fun _ => false) = Except.ok (none, s2) ∧
        s2.Get (some (F64.num 3)) = Except.ok (some 31, none) ∧ s2.Len = s1.Len :=
  ⟨fun a => by cases a <;> simp [f64Lt], rfl, rfl,
    C2_set_twice_replaces f64Lt (fun a => by cases a <;> simp [f64Lt]) (lessOf f64Lt)
      (fun _ _ => rfl) [Op.set (some F64.nan) (some 1) (fun _ => false)] nanState1 rfl
      (F64.num 3) rfl (fun a => ⟨_, rfl⟩) (some 30) (some 31) (fun _ => true)
      (fun _ => false)⟩

set_option maxRecDepth 100000 in
/-- C5, at the failing input: after `Set(1, 10)` has drawn level 32, the key 1
is present (`Get(1)` returns 10), and `Del(1)` neither returns nil nor any error:
it aborts in `make([]*node, 33, 32)`.  So does `Del(2)` for the absent key 2. -/
theorem C5_del_aborts_at_level_32 :
    natList.run tallOps = Except.ok tallState ∧
      tallState.Get (some 1) = Except.ok (some 10, none) ∧
      tallState.Del (some 1) = Except.error Fault.makeslice ∧
      tallState.Del (some 2) = Except.error Fault.makeslice :=
  ⟨rfl, rfl, rfl, rfl⟩

/-- What `Del` does on a list built by completed calls whose sentinel has at
most 32 slots (`level() < 32`), for a strict total order: it returns nil exactly
when the key is present, then `Len()` is smaller by 1 and `Get` returns
`ErrNotFound`, and a second `Del` returns `ErrNotFound`; for an absent key it
returns `ErrNotFound` and leaves the list as it is. -/
theorem Del_below_level_32 [DecidableEq K] (lt : K → K → Bool) (ht1 : StrictTotal lt)
    (less : Option K → Option K → Except Fault Bool)
    (hless : ∀ a b, less (some a) (some b) = Except.ok (lt a b))
    (ops : List (Op K V)) (s : skipList K V)
    (hrun : (NewSkipList less).run ops = Except.ok s)
    (hH : ht s.mem s.head ≤ 32) (k : K) :
    ((lastSet k ops none).isSome = true →
        ∃ s1, s.Del (some k) = Except.ok (none, s1) ∧ s1.Len = s.Len - 1 ∧
          s1.Get (some k) = Except.ok (none, some Error.ErrNotFound) ∧
          s1.Del (some k) = Except.ok (some Error.ErrNotFound, s1)) ∧
      ((lastSet k ops none).isSome = false →
        s.Del (some k) = Except.ok (some Error.ErrNotFound, s)) := by
  obtain ⟨hrep, hd, hs⟩ := reachable_rep ht1 less hless ops s hrun
  have hsw := ht1.strictWeak
  have hlast := getA_runA ht1 ops k ([] : List (K × Option V)) (by simp [SortedS])
  rw [show getA lt k ([] : List (K × Option V)) = none from rfl] at hlast
  obtain ⟨s1, hdel, hrep1, hd1, hhead1, hle1, hsame⟩ :=
    Del_refines hsw hd hrep (hs.sortedA ht1) hH k
  rw [hlast] at hdel hsame
  constructor
  · intro hsome
    rw [hsome, if_pos rfl] at hdel
    obtain ⟨hs1, hm1⟩ := delA_sortedS ht1 k _ hs
    have hgone : getA lt k (delA lt k (runA lt [] ops)) = none := by
      cases hg : getA lt k (delA lt k (runA lt [] ops)) with
      | none => rfl
      | some w =>
        have := (hm1 (k, w)).mp ((getA_iff ht1 k w _ hs1).mp hg)
        exact absurd rfl this.2
    obtain ⟨s2, hdel2, _, _, _, _, hsame2⟩ :=
      Del_refines hsw hd1 hrep1 (hs1.sortedA ht1) (by omega) k
    rw [hgone] at hdel2 hsame2
    have hs2 : s2 = s1 := hsame2 rfl
    rw [hs2] at hdel2
    refine ⟨s1, hdel, ?_, ?_, hdel2⟩
    · show s1.len = s.len - 1
      rw [hrep1.len_eq, hrep.len_eq]
      have hlen : (delA lt k (runA lt [] ops)).length + 1 = (runA lt [] ops).length := by
        obtain ⟨w, hw⟩ := Option.isSome_iff_exists.mp hsome
        rw [← hlast] at hw
        have hmem := (getA_iff ht1 k w _ hs).mp hw
        have hk1 := hs.nodup_keys ht1
        have hk2 := hs1.nodup_keys ht1
        have hp : List.Perm (k :: (delA lt k (runA lt [] ops)).map Prod.fst)
            ((runA lt [] ops).map Prod.fst) := by
          apply (List.perm_ext_iff_of_nodup _ hk1).mpr
          · intro x
            simp only [List.mem_cons, List.mem_map, hm1]
            constructor
            · rintro (h | ⟨e, ⟨h1, _⟩, h3⟩)
              · exact ⟨(k, w), hmem, h.symm⟩
              · exact ⟨e, h1, h3⟩
            · rintro ⟨e, h1, h2⟩
              by_cases hxk : x = k
              · exact Or.inl hxk
              · exact Or.inr ⟨e, ⟨h1, by rw [h2]; exact hxk⟩, h2⟩
          · refine List.nodup_cons.mpr ⟨?_, hk2⟩
            simp only [List.mem_map, hm1]
            rintro ⟨e, ⟨_, h2⟩, h3⟩
            exact h2 h3
        have := hp.length_eq
        simpa using this
      omega
    · rw [Get_refines hsw hd1 hrep1 (hs1.sortedA ht1) k, hgone]; rfl
  · intro hnone
    rw [hnone] at hdel
    have : s1 = s := hsame hnone
    rw [this] at hdel
    exact hdel

theorem Del_below_level_32_witness :
    natList.run exOps = Except.ok exState ∧ ht exState.mem exState.head ≤ 32 ∧
      (lastSet 1 exOps none).isSome = true ∧
      ∃ s1, exState.Del (some 1) = Except.ok (none, s1) ∧ s1.Len = exState.Len - 1 ∧
        s1.Get (some 1) = Except.ok (none, some Error.ErrNotFound) ∧
        s1.Del (some 1) = Except.ok (some Error.ErrNotFound, s1) :=
  ⟨exState_run, by decide, by decide,
    (Del_below_level_32 natLt natLt_strictTotal (lessOf natLt) natList_decides exOps exState
      exState_run (by decide) 1).1 (by decide)⟩

end Claims2

end SimpleDB


namespace SimpleDB

section Claims3

variable {K V : Type}

theorem pairLt_strictWeak : StrictWeak pairLt := by
  refine ⟨fun a => by simp [pairLt], fun a b c h1 h2 => ?_, fun a b c h1 h2 => ?_⟩
  · simp only [pairLt, decide_eq_true_eq] at h1 h2 ⊢; omega
  · simp only [pairLt, decide_eq_false_iff_not] at h1 h2 ⊢; omega

/-- C6 fails as stated: `(1, 0)` and `(1, 1)` are equal under the strict weak
order `pairLt` and not identical; after `Set((1, 0), 10)`, the call
`Set((1, 1), 11)` adds an entry (`Len()` goes from 1 to 2), and then `Get((1, 0))`
and `Del((1, 0))` return `ErrNotFound`: the entry stored under `(1, 1)` is no
match for `(1, 0)`. -/
theorem C6_counterexample :
    StrictWeak pairLt ∧ pairLt (1, 0) (1, 1) = false ∧ pairLt (1, 1) (1, 0) = false ∧
      pairList.Set (some (1, 0)) (some 10) (fun _ => false) = Except.ok (none, pairState1) ∧
      pairState1.Set (some (1, 1)) (some 11) (fun _ => false)
        = Except.ok (none, pairState2) ∧
      pairState1.Len = 1 ∧ pairState2.Len = 2 ∧
      pairState2.Get (some (1, 0)) = Except.ok (none, some Error.ErrNotFound) ∧
      pairState2.Del (some (1, 0)) = Except.ok (some Error.ErrNotFound, pairState2) ∧
      pairState2.entries = Except.ok [(some (1, 1), some 11), (some (1, 0), some 10)] :=
  ⟨pairLt_strictWeak, rfl, rfl, rfl, rfl, rfl, rfl, rfl, rfl, rfl⟩

/-- `setA` puts the new entry behind entries that are all less than its key. -/
theorem setA_decomp [DecidableEq K] (lt : K → K → Bool) (k : K) (v : V) :
    ∀ l : List (K × V), ∃ lA r, setA lt k v l = lA ++ (k, v) :: r ∧
      (∀ e ∈ lA, lt e.1 k = true) := by
  intro l
  induction l with
  | nil => exact ⟨[], [], rfl, by simp⟩
  | cons e r ih =>
    rw [setA]
    by_cases he : lt e.1 k = true
    · rw [if_pos he]
      obtain ⟨lA, r1, h1, h2⟩ := ih
      refine ⟨e :: lA, r1, by rw [h1]; rfl, ?_⟩
      intro x hx
      rcases List.mem_cons.mp hx with h3 | h3
      · rw [h3]; exact he
      · exact h2 x h3
    · rw [if_neg he]
      by_cases hk : e.1 = k
      · rw [if_pos hk]; exact ⟨[], r, rfl, by simp⟩
      · rw [if_neg hk]; exact ⟨[], e :: r, rfl, by simp⟩

/-- Two keys that are equal under a strict weak order stand in the same
relation to every key of the heap. -/
theorem gOf_equiv {mem : List (node K V)} {lt : K → K → Bool} (hsw : StrictWeak lt)
    {k1 k2 : K} (h12 : lt k1 k2 = false) (h21 : lt k2 k1 = false) :
    gOf lt mem k1 = gOf lt mem k2 := by
  funext x
  unfold gOf
  cases keyAt mem x with
  | none => rfl
  | some a =>
    show lt a k1 = lt a k2
    cases h1 : lt a k1 <;> cases h2 : lt a k2
    · rfl
    · have := hsw.negTrans a k1 k2 h1 h12
      rw [h2] at this
      exact Bool.noConfusion this
    · have := hsw.negTrans a k2 k1 h2 h21
      rw [h1] at this
      exact Bool.noConfusion this
    · rfl

theorem mixLt_strictWeak : StrictWeak mixLt := by
  refine ⟨fun a => by simp [mixLt], fun a b c h1 h2 => ?_, fun a b c h1 h2 => ?_⟩
  · simp only [mixLt, decide_eq_true_eq] at h1 h2 ⊢; omega
  · simp only [mixLt, decide_eq_false_iff_not] at h1 h2 ⊢; omega

theorem f64Eq_symm (a b : F64) (h : f64Eq a b = true) : f64Eq b a = true := by
  cases a <;> cases b <;> simp [f64Eq] at h ⊢
  exact h.symm

theorem f64Eq_trans (a b c : F64) (h1 : f64Eq a b = true) (h2 : f64Eq b c = true) :
    f64Eq a c = true := by
  cases a <;> cases b <;> cases c <;> simp [f64Eq] at h1 h2 ⊢
  exact h1.trans h2

theorem mixEq_comparable : Comparable (Nat × F64) mixEq := by
  refine ⟨fun _ _ => rfl, fun a b h => ?_, fun a b c h1 h2 => ?_⟩
  · simp only [mixEq, Bool.and_eq_true, decide_eq_true_eq] at h ⊢
    exact ⟨h.1.symm, f64Eq_symm _ _ h.2⟩
  · simp only [mixEq, Bool.and_eq_true, decide_eq_true_eq] at h1 h2 ⊢
    exact ⟨h1.1.trans h2.1, f64Eq_trans _ _ _ h1.2 h2.2⟩

/-- C6, amended.  For a comparator that decides a strict weak order, a `==` on
the keys that never aborts (symmetric and transitive, not necessarily true of a
key and itself), a list built by completed calls, and keys `k1`, `k2` equal under
the order: both `Set` calls return nil; when `k1 == k2` the second is an in-place
replacement (`Len()` unchanged, `Get(k1)` returns `v2`); when `k1 != k2` the
second adds an entry (`Len()` grows by 1), `Get(k2)` returns `v2` if `k2 == k2`
and `ErrNotFound` if not, `Get(k1)` returns `ErrNotFound`, and `Del(k1)`, while
`level() < 32`, returns `ErrNotFound` and leaves the list as it is. -/
theorem C6_equal_keys_match_by_eq [GoEq K] (lt : K → K → Bool)
    (hsw : StrictWeak lt) (r : K → K → Bool) (hc : Comparable K r)
    (less : Option K → Option K → Except Fault Bool)
    (hless : ∀ a b, less (some a) (some b) = Except.ok (lt a b))
    (ops : List (Op K V)) (s : skipList K V)
    (hrun : (NewSkipList less).run ops = Except.ok s)
    (k1 k2 : K) (h12 : lt k1 k2 = false) (h21 : lt k2 k1 = false)
    (v1 v2 : Option V) (c1 c2 : Nat → Bool) :
    ∃ s1 s2, s.Set (some k1) v1 c1 = Except.ok (none, s1) ∧
      s1.Set (some k2) v2 c2 = Except.ok (none, s2) ∧
      (r k1 k2 = true → s2.Len = s1.Len ∧ s2.Get (some k1) = Except.ok (v2, none)) ∧
      (r k1 k2 = false → s2.Len = s1.Len + 1 ∧
        s2.Get (some k2) = Except.ok
          (if r k2 k2 then (v2, none) else (none, some Error.ErrNotFound)) ∧
        s2.Get (some k1) = Except.ok (none, some Error.ErrNotFound) ∧
        (ht s2.mem s2.head ≤ 32 →
          s2.Del (some k1) = Except.ok (some Error.ErrNotFound, s2))) := by
  obtain ⟨ns, hinv, hd⟩ :=
    run_inv ops (NewSkipList less) s [] hless (NewSkipList_inv less) hrun
  have hcmp : ∀ k a, ∃ b, GoEq.eq a k = Except.ok b := fun k a => ⟨_, hc.decides a k⟩
  have hE : ∀ {mem : List (node K V)} {x : Nat} {a : K} (k : K), keyAt mem x = some a →
      ifaceEq (keyAt mem x) (some k) = Except.ok (r a k) := by
    intro mem x a k h
    rw [ifaceEq_of_key k h, hc.decides]
  obtain ⟨A, S, s1, hns, _, _, hset1, hd1, hR1, hcase1⟩ :=
    Set_walk hinv hsw.irrefl hd k1 (hcmp k1) v1 c1
  have key : ∃ ns1 d S2 a, Inv s1 ns1 ∧ ns1 = A ++ d :: S2 ∧
      Stops s1.mem (gOf lt s1.mem k1) 0 (ht s1.mem s1.head) (d :: S2) ∧
      keyAt s1.mem d = some a ∧ (a = k1 ∨ r a k1 = true) := by
    rcases hcase1 with ⟨d, S2, hS, hkd, hinv1, _, hkeys, _, hB1⟩ |
      ⟨_, hinv1, _, hkn, _, _, hB1⟩
    · have hdn : d ∈ ns := by rw [hns, hS]; simp
      have hsome := hinv.key_some d hdn
      cases hka : keyAt s.mem d with
      | none => rw [hka] at hsome; exact Bool.noConfusion hsome
      | some a =>
        rw [hE k1 hka] at hkd
        exact ⟨ns, d, S2, a, hinv1, by rw [hns, hS], hB1, by rw [hkeys]; exact hka,
          Or.inr (Except.ok.inj hkd)⟩
    · exact ⟨_, _, S, k1, hinv1, rfl, hB1, hkn, Or.inl rfl⟩
  obtain ⟨ns1, d, S2, a, hinv1, hns1, hB1, hka, hak⟩ := key
  have hg1 := @gOf_equiv K V s1.mem lt hsw k1 k2 h12 h21
  rw [hg1] at hB1 hR1
  obtain ⟨A1, S1, s2, hnsx, hBx, hRx, hset2, hd2, hR2, hcase2⟩ :=
    Set_walk hinv1 hsw.irrefl hd1 k2 (hcmp k2) v2 c2
  obtain ⟨hA, hS⟩ := split_unique hinv1.ht_bounds hns1 hnsx hB1 hR1 hBx hRx
  subst hA
  subst hS
  have hEd := hE k2 hka
  have hg2 := @gOf_equiv K V s2.mem lt hsw k1 k2 h12 h21
  refine ⟨s1, s2, hset1, hset2, fun hr => ?_, fun hr => ?_⟩
  · have hak2 : r a k2 = true := by
      rcases hak with h | h
      · rw [h]; exact hr
      · exact hc.trans a k1 k2 h hr
    have hak1 : r a k1 = true := by
      rcases hak with h | h
      · rw [h]; exact hc.trans k1 k2 k1 hr (hc.symm k1 k2 hr)
      · exact h
    rcases hcase2 with ⟨d1, S3, hS, _, hinv2, hlen, hkeys, hvd, hB2⟩ | ⟨hnk, _⟩
    · have hdd : d = d1 := (List.cons.inj hS).1
      subst hdd
      have hS3 : S2 = S3 := (List.cons.inj hS).2
      subst hS3
      rw [← hg2] at hB2 hR2
      refine ⟨hlen, ?_⟩
      rw [Get_at_gen hinv2 hd2 k1 hns1 hB2 hR2]
      simp only [List.head?_cons]
      rw [hE k1 (by rw [hkeys]; exact hka), hak1, hvd]
      rfl
    · have := hnk d rfl
      rw [hEd, hak2] at this
      exact absurd (Except.ok.inj this) (by decide)
  · have hak2 : r a k2 = false := by
      rcases hak with h | h
      · rw [h]; exact hr
      · cases h2 : r a k2 with
        | false => rfl
        | true =>
          have := hc.trans k1 a k2 (hc.symm a k1 h) h2
          rw [hr] at this
          exact Bool.noConfusion this
    have hk21 : r k2 k1 = false := by
      cases h2 : r k2 k1 with
      | false => rfl
      | true =>
        have := hc.symm k2 k1 h2
        rw [hr] at this
        exact Bool.noConfusion this
    rcases hcase2 with ⟨d1, S3, hS, hkd, _⟩ | ⟨_, hinv2, hlen, hkn, hvn, _, hB2⟩
    · have hdd : d = d1 := (List.cons.inj hS).1
      subst hdd
      rw [hEd, hak2] at hkd
      exact absurd (Except.ok.inj hkd) (by decide)
    · have hget2 := Get_at_gen hinv2 hd2 k2 rfl hB2 hR2
      rw [← hg2] at hB2 hR2
      have hget1 := Get_at_gen hinv2 hd2 k1 rfl hB2 hR2
      refine ⟨hlen, ?_, ?_, fun hH => ?_⟩
      · rw [hget2]
        simp only [List.head?_cons]
        rw [hE k2 hkn, hvn]
        rfl
      · rw [hget1]
        simp only [List.head?_cons]
        rw [hE k1 hkn, hk21]
        rfl
      · obtain ⟨A3, S3, hns3, hB3, hR3, hcase3⟩ :=
          Del_gen hinv2 hH k1 (gOf lt s2.mem k1) (hinv2.decides hd2 k1)
        obtain ⟨_, hS⟩ := split_unique hinv2.ht_bounds rfl hns3 hB2 hR2 hB3 hR3
        subst hS
        rcases hcase3 with ⟨d3, f, hd3, hf, _⟩ | ⟨d3, S4, s3, hS4, hk3, _⟩ | ⟨_, hdel⟩
        · simp only [List.head?_cons, Option.some.injEq] at hd3
          subst hd3
          rw [hE k1 hkn] at hf
          exact Except.noConfusion hf
        · have hdd : s1.mem.length = d3 := (List.cons.inj hS4).1
          subst hdd
          rw [hE k1 hkn, hk21] at hk3
          exact absurd (Except.ok.inj hk3) (by decide)
        · exact hdel

theorem C6_witness :
    StrictWeak mixLt ∧ Comparable (Nat × F64) mixEq ∧
      mixLt (1, F64.nan) (1, F64.nan) = false ∧ mixList.run [] = Except.ok mixList ∧
      ∃ s1 s2, mixList.Set (some (1, F64.nan)) (some 10) (fun _ => false)
          = Except.ok (none, s1) ∧
        s1.Set (some (1, F64.nan)) (some 11) (fun _ => false) = Except.ok (none, s2) ∧
        (mixEq (1, F64.nan) (1, F64.nan) = true →
          s2.Len = s1.Len ∧ s2.Get (some (1, F64.nan)) = Except.ok (some 11, none)) ∧
        (mixEq (1, F64.nan) (1, F64.nan) = false →
          s2.Len = s1.Len + 1 ∧
          s2.Get (some (1, F64.nan)) = Except.ok
            (if mixEq (1, F64.nan) (1, F64.nan) then (some 11, none)
              else (none, some Error.ErrNotFound)) ∧
          s2.Get (some (1, F64.nan)) = Except.ok (none, some Error.ErrNotFound) ∧
          (ht s2.mem s2.head ≤ 32 →
            s2.Del (some (1, F64.nan)) = Except.ok (some Error.ErrNotFound, s2))) :=
  ⟨mixLt_strictWeak, mixEq_comparable, rfl, rfl,
    C6_equal_keys_match_by_eq mixLt mixLt_strictWeak mixEq mixEq_comparable (lessOf mixLt)
      (fun _ _ => rfl) [] mixList rfl (1, F64.nan) (1, F64.nan) rfl rfl (some 10) (some 11)
      (fun _ => false) (fun _ => false)⟩

end Claims3

end SimpleDB


namespace SimpleDB

/-! ## Skip lists whose comparator looks at a view of the keys -/

section Views

variable {K V X : Type}

/-- The keys in the heap after `Set(k, v)`: `k` and the keys that were there. -/
theorem Set_keys [DecidableEq K] {s s1 : skipList K V} {ns : List Nat} (hinv : Inv s ns)
    (k : K) (v : Option V) (coins : Nat → Bool) (g : Nat → Bool)
    (hg : ∀ x ∈ ns, s.less (keyAt s.mem x) (some k) = Except.ok (g x)) {e : Option Error}
    (h : s.Set (some k) v coins = Except.ok (e, s1)) :
    ∀ x a, keyAt s1.mem x = some a → a = k ∨ keyAt s.mem x = some a := by
  obtain ⟨A, S, s2, _, _, _, hset, _, _, hcase⟩ := Set_spec hinv k v coins g hg
  rw [hset] at h
  have hs : s2 = s1 := (Prod.mk.inj (Except.ok.inj h)).2
  subst hs
  intro x a hx
  rcases hcase with ⟨d, S2, _, _, _, _, hsl, _, _⟩ | ⟨_, _, _, hlen, hold, hkn, _⟩
  · right; rw [← (hsl.2 x).2.1]; exact hx
  · by_cases h1 : x < s.mem.length
    · right; rw [← (hold x h1).1]; exact hx
    · by_cases h2 : x = s.mem.length
      · left; rw [h2, hkn] at hx; exact (Option.some.inj hx).symm
      · exfalso
        have : s2.mem[x]? = none := List.getElem?_eq_none (by omega)
        simp [keyAt, this] at hx

/-- A completed `Del` leaves the keys of the cells as they were. -/
theorem Del_keys [DecidableEq K] {s s1 : skipList K V} {ns : List Nat} (hinv : Inv s ns)
    (k : K) (g : Nat → Bool)
    (hg : ∀ x ∈ ns, s.less (keyAt s.mem x) (some k) = Except.ok (g x)) {e : Option Error}
    (h : s.Del (some k) = Except.ok (e, s1)) :
    (∀ x, keyAt s1.mem x = keyAt s.mem x) ∧ ht s.mem s.head ≤ 32 := by
  by_cases hH : ht s.mem s.head ≤ 32
  · refine ⟨?_, hH⟩
    obtain ⟨A, S, _, _, _, hcase⟩ := Del_spec hinv hH k g hg
    rcases hcase with ⟨d, S2, s2, _, _, hdel, _, _, _, _, _, hk1, _⟩ | ⟨_, hdel⟩
    · rw [hdel] at h
      have hs : s2 = s1 := (Prod.mk.inj (Except.ok.inj h)).2
      subst hs
      exact hk1
    · rw [hdel] at h
      have hs : s = s1 := (Prod.mk.inj (Except.ok.inj h)).2
      subst hs
      exact fun _ => rfl
  · exfalso
    have h33 : ht s.mem s.head = 33 := by have := hinv.head_le; omega
    rw [Del_fault hinv h33 k] at h
    exact Except.noConfusion h

theorem liftLt_strictWeak {vw : K → Option X} {ltX : X → X → Bool}
    (hsw : StrictWeak ltX) : StrictWeak (liftLt vw ltX) := by
  refine ⟨fun a => ?_, fun a b c => ?_, fun a b c => ?_⟩
  · unfold liftLt
    cases vw a with
    | none => rfl
    | some x => exact hsw.irrefl x
  · unfold liftLt
    cases vw a <;> cases vw b <;> cases vw c <;> simp
    exact hsw.trans _ _ _
  · unfold liftLt
    cases vw a <;> cases vw b <;> cases vw c <;> simp
    exact hsw.negTrans _ _ _

theorem SInv.dom {vw : K → Option X} {ltX : X → X → Bool} {s : skipList K V}
    {l : List (K × Option V)} (h : SInv vw ltX s l) :
    ∀ e ∈ l, (vw e.1).isSome = true := by
  intro e he
  obtain ⟨ns, _, hv⟩ := h.rep
  have hm : emb e ∈ view s.mem ns := by rw [hv]; exact List.mem_map.mpr ⟨e, he, rfl⟩
  obtain ⟨x, _, hx⟩ := List.mem_map.mp hm
  exact h.heap x e.1 (congrArg Prod.fst hx)

theorem SInv.cmpk {vw : K → Option X} {ltX : X → X → Bool} {s : skipList K V}
    {l : List (K × Option V)} (h : SInv vw ltX s l) {k : K}
    (hk : (vw k).isSome = true) :
    ∀ e ∈ l, s.less (some e.1) (some k) = Except.ok (liftLt vw ltX e.1 k) :=
  fun e he => h.cmp e.1 k (h.dom e he) hk

/-- `Set` with a key that has a view. -/
theorem SInv.set [DecidableEq K] {vw : K → Option X} {ltX : X → X → Bool}
    (hsw : StrictWeak ltX) {s : skipList K V} {l : List (K × Option V)}
    (h : SInv vw ltX s l) {k : K} (hk : (vw k).isSome = true) (v : Option V)
    (coins : Nat → Bool) :
    ∃ s1, s.Set (some k) v coins = Except.ok (none, s1) ∧
      SInv vw ltX s1 (setA (liftLt vw ltX) k v l) := by
  have hsw1 := @liftLt_strictWeak K X vw ltX hsw
  obtain ⟨s1, hset, hrep1, hless, _⟩ :=
    Set_refines_on hsw1 h.rep h.sorted k (h.cmpk hk) v coins
  refine ⟨s1, hset, hrep1, setA_sortedA hsw1 k v l h.sorted, ?_, ?_⟩
  · obtain ⟨ns, hinv, hv⟩ := h.rep
    intro x a hx
    rcases Set_keys hinv k v coins _ (cmp_of_view hv (h.cmpk hk)) hset x a hx with h1 | h1
    · rw [h1]; exact hk
    · exact h.heap x a h1
  · intro a b ha hb
    rw [hless]; exact h.cmp a b ha hb

/-- A completed `Del` with a key that has a view. -/
theorem SInv.del [DecidableEq K] {vw : K → Option X} {ltX : X → X → Bool}
    (hsw : StrictWeak ltX) {s s1 : skipList K V} {l : List (K × Option V)}
    (h : SInv vw ltX s l) {k : K} (hk : (vw k).isSome = true) {e : Option Error}
    (hdel : s.Del (some k) = Except.ok (e, s1)) :
    SInv vw ltX s1 (delA (liftLt vw ltX) k l) := by
  have hsw1 := @liftLt_strictWeak K X vw ltX hsw
  obtain ⟨ns, hinv, hv⟩ := h.rep
  obtain ⟨hkeys, hH⟩ := Del_keys hinv k _ (cmp_of_view hv (h.cmpk hk)) hdel
  obtain ⟨s2, hdel2, hrep2, hless, _⟩ :=
    Del_refines_on hsw1 h.rep h.sorted hH k (h.cmpk hk)
  rw [hdel2] at hdel
  have hs : s2 = s1 := (Prod.mk.inj (Except.ok.inj hdel)).2
  subst hs
  refine ⟨hrep2, delA_sortedA k h.sorted, ?_, ?_⟩
  · intro x a hx
    rw [hkeys] at hx
    exact h.heap x a hx
  · intro a b ha hb
    rw [hless]; exact h.cmp a b ha hb

/-- A completed `Del` with a key that no cell of the heap holds changes
nothing. -/
theorem Del_foreign [DecidableEq K] {s s1 : skipList K V} {Q : K → Prop}
    (hheap : HeapKeys Q s.mem) {k : K} (hk : ¬ Q k) {e : Option Error}
    (hdel : s.Del (some k) = Except.ok (e, s1)) : s1 = s := by
  unfold skipList.Del at hdel
  simp only [bind, Except.bind, pure, Except.pure] at hdel
  split at hdel
  · exact Except.noConfusion hdel
  · split at hdel
    · exact Except.noConfusion hdel
    · split at hdel
      · exact Except.noConfusion hdel
      · split at hdel
        · exact Except.noConfusion hdel
        · split at hdel
          · exact ((Prod.mk.inj (Except.ok.inj hdel)).2).symm
          · exact ((Prod.mk.inj (Except.ok.inj hdel)).2).symm
          · rename_i d _ _
            split at hdel
            · exact Except.noConfusion hdel
            · rename_i dn hdn
              split at hdel
              · exact Except.noConfusion hdel
              · rename_i same hsame
                split at hdel
                · rename_i hkey
                  exfalso
                  apply hk
                  apply hheap d k
                  unfold deref at hdn
                  cases hm : s.mem[d]? with
                  | none => rw [hm] at hdn; exact Except.noConfusion hdn
                  | some n =>
                    rw [hm] at hdn
                    have : n = dn := Except.ok.inj hdn
                    rw [keyAt_of_get hm, this]
                    exact ifaceEq_true_iff.mp (by rw [hsame, hkey])
                · exact ((Prod.mk.inj (Except.ok.inj hdel)).2).symm

theorem Front.keep [DecidableEq K] {lt : K → K → Bool} {k old : K} {v : V}
    {l : List (K × V)} (hf : Front lt k v l) (hne : old ≠ k) :
    Front lt k v (delA lt old l) := by
  obtain ⟨lA, r, hl, hlA⟩ := hf
  subst hl
  induction lA with
  | nil =>
    rw [List.nil_append, delA]
    by_cases h1 : lt k old = true
    · rw [if_pos h1]; exact ⟨[], _, rfl, by simp⟩
    · rw [if_neg h1, if_neg (fun h => hne h.symm)]; exact ⟨[], r, rfl, by simp⟩
  | cons e lA ih =>
    rw [List.cons_append, delA]
    have hlA1 : ∀ x ∈ lA, lt x.1 k = true := fun x hx => hlA x (by simp [hx])
    by_cases h1 : lt e.1 old = true
    · rw [if_pos h1]
      obtain ⟨lB, r1, h2, h3⟩ := ih hlA1
      refine ⟨e :: lB, r1, by rw [h2]; rfl, ?_⟩
      intro x hx
      rcases List.mem_cons.mp hx with h4 | h4
      · rw [h4]; exact hlA e (by simp)
      · exact h3 x h4
    · rw [if_neg h1]
      by_cases h2 : e.1 = old
      · rw [if_pos h2]; exact ⟨lA, r, rfl, hlA1⟩
      · rw [if_neg h2]; exact ⟨e :: lA, r, rfl, hlA⟩

theorem Front.getA [DecidableEq K] {lt : K → K → Bool} (hirr : ∀ a, lt a a = false)
    {k : K} {v : V} {l : List (K × V)} (hf : Front lt k v l) :
    getA lt k l = some v := by
  obtain ⟨lA, r, hl, hlA⟩ := hf
  rw [hl, getA_split lt k lA _ hlA, getA_stop lt k (k, v) r (hirr k), if_pos rfl]

/-- `Get` for a key that stands in front of its equals. -/
theorem SInv.get_front [DecidableEq K] {vw : K → Option X} {ltX : X → X → Bool}
    (hsw : StrictWeak ltX) {s : skipList K V} {l : List (K × Option V)}
    (h : SInv vw ltX s l) {k : K} (hk : (vw k).isSome = true) {v : Option V}
    (hf : Front (liftLt vw ltX) k v l) :
    s.Get (some k) = Except.ok (v, none) := by
  have hsw1 := @liftLt_strictWeak K X vw ltX hsw
  rw [Get_refines_on hsw1 h.rep h.sorted k (h.cmpk hk), hf.getA hsw1.irrefl]
  rfl

end Views

end SimpleDB


namespace SimpleDB

/-! ## The stores and their orders -/

section Stores

variable {C V : Type}

theorem stringLt_strictWeak : StrictWeak stringLt := by
  refine ⟨fun a => ?_, fun a b c => ?_, fun a b c => ?_⟩
  · simp [stringLt]
  · simp only [stringLt, ite_eq_left_iff, Bool.false_eq_true, imp_false, not_not]
    exact lt_trans
  · simp only [stringLt, ite_eq_right_iff, Bool.true_eq_false, imp_false, not_lt]
    intro h1 h2
    exact le_trans h2 h1

theorem sumLt_strictWeak {lt0 : C → C → Bool} (hsw : StrictWeak lt0) :
    StrictWeak (sumLt lt0) := by
  refine ⟨fun a => ?_, fun a b c => ?_, fun a b c => ?_⟩
  · cases a with
    | inl x => exact stringLt_strictWeak.irrefl x
    | inr x => exact hsw.irrefl x
  · cases a <;> cases b <;> cases c <;> simp [sumLt]
    · exact stringLt_strictWeak.trans _ _ _
    · exact hsw.trans _ _ _
  · cases a <;> cases b <;> cases c <;> simp [sumLt]
    · exact stringLt_strictWeak.negTrans _ _ _
    · exact hsw.negTrans _ _ _

theorem NewSkipList_keyAt (less : Option (KeyVal C) → Option (KeyVal C) → Except Fault Bool)
    (x : Nat) : keyAt (NewSkipList less : skipList (KeyVal C) V).mem x = none := by
  cases x with
  | zero => rfl
  | succ n => rfl

theorem NewSkipList_sinv {X : Type} (vw : KeyVal C → Option X) (ltX : X → X → Bool)
    (less : Option (KeyVal C) → Option (KeyVal C) → Except Fault Bool)
    (hless : ∀ a b, (vw a).isSome = true → (vw b).isSome = true →
      less (some a) (some b) = Except.ok (liftLt vw ltX a b)) :
    SInv vw ltX (NewSkipList less : skipList (KeyVal C) V) [] := by
  refine ⟨NewSkipList_rep less, by simp [SortedA], ?_, hless⟩
  intro x a hx
  rw [NewSkipList_keyAt] at hx
  exact Option.noConfusion hx

theorem stringLess_cmp (lt0 : C → C → Bool) (a b : KeyVal C)
    (ha : (storeView keyType.String false a).isSome = true)
    (hb : (storeView keyType.String false b).isSome = true) :
    stringLess (some a) (some b)
      = Except.ok (liftLt (storeView keyType.String false) (sumLt lt0) a b) := by
  cases a <;> simp [storeView] at ha
  cases b <;> simp [storeView] at hb
  simp [stringLess, liftLt, storeView, sumLt, pure, Except.pure]

theorem stringExpireLess_cmp (lt0 : C → C → Bool) (a b : KeyVal C)
    (ha : (storeView keyType.String true a).isSome = true)
    (hb : (storeView keyType.String true b).isSome = true) :
    stringExpireLess (some a) (some b)
      = Except.ok (liftLt (storeView keyType.String true) (sumLt lt0) a b) := by
  cases a <;> simp [storeView] at ha
  cases b <;> simp [storeView] at hb
  simp [stringExpireLess, liftLt, storeView, sumLt, pure, Except.pure]

theorem customLess_cmp (lt0 : C → C → Bool)
    (less : Option (KeyVal C) → Option (KeyVal C) → Except Fault Bool)
    (hless : ∀ a b, less (some (KeyVal.custom a)) (some (KeyVal.custom b))
      = Except.ok (lt0 a b)) (a b : KeyVal C)
    (ha : (storeView keyType.Custom false a).isSome = true)
    (hb : (storeView keyType.Custom false b).isSome = true) :
    less (some a) (some b)
      = Except.ok (liftLt (storeView keyType.Custom false) (sumLt lt0) a b) := by
  cases a <;> simp [storeView, keyType.Custom, keyType.String] at ha
  cases b <;> simp [storeView, keyType.Custom, keyType.String] at hb
  simp [liftLt, storeView, sumLt, keyType.Custom, keyType.String, hless]

theorem customExpireLess_cmp (lt0 : C → C → Bool)
    (less : Option (KeyVal C) → Option (KeyVal C) → Except Fault Bool)
    (hless : ∀ a b, less (some (KeyVal.custom a)) (some (KeyVal.custom b))
      = Except.ok (lt0 a b)) (a b : KeyVal C)
    (ha : (storeView keyType.Custom true a).isSome = true)
    (hb : (storeView keyType.Custom true b).isSome = true) :
    customExpireLess less (some a) (some b)
      = Except.ok (liftLt (storeView keyType.Custom true) (sumLt lt0) a b) := by
  cases a <;> simp [storeView, keyType.Custom, keyType.String] at ha
  rename_i ka
  cases ka <;> simp at ha
  cases b <;> simp [storeView, keyType.Custom, keyType.String] at hb
  rename_i kb
  cases kb <;> simp at hb
  simp [customExpireLess, KeyVal.toIface, liftLt, storeView, sumLt, keyType.Custom,
    keyType.String, hless]

/-- The store `NewByDB` returns satisfies the invariant. -/
theorem NewByDB_inv (lt0 : C → C → Bool) (opts : List DBOption) :
    DBInv lt0 (NewByDB opts : ByDB C V) := by
  simp only [NewByDB]
  generalize opts.foldl (fun c opt => opt c) { withExpired := false } = conf
  cases hc : conf.withExpired
  · refine ⟨rfl, Or.inl rfl, fun _ => ⟨rfl, hc⟩, ⟨[], ?_⟩, fun n => Or.inl ?_⟩
    · simp only [ByDB.withExpired, hc]
      exact NewSkipList_sinv _ _ _ (stringLess_cmp lt0)
    · simp [mapGet]
  · refine ⟨rfl, Or.inl rfl, fun h => ?_, ⟨[], ?_⟩, fun n => Or.inl ?_⟩
    · simp at h
    · simp only [ByDB.withExpired, hc]
      exact NewSkipList_sinv _ _ _ (stringExpireLess_cmp lt0)
    · simp [mapGet]

/-- The store `NewCustomByDB` returns satisfies the invariant, when the
comparator of the caller decides `lt0` on the values of the key type. -/
theorem NewCustomByDB_inv (lt0 : C → C → Bool)
    (less : Option (KeyVal C) → Option (KeyVal C) → Except Fault Bool)
    (hless : ∀ a b, less (some (KeyVal.custom a)) (some (KeyVal.custom b))
      = Except.ok (lt0 a b)) (opts : List DBOption) :
    DBInv lt0 (NewCustomByDB less opts : ByDB C V) := by
  simp only [NewCustomByDB]
  generalize opts.foldl (fun c opt => opt c) { withExpired := false } = conf
  cases hc : conf.withExpired
  · refine ⟨rfl, Or.inr rfl, fun h => ?_, ⟨[], ?_⟩, fun n => Or.inl rfl⟩
    · simp at h
    · simp only [ByDB.withExpired, hc]
      exact NewSkipList_sinv _ _ _ (customLess_cmp lt0 less hless)
  · refine ⟨rfl, Or.inr rfl, fun h => ?_, ⟨[], ?_⟩, fun n => Or.inl rfl⟩
    · simp at h
    · simp only [ByDB.withExpired, hc]
      exact NewSkipList_sinv _ _ _ (customExpireLess_cmp lt0 less hless)

end Stores

end SimpleDB


namespace SimpleDB

/-! ## `Save` on a store that satisfies the invariant -/

section Save

variable {C V : Type}

theorem toIface_of_view {typ : keyType} {exp : Bool} {k : KeyVal C}
    (h : (storeView typ exp k).isSome = true) :
    k.toIface = some k ∧ k ≠ KeyVal.nilKey := by
  cases k <;> simp [storeView] at h <;> exact ⟨rfl, fun hc => KeyVal.noConfusion hc⟩

theorem mapGet_update (f : String → KeyVal C) (name n : String) (v : KeyVal C) :
    mapGet (some (Function.update f name v)) n = if n = name then v else mapGet (some f) n := by
  simp only [mapGet, Function.update_apply]

theorem toIface_inj {C : Type} {a b : KeyVal C} (h : a.toIface = b.toIface) : a = b := by
  cases a <;> cases b <;> simp [KeyVal.toIface] at h ⊢ <;> exact h

/-- On keys with decidable equality the test of `Save` is that of the identity
of values. -/
theorem keyDiffers_lawful {C : Type} [DecidableEq C] (old custom : KeyVal C) :
    keyDiffers old custom
      = Except.ok (decide (old ≠ KeyVal.nilKey ∧ old ≠ custom)) := by
  unfold keyDiffers
  by_cases h : old = KeyVal.nilKey
  · rw [if_pos h, decide_eq_false (fun hc => hc.1 h)]; rfl
  · rw [if_neg h, ifaceEq_lawful, ok_bind]
    by_cases h1 : old = custom
    · rw [decide_eq_true (by rw [h1]), decide_eq_false (fun hc => hc.2 h1)]; rfl
    · rw [decide_eq_false (fun hc => h1 (toIface_inj hc)), decide_eq_true ⟨h, h1⟩]; rfl

/-- The call of `Set` and the update of the index in `Save`, for a key that has
a view: the entry is stored in front of its equals, the invariant is kept, and
the index maps the name of the key to the key. -/
theorem saveEntry_spec [DecidableEq C] [CustomKey C] {lt0 : C → C → Bool}
    (hsw : StrictWeak lt0) {d d1 : ByDB C V} (hinv : DBInv lt0 d) {key1 custom : KeyVal C}
    (hdom : (storeView d.typ d.withExpired key1).isSome = true)
    (hcus : custom = KeyVal.nilKey ∨ (custom = key1 ∧ d.keys ≠ none))
    {v : Option V} {coins : Nat → Bool} {e : Option Error}
    (h : d.saveEntry key1 custom v coins = Except.ok (e, d1)) :
    e = none ∧ DBInv lt0 d1 ∧ d1.typ = d.typ ∧ d1.conf = d.conf ∧
      (∃ l1, SInv (storeView d.typ d.withExpired) (sumLt lt0) d1.data l1 ∧
        Front (liftLt (storeView d.typ d.withExpired) (sumLt lt0)) key1 v l1) ∧
      (custom = key1 → ∃ name, custom.Key = Except.ok name ∧
        mapGet d1.keys name = key1) := by
  have hsw1 := sumLt_strictWeak hsw
  obtain ⟨l, hs⟩ := hinv.store
  obtain ⟨s1, hset, hs1⟩ := hs.set hsw1 hdom v coins
  obtain ⟨hto, hne⟩ := toIface_of_view hdom
  have hfront : Front (liftLt (storeView d.typ d.withExpired) (sumLt lt0)) key1 v
      (setA (liftLt (storeView d.typ d.withExpired) (sumLt lt0)) key1 v l) :=
    setA_decomp _ key1 v l
  unfold ByDB.saveEntry at h
  rw [hto, hset, ok_bind] at h
  rcases hcus with hc | ⟨hc, hkeys⟩
  · subst hc
    simp only [if_true] at h
    obtain ⟨h1, h2⟩ := Prod.mk.inj (Except.ok.inj h)
    subst h2
    refine ⟨h1.symm, ⟨hinv.init, hinv.typ, hinv.keys, ⟨_, hs1⟩, hinv.index⟩, rfl, rfl,
      ⟨_, hs1, hfront⟩, fun hk => absurd hk.symm hne⟩
  · subst hc
    simp only [if_neg hne] at h
    cases hn : custom.Key with
    | error f => rw [hn] at h; exact Except.noConfusion h
    | ok name =>
      rw [← hn]
      rw [hn, ok_bind] at h
      cases hk : d.keys with
      | none => exact absurd hk hkeys
      | some f =>
        have hfin : ∀ (data2 : skipList (KeyVal C) V) (l2 : List (KeyVal C × Option V)),
            SInv (storeView d.typ d.withExpired) (sumLt lt0) data2 l2 →
            Front (liftLt (storeView d.typ d.withExpired) (sumLt lt0)) custom v l2 →
            (Except.ok (none, ByDB.mk d.typ d.hasInit (some (Function.update f name custom))
                data2 d.conf) : Except Fault (Option Error × ByDB C V)) = Except.ok (e, d1) →
            e = none ∧ DBInv lt0 d1 ∧ d1.typ = d.typ ∧ d1.conf = d.conf ∧
              (∃ l1, SInv (storeView d.typ d.withExpired) (sumLt lt0) d1.data l1 ∧
                Front (liftLt (storeView d.typ d.withExpired) (sumLt lt0)) custom v l1) ∧
              (custom = custom → ∃ name, custom.Key = Except.ok name ∧
                mapGet d1.keys name = custom) := by
          intro data2 l2 hs2 hf2 h5
          obtain ⟨h1, h2⟩ := Prod.mk.inj (Except.ok.inj h5)
          subst h2
          refine ⟨h1.symm, ⟨hinv.init, hinv.typ, fun hc => Option.noConfusion hc, ⟨_, hs2⟩, ?_⟩,
            rfl, rfl, ⟨_, hs2, hf2⟩, fun _ => ⟨name, hn, ?_⟩⟩
          · intro n
            show mapGet (some (Function.update f name custom)) n = _ ∨ _
            rw [mapGet_update]
            by_cases hnn : n = name
            · rw [if_pos hnn]; exact Or.inr hdom
            · rw [if_neg hnn]
              have := hinv.index n
              rw [hk] at this
              exact this
          · show mapGet (some (Function.update f name custom)) name = custom
            rw [mapGet_update, if_pos rfl]
        rw [keyDiffers_lawful, ok_bind] at h
        by_cases hold : mapGet d.keys name ≠ KeyVal.nilKey ∧ mapGet d.keys name ≠ custom
        · rw [if_pos (decide_eq_true hold)] at h
          have hod : (storeView d.typ d.withExpired (mapGet d.keys name)).isSome = true := by
            rcases hinv.index name with h3 | h3
            · exact absurd h3 hold.1
            · exact h3
          rw [(toIface_of_view hod).1] at h
          cases hdel : s1.Del (some (mapGet d.keys name)) with
          | error f => rw [hdel] at h; exact Except.noConfusion h
          | ok r2 =>
            rw [hdel, hk] at h
            exact hfin r2.2 _ (hs1.del hsw1 hod (show _ = Except.ok (r2.1, r2.2) from hdel))
              (hfront.keep hold.2) h
        · rw [if_neg (by rw [decide_eq_false hold]; exact Bool.false_ne_true), hk] at h
          exact hfin s1 _ hs1 hfront h

end Save

end SimpleDB


namespace SimpleDB

/-! ## `Save` followed by `Get` -/

section SaveGet

variable {C V : Type}

theorem Get_stored [DecidableEq C] {lt0 : C → C → Bool} (hsw : StrictWeak lt0)
    {typ : keyType} {exp : Bool} {s : skipList (KeyVal C) V}
    {l : List (KeyVal C × Option V)} (hs : SInv (storeView typ exp) (sumLt lt0) s l)
    {w : KeyVal C} (hw : (storeView typ exp w).isSome = true) {v : Option V}
    (hf : Front (liftLt (storeView typ exp) (sumLt lt0)) w v l) :
    s.Get w.toIface = Except.ok (v, none) := by
  rw [(toIface_of_view hw).1]
  exact hs.get_front (sumLt_strictWeak hsw) hw hf

/-- `Get` with the name of a key the index holds. -/
theorem Get_name [DecidableEq C] [CustomKey C] {d : ByDB C V} (hinit : d.hasInit = true)
    (hv : ¬ (d.withExpired = false ∧ d.typ = keyType.String)) {n : String} {w : KeyVal C}
    (hw : mapGet d.keys n = w) (hne : w ≠ KeyVal.nilKey) :
    d.Get (KeyVal.str n) = d.data.Get w.toIface := by
  unfold ByDB.Get
  have h1 : (!d.withExpired && decide (d.typ = keyType.String)) = false := by
    cases he : d.withExpired <;> simp [he] at hv ⊢
    exact hv
  simp [ByDB.checkBeforeOp, hinit, h1, ByDB.getCustomKey, KeyVal.asString,
    ByDB.customKeyRLock, hw, hne, bind, Except.bind, pure, Except.pure]

/-- `Get` with a custom key, on a store with expiration, goes through the name
of the key. -/
theorem Get_custom [DecidableEq C] [CustomKey C] {d : ByDB C V} (hinit : d.hasInit = true)
    (hexp : d.withExpired = true) (c : C) {w : KeyVal C}
    (hw : mapGet d.keys (CustomKey.Key c) = w) (hne : w ≠ KeyVal.nilKey) :
    d.Get (KeyVal.custom c) = d.data.Get w.toIface := by
  unfold ByDB.Get
  simp [ByDB.checkBeforeOp, hinit, hexp, ByDB.getCustomKey, KeyVal.asString,
    KeyVal.isCustomKey, KeyVal.Key, ByDB.customKeyRLock, hw, hne, bind, Except.bind, pure,
    Except.pure]

theorem save_invalid {lt0 : C → C → Bool} {d d1 : ByDB C V} (hinv : DBInv lt0 d)
    {e : Option Error} {err : Error} {P : Prop} (h : some err = e ∧ d = d1) :
    DBInv lt0 d1 ∧ d1.typ = d.typ ∧ d1.conf = d.conf ∧ (e = none → P) := by
  obtain ⟨h1, h2⟩ := h
  subst h2
  exact ⟨hinv, rfl, rfl, fun hc => by rw [hc] at h1; exact Option.noConfusion h1⟩

theorem withExpired_congr {d d1 : ByDB C V} (h : d1.conf = d.conf) :
    d1.withExpired = d.withExpired := by
  simp [ByDB.withExpired, h]

/-- What a completed `Save` leaves, for a key that is not itself a wrapper. -/
theorem Save_spec [DecidableEq C] [CustomKey C] {lt0 : C → C → Bool} (hsw : StrictWeak lt0)
    {d d1 : ByDB C V} (hinv : DBInv lt0 d) {key : KeyVal C}
    (hplain : ∀ t x s k, key ≠ KeyVal.expireCustomKey t x s k)
    {v : Option V} {opts : List SaveOption} {now : Int} {coins : Nat → Bool}
    {e : Option Error} (h : d.Save key v opts now coins = Except.ok (e, d1)) :
    DBInv lt0 d1 ∧ d1.typ = d.typ ∧ d1.conf = d.conf ∧
      (e = none → d1.Get key = Except.ok (v, none) ∧
        ∀ n, logicalName key = some n →
          (d.typ = keyType.Custom ∨ d.withExpired = true) →
          d1.Get (KeyVal.str n) = Except.ok (v, none)) := by
  unfold ByDB.Save at h
  simp only [ByDB.checkBeforeOp, hinv.init, Bool.not_true, Bool.false_eq_true, if_false,
    ok_bind, pure_eq_ok] at h
  rcases hinv.typ with ht | ht
  · rcases Bool.eq_false_or_eq_true d.withExpired with hexp | hexp
    · -- string keys with expiration
      have hkeys : d.keys ≠ none := fun hc => by
        have := (hinv.keys hc).2
        rw [hexp] at this
        exact Bool.noConfusion this
      cases key
      all_goals simp [ByDB.isValidKey, ht, hexp, KeyVal.asString, ErrInvalidStringKey,
        WithMessage, ByDB.packWithExpire, bind, Except.bind, pure, Except.pure] at h
      all_goals first | exact save_invalid hinv h | skip
      rename_i s
      have hdom : ∀ x, (storeView d.typ d.withExpired
          (KeyVal.expireCustomKey keyType.String x s (KeyVal.nilKey : KeyVal C))).isSome
            = true := by
        intro x; simp [storeView, ht, hexp]
      obtain ⟨he, hinv1, ht1, hc1, ⟨l1, hs1, hf1⟩, hidx⟩ :=
        saveEntry_spec hsw hinv (hdom _) (Or.inr ⟨rfl, hkeys⟩) h
      obtain ⟨name, hname, hmap⟩ := hidx rfl
      have hn : name = s := by
        simp [KeyVal.Key, pure, Except.pure] at hname
        exact hname.symm
      subst hn
      have hexp1 := withExpired_congr hc1
      have hget : d1.Get (KeyVal.str name) = Except.ok (v, none) := by
        rw [Get_name hinv1.init (by rw [hexp1, hexp]; simp) hmap
          (fun hc => KeyVal.noConfusion hc)]
        exact Get_stored hsw hs1 (hdom _) hf1
      refine ⟨hinv1, ht1, hc1, fun _ => ⟨hget, fun n hn _ => ?_⟩⟩
      have : name = n := by simpa [logicalName] using hn
      rw [← this]; exact hget
    · -- string keys without expiration
      cases key
      all_goals simp [ByDB.isValidKey, ht, hexp, KeyVal.asString, ErrInvalidStringKey,
        WithMessage, ByDB.packWithExpire, bind, Except.bind, pure, Except.pure] at h
      all_goals first | exact save_invalid hinv h | skip
      rename_i s
      have hdom : (storeView d.typ d.withExpired (KeyVal.str s : KeyVal C)).isSome = true := by
        simp [storeView, ht, hexp]
      obtain ⟨he, hinv1, ht1, hc1, ⟨l1, hs1, hf1⟩, _⟩ :=
        saveEntry_spec hsw hinv hdom (Or.inl rfl) h
      have hexp1 := withExpired_congr hc1
      refine ⟨hinv1, ht1, hc1, fun _ => ⟨?_, fun n _ hc => ?_⟩⟩
      · unfold ByDB.Get
        simp only [ByDB.checkBeforeOp, hinv1.init, hexp1, hexp, ht1, ht, Bool.not_true,
          Bool.false_eq_true, if_false, ok_bind, pure_eq_ok, Bool.not_false, decide_True,
          Bool.and_self, if_true]
        exact Get_stored hsw hs1 hdom hf1
      · rw [ht, hexp] at hc
        simp [keyType.String, keyType.Custom] at hc
  · have hkeys : d.keys ≠ none := fun hc => by
      have := (hinv.keys hc).1
      rw [ht] at this
      simp [keyType.String, keyType.Custom] at this
    rcases Bool.eq_false_or_eq_true d.withExpired with hexp | hexp
    · -- custom keys with expiration
      cases key
      all_goals simp [ByDB.isValidKey, ht, hexp, KeyVal.asString, KeyVal.isCustomKey,
        KeyVal.unnamed, ErrInvalidCustomKey, ErrInvalidCustomKeyPointer,
        WithMessage, ByDB.packWithExpire, bind, Except.bind, pure, Except.pure,
        keyType.String, keyType.Custom] at h
      all_goals first | exact save_invalid hinv h | exact absurd rfl (hplain _ _ _ _) | skip
      rename_i c
      have hdom : ∀ x, (storeView d.typ d.withExpired
          (KeyVal.expireCustomKey 2 x "" (KeyVal.custom c : KeyVal C))).isSome
            = true := by
        intro x; simp [storeView, ht, hexp, keyType.String, keyType.Custom]
      obtain ⟨he, hinv1, ht1, hc1, ⟨l1, hs1, hf1⟩, hidx⟩ :=
        saveEntry_spec hsw hinv (hdom _) (Or.inr ⟨rfl, hkeys⟩) h
      obtain ⟨name, hname, hmap⟩ := hidx rfl
      have hn : name = CustomKey.Key c := by
        simp [KeyVal.Key, pure, Except.pure, keyType.String] at hname
        exact hname.symm
      subst hn
      have hexp1 := withExpired_congr hc1
      have hget : d1.Get (KeyVal.str (CustomKey.Key c)) = Except.ok (v, none) := by
        rw [Get_name hinv1.init (by rw [hexp1, hexp]; simp) hmap
          (fun hc => KeyVal.noConfusion hc)]
        exact Get_stored hsw hs1 (hdom _) hf1
      refine ⟨hinv1, ht1, hc1, fun _ => ⟨?_, fun n hn _ => ?_⟩⟩
      · rw [Get_custom hinv1.init (by rw [hexp1, hexp]) c hmap
          (fun hc => KeyVal.noConfusion hc)]
        exact Get_stored hsw hs1 (hdom _) hf1
      · have : CustomKey.Key c = n := by simpa [logicalName] using hn
        rw [← this]; exact hget
    · -- custom keys without expiration
      cases key
      all_goals simp [ByDB.isValidKey, ht, hexp, KeyVal.asString, KeyVal.isCustomKey,
        KeyVal.unnamed, ErrInvalidCustomKey, ErrInvalidCustomKeyPointer,
        WithMessage, ByDB.packWithExpire, bind, Except.bind, pure, Except.pure,
        keyType.String, keyType.Custom] at h
      all_goals first | exact save_invalid hinv h | exact absurd rfl (hplain _ _ _ _) | skip
      rename_i c
      have hdom : (storeView d.typ d.withExpired (KeyVal.custom c : KeyVal C)).isSome
          = true := by
        simp [storeView, ht, hexp, keyType.String, keyType.Custom]
      obtain ⟨he, hinv1, ht1, hc1, ⟨l1, hs1, hf1⟩, hidx⟩ :=
        saveEntry_spec hsw hinv hdom (Or.inr ⟨rfl, hkeys⟩) h
      obtain ⟨name, hname, hmap⟩ := hidx rfl
      have hn : name = CustomKey.Key c := by
        simp [KeyVal.Key, pure, Except.pure] at hname
        exact hname.symm
      subst hn
      have hexp1 := withExpired_congr hc1
      have hstored := Get_stored hsw hs1 hdom hf1
      refine ⟨hinv1, ht1, hc1, fun _ => ⟨?_, fun n hn _ => ?_⟩⟩
      · unfold ByDB.Get
        simp [ByDB.checkBeforeOp, hinv1.init, hexp1, hexp, ht1, ht, ByDB.getCustomKey,
          KeyVal.asString, KeyVal.isCustomKey, keyType.String, keyType.Custom, bind,
          Except.bind, pure, Except.pure]
        exact hstored
      · have : CustomKey.Key c = n := by simpa [logicalName] using hn
        rw [← this, Get_name hinv1.init (by rw [ht1, ht]; simp [keyType.String,
          keyType.Custom]) hmap (fun hc => KeyVal.noConfusion hc)]
        exact hstored

end SaveGet

end SimpleDB


namespace SimpleDB

/-! ## The invariant along a history of calls -/

section History

variable {C V : Type}

/-- A completed `Del` keeps the invariant of the skip list, whatever the key. -/
theorem SInv.del_some {K V X : Type} [DecidableEq K] {vw : K → Option X}
    {ltX : X → X → Bool} (hsw : StrictWeak ltX) {s s1 : skipList K V}
    {l : List (K × Option V)} (h : SInv vw ltX s l) (k : K) {e : Option Error}
    (hdel : s.Del (some k) = Except.ok (e, s1)) : ∃ l1, SInv vw ltX s1 l1 := by
  by_cases hk : (vw k).isSome = true
  · exact ⟨_, h.del hsw hk hdel⟩
  · have := Del_foreign h.heap hk hdel
    rw [this]; exact ⟨l, h⟩

theorem SInv.del_any [DecidableEq C] {X : Type} {vw : KeyVal C → Option X}
    {ltX : X → X → Bool} (hsw : StrictWeak ltX) {s s1 : skipList (KeyVal C) V}
    {l : List (KeyVal C × Option V)} (h : SInv vw ltX s l) (k : KeyVal C)
    {e : Option Error} (hdel : s.Del k.toIface = Except.ok (e, s1)) :
    ∃ l1, SInv vw ltX s1 l1 := by
  cases k
  case nilKey =>
    have h1 : s1 = s := ((Prod.mk.inj (Except.ok.inj hdel)).2).symm
    rw [h1]; exact ⟨l, h⟩
  all_goals exact h.del_some hsw _ hdel

theorem DBInv.with_data {lt0 : C → C → Bool} {d : ByDB C V} (hinv : DBInv lt0 d)
    {s1 : skipList (KeyVal C) V}
    (hs : ∃ l1, SInv (storeView d.typ d.withExpired) (sumLt lt0) s1 l1) :
    DBInv lt0 { d with data := s1 } :=
  ⟨hinv.init, hinv.typ, hinv.keys, hs, hinv.index⟩

theorem DBInv.with_delete {lt0 : C → C → Bool} {d : ByDB C V} (hinv : DBInv lt0 d)
    (name : String) : DBInv lt0 { d with keys := mapDelete d.keys name } := by
  refine ⟨hinv.init, hinv.typ, fun h => hinv.keys ?_, hinv.store, fun n => ?_⟩
  · cases hk : d.keys with
    | none => rfl
    | some f =>
      have h1 : mapDelete d.keys name = none := h
      rw [hk] at h1
      exact Option.noConfusion h1
  · show mapGet (mapDelete d.keys name) n = _ ∨
      (storeView d.typ d.withExpired (mapGet (mapDelete d.keys name) n)).isSome = true
    cases hk : d.keys with
    | none => exact Or.inl rfl
    | some f =>
      have := hinv.index n
      rw [hk] at this
      simp only [mapDelete, mapGet, Function.update_apply] at this ⊢
      by_cases hn : n = name
      · rw [if_pos hn]; exact Or.inl rfl
      · rw [if_neg hn]; exact this

theorem checkBeforeOp_ok {d : ByDB C V} (h : d.hasInit = true) :
    d.checkBeforeOp = Except.ok () := by
  simp [ByDB.checkBeforeOp, h, pure, Except.pure]

/-- A completed `Delete` keeps the invariant. -/
theorem Delete_inv [DecidableEq C] [CustomKey C] {lt0 : C → C → Bool} (hsw : StrictWeak lt0)
    {d d1 : ByDB C V} (hinv : DBInv lt0 d) (key : KeyVal C) {e : Option Error}
    (h : d.Delete key = Except.ok (e, d1)) : DBInv lt0 d1 := by
  have hsw1 := sumLt_strictWeak hsw
  obtain ⟨l, hs⟩ := hinv.store
  unfold ByDB.Delete at h
  rw [checkBeforeOp_ok hinv.init, ok_bind] at h
  split at h
  · cases hdel : d.data.Del key.toIface with
    | error f => rw [hdel] at h; exact Except.noConfusion h
    | ok r =>
      rw [hdel, ok_bind] at h
      have h1 := (Prod.mk.inj (Except.ok.inj h)).2
      rw [← h1]
      exact hinv.with_data (hs.del_any hsw1 key (show _ = Except.ok (r.1, r.2) from hdel))
  · cases hg : d.getCustomKey key true with
    | error f => rw [hg] at h; exact Except.noConfusion h
    | ok r =>
      rw [hg, ok_bind] at h
      obtain ⟨custom, oe⟩ := r
      cases oe with
      | some err =>
        have h1 := (Prod.mk.inj (Except.ok.inj h)).2
        rw [← h1]; exact hinv
      | none =>
        simp only at h
        cases hdel : d.data.Del custom.toIface with
        | error f => rw [hdel] at h; exact Except.noConfusion h
        | ok r1 =>
          rw [hdel, ok_bind] at h
          have hinv1 : DBInv lt0 { d with data := r1.2 } :=
            hinv.with_data (hs.del_any hsw1 custom (show _ = Except.ok (r1.1, r1.2) from hdel))
          cases he1 : r1.1 with
          | some err =>
            simp only [he1] at h
            have h1 := (Prod.mk.inj (Except.ok.inj h)).2
            rw [← h1]; exact hinv1
          | none =>
            simp only [he1] at h
            cases hg2 : ByDB.getCustomKey { d with data := r1.2 } key false with
            | error f => rw [hg2] at h; exact Except.noConfusion h
            | ok r2 =>
              rw [hg2, ok_bind] at h
              obtain ⟨custom1, oe1⟩ := r2
              cases oe1 with
              | some err =>
                have h1 := (Prod.mk.inj (Except.ok.inj h)).2
                rw [← h1]; exact hinv1
              | none =>
                simp only at h
                cases hn : custom1.Key with
                | error f => rw [hn] at h; exact Except.noConfusion h
                | ok name =>
                  rw [hn, ok_bind] at h
                  have h1 := (Prod.mk.inj (Except.ok.inj h)).2
                  rw [← h1]; exact hinv1.with_delete name

/-- A completed loop of `background` keeps the invariant. -/
theorem backgroundLoop_inv [DecidableEq C] [CustomKey C] {lt0 : C → C → Bool}
    (hsw : StrictWeak lt0) (now : Int) :
    ∀ (fuel : Nat) (d d1 : ByDB C V) (it : iterator (KeyVal C) V), DBInv lt0 d →
      backgroundLoop now fuel d it = Except.ok d1 → DBInv lt0 d1 := by
  have hsw1 := sumLt_strictWeak hsw
  intro fuel
  induction fuel with
  | zero => intro d d1 it _ h; exact Except.noConfusion h
  | succ n ih =>
    intro d d1 it hinv h
    obtain ⟨l, hs⟩ := hinv.store
    unfold backgroundLoop at h
    cases hh : it.HasNext d.data.mem with
    | error f => rw [hh] at h; exact Except.noConfusion h
    | ok r =>
      rw [hh, ok_bind] at h
      obtain ⟨b, it1⟩ := r
      cases b with
      | false =>
        have h1 : d = d1 := Except.ok.inj h
        rw [← h1]; exact hinv
      | true =>
        simp only [if_true] at h
        split at h
        · rename_i typ expireTime strKey key hkey
          split at h
          · rw [hkey] at h
            cases hdel : d.data.Del (some (KeyVal.expireCustomKey typ expireTime strKey key)) with
            | error f => rw [hdel] at h; exact Except.noConfusion h
            | ok r1 =>
              rw [hdel, ok_bind] at h
              have hinv1 : DBInv lt0 { d with data := r1.2 } :=
                hinv.with_data (hs.del_some hsw1 _ (show _ = Except.ok (r1.1, r1.2) from hdel))
              cases he1 : r1.1 with
              | some err =>
                simp only [he1] at h
                exact ih _ _ _ hinv1 h
              | none =>
                simp only [he1] at h
                cases hn : (KeyVal.expireCustomKey typ expireTime strKey key).Key with
                | error f => rw [hn] at h; exact Except.noConfusion h
                | ok name =>
                  rw [hn, ok_bind] at h
                  exact ih _ _ _ (hinv1.with_delete name) h
          · exact ih _ _ _ hinv h
        · exact ih _ _ _ hinv h

/-- A completed tick of `background` keeps the invariant. -/
theorem background_inv [DecidableEq C] [CustomKey C] {lt0 : C → C → Bool}
    (hsw : StrictWeak lt0) {d d1 : ByDB C V} (hinv : DBInv lt0 d) (now : Int)
    (h : d.background now = Except.ok d1) : DBInv lt0 d1 := by
  unfold ByDB.background ByDB.Iterator at h
  rw [checkBeforeOp_ok hinv.init] at h
  exact backgroundLoop_inv hsw now _ _ _ _ hinv h

/-- A completed call keeps the invariant. -/
theorem dbStep_inv [DecidableEq C] [CustomKey C] {lt0 : C → C → Bool}
    (hsw : StrictWeak lt0) {d d1 : ByDB C V} (hinv : DBInv lt0 d) (op : DBOp C V)
    (hop : op.plain) (h : d.step op = Except.ok d1) : DBInv lt0 d1 := by
  cases op with
  | save key value opts now coins =>
    simp only [ByDB.step] at h
    cases hsave : d.Save key value opts now coins with
    | error f => rw [hsave] at h; exact Except.noConfusion h
    | ok r =>
      rw [hsave, ok_bind] at h
      have h1 : r.2 = d1 := Except.ok.inj h
      rw [← h1]
      refine (Save_spec hsw hinv ?_ (show _ = Except.ok (r.1, r.2) from hsave)).1
      intro t x s k hc
      rw [hc] at hop
      exact hop
  | delete key =>
    simp only [ByDB.step] at h
    cases hdel : d.Delete key with
    | error f => rw [hdel] at h; exact Except.noConfusion h
    | ok r =>
      rw [hdel, ok_bind] at h
      have h1 : r.2 = d1 := Except.ok.inj h
      rw [← h1]
      exact Delete_inv hsw hinv key (show _ = Except.ok (r.1, r.2) from hdel)
  | tick now =>
    simp only [ByDB.step] at h
    split at h
    · exact background_inv hsw hinv now h
    · have h1 : d = d1 := Except.ok.inj h
      rw [← h1]; exact hinv

/-- A completed history of calls keeps the invariant. -/
theorem dbRun_inv [DecidableEq C] [CustomKey C] {lt0 : C → C → Bool}
    (hsw : StrictWeak lt0) (ops : List (DBOp C V)) :
    ∀ (d d1 : ByDB C V), DBInv lt0 d → (∀ op ∈ ops, op.plain) →
      d.run ops = Except.ok d1 → DBInv lt0 d1 := by
  induction ops with
  | nil =>
    intro d d1 hinv _ h
    have h1 : d = d1 := Except.ok.inj h
    rw [← h1]; exact hinv
  | cons op ops ih =>
    intro d d1 hinv hops h
    simp only [ByDB.run] at h
    cases hstep : d.step op with
    | error f => rw [hstep] at h; exact Except.noConfusion h
    | ok d2 =>
      rw [hstep, ok_bind] at h
      exact ih d2 d1 (dbStep_inv hsw hinv op (hops op (by simp)) hstep)
        (fun o ho => hops o (by simp [ho])) h

end History

end SimpleDB


namespace SimpleDB

/-! ## Claims on the database layer -/

section DBClaims

variable {C V : Type}

theorem customLt_strictWeak : StrictWeak customLt := by
  refine ⟨fun a => ?_, fun a b c => ?_, fun a b c => ?_⟩
  · simp [customLt]
  · simp only [customLt, decide_eq_true_eq]
    exact lt_trans
  · simp only [customLt, decide_eq_false_iff_not, not_lt]
    intro h1 h2
    exact le_trans h2 h1

theorem customLess_decides (a b : customKey) :
    customLess (some (KeyVal.custom a)) (some (KeyVal.custom b))
      = Except.ok (customLt a b) := by
  simp only [customLess, customLt, pure, Except.pure]
  by_cases h : a.seq < b.seq <;> simp [h]

/-- C7 fails for a key of the wrapper type, for a comparator of the caller that
decides no strict weak order, and for a key that is not `==` to itself.

* The iterator of a custom store with expiration yields the wrapper
  `wrapCustomA`.  It passes `isValidKey`; on a new custom store, with expiration
  or without, `Save` of it returns nil, and `Get` of it aborts in the type
  assertion of the comparator.
* On a custom store whose comparator puts every key before every key,
  `Save({a, 1}, 1)` returns nil and `Get({a, 1})` returns `ErrNotFound`.
* On a custom store of keys with a `float64` field, compared by their names,
  the key `scoreKey{"a", NaN}` passes `isValidKey`, `Save` of it returns nil and
  `Get` of it returns `ErrNotFound`. -/
theorem C7_counterexample :
    customExpState1.data.entries = Except.ok [(some wrapCustomA, some 1)] ∧
      customExpStore.isValidKey wrapCustomA = (wrapCustomA, none) ∧
      customExpStore.Save wrapCustomA (some 2) [SaveOptionTTL 5] 100 noCoins
        = Except.ok (none, wrapSaved) ∧
      wrapSaved.Get wrapCustomA = Except.error Fault.typeAssertion ∧
      customStore.Save wrapCustomA (some 2) [] 0 noCoins = Except.ok (none, wrapSavedPlain) ∧
      wrapSavedPlain.Get wrapCustomA = Except.error Fault.typeAssertion ∧
      looseStore.Save (newCustomKey "a" 1) (some 1) [] 0 noCoins
        = Except.ok (none, looseState1) ∧
      looseState1.Get (newCustomKey "a" 1) = Except.ok (none, some Error.ErrNotFound) ∧
      scoreStore.isValidKey nanKey = (nanKey, none) ∧
      scoreStore.Save nanKey (some 1) [] 0 noCoins = Except.ok (none, scoreState1) ∧
      scoreState1.Get nanKey = Except.ok (none, some Error.ErrNotFound) :=
  ⟨rfl, rfl, rfl, rfl, rfl, rfl, rfl, rfl, rfl, rfl, rfl⟩

/-- C7, amended.  For a store made by `NewByDB` or by `NewCustomByDB` (with or
without expiration), over a key type on which `==` is the identity of values
(the instance of decidable equality) and with a comparator of the caller that
decides a strict weak order `lt0` on the values of the key type; a state `d`
reached by completed calls of `Save`, `Delete` and ticks of `background`, no
`Save` with a key that is itself a wrapper; and a key `k` that is not a wrapper:
when `Save(k, v, opts)` returns nil, `Get(k)` on the store it leaves returns
`(v, nil)`; on a custom store and on a store with expiration `Get` with the
logical name of `k` returns `(v, nil)` too. -/
theorem C7_get_after_save [DecidableEq C] [CustomKey C] (lt0 : C → C → Bool)
    (hsw : StrictWeak lt0)
    (less : Option (KeyVal C) → Option (KeyVal C) → Except Fault Bool)
    (hless : ∀ a b, less (some (KeyVal.custom a)) (some (KeyVal.custom b))
      = Except.ok (lt0 a b))
    (dbOpts : List DBOption) (d0 : ByDB C V)
    (hd0 : d0 = NewByDB dbOpts ∨ d0 = NewCustomByDB less dbOpts)
    (ops : List (DBOp C V)) (hops : ∀ op ∈ ops, op.plain) (d : ByDB C V)
    (hrun : d0.run ops = Except.ok d)
    (k : KeyVal C) (hk : ∀ t x s c, k ≠ KeyVal.expireCustomKey t x s c)
    (v : Option V) (opts : List SaveOption) (now : Int) (coins : Nat → Bool)
    (d1 : ByDB C V) (hsave : d.Save k v opts now coins = Except.ok (none, d1)) :
    d1.Get k = Except.ok (v, none) ∧
      ∀ n, logicalName k = some n →
        (d.typ = keyType.Custom ∨ d.withExpired = true) →
        d1.Get (KeyVal.str n) = Except.ok (v, none) := by
  have hinv0 : DBInv lt0 d0 := by
    rcases hd0 with h | h
    · rw [h]; exact NewByDB_inv lt0 dbOpts
    · rw [h]; exact NewCustomByDB_inv lt0 less hless dbOpts
  have hinv := dbRun_inv hsw ops d0 d hinv0 hops hrun
  exact (Save_spec hsw hinv hk hsave).2.2.2 rfl

theorem C7_witness :
    expState2.Get (KeyVal.str "a") = Except.ok (some 2, none) :=
  (C7_get_after_save customLt customLt_strictWeak customLess customLess_decides
    [DBOptionWithExpired] expStore (Or.inl rfl) [saveA5]
    (fun op hop => by
      rw [List.mem_singleton.mp hop]
      exact True.intro)
    expState1 rfl (KeyVal.str "a") (fun _ _ _ _ hc => KeyVal.noConfusion hc)
    (some 2) [SaveOptionTTL 50] 100 noCoins expState2 rfl).1

end DBClaims

end SimpleDB


namespace SimpleDB

section DBClaims2

/-- C8 fails on a store with expiration.  On the store of `NewByDB` with
`DBOptionWithExpired`, `Save("a", 1, SaveOptionTTL(5))` and then
`Save("a", 2, SaveOptionTTL(50))`, both at the time 100, return nil; `Count()` is
1 after the first call and 2 after the second: the skip list holds the wrapper
with expiry 150 and, behind it, the wrapper with expiry 105 that `Save` meant to
delete.  The same happens with equal options at the times 100 and 101. -/
theorem C8_second_save_leaves_two_entries :
    expStore.Save (KeyVal.str "a") (some 1) [SaveOptionTTL 5] 100 noCoins
        = Except.ok (none, expState1) ∧
      expState1.Save (KeyVal.str "a") (some 2) [SaveOptionTTL 50] 100 noCoins
        = Except.ok (none, expState2) ∧
      expState1.Count [] = Except.ok (1, none) ∧
      expState2.Count [] = Except.ok (2, none) ∧
      expState2.data.entries
        = Except.ok [(some (wrapA 150), some 2), (some (wrapA 105), some 1)] ∧
      mapGet expState2.keys "a" = wrapA 150 ∧
      (saveD expState1 (KeyVal.str "a") (some 2) [SaveOptionTTL 5] 101 noCoins).Count []
        = Except.ok (2, none) :=
  ⟨rfl, rfl, rfl, rfl, rfl, rfl, rfl⟩

/-- The sum `now + math.MaxInt64` in `int64`, for a time from 1 on: it wraps
around to `now - 2 ^ 63 - 1`, which is before `now`. -/
theorem wrap64_maxInt64 (now : Int) (h1 : 1 ≤ now) (h2 : now ≤ maxInt64) :
    wrap64 (now + maxInt64) = now - 9223372036854775809 ∧
      wrap64 (now + maxInt64) < now := by
  unfold wrap64 maxInt64 at *
  omega

/-- C9 fails at every time from 1 on.  On the store of `NewByDB` with
`DBOptionWithExpired`, `Save("a", 1)` without a TTL option at the time
1700000000 returns nil and stores the entry under the expiry timestamp
`1700000000 + MaxInt64` wrapped to `int64`, which is `-9223372035154775809`;
`SaveOptionTTL(0)` gives the same key.  A tick of `background` at that time
deletes the entry: `Get("a")` then returns `ErrNotFound`. -/
theorem C9_no_ttl_entry_is_swept :
    expStore.Save (KeyVal.str "a") (some 1) [] 1700000000 noCoins
        = Except.ok (none, noTtlState) ∧
      noTtlState.data.entries
        = Except.ok [(some (wrapA (-9223372035154775809)), some 1)] ∧
      (saveD expStore (KeyVal.str "a") (some 1) [SaveOptionTTL 0] 1700000000
        noCoins).data.entries
        = Except.ok [(some (wrapA (-9223372035154775809)), some 1)] ∧
      noTtlState.background 1700000000 = Except.ok noTtlSwept ∧
      noTtlSwept.data.entries = Except.ok [] ∧
      noTtlSwept.Get (KeyVal.str "a") = Except.ok (none, some Error.ErrNotFound) :=
  ⟨rfl, rfl, rfl, rfl, rfl, rfl⟩

/-- C10 fails on a state two calls of `Save` reach.  After
`Save("a", 1, SaveOptionTTL(5))` and `Save("a", 2, SaveOptionTTL(50))`, both at
the time 100, a tick of `background` at the time 110 completes and leaves the
entry with the expiry timestamp 105 in the skip list: `Del` with its key stops
at the wrapper with expiry 150 in front of it and returns `ErrNotFound`. -/
theorem C10_sweep_leaves_expired_entry :
    expStore.run [saveA5, saveA50] = Except.ok expState2 ∧
      expState2.background 110 = Except.ok expState3 ∧
      expState2.data.Del (some (wrapA 105))
        = Except.ok (some Error.ErrNotFound, expState2.data) ∧
      expState3.data.entries
        = Except.ok [(some (wrapA 150), some 2), (some (wrapA 105), some 1)] ∧
      expState3.Count [] = Except.ok (2, none) :=
  ⟨rfl, rfl, rfl, rfl, rfl⟩

end DBClaims2

end SimpleDB


namespace SimpleDB

section DBClaims3

/-- C11 fails on a state three calls of `Save` reach.  On the custom store of
`db_test.go` (keys `{key, seq}` compared by `seq`), after `Save({a, 1}, 1)`,
`Save({b, 1}, 2)` and `Save({a, 2}, 3)` the entry of `{a, 1}` is still in the
skip list: the `Del` of the old key in `Save` stops at `{b, 1}`, which ranks
equal and stands in front.  From this state `Save({a, 3}, 4)` and then
`Save({a, 4}, 5)` return nil, `Get({a, 4})` and `Get("a")` return 5 and
`Get({a, 3})` returns `ErrNotFound`, but the skip list holds two entries with
the logical name `a`, and `Count()` is 3. -/
theorem C11_resave_keeps_stale_entry :
    customStore.run [saveC "a" 1 1, saveC "b" 1 2, saveC "a" 2 3]
        = Except.ok staleState ∧
      staleState.data.entries
        = Except.ok [(some (newCustomKey "b" 1), some 2), (some (newCustomKey "a" 1), some 1),
            (some (newCustomKey "a" 2), some 3)] ∧
      staleState.Save (newCustomKey "a" 3) (some 4) [] 0 noCoins
        = Except.ok (none, staleState1) ∧
      staleState1.Save (newCustomKey "a" 4) (some 5) [] 0 noCoins
        = Except.ok (none, staleState2) ∧
      staleState2.Get (newCustomKey "a" 4) = Except.ok (some 5, none) ∧
      staleState2.Get (KeyVal.str "a") = Except.ok (some 5, none) ∧
      staleState2.Get (newCustomKey "a" 3) = Except.ok (none, some Error.ErrNotFound) ∧
      staleState2.data.entries
        = Except.ok [(some (newCustomKey "b" 1), some 2), (some (newCustomKey "a" 1), some 1),
            (some (newCustomKey "a" 4), some 5)] ∧
      staleState2.Count [] = Except.ok (3, none) :=
  ⟨rfl, rfl, rfl, rfl, rfl, rfl, rfl, rfl, rfl⟩

set_option maxRecDepth 100000 in
/-- C12 fails once a node has level 32.  On the plain store, `Save("a", 1)` in
which `getNewLevel` returns 32 returns nil and stores the entry; `Delete("a")`
then aborts in `make([]*node, 33, 32)` of `Del` instead of returning nil. -/
theorem C12_delete_aborts_at_level_32 :
    plainStore.Save (KeyVal.str "a") (some 1) [] 0 allCoins = Except.ok (none, tallPlain) ∧
      tallPlain.Get (KeyVal.str "a") = Except.ok (some 1, none) ∧
      tallPlain.Delete (KeyVal.str "a") = Except.error Fault.makeslice :=
  ⟨rfl, rfl, rfl⟩

set_option maxRecDepth 100000 in
/-- C15 fails once a node has level 32.  On the custom store, `Save({a, 1}, 1)`
in which `getNewLevel` returns 32 returns nil; the key `{a, 2}` then passes
`isValidKey`, but `Save({a, 2}, 2)` aborts in `make([]*node, 33, 32)` of the
`Del` of the old key instead of returning nil. -/
theorem C15_valid_save_aborts_at_level_32 :
    customStore.Save (newCustomKey "a" 1) (some 1) [] 0 allCoins
        = Except.ok (none, tallCustom) ∧
      tallCustom.isValidKey (newCustomKey "a" 2) = (newCustomKey "a" 2, none) ∧
      tallCustom.Save (newCustomKey "a" 2) (some 2) [] 0 noCoins
        = Except.error Fault.makeslice :=
  ⟨rfl, rfl, rfl⟩

/-- C16 fails on a plain store without expiration that is not empty.  After
`Save("a", 1)`, `Get(42)` and `Delete(42)` (a key that is not a string) abort
in the type assertion `r.(string)` of the comparator; so do `Get` and `Delete`
with a custom key. -/
theorem C16_get_aborts_on_other_type :
    plainStore.Save (KeyVal.str "a") (some 1) [] 0 noCoins = Except.ok (none, plainState1) ∧
      plainState1.Get (KeyVal.other 42) = Except.error Fault.typeAssertion ∧
      plainState1.Delete (KeyVal.other 42) = Except.error Fault.typeAssertion ∧
      plainState1.Get (newCustomKey "a" 1) = Except.error Fault.typeAssertion ∧
      plainState1.Delete (newCustomKey "a" 1) = Except.error Fault.typeAssertion :=
  ⟨rfl, rfl, rfl, rfl, rfl⟩

end DBClaims3

end SimpleDB


namespace SimpleDB

/-! ## The scans of `Count` and `List` -/

section Scans

variable {C V : Type}

/-- One call of `HasNext` on an iterator that stands on a cell of the
sequence. -/
theorem hasNext_step {K : Type} (mem : List (node K V)) {p : Nat} {B : List Nat}
    (key : Option K) (value : Option V) (hL : Linked mem (p :: B))
    (hht : ∀ x ∈ p :: B, 1 ≤ ht mem x) :
    iterator.HasNext mem { key := key, value := value, currNode := some p }
      = Except.ok
        (match B with
         | [] => (false, { key := key, value := value, currNode := some p })
         | q :: _ => (true, { key := keyAt mem q, value := valAt mem q, currNode := some q })) := by
  have hp : p < mem.length := ht_pos_lt (hht p (by simp))
  have hf := hL [] p B rfl 0 (hht p (by simp))
  rw [firstAt_zero_eq_head (fun x hx => hht x (by simp [hx]))] at hf
  have hnext := next_of_fwd (get_of_lt hp) hf
  cases B with
  | nil =>
    simp only [List.head?_nil] at hnext
    simp [iterator.HasNext, derefOpt, deref_of_lt hp, ok_bind, node.hasNext, hnext,
      pure_eq_ok]
  | cons q B =>
    simp only [List.head?_cons] at hnext
    have hq : q < mem.length := ht_pos_lt (hht q (by simp))
    simp only [iterator.HasNext, derefOpt, deref_of_lt hp, ok_bind, node.hasNext,
      hnext, Option.isSome_some, Bool.not_true, deref_of_lt hq, pure_eq_ok,
      Bool.false_eq_true, if_false, keyAt_of_get (get_of_lt hq), valAt_of_get (get_of_lt hq)]

/-- The loop of `Count` from a cell of the sequence. -/
theorem countLoop_spec (mem : List (node (KeyVal C) V)) (queries : List (Query V)) :
    ∀ (fuel : Nat) (p : Nat) (B : List Nat) (key : Option (KeyVal C)) (value : Option V)
      (count : Int),
      Linked mem (p :: B) → (∀ x ∈ p :: B, 1 ≤ ht mem x) → B.length < fuel →
      countLoop mem queries fuel { key := key, value := value, currNode := some p } count
        = Except.ok (countSpec queries (B.map (valAt mem)) count) := by
  intro fuel
  induction fuel with
  | zero => intro p B _ _ _ _ _ h; exact absurd h (Nat.not_lt_zero _)
  | succ fuel ih =>
    intro p B key value count hL hht hlen
    rw [countLoop, hasNext_step mem key value hL hht, ok_bind]
    cases B with
    | nil => rfl
    | cons q B =>
      have hrec := fun vv c => ih q B (keyAt mem q) vv c hL.suffix_one
        (fun x hx => hht x (by simp [hx])) (by simp at hlen; omega)
      simp only [if_true, iterator.Value, List.map_cons]
      cases hv : valAt mem q with
      | none => simp only [countSpec]; exact hrec _ count
      | some v =>
        simp only [countSpec]
        split
        · exact hrec _ count
        · exact hrec _ (count + 1)

/-- The loop of `List` from a cell of the sequence. -/
theorem listLoop_spec (mem : List (node (KeyVal C) V)) (queries : List (Query V))
    (offset stop : Int) :
    ∀ (fuel : Nat) (p : Nat) (B : List Nat) (key : Option (KeyVal C)) (value : Option V)
      (count : Int) (ret : List (Option V)) (hasNextPage : Bool),
      Linked mem (p :: B) → (∀ x ∈ p :: B, 1 ≤ ht mem x) → B.length < fuel →
      listLoop mem queries offset stop fuel
          { key := key, value := value, currNode := some p } count ret hasNextPage
        = Except.ok (listSpec queries offset stop (B.map (valAt mem)) count ret hasNextPage) := by
  intro fuel
  induction fuel with
  | zero => intro p B _ _ _ _ _ _ _ h; exact absurd h (Nat.not_lt_zero _)
  | succ fuel ih =>
    intro p B key value count ret hasNextPage hL hht hlen
    rw [listLoop, hasNext_step mem key value hL hht, ok_bind]
    cases B with
    | nil => rfl
    | cons q B =>
      have hrec := fun vv c r h => ih q B (keyAt mem q) vv c r h hL.suffix_one
        (fun x hx => hht x (by simp [hx])) (by simp at hlen; omega)
      simp only [if_true, iterator.Value, List.map_cons]
      cases hasNextPage with
      | true => rfl
      | false =>
        simp only [Bool.false_eq_true, if_false]
        cases hv : valAt mem q with
        | none => simp only [listSpec, Bool.false_eq_true, if_false]; exact hrec _ _ _ _
        | some v =>
          simp only [listSpec, Bool.false_eq_true, if_false]
          split
          · exact hrec _ _ _ _
          · split
            · exact hrec _ _ _ _
            · exact hrec _ _ _ _

end Scans

end SimpleDB


namespace SimpleDB

section Pages

variable {C V : Type}

theorem countSpec_eq (queries : List (Query V)) :
    ∀ (vals : List (Option V)) (count : Int),
      countSpec queries vals count = count + ((matching queries vals).length : Int) := by
  intro vals
  induction vals with
  | nil => intro count; simp [countSpec, matching]
  | cons v r ih =>
    intro count
    cases v with
    | none =>
      rw [countSpec, ih]
      simp [matching, List.filter]
    | some x =>
      rw [countSpec]
      by_cases hq : query (some x) queries = true
      · simp only [hq, Bool.not_true, Bool.false_eq_true, if_false]
        rw [ih]
        simp only [matching, List.filter, Option.isSome_some, hq, Bool.and_self,
          List.length_cons]
        push_cast
        ring
      · have hq1 : query (some x) queries = false := by simpa using hq
        simp only [hq1, Bool.not_false, if_true]
        rw [ih]
        simp [matching, List.filter, hq1]

theorem listSpec_true (queries : List (Query V)) (offset stop : Int)
    (vals : List (Option V)) (count : Int) (ret : List (Option V)) :
    listSpec queries offset stop vals count ret true = (ret, true) := by
  cases vals with
  | nil => rfl
  | cons v r => simp [listSpec]

/-- The loop of `List` only looks at the values that are not nil and satisfy
the predicates. -/
theorem listSpec_matching (queries : List (Query V)) (offset stop : Int) :
    ∀ (vals : List (Option V)) (count : Int) (ret : List (Option V)),
      listSpec queries offset stop vals count ret false
        = listSpec queries offset stop (matching queries vals) count ret false := by
  intro vals
  induction vals with
  | nil => intro count ret; rfl
  | cons v r ih =>
    intro count ret
    cases v with
    | none =>
      have hm : matching queries (none :: r) = matching queries r := by
        simp [matching, List.filter]
      rw [hm, ← ih]
      simp [listSpec]
    | some x =>
      by_cases hq : query (some x) queries = true
      · have hm : matching queries (some x :: r) = some x :: matching queries r := by
          simp [matching, List.filter, hq]
        rw [hm]
        simp only [listSpec, Bool.false_eq_true, if_false, hq, Bool.not_true]
        split
        · rw [listSpec_true, listSpec_true]
        · exact ih _ _
      · have hq1 : query (some x) queries = false := by simpa using hq
        have hm : matching queries (some x :: r) = matching queries r := by
          simp [matching, List.filter, hq1]
        rw [hm, ← ih]
        simp [listSpec, hq1]

theorem wrap32_id {x : Int} (h1 : -2147483648 ≤ x) (h2 : x ≤ 2147483647) : wrap32 x = x := by
  unfold wrap32
  omega

/-- The loop of `List` on values that all count: it appends those with an index
from `o` up to `e`, and reports whether one has the index `e`. -/
theorem listSpec_closed (queries : List (Query V)) (o e : Nat) (he : e ≤ 2147483647) :
    ∀ (M : List (Option V)), (∀ v ∈ M, v.isSome = true ∧ query v queries = true) →
      ∀ (c : Nat) (ret : List (Option V)), c ≤ e →
        listSpec queries (o : Int) (e : Int) M (c : Int) ret false
          = (ret ++ (M.take (e - c)).drop (o - c), decide (e - c < M.length)) := by
  intro M
  induction M with
  | nil => intro _ c ret _; simp [listSpec]
  | cons v r ih =>
    intro hM c ret hc
    obtain ⟨hvs, hvq⟩ := hM v (by simp)
    obtain ⟨x, hx⟩ := Option.isSome_iff_exists.mp hvs
    subst hx
    have hr : ∀ w ∈ r, w.isSome = true ∧ query w queries = true :=
      fun w hw => hM w (by simp [hw])
    simp only [listSpec, Bool.false_eq_true, if_false, hvq, Bool.not_true]
    by_cases hce : c = e
    · subst hce
      simp [listSpec_true]
    · have hlt : c < e := by omega
      have h1 : ¬ ((c : Int) ≥ (e : Int)) := by omega
      rw [if_neg h1, wrap32_id (by omega) (by omega)]
      have h2 := ih hr (c + 1) (if (o : Int) ≤ (c : Int) then ret ++ [some x] else ret)
        (by omega)
      rw [show ((c : Int) + 1) = ((c + 1 : Nat) : Int) by push_cast; rfl, h2]
      have h3 : e - c = (e - (c + 1)) + 1 := by omega
      rw [h3, List.take_succ_cons]
      refine Prod.ext ?_ ?_
      · by_cases hoc : o ≤ c
        · have h4 : (o : Int) ≤ (c : Int) := by omega
          rw [if_pos h4]
          have h5 : o - c = 0 := by omega
          have h6 : o - (c + 1) = 0 := by omega
          simp [h5, h6]
        · have h4 : ¬ ((o : Int) ≤ (c : Int)) := by omega
          rw [if_neg h4]
          have h5 : o - c = (o - (c + 1)) + 1 := by omega
          rw [h5, List.drop_succ_cons]
      · simp only [List.length_cons]
        congr 1
        apply propext
        omega

end Pages

end SimpleDB


namespace SimpleDB

section Pages2

variable {C V : Type}

theorem DBInv.wellFormed {lt0 : C → C → Bool} {d : ByDB C V} (h : DBInv lt0 d) :
    d.WellFormed := by
  obtain ⟨l, hs⟩ := h.store
  obtain ⟨ns, hinv, _⟩ := hs.rep
  exact ⟨h.init, ns, hinv⟩

/-- A store reached by completed calls satisfies the invariant. -/
theorem reach_inv [DecidableEq C] [CustomKey C] (lt0 : C → C → Bool)
    (hsw : StrictWeak lt0)
    (less : Option (KeyVal C) → Option (KeyVal C) → Except Fault Bool)
    (hless : ∀ a b, less (some (KeyVal.custom a)) (some (KeyVal.custom b))
      = Except.ok (lt0 a b))
    (dbOpts : List DBOption) (d0 : ByDB C V)
    (hd0 : d0 = NewByDB dbOpts ∨ d0 = NewCustomByDB less dbOpts)
    (ops : List (DBOp C V)) (hops : ∀ op ∈ ops, op.plain) (d : ByDB C V)
    (hrun : d0.run ops = Except.ok d) : DBInv lt0 d := by
  have hinv0 : DBInv lt0 d0 := by
    rcases hd0 with h | h
    · rw [h]; exact NewByDB_inv lt0 dbOpts
    · rw [h]; exact NewCustomByDB_inv lt0 less hless dbOpts
  exact dbRun_inv hsw ops d0 d hinv0 hops hrun

/-- The values of the entries the iterator yields, read off the heap. -/
theorem entries_values {s : skipList (KeyVal C) V} {ns : List Nat} (hinv : Inv s ns)
    {es : List (Option (KeyVal C) × Option V)} (hent : s.entries = Except.ok es) :
    ns.map (valAt s.mem) = es.map Prod.snd ∧ es.length = ns.length := by
  rw [entries_spec hinv] at hent
  have h : view s.mem ns = es := Except.ok.inj hent
  rw [← h]
  simp [view]

/-- `Count` on a well-formed store. -/
theorem Count_spec {d : ByDB C V} (hwf : d.WellFormed)
    {es : List (Option (KeyVal C) × Option V)} (hent : d.data.entries = Except.ok es)
    (queries : List (Query V)) :
    d.Count queries = Except.ok
      (if queries.length = 0 then (es.length : Int)
        else ((matching queries (es.map Prod.snd)).length : Int), none) := by
  obtain ⟨hinit, ns, hinv⟩ := hwf
  obtain ⟨hvals, hlen⟩ := entries_values hinv hent
  unfold ByDB.Count
  rw [checkBeforeOp_ok hinit, ok_bind]
  by_cases hq : queries.length = 0
  · rw [if_pos hq, if_pos hq]
    show Except.ok (d.data.len, none) = _
    rw [hinv.len_eq, hlen]
  · rw [if_neg hq, if_neg hq]
    have h := countLoop_spec d.data.mem queries (d.data.mem.length + 1) d.data.head ns none none 0
      hinv.linked
      (fun x hx => by
        rcases List.mem_cons.mp hx with h | h
        · rw [h]; exact hinv.head_ht
        · exact hinv.ht_pos x h)
      (by have := hinv.length_le; omega)
    show (countLoop d.data.mem queries (d.data.mem.length + 1)
      { key := none, value := none, currNode := some d.data.head } 0 >>= _) = _
    rw [h, ok_bind, countSpec_eq, hvals]
    simp [pure, Except.pure]

/-- `List` on a well-formed store, on a machine that can reserve the `pageSize`
slots of the result. -/
theorem list_spec {d : ByDB C V} (hwf : d.WellFormed)
    {es : List (Option (KeyVal C) × Option V)} (hent : d.data.entries = Except.ok es)
    (page pageSize : Int) (hp : 1 ≤ page) (hs : 1 ≤ pageSize)
    (hrep : page * pageSize ≤ 2147483647) (queries : List (Query V))
    (avail : Int) (havail : pageSize ≤ avail) :
    d.list page pageSize queries avail = Except.ok
      (((matching queries (es.map Prod.snd)).take (page * pageSize).toNat).drop
          ((page - 1) * pageSize).toNat,
        decide ((page * pageSize).toNat < (matching queries (es.map Prod.snd)).length),
        none) := by
  obtain ⟨hinit, ns, hinv⟩ := hwf
  obtain ⟨hvals, _⟩ := entries_values hinv hent
  have h0 : 0 ≤ (page - 1) * pageSize := mul_nonneg (by omega) (by omega)
  have h1 : (page - 1) * pageSize + pageSize = page * pageSize := by ring
  have hoff0 : wrap32 ((page - 1) * pageSize) = (page - 1) * pageSize :=
    wrap32_id (by omega) (by omega)
  have hoff : wrap32 ((page - 1) * pageSize) = (((page - 1) * pageSize).toNat : Int) := by
    rw [hoff0, Int.toNat_of_nonneg h0]
  have hstop : wrap32 (wrap32 ((page - 1) * pageSize) + pageSize)
      = ((page * pageSize).toNat : Int) := by
    rw [hoff0, h1, wrap32_id (by omega) hrep, Int.toNat_of_nonneg (by omega)]
  have hmake : reserve pageSize avail = Except.ok () := by
    unfold reserve make
    rw [if_neg (by omega), pure_eq_ok, ok_bind, if_neg (by omega)]
    rfl
  have h := listLoop_spec d.data.mem queries (((page - 1) * pageSize).toNat : Int)
    ((page * pageSize).toNat : Int) (d.data.mem.length + 1) d.data.head ns none none 0 []
    false hinv.linked
    (fun x hx => by
      rcases List.mem_cons.mp hx with h | h
      · rw [h]; exact hinv.head_ht
      · exact hinv.ht_pos x h)
    (by have := hinv.length_le; omega)
  unfold ByDB.list
  rw [checkBeforeOp_ok hinit, ok_bind]
  simp only [hstop]
  simp only [hoff, hmake, ok_bind]
  show (listLoop d.data.mem queries _ _ (d.data.mem.length + 1)
    { key := none, value := none, currNode := some d.data.head } 0 [] false >>= _) = _
  rw [h, ok_bind, hvals, listSpec_matching]
  have hc := listSpec_closed queries ((page - 1) * pageSize).toNat (page * pageSize).toNat
    (by omega) (matching queries (es.map Prod.snd))
    (fun v hv => by simpa [matching] using (List.mem_filter.mp hv).2) 0 [] (Nat.zero_le _)
  rw [show ((0 : Nat) : Int) = 0 from rfl] at hc
  rw [hc]
  simp [pure, Except.pure]

end Pages2

end SimpleDB


namespace SimpleDB

section Pages3

variable {C V : Type}

theorem matching_of_all_some (queries : List (Query V)) (vals : List (Option V))
    (h : ∀ v ∈ vals, v ≠ none) :
    matching queries vals = vals.filter (fun v => query v queries) := by
  unfold matching
  apply List.filter_congr
  intro v hv
  cases v with
  | none => exact absurd rfl (h none hv)
  | some x => simp

theorem fourState_wellFormed : fourState.WellFormed :=
  (reach_inv customLt customLt_strictWeak customLess customLess_decides [] plainStore
    (Or.inl rfl) fourOps (fun op hop => by
      simp only [fourOps, List.mem_cons, List.mem_singleton, List.not_mem_nil,
        or_false] at hop
      rcases hop with h | h | h | h <;> rw [h] <;> exact True.intro)
    fourState rfl).wellFormed

/-- C13 fails on a machine that cannot reserve the slice of the result.  The
plain store with the values 1 to 4 has no nil value, and page 1 with the page
size `2 ^ 30` is in `int32`; where `2 ^ 30` slots can be reserved `List` returns
the four values, and where only `2 ^ 28` can, it dies in
`make([]interface{}, 0, pageSize)` before it scans. -/
theorem C13_counterexample :
    fourState.data.entries = Except.ok fourEntries ∧
      fourEntries.map Prod.snd = [some 1, some 2, some 3, some 4] ∧
      (1 : Int) * 1073741824 ≤ 2147483647 ∧
      fourState.list 1 1073741824 [] 1073741824
        = Except.ok ([some 1, some 2, some 3, some 4], false, none) ∧
      fourState.list 1 1073741824 [] 268435456 = Except.error Fault.outOfMemory :=
  ⟨rfl, rfl, by decide, rfl, rfl⟩

/-- C13, amended.  For a store made by a constructor whose skip list is well
formed (as it is in every state that completed calls reach), whose iterator
yields the entries `es`, all with a value that is not nil, a page from 1 on and a
page size from 1 on with `page * pageSize` in `int32`, predicates `queries`, and
a machine that can reserve `pageSize` slots: with `M` the values `v` of `es`, in
the order of the iterator, for which every predicate `q` of `queries` gives
`q v = true`, `List` returns the slice of `M` from the index
`(page - 1) * pageSize` up to `page * pageSize` (or the end of `M`), and
`hasNextPage` tells whether `M` has more than `page * pageSize` values; the error
is nil. -/
theorem C13_list_returns_page (d : ByDB C V) (hwf : d.WellFormed)
    (es : List (Option (KeyVal C) × Option V)) (hent : d.data.entries = Except.ok es)
    (hnn : ∀ e ∈ es, e.2 ≠ none)
    (page pageSize : Int) (hp : 1 ≤ page) (hs : 1 ≤ pageSize)
    (hrep : page * pageSize ≤ 2147483647) (queries : List (Query V))
    (avail : Int) (havail : pageSize ≤ avail) :
    d.list page pageSize queries avail = Except.ok
      ((((es.map Prod.snd).filter (fun v => queries.all (fun q => q v))).take
          (page * pageSize).toNat).drop ((page - 1) * pageSize).toNat,
        decide ((page * pageSize).toNat
          < ((es.map Prod.snd).filter (fun v => queries.all (fun q => q v))).length),
        none) := by
  rw [list_spec hwf hent page pageSize hp hs hrep queries avail havail,
    matching_of_all_some queries (es.map Prod.snd)
      (fun v hv => by
        obtain ⟨e, he, hev⟩ := List.mem_map.mp hv
        rw [← hev]; exact hnn e he)]
  rfl

theorem C13_witness :
    fourState.list 1 1 [atMostTwo] 1 = Except.ok ([some 1], true, none) :=
  (C13_list_returns_page fourState fourState_wellFormed fourEntries rfl
    (by decide) 1 1 (by decide) (by decide) (by decide) [atMostTwo] 1 (by decide)).trans rfl

/-- C14 fails when a value is nil: after `Save("a", nil)` on the plain store,
`Count()` is 1 and `Count` with one predicate that is always true is 0. -/
theorem C14_counterexample :
    plainStore.Save (KeyVal.str "a") none [] 0 noCoins = Except.ok (none, nilValueState) ∧
      nilValueState.Count [] = Except.ok (1, none) ∧
      nilValueState.Count [fun _ => true] = Except.ok (0, none) :=
  ⟨rfl, rfl, rfl⟩

/-- C14, amended.  For a store made by a constructor whose skip list is well
formed, whose iterator yields the entries `es`: `Count()` returns the number of
entries; `Count` with one predicate or more returns the number of entries whose
value is not nil and satisfies every predicate; so when no value is nil, `Count`
with one predicate that is always true equals `Count()`.  The error is nil. -/
theorem C14_count_skips_nil_values (d : ByDB C V) (hwf : d.WellFormed)
    (es : List (Option (KeyVal C) × Option V)) (hent : d.data.entries = Except.ok es) :
    d.Count [] = Except.ok ((es.length : Int), none) ∧
      (∀ queries : List (Query V), queries ≠ [] →
        d.Count queries = Except.ok
          ((((es.map Prod.snd).filter
            (fun v => v.isSome && queries.all (fun q => q v))).length : Int), none)) ∧
      ((∀ e ∈ es, e.2 ≠ none) → d.Count [fun _ => true] = d.Count []) := by
  have h0 := Count_spec hwf hent []
  refine ⟨h0, fun queries hq => ?_, fun hnn => ?_⟩
  · have h := Count_spec hwf hent queries
    rw [if_neg (by
      intro hc
      exact hq (List.length_eq_zero.mp hc))] at h
    exact h
  · have h := Count_spec hwf hent [fun _ => true]
    rw [h, h0]
    simp only [List.length_singleton, one_ne_zero, if_false, List.length_nil, if_true]
    rw [matching_of_all_some _ _ (fun v hv => by
      obtain ⟨e, he, hev⟩ := List.mem_map.mp hv
      rw [← hev]; exact hnn e he)]
    simp [query]

theorem C14_witness :
    fourState.Count [] = Except.ok (4, none) ∧
      fourState.Count [atMostTwo] = Except.ok (2, none) :=
  ⟨(C14_count_skips_nil_values fourState fourState_wellFormed fourEntries rfl).1,
    ((C14_count_skips_nil_values fourState fourState_wellFormed fourEntries rfl).2.1
      [atMostTwo] (by simp)).trans rfl⟩

end Pages3

end SimpleDB


namespace SimpleDB

section Engine

variable {K V : Type}

/-- C17.  On every skip list, `Set(nil, v)`, `Get(nil)` and `Del(nil)` return
`ErrNilKey` (`Get` with a nil value), and the list `Set` and `Del` leave is the
list itself: the same entries in the same order, the same `Len()`. -/
theorem C17_nil_key_is_rejected [DecidableEq K] (s : skipList K V) (value : Option V)
    (coins : Nat → Bool) :
    s.Set none value coins = Except.ok (some Error.ErrNilKey, s) ∧
      s.Get none = Except.ok (none, some Error.ErrNilKey) ∧
      s.Del none = Except.ok (some Error.ErrNilKey, s) :=
  ⟨rfl, rfl, rfl⟩

theorem make_length {len cap : Int} {u : List (Option Nat)}
    (h : make len cap = Except.ok u) : u.length = len.toNat := by
  unfold make at h
  split at h
  · exact Except.noConfusion h
  · have h1 : List.replicate len.toNat none = u := Except.ok.inj h
    rw [← h1]; simp

/-- C18.  On a skip list reached from `NewSkipList` by completed calls of `Set`
and `Del`, with any coin flips and a comparator that decides a relation `lt`
without aborting, and for a non-nil key `k`: `addressing` from the sentinel
returns a node or nil with a nil error, without a fault, both with a nil update
path (the call of `Get`) and with a slice made with length `level() + 1` and any
capacity (the calls of `Set` and `Del`).  So `Set` returns nil, `Get` returns a
value or `ErrNotFound`, and `Del`, where it does not abort in `make`, returns nil
or `ErrNotFound`. -/
theorem C18_addressing_never_fails [DecidableEq K] (lt : K → K → Bool)
    (less : Option K → Option K → Except Fault Bool)
    (hless : ∀ a b, less (some a) (some b) = Except.ok (lt a b))
    (ops : List (Op K V)) (s : skipList K V)
    (hrun : (NewSkipList less).run ops = Except.ok s) (k : K) :
    (∃ d u, s.addressing (some k) s.head none = Except.ok ((d, none), u)) ∧
      (∃ lvl, s.level = Except.ok lvl ∧ ∀ cap u0, make (lvl + 1) cap = Except.ok u0 →
        ∃ d u, s.addressing (some k) s.head (some u0) = Except.ok ((d, none), u)) ∧
      (∀ v coins, ∃ s1, s.Set (some k) v coins = Except.ok (none, s1)) ∧
      (∃ r, s.Get (some k) = Except.ok r ∧ (r.2 = none ∨ r.2 = some Error.ErrNotFound)) ∧
      (s.Del (some k) = Except.error Fault.makeslice ∨
        ∃ e s1, s.Del (some k) = Except.ok (e, s1) ∧
          (e = none ∨ e = some Error.ErrNotFound)) := by
  obtain ⟨ns, hinv, hd⟩ :=
    run_inv ops (NewSkipList less) s [] hless (NewSkipList_inv less) hrun
  have hg := hinv.decides hd k
  refine ⟨?_, ⟨_, hinv.level_eq, fun cap u0 hm => ?_⟩, fun v coins => ?_, ?_, ?_⟩
  · obtain ⟨A, S, upd1, _, h, _⟩ :=
      addressing_spec hinv (some k) _ hg none (fun u hu => by cases hu)
    exact ⟨_, _, h⟩
  · have hl := make_length hm
    obtain ⟨A, S, upd1, _, h, _⟩ :=
      addressing_spec hinv (some k) _ hg (some u0) (fun u hu => by
        cases hu
        have := hinv.head_ht
        omega)
    exact ⟨_, _, h⟩
  · obtain ⟨_, _, s1, _, _, _, h, _⟩ := Set_spec hinv k v coins _ hg
    exact ⟨s1, h⟩
  · obtain ⟨A, S, _, _, _, h⟩ := Get_spec hinv k _ hg
    refine ⟨_, h, ?_⟩
    cases S.head? with
    | none => exact Or.inr rfl
    | some d =>
      simp only
      split
      · exact Or.inl rfl
      · exact Or.inr rfl
  · by_cases hH : ht s.mem s.head ≤ 32
    · right
      obtain ⟨A, S, _, _, _, hcase⟩ := Del_spec hinv hH k _ hg
      rcases hcase with ⟨d, S2, s1, _, _, h, _⟩ | ⟨_, h⟩
      · exact ⟨_, _, h, Or.inl rfl⟩
      · exact ⟨_, _, h, Or.inr rfl⟩
    · left
      have h33 : ht s.mem s.head = 33 := by have := hinv.head_le; omega
      exact Del_fault hinv h33 k

theorem C18_witness :
    ∃ s1, exState.Set (some 3) (some 30) allCoins = Except.ok (none, s1) :=
  (C18_addressing_never_fails natLt (lessOf natLt) natList_decides exOps exState
    exState_run 3).2.2.1 (some 30) allCoins

end Engine

end SimpleDB


namespace SimpleDB

section Levels

variable {K V : Type}

/-- One completed call keeps the list well formed and its top level not
empty. -/
theorem step_top [DecidableEq K] {s s1 : skipList K V} {ns : List Nat}
    {lt : K → K → Bool} (hd : Decides s lt) (hinv : Inv s ns) (htop : TopFull s ns)
    (op : Op K V) (e : Option Error) (hstep : s.step op = Except.ok (e, s1)) :
    ∃ ns1, Inv s1 ns1 ∧ TopFull s1 ns1 ∧ Decides s1 lt := by
  have hsame : s1 = s → ∃ ns1, Inv s1 ns1 ∧ TopFull s1 ns1 ∧ Decides s1 lt := by
    intro h; rw [h]; exact ⟨ns, hinv, htop, hd⟩
  cases op with
  | set key v coins =>
    cases key with
    | none =>
      apply hsame
      have h := (nil_key s v coins).1
      simp only [skipList.step] at hstep
      rw [h] at hstep
      exact (Prod.mk.inj (Except.ok.inj hstep)).2.symm
    | some k =>
      obtain ⟨A, S, s2, hns, _, _, hset, hhead, hless, hcase⟩ :=
        Set_spec hinv k v coins (gOf lt s.mem k) (hinv.decides hd k)
      simp only [skipList.step] at hstep
      rw [hset] at hstep
      have : s1 = s2 := (Prod.mk.inj (Except.ok.inj hstep)).2.symm
      rw [this]
      have hd2 : Decides s2 lt := by intro a b; rw [hless]; exact hd a b
      rcases hcase with ⟨_, _, _, _, h, _, hsl, _⟩ |
        ⟨_, h, _, _, _, _, _, hhts, hhtn, hhth, _⟩
      · refine ⟨ns, h, ?_, hd2⟩
        unfold TopFull
        rw [hhead, (hsl.2 s.head).1]
        rcases htop with h1 | ⟨x, hx, h1⟩
        · exact Or.inl h1
        · exact Or.inr ⟨x, hx, by rw [(hsl.2 x).1]; exact h1⟩
      · refine ⟨_, h, ?_, hd2⟩
        unfold TopFull
        rw [hhead, hhth]
        by_cases hg : ht s.mem s.head ≤ getNewLevelLoop 32 coins 32 0 + 1
        · right
          refine ⟨s.mem.length, by simp, ?_⟩
          rw [hhtn, max_eq_right hg]
        · rw [max_eq_left (by omega)]
          rcases htop with h1 | ⟨x, hx, h1⟩
          · exact Or.inl h1
          · right
            refine ⟨x, ?_, by rw [hhts x hx]; exact h1⟩
            rw [hns] at hx
            rcases List.mem_append.mp hx with h2 | h2
            · exact List.mem_append.mpr (Or.inl h2)
            · exact List.mem_append.mpr (Or.inr (List.mem_cons_of_mem _ h2))
  | del key =>
    cases key with
    | none =>
      apply hsame
      have h := (nil_key s none (fun _ => false)).2.2
      simp only [skipList.step] at hstep
      rw [h] at hstep
      exact (Prod.mk.inj (Except.ok.inj hstep)).2.symm
    | some k =>
      simp only [skipList.step] at hstep
      by_cases hH : ht s.mem s.head ≤ 32
      · obtain ⟨A, S, _, _, _, hcase⟩ :=
          Del_spec hinv hH k (gOf lt s.mem k) (hinv.decides hd k)
        rcases hcase with ⟨d, S2, s2, _, _, hdel, h, hhead, hless, _, _, _, _, _, _, hfull, _⟩ |
          ⟨_, hdel⟩
        · rw [hdel] at hstep
          have : s1 = s2 := (Prod.mk.inj (Except.ok.inj hstep)).2.symm
          rw [this]
          refine ⟨_, h, ?_, fun a b => by rw [hless]; exact hd a b⟩
          unfold TopFull
          rw [hhead]
          rcases hfull with h1 | h1
          · exact Or.inl h1
          · right
            have hl := h.linked [] s2.head (A ++ S2) rfl (ht s2.mem s2.head - 1)
              (by have := h.head_ht; omega)
            rw [hhead] at hl
            cases hf : firstAt s2.mem (ht s2.mem s.head - 1) (A ++ S2) with
            | none => rw [hf] at hl; exact absurd hl h1
            | some f =>
              have hfm := firstAt_mem hf
              have hfh := (firstAt_some_split hf).1
              have hle := h.ht_le f hfm
              rw [hhead] at hle
              exact ⟨f, hfm, by omega⟩
        · apply hsame
          rw [hdel] at hstep
          exact (Prod.mk.inj (Except.ok.inj hstep)).2.symm
      · exfalso
        have h33 : ht s.mem s.head = 33 := by have := hinv.head_le; omega
        rw [Del_fault hinv h33 k] at hstep
        exact Except.noConfusion hstep

/-- A completed sequence of calls keeps the list well formed and its top level
not empty. -/
theorem run_top [DecidableEq K] {lt : K → K → Bool} (ops : List (Op K V)) :
    ∀ (s s1 : skipList K V) (ns : List Nat), Decides s lt → Inv s ns → TopFull s ns →
      s.run ops = Except.ok s1 → ∃ ns1, Inv s1 ns1 ∧ TopFull s1 ns1 := by
  induction ops with
  | nil =>
    intro s s1 ns _ hinv htop hrun
    have : s1 = s := (Except.ok.inj hrun).symm
    rw [this]; exact ⟨ns, hinv, htop⟩
  | cons op ops ih =>
    intro s s1 ns hd hinv htop hrun
    rw [run_cons] at hrun
    cases hstep : s.step op with
    | error f => rw [hstep] at hrun; exact Except.noConfusion hrun
    | ok r =>
      rw [hstep, ok_bind] at hrun
      obtain ⟨ns1, h1, h2, h3⟩ := step_top hd hinv htop op r.1
        (show s.step op = Except.ok (r.1, r.2) by rw [hstep])
      exact ih r.2 s1 ns1 h3 h1 h2 hrun

/-- C19.  On a skip list reached from `NewSkipList` by completed calls of `Set`
and `Del`, with any coin flips and a comparator that decides a relation `lt`
without aborting: with `ns` the cells the iterator goes through, `level()` is
between 0 and 32, the forward slice of every cell of `ns` has at most
`level() + 1` entries, and `level()` is 0 or `head.forward[level()]` is not
nil. -/
theorem C19_levels_bounded_top_full [DecidableEq K] (lt : K → K → Bool)
    (less : Option K → Option K → Except Fault Bool)
    (hless : ∀ a b, less (some a) (some b) = Except.ok (lt a b))
    (ops : List (Op K V)) (s : skipList K V)
    (hrun : (NewSkipList less).run ops = Except.ok s) :
    ∃ ns lvl, Inv s ns ∧ s.entries = Except.ok (view s.mem ns) ∧
      s.level = Except.ok lvl ∧ 0 ≤ lvl ∧ lvl ≤ 32 ∧
      (∀ p ∈ ns, (ht s.mem p : Int) ≤ lvl + 1) ∧
      (lvl = 0 ∨ ∃ x, fwd s.mem s.head lvl.toNat = some (some x)) := by
  obtain ⟨ns, hinv, htop⟩ := run_top ops (NewSkipList less) s [] hless
    (NewSkipList_inv less) (Or.inl rfl) hrun
  have h1 := hinv.head_ht
  have h2 := hinv.head_le
  refine ⟨ns, (ht s.mem s.head : Int) - 1, hinv, entries_spec hinv, hinv.level_eq,
    by omega, by omega, fun p hp => ?_, ?_⟩
  · have := hinv.ht_le p hp
    omega
  · rcases htop with h | ⟨x, hx, h⟩
    · left; omega
    · right
      have hl := hinv.linked [] s.head ns rfl (ht s.mem s.head - 1) (by omega)
      have hn : ((ht s.mem s.head : Int) - 1).toNat = ht s.mem s.head - 1 := by omega
      rw [hn, hl]
      cases hf : firstAt s.mem (ht s.mem s.head - 1) ns with
      | none =>
        have := (firstAt_eq_none.mp hf) x hx
        omega
      | some f => exact ⟨f, rfl⟩

theorem C19_witness :
    ∃ ns lvl, Inv exState ns ∧ exState.entries = Except.ok (view exState.mem ns) ∧
      exState.level = Except.ok lvl ∧ 0 ≤ lvl ∧ lvl ≤ 32 ∧
      (∀ p ∈ ns, (ht exState.mem p : Int) ≤ lvl + 1) ∧
      (lvl = 0 ∨ ∃ x, fwd exState.mem exState.head lvl.toNat = some (some x)) :=
  C19_levels_bounded_top_full natLt (lessOf natLt) natList_decides exOps exState
    exState_run

end Levels

end SimpleDB


namespace SimpleDB

section Replies

variable {K V : Type}

/-- One completed call does on the skip list what `callA` does on the
association list, and returns the same. -/
theorem call_refines [DecidableEq K] {s s1 : skipList K V} {l : List (K × Option V)}
    {lt : K → K → Bool} (hsw : StrictWeak lt) (hd : Decides s lt) (hrep : Rep s l)
    (hsort : SortedA lt l) (c : Call K V) (r : Option V × Option Error)
    (hcall : s.call c = Except.ok (r, s1)) :
    r = (callA lt l c).1 ∧ Rep s1 (callA lt l c).2 ∧ Decides s1 lt ∧
      SortedA lt (callA lt l c).2 := by
  cases c with
  | set key v coins =>
    cases key with
    | none =>
      have h := (nil_key s v coins).1
      simp only [skipList.call] at hcall
      rw [h, ok_bind] at hcall
      obtain ⟨h1, h2⟩ := Prod.mk.inj (Except.ok.inj hcall)
      rw [← h1, ← h2]; exact ⟨rfl, hrep, hd, hsort⟩
    | some k =>
      obtain ⟨s2, h1, h2, h3, _⟩ := Set_refines hsw hd hrep hsort k v coins
      simp only [skipList.call] at hcall
      rw [h1, ok_bind] at hcall
      obtain ⟨h4, h5⟩ := Prod.mk.inj (Except.ok.inj hcall)
      rw [← h4, ← h5]; exact ⟨rfl, h2, h3, setA_sortedA hsw k v l hsort⟩
  | get key =>
    cases key with
    | none =>
      have h := (nil_key s none (fun _ => false)).2.1
      simp only [skipList.call] at hcall
      rw [h, ok_bind] at hcall
      obtain ⟨h1, h2⟩ := Prod.mk.inj (Except.ok.inj hcall)
      rw [← h1, ← h2]; exact ⟨rfl, hrep, hd, hsort⟩
    | some k =>
      simp only [skipList.call] at hcall
      rw [Get_refines hsw hd hrep hsort k, ok_bind] at hcall
      obtain ⟨h1, h2⟩ := Prod.mk.inj (Except.ok.inj hcall)
      rw [← h1, ← h2]; exact ⟨rfl, hrep, hd, hsort⟩
  | del key =>
    cases key with
    | none =>
      have h := (nil_key s none (fun _ => false)).2.2
      simp only [skipList.call] at hcall
      rw [h, ok_bind] at hcall
      obtain ⟨h1, h2⟩ := Prod.mk.inj (Except.ok.inj hcall)
      rw [← h1, ← h2]; exact ⟨rfl, hrep, hd, hsort⟩
    | some k =>
      simp only [skipList.call] at hcall
      by_cases hH : ht s.mem s.head ≤ 32
      · obtain ⟨s2, h1, h2, h3, _⟩ := Del_refines hsw hd hrep hsort hH k
        rw [h1, ok_bind] at hcall
        obtain ⟨h4, h5⟩ := Prod.mk.inj (Except.ok.inj hcall)
        rw [← h4, ← h5]; exact ⟨rfl, h2, h3, delA_sortedA k hsort⟩
      · exfalso
        obtain ⟨ns, hinv, _⟩ := hrep
        have h33 : ht s.mem s.head = 33 := by have := hinv.head_le; omega
        rw [Del_fault hinv h33 k] at hcall
        exact Except.noConfusion hcall

/-- A completed sequence of calls does on the skip list what `callsA` does on
the association list, and every call returns the same. -/
theorem calls_refines [DecidableEq K] {lt : K → K → Bool} (hsw : StrictWeak lt)
    (cs : List (Call K V)) :
    ∀ (s s1 : skipList K V) (l : List (K × Option V))
      (rs : List (Option V × Option Error)), Decides s lt → Rep s l → SortedA lt l →
      s.calls cs = Except.ok (rs, s1) →
      rs = (callsA lt l cs).1 ∧ Rep s1 (callsA lt l cs).2 := by
  induction cs with
  | nil =>
    intro s s1 l rs _ hrep _ h
    obtain ⟨h1, h2⟩ := Prod.mk.inj (Except.ok.inj h)
    rw [← h1, ← h2]; exact ⟨rfl, hrep⟩
  | cons c cs ih =>
    intro s s1 l rs hd hrep hsort h
    simp only [skipList.calls] at h
    cases hc : s.call c with
    | error f => rw [hc] at h; exact Except.noConfusion h
    | ok r =>
      rw [hc, ok_bind] at h
      obtain ⟨h1, h2, h3, h4⟩ := call_refines hsw hd hrep hsort c r.1
        (show s.call c = Except.ok (r.1, r.2) by rw [hc])
      cases hcs : r.2.calls cs with
      | error f => rw [hcs] at h; exact Except.noConfusion h
      | ok rs1 =>
        rw [hcs, ok_bind] at h
        obtain ⟨h5, h6⟩ := ih r.2 rs1.2 _ rs1.1 h3 h2 h4
          (show r.2.calls cs = Except.ok (rs1.1, rs1.2) by rw [hcs])
        obtain ⟨h7, h8⟩ := Prod.mk.inj (Except.ok.inj h)
        rw [← h7, ← h8]
        simp only [callsA]
        exact ⟨by rw [h1, h5], h6⟩

theorem callA_same [DecidableEq K] (lt : K → K → Bool) (l : List (K × Option V))
    {c c1 : Call K V} (h : c.same c1) : callA lt l c = callA lt l c1 := by
  cases c <;> cases c1 <;> simp only [Call.same] at h
  · obtain ⟨h1, h2⟩ := h
    subst h1; subst h2
    rename_i key _ _ _
    cases key <;> rfl
  · rw [h]
  · rw [h]

theorem callsA_same [DecidableEq K] (lt : K → K → Bool) :
    ∀ (cs cs1 : List (Call K V)), List.Forall₂ Call.same cs cs1 →
      ∀ l : List (K × Option V), callsA lt l cs = callsA lt l cs1 := by
  intro cs cs1 h
  induction h with
  | nil => intro l; rfl
  | cons hc _ ih =>
    intro l
    simp only [callsA]
    rw [callA_same lt l hc, ih]

end Replies

end SimpleDB


namespace SimpleDB

section Replies2

variable {K V : Type}

/-- C20 fails for a comparator that is not transitive.  With `cycleLt` (1
before 2, 2 before 0, but not 1 before 0), the calls `Set(1, 10)`, `Set(2, 20)`,
`Set(0, 0)`, `Get(1)` complete whatever the levels; when every node gets level 0
the iterator yields the keys 0, 1, 2 and `Get(1)` returns `ErrNotFound`, when
the node of key 2 gets level 1 the iterator yields 1, 2, 0 and `Get(1)` returns
10. -/
theorem C20_counterexample :
    cycleList.calls (cycleCalls (fun _ => false))
        = Except.ok (callsD cycleList (cycleCalls (fun _ => false))) ∧
      cycleList.calls (cycleCalls oneCoin)
        = Except.ok (callsD cycleList (cycleCalls oneCoin)) ∧
      (callsD cycleList (cycleCalls (fun _ => false))).1
        = [(none, none), (none, none), (none, none), (none, some Error.ErrNotFound)] ∧
      (callsD cycleList (cycleCalls oneCoin)).1
        = [(none, none), (none, none), (none, none), (some 10, none)] ∧
      (callsD cycleList (cycleCalls (fun _ => false))).2.entries
        = Except.ok [(some 0, some 0), (some 1, some 10), (some 2, some 20)] ∧
      (callsD cycleList (cycleCalls oneCoin)).2.entries
        = Except.ok [(some 1, some 10), (some 2, some 20), (some 0, some 0)] :=
  ⟨rfl, rfl, rfl, rfl, rfl, rfl⟩

/-- C20, amended.  For a comparator that decides a strict weak order `lt`, two
sequences of calls of `Set`, `Get` and `Del` that differ in the coin flips only,
and two runs from `NewSkipList` in which every call completes: the runs return
the same for every call, and leave the same `Len()` and the same iterator
sequence.  Each run does what `callsA` does on the sorted association list. -/
theorem C20_levels_do_not_show [DecidableEq K] (lt : K → K → Bool) (hsw : StrictWeak lt)
    (less : Option K → Option K → Except Fault Bool)
    (hless : ∀ a b, less (some a) (some b) = Except.ok (lt a b))
    (cs cs1 : List (Call K V)) (hsame : List.Forall₂ Call.same cs cs1)
    (rs rs1 : List (Option V × Option Error)) (s s1 : skipList K V)
    (hrun : (NewSkipList less).calls cs = Except.ok (rs, s))
    (hrun1 : (NewSkipList less).calls cs1 = Except.ok (rs1, s1)) :
    rs = rs1 ∧ s.Len = s1.Len ∧ s.entries = s1.entries ∧
      rs = (callsA lt [] cs).1 ∧
      s.entries = Except.ok ((callsA lt [] cs).2.map emb) := by
  obtain ⟨h1, h2⟩ := calls_refines hsw cs (NewSkipList less) s [] rs hless
    (NewSkipList_rep less) (by simp [SortedA]) hrun
  obtain ⟨h3, h4⟩ := calls_refines hsw cs1 (NewSkipList less) s1 [] rs1 hless
    (NewSkipList_rep less) (by simp [SortedA]) hrun1
  rw [← callsA_same lt cs cs1 hsame []] at h3 h4
  refine ⟨by rw [h1, h3], ?_, by rw [h2.entries_eq, h4.entries_eq], h1, h2.entries_eq⟩
  show s.len = s1.len
  rw [h2.len_eq, h4.len_eq]

theorem C20_witness :
    (callsD natList (tourCalls (fun _ => false))).1 = (callsD natList (tourCalls oneCoin)).1 :=
  (C20_levels_do_not_show natLt natLt_strictTotal.strictWeak (lessOf natLt) natList_decides
    (tourCalls (fun _ => false)) (tourCalls oneCoin)
    (List.Forall₂.cons ⟨rfl, rfl⟩ (List.Forall₂.cons rfl (List.Forall₂.cons ⟨rfl, rfl⟩
      (List.Forall₂.cons rfl (List.Forall₂.cons rfl List.Forall₂.nil)))))
    (callsD natList (tourCalls (fun _ => false))).1 (callsD natList (tourCalls oneCoin)).1
    (callsD natList (tourCalls (fun _ => false))).2 (callsD natList (tourCalls oneCoin)).2
    (by rfl) (by rfl)).1

end Replies2

end SimpleDB


namespace SimpleDB

section Validation

variable {C V : Type}

/-- The validation of the key in `Save`: a key that `isValidKey` rejects leaves
the store as it is and `Save` returns the error; a nil key is rejected with
`ErrNilKey`; on a plain store a key that is not nil is rejected, with
`ErrInvalidStringKey`, exactly when it is not a string; on a custom store a key
that is not nil is rejected with `ErrInvalidCustomKey` exactly when it does not
implement `CustomKey`, and with `ErrInvalidCustomKeyPointer` exactly when it
implements it with an unnamed type. -/
theorem Save_validation [DecidableEq C] [CustomKey C] (d : ByDB C V)
    (hinit : d.hasInit = true) (key : KeyVal C) (v : Option V) (opts : List SaveOption)
    (now : Int) (coins : Nat → Bool) :
    (∀ err, (d.isValidKey key).2 = some err →
        d.Save key v opts now coins = Except.ok (some err, d)) ∧
      (key = KeyVal.nilKey → (d.isValidKey key).2 = some Error.ErrNilKey) ∧
      (key ≠ KeyVal.nilKey → d.typ = keyType.String →
        ((d.isValidKey key).2 = ErrInvalidStringKey ↔ key.asString = none) ∧
        (key.asString ≠ none → (d.isValidKey key).2 = none)) ∧
      (key ≠ KeyVal.nilKey → d.typ = keyType.Custom →
        ((d.isValidKey key).2 = ErrInvalidCustomKey ↔ key.isCustomKey = false) ∧
        ((d.isValidKey key).2 = ErrInvalidCustomKeyPointer ↔
          (key.isCustomKey = true ∧ key.unnamed = true)) ∧
        (key.isCustomKey = true → key.unnamed = false → (d.isValidKey key).2 = none)) := by
  refine ⟨fun err herr => ?_, fun h => by rw [h]; rfl, fun hne ht => ?_, fun hne ht => ?_⟩
  · unfold ByDB.Save
    rw [checkBeforeOp_ok hinit, ok_bind]
    cases hv : d.isValidKey key with
    | mk c oe =>
      rw [hv] at herr
      simp only at herr
      subst herr
      rfl
  · cases key <;>
      simp [ByDB.isValidKey, ht, KeyVal.asString, ErrInvalidStringKey, WithMessage] at hne ⊢
  · cases key <;>
      simp [ByDB.isValidKey, ht, keyType.String, keyType.Custom, KeyVal.isCustomKey,
        KeyVal.unnamed, ErrInvalidCustomKey, ErrInvalidCustomKeyPointer, WithMessage]
        at hne ⊢

end Validation

end SimpleDB


namespace SimpleDB

section Buffers

set_option maxRecDepth 100000 in
/-- C22 fails once a node has level 32.  After `Set(1, 10)` in which
`getNewLevel` returns 32, `level()` and `maxEffectiveLevel()` are both 32.  The
buffer of `Set`, `make([]*node, 33, 33)`, is allocated, and `Set(2, 20)`
returns nil; the buffer of `Del`, `make([]*node, 33, 32)`, has a length above
its capacity, and `Del` aborts in the allocation, for the key 2 that is present
and for the key 7 that is absent. -/
theorem C22_del_buffer_exceeds_capacity :
    tallState.level = Except.ok 32 ∧ tallState.maxEffectiveLevel = Except.ok 32 ∧
      make (32 + 1) (32 + 1) = Except.ok (List.replicate 33 none) ∧
      tallState.Set (some 2) (some 20) (fun _ => false) = Except.ok (none, tallTwo) ∧
      tallTwo.level = Except.ok 32 ∧ tallTwo.maxEffectiveLevel = Except.ok 32 ∧
      tallTwo.entries = Except.ok [(some 1, some 10), (some 2, some 20)] ∧
      make (32 + 1) 32 = Except.error Fault.makeslice ∧
      tallTwo.Del (some 2) = Except.error Fault.makeslice ∧
      tallTwo.Del (some 7) = Except.error Fault.makeslice :=
  ⟨rfl, rfl, rfl, rfl, rfl, rfl, rfl, rfl, rfl, rfl⟩

end Buffers

end SimpleDB


namespace SimpleDB

section LevelChains

variable {K V : Type}

/-- Following `forward[L]` from a cell `p` with a slot `L` goes through the
cells after `p` that have a slot `L`, in sequence. -/
theorem chainLoop_spec (mem : List (node K V)) (L : Nat) :
    ∀ (fuel : Nat) (p : Nat) (B : List Nat),
      Linked mem (p :: B) → L < ht mem p → B.length < fuel →
      chainLoop mem L fuel p = Except.ok (B.filter (fun x => decide (L < ht mem x))) := by
  intro fuel
  induction fuel with
  | zero => intro p B _ _ h; exact absurd h (Nat.not_lt_zero _)
  | succ fuel ih =>
    intro p B hL hp hlen
    have hplt : p < mem.length := ht_pos_lt (by omega)
    have hf := hL [] p B rfl L hp
    simp only [chainLoop, deref_of_lt hplt, ok_bind, idx_of_fwd (get_of_lt hplt) hf]
    cases hfa : firstAt mem L B with
    | none =>
      have hlow := firstAt_eq_none.mp hfa
      have : B.filter (fun x => decide (L < ht mem x)) = [] := by
        rw [List.filter_eq_nil_iff]
        intro x hx
        have := hlow x hx
        simp only [decide_eq_true_eq]
        omega
      rw [this]; rfl
    | some q =>
      obtain ⟨hq, a, b, hs, hlow⟩ := firstAt_some_split hfa
      have hLq : Linked mem (q :: b) := by
        have h1 : Linked mem ((p :: a) ++ q :: b) := by
          rw [List.cons_append, ← hs]; exact hL
        exact h1.suffix
      have hrec := ih q b hLq hq (by rw [hs] at hlen; simp at hlen; omega)
      have ha : a.filter (fun x => decide (L < ht mem x)) = [] := by
        rw [List.filter_eq_nil_iff]
        intro x hx
        have := hlow x hx
        simp only [decide_eq_true_eq]
        omega
      simp only [hrec, ok_bind, pure_eq_ok]
      rw [hs, List.filter_append, ha, List.nil_append, List.filter_cons_of_pos (by simpa using hq)]

/-- The level-`L` chain of a well-formed list consists of the cells with a slot
`L`, in the order of the list. -/
theorem chain_spec {s : skipList K V} {ns : List Nat} (hinv : Inv s ns) (L : Nat)
    (hL : L < ht s.mem s.head) :
    s.chain L = Except.ok (ns.filter (fun x => decide (L < ht s.mem x))) :=
  chainLoop_spec s.mem L (s.mem.length + 1) s.head ns hinv.linked hL
    (by have := hinv.length_le; omega)

/-- The level-0 chain of a well-formed list is the whole list. -/
theorem chain_zero {s : skipList K V} {ns : List Nat} (hinv : Inv s ns) :
    s.chain 0 = Except.ok ns := by
  rw [chain_spec hinv 0 hinv.head_ht, List.filter_eq_self.mpr]
  intro x hx
  have := hinv.ht_pos x hx
  simpa using this

/-- The cells of a list that holds a strictly sorted association list ascend
under its comparator. -/
theorem ascending_of_sorted {s : skipList K V} {ns : List Nat} {lt : K → K → Bool}
    {l : List (K × Option V)} (hd : Decides s lt) (hv : view s.mem ns = l.map emb)
    (hs : SortedS lt l) : Ascending s ns := by
  have h1 : (l.map emb).Pairwise
      (fun a b => s.less a.1 b.1 = Except.ok true) := by
    rw [List.pairwise_map]
    refine hs.imp ?_
    intro a b hab
    simp only [emb]
    rw [hd a.1 b.1, hab]
  rw [← hv, view, List.pairwise_map] at h1
  exact h1

/-- C21.  On a skip list reached from `NewSkipList` by completed calls of `Set`
and `Del`, with a comparator that decides a strict total order: with `ns` the
level-0 chain, for every level `L` from 0 to `level()` the chain that follows
`forward[L]` from the sentinel ends, its keys ascend strictly under the
comparator, a cell of `ns` has a slot `L` exactly when it is on the level-`L`
chain, and for `L ≥ 1` the level-`L` chain is a subsequence of the chain of
level `L - 1`. -/
theorem C21_level_chains_sorted_nested [DecidableEq K] (lt : K → K → Bool)
    (ht0 : StrictTotal lt) (less : Option K → Option K → Except Fault Bool)
    (hless : ∀ a b, less (some a) (some b) = Except.ok (lt a b))
    (ops : List (Op K V)) (s : skipList K V)
    (hrun : (NewSkipList less).run ops = Except.ok s) :
    ∃ ns lvl, s.level = Except.ok lvl ∧ s.chain 0 = Except.ok ns ∧
      s.entries = Except.ok (view s.mem ns) ∧
      ∀ L : Nat, (L : Int) ≤ lvl →
        ∃ c, s.chain L = Except.ok c ∧ Ascending s c ∧
          (∀ x ∈ ns, L < (ht s.mem x) ↔ x ∈ c) ∧
          (1 ≤ L → ∃ c0, s.chain (L - 1) = Except.ok c0 ∧ c.Sublist c0) := by
  obtain ⟨⟨ns, hinv, hv⟩, hd, hs⟩ := reachable_rep ht0 less hless ops s hrun
  have hasc := ascending_of_sorted hd hv hs
  refine ⟨ns, (ht s.mem s.head : Int) - 1, hinv.level_eq, chain_zero hinv,
    entries_spec hinv, fun L hL => ?_⟩
  have hL1 : L < ht s.mem s.head := by omega
  refine ⟨_, chain_spec hinv L hL1, ?_, ?_, ?_⟩
  · exact List.Pairwise.sublist (List.filter_sublist _) hasc
  · intro x hx
    simp [List.mem_filter, hx]
  · intro h1
    refine ⟨_, chain_spec hinv (L - 1) (by omega), ?_⟩
    have hsub : ns.filter (fun x => decide (L < ht s.mem x))
        = (ns.filter (fun x => decide (L - 1 < ht s.mem x))).filter
            (fun x => decide (L < ht s.mem x)) := by
      rw [List.filter_filter]
      congr 1
      funext x
      by_cases hx : L < ht s.mem x
      · have : L - 1 < ht s.mem x := by omega
        simp [hx, this]
      · simp [hx]
    rw [hsub]
    exact List.filter_sublist _

theorem C21_witness :
    ∃ ns lvl, chainState.level = Except.ok lvl ∧ chainState.chain 0 = Except.ok ns ∧
      chainState.entries = Except.ok (view chainState.mem ns) ∧
      ∀ L : Nat, (L : Int) ≤ lvl →
        ∃ c, chainState.chain L = Except.ok c ∧ Ascending chainState c ∧
          (∀ x ∈ ns, L < (ht chainState.mem x) ↔ x ∈ c) ∧
          (1 ≤ L → ∃ c0, chainState.chain (L - 1) = Except.ok c0 ∧ c.Sublist c0) :=
  C21_level_chains_sorted_nested natLt natLt_strictTotal (lessOf natLt) natList_decides
    chainOps chainState rfl

end LevelChains

end SimpleDB


namespace SimpleDB

section BackwardLinks

variable {K V : Type}

theorem getLast_append_cons (A : List Nat) (y : Nat) (a : List Nat) :
    (A ++ y :: a).getLast? = (y :: a).getLast? := by
  rw [List.getLast?_append]
  simp [List.getLast?_cons_cons, Option.or]
  cases h : (y :: a).getLast? with
  | none => simp [List.getLast?_eq_none_iff] at h
  | some z => rfl

theorem split_at_pair {l : List Nat} : ∀ {i p n : Nat}, l[i]? = some p → l[i + 1]? = some n →
    ∃ A B, l = A ++ p :: n :: B := by
  induction l with
  | nil => intro i p n h1 _; simp at h1
  | cons y t ih =>
    intro i p n h1 h2
    cases i with
    | zero =>
      simp only [List.getElem?_cons_zero, Option.some.injEq] at h1
      simp only [zero_add, List.getElem?_cons_succ] at h2
      cases t with
      | nil => simp at h2
      | cons z B =>
        simp only [List.getElem?_cons_zero, Option.some.injEq] at h2
        exact ⟨[], B, by rw [h1, h2]; rfl⟩
    | succ i =>
      simp only [List.getElem?_cons_succ] at h1 h2
      obtain ⟨A, B, h⟩ := ih h1 h2
      exact ⟨y :: A, B, by rw [h]; rfl⟩

/-- The empty list has nothing to mirror. -/
theorem Mirror.nil (mem : List (node K V)) : Mirror mem [] := by
  intro A x B h
  simp at h

/-- Linking a new cell in between `A` and `S` keeps the backward links in step,
when the new cell points back to the end of `A`, the first cell of `S` points
back to the new cell and no other backward link has changed. -/
theorem Mirror.link {mem mem1 : List (node K V)} {A S : List Nat} {n : Nat}
    (hm : Mirror mem (A ++ S)) (hnd : (A ++ S).Nodup)
    (hn : backAt mem1 n = A.getLast?)
    (hx : ∀ nx, S.head? = some nx → backAt mem1 nx = some n)
    (ho : ∀ x ∈ A ++ S, S.head? ≠ some x → backAt mem1 x = backAt mem x) :
    Mirror mem1 (A ++ n :: S) := by
  intro A1 x B h
  rcases split_cases h with ⟨h1, h2, _⟩ | ⟨a, h1, h2⟩ | ⟨c, h1, h2⟩
  · rw [h1, h2]; exact hn
  · cases a with
    | nil =>
      rw [h2, hx x (by rw [h1]; rfl), getLast_append_cons]
      rfl
    | cons y a =>
      have hxy : S.head? ≠ some x := by
        rw [h1]
        simp only [List.cons_append, List.head?_cons, ne_eq, Option.some.injEq]
        intro hc
        rw [h1, hc] at hnd
        have := (List.nodup_append.mp hnd).2.1
        simp at this
      have hmem : x ∈ A ++ S := by rw [h1]; simp
      rw [ho x hmem hxy, hm (A ++ y :: a) x B (by rw [h1]; simp), h2]
      rw [getLast_append_cons, getLast_append_cons A n (y :: a),
        List.getLast?_cons_cons]
  · have hxy : S.head? ≠ some x := by
      intro hc
      have h3 := List.mem_of_mem_head? hc
      rw [h1] at hnd
      exact (List.nodup_append.mp hnd).2.2 (by simp) h3
    have hmem : x ∈ A ++ S := by rw [h1]; simp
    rw [ho x hmem hxy]
    exact hm A1 x (c ++ S) (by rw [h1]; simp)

/-- Taking the cell `d` out from between `A` and `S2` keeps the backward links
in step, when the first cell of `S2` takes the backward link of `d` and no other
backward link has changed. -/
theorem Mirror.unlink {mem mem1 : List (node K V)} {A S2 : List Nat} {d : Nat}
    (hm : Mirror mem (A ++ d :: S2)) (hnd : (A ++ d :: S2).Nodup)
    (hx : ∀ nx, S2.head? = some nx → backAt mem1 nx = backAt mem d)
    (ho : ∀ x, S2.head? ≠ some x → backAt mem1 x = backAt mem x) :
    Mirror mem1 (A ++ S2) := by
  intro A1 x B h
  rcases split_cases2 h with ⟨a, h1, h2⟩ | ⟨c, h1, h2⟩
  · cases a with
    | nil =>
      rw [h2, hx x (by rw [h1]; rfl), List.append_nil]
      exact hm A d S2 rfl
    | cons y a =>
      have hxy : S2.head? ≠ some x := by
        rw [h1]
        simp only [List.cons_append, List.head?_cons, ne_eq, Option.some.injEq]
        intro hc
        rw [h1, hc] at hnd
        have := (List.nodup_append.mp hnd).2.1
        simp at this
      rw [ho x hxy, hm (A ++ d :: y :: a) x B (by rw [h1]; simp), h2]
      rw [getLast_append_cons, getLast_append_cons A y a, List.getLast?_cons_cons]
  · have hxy : S2.head? ≠ some x := by
      intro hc
      have h3 := List.mem_of_mem_head? hc
      rw [h1] at hnd
      exact (List.nodup_append.mp hnd).2.2 (by simp) (List.mem_cons_of_mem _ h3)
    rw [ho x hxy]
    exact hm A1 x (c ++ d :: S2) (by rw [h1]; simp)

end BackwardLinks

end SimpleDB


namespace SimpleDB

section BackwardRuns

variable {K V : Type}

/-- One completed call keeps the list well formed and its backward links in
step with the sequence of its cells. -/
theorem step_mirror [DecidableEq K] {s s1 : skipList K V} {ns : List Nat}
    {lt : K → K → Bool} (hd : Decides s lt) (hinv : Inv s ns) (hm : Mirror s.mem ns)
    (op : Op K V) (e : Option Error) (hstep : s.step op = Except.ok (e, s1)) :
    ∃ ns1, Inv s1 ns1 ∧ Mirror s1.mem ns1 ∧ Decides s1 lt := by
  have hsame : s1 = s → ∃ ns1, Inv s1 ns1 ∧ Mirror s1.mem ns1 ∧ Decides s1 lt := by
    intro h; rw [h]; exact ⟨ns, hinv, hm, hd⟩
  have hnd : ns.Nodup := (List.nodup_cons.mp hinv.nodup).2
  cases op with
  | set key v coins =>
    cases key with
    | none =>
      apply hsame
      have h := (nil_key s v coins).1
      simp only [skipList.step] at hstep
      rw [h] at hstep
      exact (Prod.mk.inj (Except.ok.inj hstep)).2.symm
    | some k =>
      obtain ⟨A, S, s2, hns, _, _, hset, hhead, hless, hcase⟩ :=
        Set_spec hinv k v coins (gOf lt s.mem k) (hinv.decides hd k)
      simp only [skipList.step] at hstep
      rw [hset] at hstep
      have : s1 = s2 := (Prod.mk.inj (Except.ok.inj hstep)).2.symm
      rw [this]
      have hd2 : Decides s2 lt := by intro a b; rw [hless]; exact hd a b
      rcases hcase with ⟨_, _, _, _, h, _, _, _, _, hb⟩ |
        ⟨_, h, _, _, _, _, _, _, _, _, hbn, hbx, hbo⟩
      · refine ⟨ns, h, ?_, hd2⟩
        intro A1 x B hsplit
        rw [hb x]
        exact hm A1 x B hsplit
      · refine ⟨_, h, ?_, hd2⟩
        rw [hns] at hm hnd
        refine Mirror.link hm hnd hbn hbx (fun x hx hne => ?_)
        exact hbo x (hinv.lt_length x (by rw [hns]; exact hx)) hne
  | del key =>
    cases key with
    | none =>
      apply hsame
      have h := (nil_key s none (fun _ => false)).2.2
      simp only [skipList.step] at hstep
      rw [h] at hstep
      exact (Prod.mk.inj (Except.ok.inj hstep)).2.symm
    | some k =>
      simp only [skipList.step] at hstep
      by_cases hH : ht s.mem s.head ≤ 32
      · obtain ⟨A, S, hns, _, _, hcase⟩ :=
          Del_spec hinv hH k (gOf lt s.mem k) (hinv.decides hd k)
        rcases hcase with
          ⟨d, S2, s2, hS, _, hdel, h, _, hless, _, _, _, _, _, _, _, hbx, hbo⟩ | ⟨_, hdel⟩
        · rw [hdel] at hstep
          have : s1 = s2 := (Prod.mk.inj (Except.ok.inj hstep)).2.symm
          rw [this]
          refine ⟨_, h, ?_, fun a b => by rw [hless]; exact hd a b⟩
          rw [hns, hS] at hm hnd
          exact Mirror.unlink hm hnd hbx hbo
        · apply hsame
          rw [hdel] at hstep
          exact (Prod.mk.inj (Except.ok.inj hstep)).2.symm
      · exfalso
        have h33 : ht s.mem s.head = 33 := by have := hinv.head_le; omega
        rw [Del_fault hinv h33 k] at hstep
        exact Except.noConfusion hstep

/-- A completed sequence of calls keeps the list well formed and its backward
links in step with the sequence of its cells. -/
theorem run_mirror [DecidableEq K] {lt : K → K → Bool} (ops : List (Op K V)) :
    ∀ (s s1 : skipList K V) (ns : List Nat), Decides s lt → Inv s ns → Mirror s.mem ns →
      s.run ops = Except.ok s1 → ∃ ns1, Inv s1 ns1 ∧ Mirror s1.mem ns1 := by
  induction ops with
  | nil =>
    intro s s1 ns _ hinv hm hrun
    have : s1 = s := (Except.ok.inj hrun).symm
    rw [this]; exact ⟨ns, hinv, hm⟩
  | cons op ops ih =>
    intro s s1 ns hd hinv hm hrun
    rw [run_cons] at hrun
    cases hstep : s.step op with
    | error f => rw [hstep] at hrun; exact Except.noConfusion hrun
    | ok r =>
      rw [hstep, ok_bind] at hrun
      obtain ⟨ns1, h1, h2, h3⟩ := step_mirror hd hinv hm op r.1
        (show s.step op = Except.ok (r.1, r.2) by rw [hstep])
      exact ih r.2 s1 ns1 h3 h1 h2 hrun

/-- C23.  On a skip list reached from `NewSkipList` by completed calls of `Set`
and `Del`, with any coin flips and a comparator that decides a relation `lt`
without aborting: with `ns` the level-0 chain (the cells reached by following
`forward[0]` from the sentinel, which are the cells the iterator goes through),
`forward[0]` of the sentinel is the first cell of `ns`, the backward link of
that first cell is nil, and for two cells `p`, `n` that follow one another in
`ns`, `forward[0]` of `p` is `n` and the backward link of `n` is `p`. -/
theorem C23_backward_links_mirror_chain [DecidableEq K] (lt : K → K → Bool)
    (less : Option K → Option K → Except Fault Bool)
    (hless : ∀ a b, less (some a) (some b) = Except.ok (lt a b))
    (ops : List (Op K V)) (s : skipList K V)
    (hrun : (NewSkipList less).run ops = Except.ok s) :
    ∃ ns, s.chain 0 = Except.ok ns ∧ s.entries = Except.ok (view s.mem ns) ∧
      fwd s.mem s.head 0 = some ns.head? ∧
      (∀ x, ns.head? = some x → backAt s.mem x = none) ∧
      (∀ i p n, ns[i]? = some p → ns[i + 1]? = some n →
        fwd s.mem p 0 = some (some n) ∧ backAt s.mem n = some p) := by
  obtain ⟨ns, hinv, hm⟩ := run_mirror ops (NewSkipList less) s [] hless
    (NewSkipList_inv less) (Mirror.nil _) hrun
  refine ⟨ns, chain_zero hinv, entries_spec hinv, ?_, ?_, ?_⟩
  · have h := hinv.linked [] s.head ns rfl 0 hinv.head_ht
    rw [h, firstAt_zero_eq_head (fun x hx => hinv.ht_pos x hx)]
  · intro x hx
    cases ns with
    | nil => simp at hx
    | cons y t =>
      simp only [List.head?_cons, Option.some.injEq] at hx
      rw [← hx]
      exact hm [] y t rfl
  · intro i p n h1 h2
    obtain ⟨A, B, hsplit⟩ := split_at_pair h1 h2
    have hn : n ∈ ns := by rw [hsplit]; simp
    have hp : p ∈ ns := by rw [hsplit]; simp
    constructor
    · have h := hinv.linked (s.head :: A) p (n :: B) (by rw [hsplit]; rfl) 0
        (hinv.ht_pos p hp)
      rw [h, firstAt_cons, if_pos (show 0 < ht s.mem n from hinv.ht_pos n hn)]
    · have h := hm (A ++ [p]) n B (by rw [hsplit]; simp)
      rw [h]
      simp

theorem C23_witness :
    ∃ ns, chainState.chain 0 = Except.ok ns ∧
      chainState.entries = Except.ok (view chainState.mem ns) ∧
      fwd chainState.mem chainState.head 0 = some ns.head? ∧
      (∀ x, ns.head? = some x → backAt chainState.mem x = none) ∧
      (∀ i p n, ns[i]? = some p → ns[i + 1]? = some n →
        fwd chainState.mem p 0 = some (some n) ∧ backAt chainState.mem n = some p) :=
  C23_backward_links_mirror_chain natLt (lessOf natLt) natList_decides chainOps chainState
    rfl

end BackwardRuns

end SimpleDB
